import Mathlib

/-!
# ripdb: a shallow embedding of the storage engine and of its client programs

The repository's client programs (the test drivers under `tests/` and the tools under
`tools/`) call a storage engine whose implementation is not among the source files.  The
engine is therefore modelled from the specification: pages in an arena indexed by page id,
a copy-on-write B+tree, a single writer staging pages in an overlay, double-buffered meta
pages, a reader table and a free list keyed by transaction id.  The client programs are
embedded from their C sources and run against that model.

Scope of the engine model: one database (the main database) per environment, keys drawn
from any linearly ordered type (the database's comparator), values kept inline in the leaf
(the overflow spill of large values and duplicate-sorted databases are not represented),
page capacities counted in entries.  Page ids (the offset of a page divided by the page size)
and transaction ids are natural numbers.
-/

namespace RipDB

section Model1

/-- Modelled from the spec: the stable numeric result codes of `ripdb.h` (section 6, error
reporting), which is not among the source files. -/
inductive Rc where
  | success
  | keyexist
  | notfound
  | corrupted
  | mapFull
  | readersFull
  | badTxn
  | busy
  | eacces
  deriving DecidableEq

/-- Modelled from the spec: a free-list entry, keyed by the transaction id that produced it,
valued by the page ids that transaction freed. -/
abbrev FreeRec := Nat × List Nat

/-- Modelled from the spec: the content of a meta page (section 3): the last committed
transaction id, the root page id and height of the database tree, the free list (given by
its entries, oldest first, in place of the root of a free-list tree) and the number of pages
in use. -/
structure Meta where
  txnid : Nat
  root : Nat
  depth : Nat
  free : List FreeRec
  lastPg : Nat
  deriving DecidableEq

/-- Modelled from the spec: the page kinds of section 3.  A meta page is the environment
header; a leaf is an ordered array of (key, inline value); a branch is an ordered array of
(separator key, child page id), where the key of the first entry is not consulted (child `i`
covers the keys from separator `i` up to separator `i+1`). -/
inductive Page (K V : Type) where
  | meta (m : Meta)
  | leaf (es : List (K × V))
  | branch (cs : List (K × Nat))
  deriving DecidableEq

/-- Modelled from the spec: the environment's configuration.  `leafCap` and `branchCap` are
the numbers of entries a leaf and a branch page hold, `leafMin` and `branchMin` the minimum
fill thresholds, `maxPages` the map size in pages, `maxReaders` the size of the reader
table. -/
structure Cfg where
  leafCap : Nat
  branchCap : Nat
  leafMin : Nat
  branchMin : Nat
  maxPages : Nat
  maxReaders : Nat
  deriving DecidableEq

/-- Modelled from the spec: the state of the single write transaction (sections 3 and 4.3).
`dirty` is the staged overlay of new page copies, `freed` the page ids this transaction
replaced, `free` the free-list entries not yet consumed (oldest first), `pool` the page ids
reclaimed from consumed entries, each tagged with the key of its entry, `next` the first
page id beyond the pages in use. -/
structure WTxn (K V : Type) where
  txnid : Nat
  root : Nat
  depth : Nat
  dirty : List (Nat × Page K V)
  freed : List Nat
  free : List FreeRec
  pool : List (Nat × Nat)
  next : Nat
  failed : Bool

end Model1

section Model2

variable {K V : Type}

/-- Newest staged copy of page `p` in the overlay, if any. -/
def dirtyFind (p : Nat) : List (Nat × Page K V) → Option (Page K V)
  | [] => none
  | (q, pg) :: rest => if q = p then some pg else dirtyFind p rest

/-- Modelled from the spec: `read(page_id)` as seen by the write transaction: the staged
copy when there is one, the page of the mapped file otherwise. -/
def WTxn.page (base : List (Page K V)) (w : WTxn K V) (p : Nat) : Option (Page K V) :=
  match dirtyFind p w.dirty with
  | some pg => some pg
  | none => base[p]?

/-- Modelled from the spec: a free-list entry keyed `t` may be consumed only when no reader
slot holds a transaction id older than `t`. -/
def reclaimable (readers : List Nat) (t : Nat) : Bool :=
  readers.all (fun r => decide (t ≤ r))

/-- Modelled from the spec: ask the free list, oldest entry first, for reusable pages.
Returns the reclaimed pages (tagged with their entry's key) and the entries left. -/
def reclaim (readers : List Nat) : List FreeRec → List (Nat × Nat) × List FreeRec
  | [] => ([], [])
  | (t, pgs) :: rest =>
    if reclaimable readers t then
      match pgs with
      | [] => reclaim readers rest
      | q :: qs => ((q :: qs).map (fun p => (t, p)), rest)
    else ([], (t, pgs) :: rest)

/-- Modelled from the spec: `allocate` for one page (section 4.1): reuse a reclaimed page if
there is one, else consume the oldest reclaimable free-list entry, and only if none suffices
extend the mapping; the new page content is staged in the overlay. -/
def WTxn.alloc (cfg : Cfg) (readers : List Nat) (w : WTxn K V) (pg : Page K V) :
    Except Rc (WTxn K V × Nat) :=
  match w.pool with
  | (_, p) :: pool => .ok ({ w with pool := pool, dirty := (p, pg) :: w.dirty }, p)
  | [] =>
    match reclaim readers w.free with
    | ((_, p) :: pool, free) =>
      .ok ({ w with pool := pool, free := free, dirty := (p, pg) :: w.dirty }, p)
    | ([], free) =>
      if w.next < cfg.maxPages then
        .ok ({ w with free := free, next := w.next + 1, dirty := (w.next, pg) :: w.dirty },
          w.next)
      else .error .mapFull

/-- Record page `p` as freed by this transaction. -/
def WTxn.release (w : WTxn K V) (p : Nat) : WTxn K V :=
  { w with freed := p :: w.freed }

end Model2

section Model3

variable {K V : Type}
variable [LinearOrder K]

/-- Look a key up in the ordered entries of a leaf. -/
def leafFind (k : K) : List (K × V) → Option V
  | [] => none
  | (k1, v1) :: es => if k < k1 then none else if k = k1 then some v1 else leafFind k es

/-- Insert an entry in sorted position, overwriting the value of an equal key. -/
def leafInsert (k : K) (v : V) : List (K × V) → List (K × V)
  | [] => [(k, v)]
  | (k1, v1) :: es =>
    if k < k1 then (k, v) :: (k1, v1) :: es
    else if k = k1 then (k, v) :: es
    else (k1, v1) :: leafInsert k v es

/-- Remove the entry of a key from the ordered entries of a leaf. -/
def leafErase (k : K) : List (K × V) → List (K × V)
  | [] => []
  | (k1, v1) :: es =>
    if k < k1 then (k1, v1) :: es
    else if k = k1 then es
    else (k1, v1) :: leafErase k es

/-- Index of the child of a branch that covers key `k`: the last entry, from the second on,
whose separator is not above `k`, or the first entry. -/
def childIdx (k : K) : List (K × Nat) → Nat
  | _ :: (k1, c1) :: rest => if k < k1 then 0 else childIdx k ((k1, c1) :: rest) + 1
  | _ => 0

/-- Modelled from the spec: search (section 4.2): descend from the root comparing keys with
the database's ordering.  A page of the wrong kind is a corruption error. -/
def search (rd : Nat → Option (Page K V)) (k : K) : Nat → Nat → Except Rc (Option V)
  | 0, p =>
    match rd p with
    | some (.leaf es) => .ok (leafFind k es)
    | _ => .error .corrupted
  | d + 1, p =>
    match rd p with
    | some (.branch cs) =>
      match cs[childIdx k cs]? with
      | some (_, c) => search rd k d c
      | none => .error .corrupted
    | _ => .error .corrupted

/-- Modelled from the spec: the split point, near the midpoint by count: of `n` combined
entries the left page keeps the first `(n + 1) / 2`. -/
def splitPoint (n : Nat) : Nat := (n + 1) / 2

/-- Modelled from the spec: store the entries of a node in a new page, or, when they exceed
the capacity, split: allocate two new pages and partition the entries at the split point.
Returns the (left) page and, after a split, the separator key and the right page. -/
def storeNode {X : Type} (cfg : Cfg) (readers : List Nat) (cap : Nat)
    (mk : List (K × X) → Page K V) (es : List (K × X)) (w : WTxn K V) :
    Except Rc (WTxn K V × Nat × Option (K × Nat)) :=
  if es.length ≤ cap then
    match w.alloc cfg readers (mk es) with
    | .ok (w1, p) => .ok (w1, p, none)
    | .error e => .error e
  else
    match es.drop (splitPoint es.length) with
    | [] =>
      match w.alloc cfg readers (mk es) with
      | .ok (w1, p) => .ok (w1, p, none)
      | .error e => .error e
    | (sep, x) :: r =>
      match w.alloc cfg readers (mk (es.take (splitPoint es.length))) with
      | .ok (w1, pl) =>
        match w1.alloc cfg readers (mk ((sep, x) :: r)) with
        | .ok (w2, pr) => .ok (w2, pl, some (sep, pr))
        | .error e => .error e
      | .error e => .error e

/-- Entries that replace a child entry in its parent after an insert below it. -/
def insRepl (ki : K) (c1 : Nat) : Option (K × Nat) → List (K × Nat)
  | none => [(ki, c1)]
  | some (s, c2) => [(ki, c1), (s, c2)]

/-- Modelled from the spec: insert (section 4.2) below page `p` at height `d` (0 for a
leaf): locate the target leaf, copy it with the new entry in sorted position, split it when
full, and copy every ancestor on the way back, splitting a full parent recursively. -/
def insAt (cfg : Cfg) (readers : List Nat) (base : List (Page K V)) (k : K) (v : V) :
    Nat → Nat → WTxn K V → Except Rc (WTxn K V × Nat × Option (K × Nat))
  | 0, p, w =>
    match w.page base p with
    | some (.leaf es) =>
      storeNode cfg readers cfg.leafCap Page.leaf (leafInsert k v es) (w.release p)
    | _ => .error .corrupted
  | d + 1, p, w =>
    match w.page base p with
    | some (.branch cs) =>
      match cs[childIdx k cs]? with
      | none => .error .corrupted
      | some (ki, c) =>
        match insAt cfg readers base k v d c w with
        | .error e => .error e
        | .ok (w1, c1, sp) =>
          storeNode cfg readers cfg.branchCap Page.branch
            (cs.take (childIdx k cs) ++ insRepl ki c1 sp ++ cs.drop (childIdx k cs + 1))
            (w1.release p)
    | _ => .error .corrupted

/-- Modelled from the spec: insert at the root; a split of the root creates a new root and
the tree height increases by exactly one. -/
def WTxn.insert (cfg : Cfg) (readers : List Nat) (base : List (Page K V)) (w : WTxn K V)
    (k : K) (v : V) : Except Rc (WTxn K V) :=
  match insAt cfg readers base k v w.depth w.root w with
  | .error e => .error e
  | .ok (w1, p, none) => .ok { w1 with root := p }
  | .ok (w1, p, some (s, q)) =>
    match w1.alloc cfg readers (.branch [(s, p), (s, q)]) with
    | .ok (w2, r) => .ok { w2 with root := r, depth := w1.depth + 1 }
    | .error e => .error e

/-- Number of entries of a page. -/
def nodeCount : Page K V → Nat
  | .meta _ => 0
  | .leaf es => es.length
  | .branch cs => cs.length

/-- Give the first entry of a branch the separator key `sep`. -/
def setKey (sep : K) : List (K × Nat) → List (K × Nat)
  | [] => []
  | (_, c) :: t => (sep, c) :: t

/-- Modelled from the spec: merge two adjacent siblings into one page; `sep` is the parent's
separator of the right sibling, which becomes the key of the right sibling's first child. -/
def joinPages (sep : K) : Page K V → Page K V → Option (Page K V)
  | .leaf l, .leaf r => some (.leaf (l ++ r))
  | .branch l, .branch r => some (.branch (l ++ setKey sep r))
  | _, _ => none

/-- Modelled from the spec: rebalance by moving the first entry of the right sibling to the
end of the left one.  Gives both new pages and the new separator of the right sibling. -/
def shiftLeft (sep : K) : Page K V → Page K V → Option (Page K V × Page K V × K)
  | .leaf l, .leaf (e :: e2 :: r) => some (.leaf (l ++ [e]), .leaf (e2 :: r), e2.1)
  | .branch l, .branch ((_, c) :: (k2, c2) :: r) =>
    some (.branch (l ++ [(sep, c)]), .branch ((k2, c2) :: r), k2)
  | _, _ => none

/-- Modelled from the spec: rebalance by moving the last entry of the left sibling to the
front of the right one.  Gives both new pages and the new separator of the right sibling. -/
def shiftRight (sep : K) : Page K V → Page K V → Option (Page K V × Page K V × K)
  | .leaf l, .leaf r =>
    match l.getLast?, l.dropLast with
    | some e, e0 :: l0 => some (.leaf (e0 :: l0), .leaf (e :: r), e.1)
    | _, _ => none
  | .branch l, .branch r =>
    match l.getLast?, l.dropLast with
    | some (kl, cl), e0 :: l0 => some (.branch (e0 :: l0), .branch ((kl, cl) :: setKey sep r), kl)
    | _, _ => none
  | _, _ => none

/-- Modelled from the spec: merge the children at positions `j` and `j + 1` of a branch whose
entries are `cs`: both pages are freed, the merged page is allocated, and the separator of
the right child is removed from the parent. -/
def mergeAt (cfg : Cfg) (readers : List Nat) (base : List (Page K V)) (cs : List (K × Nat))
    (j : Nat) (w : WTxn K V) : Except Rc (WTxn K V × List (K × Nat)) :=
  match cs[j]?, cs[j + 1]? with
  | some (kl, pl), some (kr, pr) =>
    match w.page base pl, w.page base pr with
    | some lp, some rp =>
      match joinPages kr lp rp with
      | some m =>
        match ((w.release pl).release pr).alloc cfg readers m with
        | .ok (w1, pm) => .ok (w1, cs.take j ++ (kl, pm) :: cs.drop (j + 2))
        | .error e => .error e
      | none => .error .corrupted
    | _, _ => .error .corrupted
  | _, _ => .error .corrupted

/-- Modelled from the spec: move one entry between the children at positions `j` and `j + 1`
of a branch (to the left one when `toLeft`), copying both pages and updating the separator
of the right child in the parent. -/
def shiftAt (cfg : Cfg) (readers : List Nat) (base : List (Page K V)) (toLeft : Bool)
    (cs : List (K × Nat)) (j : Nat) (w : WTxn K V) :
    Except Rc (WTxn K V × List (K × Nat)) :=
  match cs[j]?, cs[j + 1]? with
  | some (kl, pl), some (kr, pr) =>
    match w.page base pl, w.page base pr with
    | some lp, some rp =>
      match (if toLeft then shiftLeft kr lp rp else shiftRight kr lp rp) with
      | some (lp1, rp1, s) =>
        match ((w.release pl).release pr).alloc cfg readers lp1 with
        | .ok (w1, pl1) =>
          match w1.alloc cfg readers rp1 with
          | .ok (w2, pr1) => .ok (w2, cs.take j ++ (kl, pl1) :: (s, pr1) :: cs.drop (j + 2))
          | .error e => .error e
        | .error e => .error e
      | none => .error .corrupted
    | _, _ => .error .corrupted
  | _, _ => .error .corrupted

/-- Number of entries of the page of the child at position `j`, if there is one. -/
def childCount (base : List (Page K V)) (w : WTxn K V) (cs : List (K × Nat)) (j : Nat) :
    Option Nat :=
  match cs[j]? with
  | some (_, c) =>
    match w.page base c with
    | some pg => some (nodeCount pg)
    | none => none
  | none => none

/-- Modelled from the spec: what to do with the child at position `i` after a delete below
it, given its entry count `n` and those of its left and right siblings: nothing when it is
at least at the minimum fill, else merge with a sibling that has the spare capacity (left
first), else move one entry across from a richer sibling. -/
inductive Fix where
  | keep
  | mergeLeft
  | mergeRight
  | fromLeft
  | fromRight
  deriving DecidableEq

/-- Modelled from the spec: the choice of the rebalancing step. -/
def chooseFix (minFill cap : Nat) (i n : Nat) (left right : Option Nat) : Fix :=
  if minFill ≤ n then .keep
  else
    match (if i = 0 then none else left), right with
    | some l, some r =>
      if l + n ≤ cap then .mergeLeft
      else if r + n ≤ cap then .mergeRight
      else if n < l then .fromLeft
      else if n < r then .fromRight
      else .keep
    | some l, none =>
      if l + n ≤ cap then .mergeLeft
      else if n < l then .fromLeft
      else .keep
    | none, some r =>
      if r + n ≤ cap then .mergeRight
      else if n < r then .fromRight
      else .keep
    | none, none => .keep

/-- Modelled from the spec: after a delete below the child at position `i` (at height `d`),
merge or rebalance that child when it fell below the minimum fill threshold. -/
def rebalance (cfg : Cfg) (readers : List Nat) (base : List (Page K V)) (d : Nat)
    (cs : List (K × Nat)) (i : Nat) (w : WTxn K V) :
    Except Rc (WTxn K V × List (K × Nat)) :=
  match childCount base w cs i with
  | none => .error .corrupted
  | some n =>
    match chooseFix (if d = 0 then cfg.leafMin else cfg.branchMin)
        (if d = 0 then cfg.leafCap else cfg.branchCap) i n
        (childCount base w cs (i - 1)) (childCount base w cs (i + 1)) with
    | .keep => .ok (w, cs)
    | .mergeLeft => mergeAt cfg readers base cs (i - 1) w
    | .mergeRight => mergeAt cfg readers base cs i w
    | .fromLeft => shiftAt cfg readers base false cs (i - 1) w
    | .fromRight => shiftAt cfg readers base true cs i w

/-- Modelled from the spec: delete (section 4.2) below page `p` at height `d`: remove the
entry from a copy of its leaf, copy every ancestor, and merge or rebalance a child that fell
below the minimum fill threshold. -/
def delAt (cfg : Cfg) (readers : List Nat) (base : List (Page K V)) (k : K) :
    Nat → Nat → WTxn K V → Except Rc (WTxn K V × Nat)
  | 0, p, w =>
    match w.page base p with
    | some (.leaf es) => (w.release p).alloc cfg readers (.leaf (leafErase k es))
    | _ => .error .corrupted
  | d + 1, p, w =>
    match w.page base p with
    | some (.branch cs) =>
      match cs[childIdx k cs]? with
      | none => .error .corrupted
      | some (ki, c) =>
        match delAt cfg readers base k d c w with
        | .error e => .error e
        | .ok (w1, c1) =>
          match rebalance cfg readers base d (cs.set (childIdx k cs) (ki, c1))
              (childIdx k cs) w1 with
          | .error e => .error e
          | .ok (w2, cs2) => (w2.release p).alloc cfg readers (.branch cs2)
    | _ => .error .corrupted

/-- Modelled from the spec: the tree height shrinks when the root degenerates to a single
child: that child becomes the root and the old root page is freed. -/
def WTxn.shrinkRoot (base : List (Page K V)) (w : WTxn K V) (p : Nat) : WTxn K V :=
  match w.depth, w.page base p with
  | d + 1, some (.branch [(_, c)]) => { w.release p with root := c, depth := d }
  | _, _ => { w with root := p }

/-- Modelled from the spec: delete at the root, followed by the check for a degenerate
root. -/
def WTxn.delete (cfg : Cfg) (readers : List Nat) (base : List (Page K V)) (w : WTxn K V)
    (k : K) : Except Rc (WTxn K V) :=
  match delAt cfg readers base k w.depth w.root w with
  | .error e => .error e
  | .ok (w1, p) => .ok (w1.shrinkRoot base p)

end Model3

section Model4

variable {K V : Type}

/-- Modelled from the spec: the cursor operations used by the client programs (section 4.4):
position to the first or last key, next, previous. -/
inductive CursorOp where
  | first
  | last
  | next
  | prev
  deriving DecidableEq

/-- Stack of (page id, slot index) from page `p` at height `d` down to its first entry. -/
def descFirst (rd : Nat → Option (Page K V)) : Nat → Nat → Except Rc (List (Nat × Nat))
  | 0, p =>
    match rd p with
    | some (.leaf []) => .error .notfound
    | some (.leaf (_ :: _)) => .ok [(p, 0)]
    | _ => .error .corrupted
  | d + 1, p =>
    match rd p with
    | some (.branch ((_, c) :: _)) =>
      match descFirst rd d c with
      | .ok s => .ok ((p, 0) :: s)
      | .error e => .error e
    | _ => .error .corrupted

/-- Stack of (page id, slot index) from page `p` at height `d` down to its last entry. -/
def descLast (rd : Nat → Option (Page K V)) : Nat → Nat → Except Rc (List (Nat × Nat))
  | 0, p =>
    match rd p with
    | some (.leaf []) => .error .notfound
    | some (.leaf (e :: es)) => .ok [(p, (e :: es).length - 1)]
    | _ => .error .corrupted
  | d + 1, p =>
    match rd p with
    | some (.branch cs) =>
      match cs.getLast? with
      | some (_, c) =>
        match descLast rd d c with
        | .ok s => .ok ((p, cs.length - 1) :: s)
        | .error e => .error e
      | none => .error .corrupted
    | _ => .error .corrupted

/-- Move a cursor stack to the next entry: advance in the leaf, or else move to the next
sibling through the nearest ancestor that has one and descend to its first entry.  Past the
last entry the result is not-found. -/
def stackNext (rd : Nat → Option (Page K V)) : List (Nat × Nat) → Except Rc (List (Nat × Nat))
  | [] => .error .notfound
  | [(p, i)] =>
    match rd p with
    | some (.leaf es) => if i + 1 < es.length then .ok [(p, i + 1)] else .error .notfound
    | _ => .error .corrupted
  | (p, i) :: e :: rest =>
    match stackNext rd (e :: rest) with
    | .ok s => .ok ((p, i) :: s)
    | .error .notfound =>
      match rd p with
      | some (.branch cs) =>
        match cs[i + 1]? with
        | some (_, c) =>
          match descFirst rd rest.length c with
          | .ok s => .ok ((p, i + 1) :: s)
          | .error e => .error e
        | none => .error .notfound
      | _ => .error .corrupted
    | .error e => .error e

/-- Move a cursor stack to the previous entry; before the first entry the result is
not-found. -/
def stackPrev (rd : Nat → Option (Page K V)) : List (Nat × Nat) → Except Rc (List (Nat × Nat))
  | [] => .error .notfound
  | [(p, i)] =>
    match rd p with
    | some (.leaf _) => if 0 < i then .ok [(p, i - 1)] else .error .notfound
    | _ => .error .corrupted
  | (p, i) :: e :: rest =>
    match stackPrev rd (e :: rest) with
    | .ok s => .ok ((p, i) :: s)
    | .error .notfound =>
      match rd p with
      | some (.branch cs) =>
        if 0 < i then
          match cs[i - 1]? with
          | some (_, c) =>
            match descLast rd rest.length c with
            | .ok s => .ok ((p, i - 1) :: s)
            | .error e => .error e
          | none => .error .corrupted
        else .error .notfound
      | _ => .error .corrupted
    | .error e => .error e

/-- The entry a cursor stack points at. -/
def stackEntry (rd : Nat → Option (Page K V)) : List (Nat × Nat) → Except Rc (K × V)
  | [] => .error .corrupted
  | [(p, i)] =>
    match rd p with
    | some (.leaf es) =>
      match es[i]? with
      | some e => .ok e
      | none => .error .corrupted
    | _ => .error .corrupted
  | _ :: e :: rest => stackEntry rd (e :: rest)

end Model4

section Model5

variable {K V : Type}
variable [LinearOrder K]

/-- Number of entries of a leaf whose key is below `k`: the slot of the first key not below
`k`. -/
def leafLower (k : K) : List (K × V) → Nat
  | [] => 0
  | (k1, _) :: es => if k1 < k then leafLower k es + 1 else 0

/-- Stack from page `p` at height `d` down to the slot where key `k` is or would be in its
leaf (the slot may be one past the last entry of that leaf). -/
def descKey (rd : Nat → Option (Page K V)) (k : K) : Nat → Nat → Except Rc (List (Nat × Nat))
  | 0, p =>
    match rd p with
    | some (.leaf es) => .ok [(p, leafLower k es)]
    | _ => .error .corrupted
  | d + 1, p =>
    match rd p with
    | some (.branch cs) =>
      match cs[childIdx k cs]? with
      | some (_, c) =>
        match descKey rd k d c with
        | .ok s => .ok ((p, childIdx k cs) :: s)
        | .error e => .error e
      | none => .error .corrupted
    | _ => .error .corrupted

/-- Step a stack back by one slot in its leaf (used when the slot is one past the end). -/
def stackBack : List (Nat × Nat) → List (Nat × Nat)
  | [] => []
  | [(p, i)] => [(p, i - 1)]
  | e :: e1 :: rest => e :: stackBack (e1 :: rest)

/-- Modelled from the spec: position at a key, exact or nearest greater: descend to the leaf
that covers `k`; when every key of that leaf is below `k` continue with the next entry after
the leaf. -/
def seekGE (rd : Nat → Option (Page K V)) (k : K) (d : Nat) (p : Nat) :
    Except Rc (List (Nat × Nat)) :=
  match descKey rd k d p with
  | .error e => .error e
  | .ok s =>
    match stackEntry rd s with
    | .ok _ => .ok s
    | .error _ => stackNext rd (stackBack s)

/-- Modelled from the spec: a cursor (section 3): the stack of (page id, slot index) from
the root to the current leaf, and the key at the current position, from which the stack is
recomputed after the tree changed under the cursor.  `key = none` is a cursor that is not
positioned yet. -/
structure CursorPos (K : Type) where
  stack : List (Nat × Nat)
  key : Option K

/-- A cursor stack is current when it starts at the root of the transaction's tree. -/
def stackValid (root : Nat) : List (Nat × Nat) → Bool
  | [] => false
  | (p, _) :: _ => decide (p = root)

/-- Modelled from the spec: the stack to use for a relative movement from key `k0`: the
recorded stack when still current, else a stack recomputed from the root at the position of
`k0` or its nearest greater key.  The flag tells whether the position holds `k0` itself. -/
def revalidate (rd : Nat → Option (Page K V)) (root : Nat) (depth : Nat)
    (c : CursorPos K) (k0 : K) : Except Rc (List (Nat × Nat) × Bool) :=
  if stackValid root c.stack then .ok (c.stack, true)
  else
    match seekGE rd k0 depth root with
    | .error e => .error e
    | .ok s =>
      match stackEntry rd s with
      | .ok (k1, _) => .ok (s, decide (k1 = k0))
      | .error e => .error e

/-- Position a cursor on a stack and report the entry there. -/
def landOn (rd : Nat → Option (Page K V)) (c : CursorPos K) (r : Except Rc (List (Nat × Nat))) :
    CursorPos K × Except Rc (K × V) :=
  match r with
  | .error e => (c, .error e)
  | .ok s =>
    match stackEntry rd s with
    | .ok (k, v) => ({ stack := s, key := some k }, .ok (k, v))
    | .error e => (c, .error e)

/-- Modelled from the spec: cursor get (section 4.4) on the tree `(root, depth)` read through
`rd`.  A cursor that is not positioned treats next as first and previous as last.  Moving
across the boundary beyond the first or last entry returns not-found and leaves the cursor
where it was. -/
def cursorMove (rd : Nat → Option (Page K V)) (root : Nat) (depth : Nat)
    (c : CursorPos K) (op : CursorOp) : CursorPos K × Except Rc (K × V) :=
  match op, c.key with
  | .first, _ => landOn rd c (descFirst rd depth root)
  | .last, _ => landOn rd c (descLast rd depth root)
  | .next, none => landOn rd c (descFirst rd depth root)
  | .prev, none => landOn rd c (descLast rd depth root)
  | .next, some k0 =>
    match revalidate rd root depth c k0 with
    | .ok (s, true) => landOn rd c (stackNext rd s)
    | .ok (s, false) => landOn rd c (.ok s)
    | .error e => (c, .error e)
  | .prev, some k0 =>
    match revalidate rd root depth c k0 with
    | .ok (s, _) => landOn rd c (stackPrev rd s)
    | .error .notfound => landOn rd c (descLast rd depth root)
    | .error e => (c, .error e)

end Model5

section Model6

variable {K V : Type}

/-- Modelled from the spec: a read transaction (section 3): the meta-page pointers and the
transaction id captured at start.  The reader slot publishes the transaction id. -/
structure RTxn where
  txnid : Nat
  root : Nat
  depth : Nat
  deriving DecidableEq

/-- Modelled from the spec: the environment (sections 2 and 3): the pages of the mapped file
indexed by page id (the meta slots A and B are pages 0 and 1), the reader table, and the
single write transaction when one is active. -/
structure Env (K V : Type) where
  cfg : Cfg
  pages : List (Page K V)
  readers : List (Option RTxn)
  writer : Option (WTxn K V)

/-- Modelled from the spec: a transaction handle: the single write transaction, or the read
transaction registered in a reader slot. -/
inductive Txn where
  | write
  | read (slot : Nat)
  deriving DecidableEq

/-- Modelled from the spec: `read(page_id)` on the mapped file. -/
def Env.page (env : Env K V) (p : Nat) : Option (Page K V) := env.pages[p]?

/-- The meta page stored in slot `i`. -/
def Env.metaAt (env : Env K V) (i : Nat) : Option Meta :=
  match env.pages[i]? with
  | some (.meta m) => some m
  | _ => none

/-- Modelled from the spec: the index of the current meta slot: the one that holds the
strictly higher transaction id (slot A when they are equal, as in a new environment). -/
def Env.curSlot (env : Env K V) : Option Nat :=
  match env.metaAt 0, env.metaAt 1 with
  | some a, some b => some (if a.txnid < b.txnid then 1 else 0)
  | _, _ => none

/-- Modelled from the spec: the current meta page, to which readers always resolve. -/
def Env.curMeta (env : Env K V) : Option Meta :=
  match env.metaAt 0, env.metaAt 1 with
  | some a, some b => some (if a.txnid < b.txnid then b else a)
  | _, _ => none

/-- Modelled from the spec: `oldest_active` input of the free list: the transaction ids held
by the reader slots. -/
def Env.readerIds (env : Env K V) : List Nat :=
  env.readers.filterMap (fun s => s.map (fun r => r.txnid))

/-- Modelled from the spec: a new environment: both meta slots describe an empty database
whose root is an empty leaf at page 2; the reader table has `maxReaders` empty slots. -/
def Env.create (cfg : Cfg) : Env K V :=
  { cfg := cfg
    pages := [.meta { txnid := 0, root := 2, depth := 0, free := [], lastPg := 3 },
              .meta { txnid := 0, root := 2, depth := 0, free := [], lastPg := 3 },
              .leaf []]
    readers := List.replicate cfg.maxReaders none
    writer := none }

/-- Index of the first empty reader slot. -/
def freeSlot : List (Option RTxn) → Option Nat
  | [] => none
  | none :: _ => some 0
  | some _ :: rest => (freeSlot rest).map (· + 1)

/-- Modelled from the spec: begin (section 4.3).  A read transaction copies the current meta
page's pointers and transaction id and registers a reader slot with that id; a write
transaction acquires the exclusive writer role (failing with a busy error when one is
active) and snapshots the current meta page as the mutation base. -/
def rdb_txn_begin (env : Env K V) (rdonly : Bool) : Env K V × Except Rc Txn :=
  match env.curMeta with
  | none => (env, .error .corrupted)
  | some m =>
    if rdonly then
      match freeSlot env.readers with
      | none => (env, .error .readersFull)
      | some i =>
        let r : RTxn := { txnid := m.txnid, root := m.root, depth := m.depth }
        ({ env with readers := env.readers.set i (some r) }, .ok (.read i))
    else
      match env.writer with
      | some _ => (env, .error .busy)
      | none =>
        let w : WTxn K V :=
          { txnid := m.txnid + 1, root := m.root, depth := m.depth, dirty := [], freed := [],
            free := m.free, pool := [], next := m.lastPg, failed := false }
        ({ env with writer := some w }, .ok .write)

/-- Modelled from the spec: `write(page_id, bytes)` on the mapped file, growing the mapping
when the page lies beyond its end. -/
def writePage (pages : List (Page K V)) (p : Nat) (pg : Page K V) : List (Page K V) :=
  if p < pages.length then pages.set p pg
  else pages ++ List.replicate (p - pages.length) (.leaf []) ++ [pg]

/-- Modelled from the spec: flush all staged pages to the mapping, oldest first. -/
def flush (pages : List (Page K V)) : List (Nat × Page K V) → List (Page K V)
  | [] => pages
  | (p, pg) :: rest => writePage (flush pages rest) p pg

/-- Free-list entries handed back at commit for the reclaimed pages that were not used. -/
def poolBack : List (Nat × Nat) → List FreeRec
  | [] => []
  | (t, p) :: rest => [(t, p :: rest.map (fun e => e.2))]

/-- Modelled from the spec: the next meta page built by commit: the new root pointers, the
incremented transaction id, and the free list extended by this transaction's entry. -/
def WTxn.toMeta (w : WTxn K V) : Meta :=
  { txnid := w.txnid, root := w.root, depth := w.depth,
    free := poolBack w.pool ++ w.free ++ [(w.txnid, w.freed)], lastPg := w.next }

/-- Modelled from the spec: commit (section 4.3): flush the staged pages, build the next meta
page into the non-current slot, which makes that slot current, and release the writer role.
A write transaction that met an error is aborted instead.  A read transaction ends by
deregistering its reader slot. -/
def rdb_txn_commit (env : Env K V) : Txn → Env K V × Rc
  | .read i =>
    match env.readers[i]? with
    | some (some _) => ({ env with readers := env.readers.set i none }, .success)
    | _ => (env, .badTxn)
  | .write =>
    match env.writer with
    | none => (env, .badTxn)
    | some w =>
      if w.failed then ({ env with writer := none }, .badTxn)
      else
        match env.curSlot with
        | none => ({ env with writer := none }, .corrupted)
        | some s =>
          ({ env with pages := (flush env.pages w.dirty).set (1 - s) (.meta w.toMeta),
                      writer := none }, .success)

/-- Modelled from the spec: abort (section 4.3): discard the staged pages without writing
the meta page; a read transaction deregisters its reader slot. -/
def rdb_txn_abort (env : Env K V) : Txn → Env K V
  | .read i =>
    match env.readers[i]? with
    | some (some _) => { env with readers := env.readers.set i none }
    | _ => env
  | .write => { env with writer := none }

end Model6

section Model7

variable {K V : Type}
variable [LinearOrder K]

/-- Modelled from the spec: get (section 6) through a transaction's view: the snapshot of a
read transaction, or the staged state of the write transaction. -/
def rdb_get (env : Env K V) (t : Txn) (k : K) : Except Rc V :=
  match t with
  | .read i =>
    match env.readers[i]? with
    | some (some r) =>
      match search env.page k r.depth r.root with
      | .ok (some v) => .ok v
      | .ok none => .error .notfound
      | .error e => .error e
    | _ => .error .badTxn
  | .write =>
    match env.writer with
    | none => .error .badTxn
    | some w =>
      if w.failed then .error .badTxn
      else
        match search (w.page env.pages) k w.depth w.root with
        | .ok (some v) => .ok v
        | .ok none => .error .notfound
        | .error e => .error e

/-- Modelled from the spec: put (section 6) with the per-call no-overwrite flag.  Writing
through a read transaction is a permission error; an error of the tree engine marks the
write transaction as failed and leaves its staged state as it was. -/
def rdb_put (env : Env K V) (t : Txn) (k : K) (v : V) (noOverwrite : Bool) : Env K V × Rc :=
  match t with
  | .read _ => (env, .eacces)
  | .write =>
    match env.writer with
    | none => (env, .badTxn)
    | some w =>
      if w.failed then (env, .badTxn)
      else
        match search (w.page env.pages) k w.depth w.root with
        | .error e => ({ env with writer := some { w with failed := true } }, e)
        | .ok found =>
          if noOverwrite && found.isSome then (env, .keyexist)
          else
            match w.insert env.cfg env.readerIds env.pages k v with
            | .ok w1 => ({ env with writer := some w1 }, .success)
            | .error e => ({ env with writer := some { w with failed := true } }, e)

/-- Modelled from the spec: delete (section 6) with no value filter: not-found when the key
is absent from the transaction's view. -/
def rdb_del (env : Env K V) (t : Txn) (k : K) : Env K V × Rc :=
  match t with
  | .read _ => (env, .eacces)
  | .write =>
    match env.writer with
    | none => (env, .badTxn)
    | some w =>
      if w.failed then (env, .badTxn)
      else
        match search (w.page env.pages) k w.depth w.root with
        | .error e => ({ env with writer := some { w with failed := true } }, e)
        | .ok none => (env, .notfound)
        | .ok (some _) =>
          match w.delete env.cfg env.readerIds env.pages k with
          | .ok w1 => ({ env with writer := some w1 }, .success)
          | .error e => ({ env with writer := some { w with failed := true } }, e)

/-- Modelled from the spec: a cursor handle: bound to exactly one transaction, with its
position. -/
structure Cursor (K : Type) where
  txn : Txn
  pos : CursorPos K

/-- Modelled from the spec: cursor open: a cursor that is not positioned yet. -/
def rdb_cursor_open (t : Txn) : Cursor K :=
  { txn := t, pos := { stack := [], key := none } }

/-- Modelled from the spec: cursor get (section 4.4) within the cursor's transaction. -/
def rdb_cursor_get (env : Env K V) (c : Cursor K) (op : CursorOp) :
    Cursor K × Except Rc (K × V) :=
  match c.txn with
  | .read i =>
    match env.readers[i]? with
    | some (some r) =>
      let res := cursorMove env.page r.root r.depth c.pos op
      ({ c with pos := res.1 }, res.2)
    | _ => (c, .error .badTxn)
  | .write =>
    match env.writer with
    | none => (c, .error .badTxn)
    | some w =>
      if w.failed then (c, .error .badTxn)
      else
        let res := cursorMove (w.page env.pages) w.root w.depth c.pos op
        ({ c with pos := res.1 }, res.2)

/-- Modelled from the spec: cursor put: store the pair through the cursor's transaction and
leave the cursor at the key. -/
def rdb_cursor_put (env : Env K V) (c : Cursor K) (k : K) (v : V) (noOverwrite : Bool) :
    Env K V × Cursor K × Rc :=
  match rdb_put env c.txn k v noOverwrite with
  | (env1, .success) => (env1, { c with pos := { stack := [], key := some k } }, .success)
  | (env1, .keyexist) => (env1, { c with pos := { stack := [], key := some k } }, .keyexist)
  | (env1, rc) => (env1, c, rc)

end Model7

section Model8

variable {K V : Type} [LinearOrder K]

/-- The entries of a node are in strictly ascending key order. -/
def KeySorted (es : List (K × V)) : Prop := es.Pairwise (fun a b => a.1 < b.1)

end Model8

section Model9

variable {K V : Type}

/-- The entries stored below page `p` at height `d`, in page order. -/
def contents (rd : Nat → Option (Page K V)) : Nat → Nat → List (K × V)
  | 0, p =>
    match rd p with
    | some (.leaf es) => es
    | _ => []
  | d + 1, p =>
    match rd p with
    | some (.branch cs) => cs.flatMap (fun e => contents rd d e.2)
    | _ => []

/-- The page ids of the tree below page `p` at height `d`. -/
def pagesOf (rd : Nat → Option (Page K V)) : Nat → Nat → List Nat
  | 0, p => [p]
  | d + 1, p =>
    p :: (match rd p with
      | some (.branch cs) => cs.flatMap (fun e => pagesOf rd d e.2)
      | _ => [])

end Model9

section Model10

variable {K V : Type}
variable [LinearOrder K]

/-- Key `k` respects the lower bound `lo` (no bound when `none`). -/
def loB (lo : Option K) (k : K) : Prop :=
  match lo with
  | none => True
  | some l => l ≤ k

/-- Key `k` respects the upper bound `hi` (no bound when `none`). -/
def hiB (hi : Option K) (k : K) : Prop :=
  match hi with
  | none => True
  | some h => k < h

/-- The key range between two bounds is not empty. -/
def bLt (lo hi : Option K) : Prop :=
  match lo, hi with
  | some l, some h => l < h
  | _, _ => True

/-- Upper bound of a child: the separator of the next entry, or the bound of the page. -/
def nextB (rest : List (K × Nat)) (hi : Option K) : Option K :=
  match rest with
  | [] => hi
  | (k, _) :: _ => some k

/-- Every child entry of a branch satisfies `P` between its separator and the next one;
the first child starts at the lower bound of the page. -/
def wfCh (P : Nat → Option K → Option K → Prop) :
    Option K → Option K → List (K × Nat) → Prop
  | _, _, [] => True
  | lo, hi, (_, c) :: rest =>
    bLt lo (nextB rest hi) ∧ P c lo (nextB rest hi) ∧ wfCh P (nextB rest hi) hi rest

/-- The tree invariant below a page that is not the root: every leaf is not empty, in strictly
ascending key order and within the separators that lead to it; every branch has at least two
children, in separator order. -/
def wf (rd : Nat → Option (Page K V)) : Nat → Nat → Option K → Option K → Prop
  | 0, p, lo, hi =>
    ∃ es, rd p = some (.leaf es) ∧ es ≠ [] ∧ KeySorted es ∧ ∀ e ∈ es, loB lo e.1 ∧ hiB hi e.1
  | d + 1, p, lo, hi =>
    ∃ cs, rd p = some (.branch cs) ∧ 2 ≤ cs.length ∧ wfCh (wf rd d) lo hi cs

/-- The tree invariant with no fill requirement on the top page. -/
def wfTop (rd : Nat → Option (Page K V)) : Nat → Nat → Option K → Option K → Prop
  | 0, p, lo, hi =>
    ∃ es, rd p = some (.leaf es) ∧ KeySorted es ∧ ∀ e ∈ es, loB lo e.1 ∧ hiB hi e.1
  | d + 1, p, lo, hi =>
    ∃ cs, rd p = some (.branch cs) ∧ cs ≠ [] ∧ wfCh (wf rd d) lo hi cs

/-- The tree invariant at the root: a root leaf may be empty. -/
def wfRoot (rd : Nat → Option (Page K V)) (d : Nat) (p : Nat) : Prop :=
  match d with
  | 0 => wfTop rd 0 p none none
  | d + 1 => wf rd (d + 1) p none none

end Model10

section Model11

variable {K V : Type} [LinearOrder K]

/-- Lower bound of the child that follows the entries `pre` and has separator `ki`. -/
def lowOf (pre : List (K × Nat)) (lo : Option K) (ki : Option K) : Option K :=
  match pre with
  | [] => lo
  | _ :: _ => ki

/-- What the descent into a branch knows about the child chosen for key `k`. -/
structure Descent (rd : Nat → Option (Page K V)) (d : Nat) (lo hi : Option K) (k : K)
    (cs : List (K × Nat)) where
  pre : List (K × Nat)
  ki : K
  c : Nat
  post : List (K × Nat)
  eq : cs = pre ++ (ki, c) :: post
  idx : childIdx k cs = pre.length
  wpre : wfCh (wf rd d) lo (some ki) pre
  wc : wf rd d c (lowOf pre lo (some ki)) (nextB post hi)
  blt : bLt (lowOf pre lo (some ki)) (nextB post hi)
  wpost : wfCh (wf rd d) (nextB post hi) hi post
  klo : loB (lowOf pre lo (some ki)) k
  khi : hiB (nextB post hi) k
  below : ∀ e ∈ pre.flatMap (fun c => contents rd d c.2), e.1 < k
  above : ∀ e ∈ post.flatMap (fun c => contents rd d c.2), k < e.1

end Model11

section Model12

variable {K V : Type}

/-- The page ids the write transaction holds for reuse: its reclaimed pool and the pages of
the free-list entries it has not consumed. -/
def WTxn.availList (w : WTxn K V) : List Nat :=
  w.pool.map (fun e => e.2) ++ w.free.flatMap (fun e => e.2)

/-- The page ids the allocator may still hand out: those held for reuse and those beyond the
pages in use. -/
def WTxn.Avail (w : WTxn K V) (q : Nat) : Prop :=
  q ∈ w.availList ∨ w.next ≤ q

/-- Allocator invariant of the write transaction: reusable pages are distinct and within the
pages in use, no page it freed is available to it, and no page is freed twice. -/
structure WTxn.Ok (w : WTxn K V) : Prop where
  nodup : w.availList.Nodup
  below : ∀ q ∈ w.availList, q < w.next
  freed : ∀ q ∈ w.freed, ¬ w.Avail q
  fnodup : w.freed.Nodup

/-- The write transaction `w2` continues `w`: pages outside what `w` could allocate read the
same, nothing becomes available again, and the root pointers are untouched. -/
structure Ext (base : List (Page K V)) (w w2 : WTxn K V) : Prop where
  frame : ∀ q, ¬ w.Avail q → w2.page base q = w.page base q
  mono : ∀ q, w2.Avail q → w.Avail q
  root : w2.root = w.root
  depth : w2.depth = w.depth
  txnid : w2.txnid = w.txnid
  failed : w2.failed = w.failed
  next : w.next ≤ w2.next

/-- What a successful allocation establishes. -/
structure Alloc (base : List (Page K V)) (w w2 : WTxn K V) (p : Nat) (pg : Page K V) :
    Prop where
  ext : Ext base w w2
  ok : w2.Ok
  page : w2.page base p = some pg
  was : w.Avail p
  now : ¬ w2.Avail p
  freed : w2.freed = w.freed
  dirty : w2.dirty = (p, pg) :: w.dirty

/-- Sanity of the configuration: a leaf holds at least one entry and a branch at least three,
and the minimum fill thresholds are at least one entry and two children. -/
structure CfgOk (cfg : Cfg) : Prop where
  leafCap : 1 ≤ cfg.leafCap
  branchCap : 3 ≤ cfg.branchCap
  leafMin : 1 ≤ cfg.leafMin
  branchMin : 2 ≤ cfg.branchMin

/-- Page ids below the child entries `cs` at height `d`. -/
def pagesCh (rd : Nat → Option (Page K V)) (d : Nat) (cs : List (K × Nat)) : List Nat :=
  cs.flatMap (fun e => pagesOf rd d e.2)

/-- Entries below the child entries `cs` at height `d`. -/
def contentsCh (rd : Nat → Option (Page K V)) (d : Nat) (cs : List (K × Nat)) :
    List (K × V) :=
  cs.flatMap (fun e => contents rd d e.2)

/-- Page `x` was handed out between `w` and `w2`. -/
def Fresh (w w2 : WTxn K V) (x : Nat) : Prop := w.Avail x ∧ ¬ w2.Avail x

/-- The pages `O` of a tree before an operation of the write transaction: distinct, not
available to the allocator and not freed. -/
structure PgPre (w : WTxn K V) (O : List Nat) : Prop where
  nodup : O.Nodup
  notAvail : ∀ x ∈ O, ¬ w.Avail x
  notFreed : ∀ x ∈ O, x ∉ w.freed

/-- The pages `N` of a tree after an operation that started from the pages `O`: distinct,
each an old page or a newly allocated one, none of them freed; and every freed page was
freed before, or is an old page, or was allocated meanwhile. -/
structure PgPost (w w2 : WTxn K V) (O N : List Nat) : Prop where
  nodup : N.Nodup
  src : ∀ x ∈ N, x ∈ O ∨ Fresh w w2 x
  live : ∀ x ∈ N, x ∉ w2.freed
  freedSrc : ∀ x ∈ w2.freed, x ∈ w.freed ∨ x ∈ O ∨ Fresh w w2 x

end Model12

section Model13

variable {K V : Type}
variable [LinearOrder K]

/-- What `storeNode` establishes: the entries are in one new page, or split at the split
point over two new pages. -/
structure Stored {X : Type} (base : List (Page K V)) (w w2 : WTxn K V) (cap : Nat)
    (mk : List (K × X) → Page K V) (es : List (K × X)) (pl : Nat)
    (sp : Option (K × Nat)) : Prop where
  ext : Ext base w w2
  ok : w2.Ok
  freed : w2.freed = w.freed
  fresh : Fresh w w2 pl
  one : sp = none → w2.page base pl = some (mk es) ∧ es.length ≤ cap
  two : ∀ s q, sp = some (s, q) →
    w2.page base pl = some (mk (es.take (splitPoint es.length))) ∧
    w2.page base q = some (mk (es.drop (splitPoint es.length))) ∧
    (es.drop (splitPoint es.length)).head?.map (fun e => e.1) = some s ∧
    Fresh w w2 q ∧ pl ≠ q ∧ cap < es.length

end Model13

section Model14

variable {K V : Type} [LinearOrder K]

/-- The tree invariant an operation expects of the page it starts from: a leaf may be empty
(the root of an empty database), a branch satisfies the full invariant. -/
def wfIn (rd : Nat → Option (Page K V)) (d : Nat) (p : Nat) (lo hi : Option K) : Prop :=
  match d with
  | 0 => wfTop rd 0 p lo hi
  | d + 1 => wf rd (d + 1) p lo hi

/-- What an insert below a page establishes. -/
structure InsPost (base : List (Page K V)) (w w2 : WTxn K V) (d : Nat) (lo hi : Option K)
    (O : List Nat) (C : List (K × V)) (p2 : Nat) (sp : Option (K × Nat)) : Prop where
  ext : Ext base w w2
  ok : w2.Ok
  tree : ∀ ki, wfCh (wf (w2.page base) d) lo hi (insRepl ki p2 sp)
  cont : ∀ ki, contentsCh (w2.page base) d (insRepl ki p2 sp) = C
  pages : ∀ ki, PgPost w w2 O (pagesCh (w2.page base) d (insRepl ki p2 sp))

/-- Least number of entries of a page that is not the root: one entry in a leaf, two
children in a branch. -/
def minCount (d : Nat) : Nat := if d = 0 then 1 else 2

/-- The tree invariant of a page content at height `d`, with no fill requirement. -/
def NodeTop (rd : Nat → Option (Page K V)) (d : Nat) (pg : Page K V) (lo hi : Option K) : Prop :=
  match d, pg with
  | 0, .leaf es => KeySorted es ∧ ∀ e ∈ es, loB lo e.1 ∧ hiB hi e.1
  | d + 1, .branch cs => cs ≠ [] ∧ wfCh (wf rd d) lo hi cs
  | _, _ => False

/-- The entries below a page content at height `d`. -/
def contentsPg (rd : Nat → Option (Page K V)) (d : Nat) (pg : Page K V) : List (K × V) :=
  match d, pg with
  | 0, .leaf es => es
  | d + 1, .branch cs => contentsCh rd d cs
  | _, _ => []

/-- The page ids below a page content at height `d`. -/
def pagesPg (rd : Nat → Option (Page K V)) (d : Nat) (pg : Page K V) : List Nat :=
  match d, pg with
  | d + 1, .branch cs => pagesCh rd d cs
  | _, _ => []

/-- What merging two sibling page contents establishes. -/
structure Joined (rd : Nat → Option (Page K V)) (d : Nat) (L R M : Page K V)
    (lo hi : Option K) : Prop where
  top : NodeTop rd d M lo hi
  count : nodeCount M = nodeCount L + nodeCount R
  cont : contentsPg rd d M = contentsPg rd d L ++ contentsPg rd d R
  pages : pagesPg rd d M = pagesPg rd d L ++ pagesPg rd d R

/-- What moving one entry between two sibling page contents establishes. -/
structure Shifted (rd : Nat → Option (Page K V)) (d : Nat) (L R L2 R2 : Page K V)
    (lo hi : Option K) (s : K) : Prop where
  left : NodeTop rd d L2 lo (some s)
  right : NodeTop rd d R2 (some s) hi
  cont : contentsPg rd d L2 ++ contentsPg rd d R2 = contentsPg rd d L ++ contentsPg rd d R
  pages : pagesPg rd d L2 ++ pagesPg rd d R2 = pagesPg rd d L ++ pagesPg rd d R
  total : nodeCount L2 + nodeCount R2 = nodeCount L + nodeCount R

/-- The setting of an operation on the adjacent children `pl` and `pr` of a branch. -/
structure PairPre (base : List (Page K V)) (w : WTxn K V) (d : Nat) (lo hi : Option K)
    (A : List (K × Nat)) (kl : K) (pl : Nat) (kr : K) (pr : Nat) (B : List (K × Nat))
    (L R : Page K V) : Prop where
  ok : w.Ok
  wA : wfCh (wf (w.page base) d) lo (some kl) A
  pL : w.page base pl = some L
  pR : w.page base pr = some R
  nL : NodeTop (w.page base) d L (lowOf A lo (some kl)) (some kr)
  nR : NodeTop (w.page base) d R (some kr) (nextB B hi)
  wB : wfCh (wf (w.page base) d) (nextB B hi) hi B
  b1 : bLt (lowOf A lo (some kl)) (some kr)
  b2 : bLt (some kr) (nextB B hi)
  pg : PgPre w (pagesCh (w.page base) d (A ++ (kl, pl) :: (kr, pr) :: B))

/-- What a merge or a rebalancing step on the children of a branch establishes. -/
structure FixPost (base : List (Page K V)) (w w2 : WTxn K V) (d : Nat) (lo hi : Option K)
    (cs cs2 : List (K × Nat)) : Prop where
  ext : Ext base w w2
  ok : w2.Ok
  tree : wfCh (wf (w2.page base) d) lo hi cs2
  cont : contentsCh (w2.page base) d cs2 = contentsCh (w.page base) d cs
  pages : PgPost w w2 (pagesCh (w.page base) d cs) (pagesCh (w2.page base) d cs2)
  len : cs.length ≤ cs2.length + 1

/-- The setting of `rebalance`: the child at position `pre.length` satisfies the invariant
with no fill requirement, its siblings the full invariant. -/
structure RebPre (base : List (Page K V)) (w : WTxn K V) (d : Nat) (lo hi : Option K)
    (pre : List (K × Nat)) (ki : K) (c1 : Nat) (post : List (K × Nat)) (pg1 : Page K V) :
    Prop where
  ok : w.Ok
  len : 2 ≤ (pre ++ (ki, c1) :: post).length
  wPre : wfCh (wf (w.page base) d) lo (some ki) pre
  page : w.page base c1 = some pg1
  node : NodeTop (w.page base) d pg1 (lowOf pre lo (some ki)) (nextB post hi)
  wPost : wfCh (wf (w.page base) d) (nextB post hi) hi post
  blt : bLt (lowOf pre lo (some ki)) (nextB post hi)
  pg : PgPre w (pagesCh (w.page base) d (pre ++ (ki, c1) :: post))

/-- What a delete below a page establishes. -/
structure DelPost (base : List (Page K V)) (w w2 : WTxn K V) (d : Nat) (lo hi : Option K)
    (O : List Nat) (C : List (K × V)) (p2 : Nat) : Prop where
  ext : Ext base w w2
  ok : w2.Ok
  tree : wfTop (w2.page base) d p2 lo hi
  cont : contents (w2.page base) d p2 = C
  pages : PgPost w w2 O (pagesOf (w2.page base) d p2)

/-- The entries of the write transaction's tree. -/
def WTxn.contents (base : List (Page K V)) (w : WTxn K V) : List (K × V) :=
  RipDB.contents (w.page base) w.depth w.root

/-- The page ids of the write transaction's tree. -/
def WTxn.pages (base : List (Page K V)) (w : WTxn K V) : List Nat :=
  pagesOf (w.page base) w.depth w.root

/-- Invariant of the write transaction: the allocator invariant, the tree invariant at its
root, and its tree pages are distinct, not available to the allocator and not freed. -/
structure WTree (base : List (Page K V)) (w : WTxn K V) : Prop where
  ok : w.Ok
  wf : wfIn (w.page base) w.depth w.root none none
  pg : PgPre w (w.pages base)

/-- The write transaction `w2` continues `w`, possibly with a new root. -/
structure Grow (base : List (Page K V)) (w w2 : WTxn K V) : Prop where
  frame : ∀ q, ¬ w.Avail q → w2.page base q = w.page base q
  mono : ∀ q, w2.Avail q → w.Avail q
  txnid : w2.txnid = w.txnid
  failed : w2.failed = w.failed
  next : w.next ≤ w2.next

/-- What a successful mutation of the write transaction establishes. -/
structure Mutated (base : List (Page K V)) (w w2 : WTxn K V) (C : List (K × V)) : Prop where
  tree : WTree base w2
  grow : Grow base w w2
  cont : w2.contents base = C
  pages : PgPost w w2 (w.pages base) (w2.pages base)

/-- The cursor stack `s` for the tree below page `p` at height `d` points at entry number `i`
of the entries of that tree. -/
def At (rd : Nat → Option (Page K V)) : Nat → Nat → List (Nat × Nat) → Nat → Prop
  | 0, p, s, i => ∃ es, rd p = some (.leaf es) ∧ s = [(p, i)] ∧ i < es.length
  | d + 1, p, s, i =>
    ∃ cs j k c s1 i1, rd p = some (.branch cs) ∧ cs[j]? = some (k, c) ∧ s = (p, j) :: s1 ∧
      At rd d c s1 i1 ∧ i = (contentsCh rd d (cs.take j)).length + i1

end Model14

section Model15

variable {K V : Type}

/-- Where the allocator may take page `q` from in state `w`: the reclaimed pool, a free-list
entry that no reader forbids, or the pages beyond those in use. -/
def Taken (readers : List Nat) (w : WTxn K V) (q : Nat) : Prop :=
  (∃ t, (t, q) ∈ w.pool) ∨
    (∃ t ps, (t, ps) ∈ w.free ∧ q ∈ ps ∧ reclaimable readers t = true) ∨ w.next ≤ q

/-- All reclaimed pages of the pool come from entries of one key. -/
def WTxn.Uniform (w : WTxn K V) : Prop :=
  ∀ e1 ∈ w.pool, ∀ e2 ∈ w.pool, e1.1 = e2.1

/-- The page ids staged in the overlay. -/
def WTxn.dirtyIds (w : WTxn K V) : List Nat := w.dirty.map (fun e => e.1)

/-- Provenance of the allocator state `w2` reached from `w`: reclaimed pages come from entries
that no reader forbids, entries are only consumed, staged pages were taken legitimately, and
freed pages stay freed. -/
structure Trace (readers : List Nat) (w w2 : WTxn K V) : Prop where
  pool : ∀ t q, (t, q) ∈ w2.pool →
    (t, q) ∈ w.pool ∨ (reclaimable readers t = true ∧ ∃ ps, (t, ps) ∈ w.free ∧ q ∈ ps)
  free : ∀ e ∈ w2.free, e ∈ w.free
  next : w.next ≤ w2.next
  dirty : ∀ q ∈ w2.dirtyIds, q ∈ w.dirtyIds ∨ Taken readers w q
  freed : ∀ q ∈ w.freed, q ∈ w2.freed
  uni : w.Uniform → w2.Uniform
  used : ∀ e ∈ w.free, e ∈ w2.free ∨ reclaimable readers e.1 = true

end Model15

section Model16

variable {K V : Type} [LinearOrder K]

/-- The page ids held by a free list. -/
def freePages (fr : List FreeRec) : List Nat := fr.flatMap (fun e => e.2)

/-- A meta page describes a sound committed state of the pages read through `rd`: its tree
satisfies the tree invariant, the tree pages and the free pages are distinct data pages
within the pages in use, no free page is a tree page, and every free-list key is the id of a
committed transaction. -/
structure MetaOk (rd : Nat → Option (Page K V)) (m : Meta) : Prop where
  tree : wfIn rd m.depth m.root none none
  nodup : (pagesOf rd m.depth m.root).Nodup
  low : ∀ q ∈ pagesOf rd m.depth m.root, 2 ≤ q ∧ q < m.lastPg
  fnodup : (freePages m.free).Nodup
  frange : ∀ q ∈ freePages m.free, 2 ≤ q ∧ q < m.lastPg
  disj : ∀ q ∈ freePages m.free, q ∉ pagesOf rd m.depth m.root
  keys : ∀ e ∈ m.free, e.1 ≤ m.txnid
  last : 2 ≤ m.lastPg

/-- A registered read transaction is sound with respect to the current meta page `m`: its
snapshot tree satisfies the tree invariant, its id is not newer than the current one, and no
page of a free-list entry whose key is not newer than its id is a page of its tree. -/
structure RInv (rd : Nat → Option (Page K V)) (m : Meta) (r : RTxn) : Prop where
  tree : wfIn rd r.depth r.root none none
  le : r.txnid ≤ m.txnid
  low : ∀ q ∈ pagesOf rd r.depth r.root, 2 ≤ q ∧ q < m.lastPg
  disj : ∀ e ∈ m.free, e.1 ≤ r.txnid → ∀ q ∈ e.2, q ∉ pagesOf rd r.depth r.root

/-- Page `q` is a data page that neither the committed tree nor the tree of any registered
reader uses. -/
def Env.Safe (env : Env K V) (m : Meta) (q : Nat) : Prop :=
  2 ≤ q ∧ q ∉ pagesOf env.page m.depth m.root ∧
    ∀ r, some r ∈ env.readers → q ∉ pagesOf env.page r.depth r.root

/-- The active write transaction is sound with respect to the current meta page `m`. -/
structure WInv (env : Env K V) (m : Meta) (w : WTxn K V) : Prop where
  tree : WTree env.pages w
  txnid : w.txnid = m.txnid + 1
  next : m.lastPg ≤ w.next
  pool : ∀ t q, (t, q) ∈ w.pool →
    (∀ r, some r ∈ env.readers → t ≤ r.txnid) ∧ ∃ ps, (t, ps) ∈ m.free ∧ q ∈ ps
  free : ∀ e ∈ w.free, e ∈ m.free
  uni : w.Uniform
  dirty : ∀ q ∈ w.dirtyIds, env.Safe m q
  low : ∀ q ∈ w.pages env.pages, 2 ≤ q
  flow : ∀ q ∈ w.freed, 2 ≤ q

/-- The environment is sound with respect to its current meta page `m`. -/
structure InvAt (env : Env K V) (m : Meta) : Prop where
  cfg : CfgOk env.cfg
  cur : env.curMeta = some m
  committed : MetaOk env.page m
  readers : ∀ r, some r ∈ env.readers → RInv env.page m r
  writer : ∀ w, env.writer = some w → WInv env m w

/-- The invariant of the environment. -/
def Inv (env : Env K V) : Prop := ∃ m, InvAt env m

/-- The write transaction that begins on the current meta page. -/
def WTxn.start (m : Meta) : WTxn K V :=
  { txnid := m.txnid + 1, root := m.root, depth := m.depth, dirty := [], freed := [],
    free := m.free, pool := [], next := m.lastPg, failed := false }

/-- The pages of the mapped file after a commit of `w` through slot `s`. -/
def commitPages (pages : List (Page K V)) (w : WTxn K V) (s : Nat) : List (Page K V) :=
  (flush pages w.dirty).set (1 - s) (.meta w.toMeta)

/-- The result of a get in a view with entries `es`. -/
def lookup (es : List (K × V)) (k : K) : Except Rc V :=
  match leafFind k es with
  | some v => .ok v
  | none => .error .notfound

/-- The entries a read transaction sees. -/
def RTxn.view (rd : Nat → Option (Page K V)) (r : RTxn) : List (K × V) :=
  contents rd r.depth r.root

end Model16

section Model17

variable {K V : Type}

/-- The calls of a client program that change the environment. -/
inductive Op (K V : Type) where
  | beginTxn (rdonly : Bool)
  | put (t : Txn) (k : K) (v : V) (noOverwrite : Bool)
  | del (t : Txn) (k : K)
  | commit (t : Txn)
  | abort (t : Txn)

end Model17

section Model18

variable {K V : Type}
variable [LinearOrder K]

/-- The environment after one call. -/
def Env.step (env : Env K V) : Op K V → Env K V
  | .beginTxn rdonly => (rdb_txn_begin env rdonly).1
  | .put t k v noOverwrite => (rdb_put env t k v noOverwrite).1
  | .del t k => (rdb_del env t k).1
  | .commit t => (rdb_txn_commit env t).1
  | .abort t => rdb_txn_abort env t

/-- The environment after a sequence of calls. -/
def Env.run (env : Env K V) (ops : List (Op K V)) : Env K V :=
  ops.foldl Env.step env

/-- The environments a client program can reach from a new environment with a valid
configuration. -/
def Reachable (env : Env K V) : Prop :=
  ∃ cfg ops, CfgOk cfg ∧ env = (Env.create cfg : Env K V).run ops

end Model18

section Model19

/-- The configuration of the client programs: a map of 2560 pages (10 MB of 4 KB pages), the
default reader table, and pages that hold at most four entries. -/
def testCfg : Cfg :=
  { leafCap := 4, branchCap := 4, leafMin := 2, branchMin := 2, maxPages := 2560,
    maxReaders := 126 }

end Model19

section Model20

variable {K V : Type}

/-- The calls that stage a mutation in a transaction: put and delete. -/
def Op.staged : Op K V → Bool
  | .put _ _ _ _ => true
  | .del _ _ => true
  | _ => false

end Model20

section Model21

variable {K V : Type}
variable [LinearOrder K]

/-- The result of a get through a read transaction that begins now. -/
def readNow (env : Env K V) (k : K) : Except Rc V :=
  match rdb_txn_begin env true with
  | (env1, .ok t) => rdb_get env1 t k
  | (_, .error rc) => .error rc

end Model21

section Model22

/-- The environment of the client program before the write transaction that is aborted: the
keys 10, 20 and 30 were put and committed. -/
def abortEnv0 : Env Nat Nat :=
  (Env.create testCfg : Env Nat Nat).run
    [.beginTxn false, .put .write 10 1 true, .put .write 20 2 true, .put .write 30 3 true,
      .commit .write]

/-- The environment after the write transaction began. -/
def abortEnv1 : Env Nat Nat := (rdb_txn_begin abortEnv0 false).1

end Model22

section Model23

variable {K V : Type} [LinearOrder K]

/-- The call puts or deletes key `k`. -/
def Op.touches (k : K) : Op K V → Bool
  | .put _ k2 _ _ => decide (k2 = k)
  | .del _ k2 => decide (k2 = k)
  | _ => false

/-- The write transaction of an environment holds value `r` (or nothing) for key `k`, unless
it has met an error. -/
def Holds (env : Env K V) (k : K) (r : Option V) : Prop :=
  ∃ m w, InvAt env m ∧ env.writer = some w ∧
    (w.failed = false → leafFind k (w.contents env.pages) = r)

/-- A byte. -/
abbrev Byte := Fin 256

/-- The environment of the put/get test: one reader slot, default leaf sizes. -/
def putGetCfg : Cfg :=
  { leafCap := 4, branchCap := 4, leafMin := 2, branchMin := 2, maxPages := 2560,
    maxReaders := 1 }

/-- The key "foo". -/
def fooKey : List Byte := [102, 111, 111]

/-- The value "bar". -/
def barVal : List Byte := [98, 97, 114]

/-- The put/get test up to the first put: a fresh environment with a write transaction. -/
def putGetEnv : Env (List Byte) (List Byte) := (Env.create putGetCfg).run [.beginTxn false]

end Model23

section Model24

/-- The table `hexc[] = "0123456789abcdef"`. -/
def hexc : List Char := "0123456789abcdef".toList

/-- The characters `hex(c)` writes: `hexc[c >> 4]`, then `hexc[c & 0xf]`. -/
def hex (c : Byte) : List Char :=
  [hexc.getD (c.val >>> 4) '\x00', hexc.getD (c.val &&& 0xf) '\x00']

/-- The C library's `isprint` in the C locale: the codes 0x20 to 0x7e. -/
def isprint (c : Byte) : Bool := decide (0x20 ≤ c.val) && decide (c.val ≤ 0x7e)

/-- The character `putchar(*c)` writes for a byte. -/
def putchar (c : Byte) : Char := Char.ofNat c.val

/-- The loop of `text`: a printable byte is written as it is, after a backslash when it is a
backslash itself; any other byte is written as a backslash and `hex`. -/
def textLoop : List Byte → List Char
  | [] => []
  | c :: rest =>
    (if isprint c then
      (if putchar c = '\\' then ['\\'] else []) ++ [putchar c]
    else
      '\\' :: hex c) ++ textLoop rest

/-- The characters `text(v)` writes. -/
def text (v : List Byte) : List Char := ' ' :: textLoop v ++ ['\n']

/-- The loop of `byte`: `hex` of every byte. -/
def byteLoop : List Byte → List Char
  | [] => []
  | c :: rest => hex c ++ byteLoop rest

/-- The characters `byte(v)` writes. -/
def byte (v : List Byte) : List Char := ' ' :: byteLoop v ++ ['\n']

/-- The lowercase hexadecimal digit of a number below 16. -/
def hexDigit (n : Nat) : Char := if n < 10 then Char.ofNat (48 + n) else Char.ofNat (87 + n)

/-- The value of a lowercase hexadecimal digit. -/
def hexVal (ch : Char) : Option Nat :=
  if 48 ≤ ch.toNat ∧ ch.toNat ≤ 57 then some (ch.toNat - 48)
  else if 97 ≤ ch.toNat ∧ ch.toNat ≤ 102 then some (ch.toNat - 87)
  else none

/-- The byte of a number, when it is one. -/
def toByte (n : Nat) : Option Byte := if h : n < 256 then some ⟨n, h⟩ else none

/-- Reading pairs of hexadecimal digits back as base-16 numbers. -/
def unhexPairs : List Char → Option (List Byte)
  | [] => some []
  | [_] => none
  | h :: l :: rest =>
    match hexVal h, hexVal l, unhexPairs rest with
    | some a, some b, some bs => (toByte (16 * a + b)).map (fun x => x :: bs)
    | _, _, _ => none

/-- Reading a line of `byte` back: a space, digit pairs, a newline. -/
def unbyte : List Char → Option (List Byte)
  | [] => none
  | ch :: rest =>
    if ch = ' ' ∧ rest.getLast? = some '\n' then unhexPairs rest.dropLast else none

/-- What the printable encoding writes for one byte, in the words of its description. -/
def escByte (b : Byte) : List Char :=
  if isprint b = true ∧ b.val ≠ 0x5c then [Char.ofNat b.val]
  else if b.val = 0x5c then ['\\', '\\']
  else ['\\', hexDigit (b.val / 16), hexDigit (b.val % 16)]

/-- Decoding the body of a line of `text`. -/
def untextLoop : List Char → Option (List Byte)
  | [] => some []
  | [ch] => if ch = '\\' then none else (toByte ch.toNat).map (fun x => [x])
  | [ch, h] =>
    if ch = '\\' then (if h = '\\' then some [0x5c] else none)
    else match toByte ch.toNat, untextLoop [h] with
      | some x, some bs => some (x :: bs)
      | _, _ => none
  | ch :: h :: l :: rest =>
    if ch = '\\' then
      if h = '\\' then (untextLoop (l :: rest)).map (fun bs => 0x5c :: bs)
      else match hexVal h, hexVal l, untextLoop rest with
        | some a, some b, some bs => (toByte (16 * a + b)).map (fun x => x :: bs)
        | _, _, _ => none
    else match toByte ch.toNat, untextLoop (h :: l :: rest) with
      | some x, some bs => some (x :: bs)
      | _, _ => none

/-- Reading a line of `text` back: a space, the escaped bytes, a newline. -/
def untext : List Char → Option (List Byte)
  | [] => none
  | ch :: rest =>
    if ch = ' ' ∧ rest.getLast? = some '\n' then untextLoop rest.dropLast else none

/-- The modulus of `size_t` arithmetic. -/
def sizeMod : Nat := 2 ^ 64

/-- The inner loop of the summary, `for (; i >= span && iptr[i-span] == pg; span++, pg++) ;`.
It ends at the latest when `span` passes `i`, which the first argument counts down to. -/
def spanInner (iptr : List Nat) (i : Nat) : Nat → Nat → Nat → Nat
  | 0, span, _ => span
  | fuel + 1, span, pg =>
    if span ≤ i ∧ iptr.getD (i - span) 0 = pg then
      spanInner iptr i fuel (span + 1) ((pg + 1) % sizeMod)
    else span

/-- The outer loop of the summary, `for (i = j, prev = 1; --i >= 0; )`; the first argument is
`i` before the decrement. The result is `bad` and `span`. -/
def spanOuter (iptr : List Nat) : Nat → String → Nat → Nat → String × Nat
  | 0, bad, _, span => (bad, span)
  | i + 1, bad, prev, span =>
    spanOuter iptr i (if iptr.getD i 0 ≤ prev then " [bad sequence]" else bad) (iptr.getD i 0)
      (spanInner iptr i (i + 1 - span) span ((iptr.getD i 0 + span) % sizeMod))

/-- The summary of a record at `-ff`: the label `bad` and `maxspan`, as passed to `printf`. -/
def freeSummary (iptr : List Nat) : String × Nat := spanOuter iptr iptr.length "" 1 0

/-- The label of the record. -/
def badLabel (iptr : List Nat) : String := (freeSummary iptr).1

/-- The `maxspan` of the record. -/
def maxspan (iptr : List Nat) : Nat := (freeSummary iptr).2

/-- The inner loop of the listing, `for (span=1; --j >= 0 && iptr[j] == pg+span; span++) ;`.
The second argument is `j` before the decrement; the result is `j + 1` and `span` after the
loop. -/
def listInner (iptr : List Nat) (pg : Nat) : Nat → Nat → Nat × Nat
  | 0, span => (0, span)
  | k + 1, span =>
    if iptr.getD k 0 = (pg + span) % sizeMod then listInner iptr pg k (span + 1)
    else (k + 1, span)

/-- The outer loop of the listing at `-fff`, `for (--j; j >= 0; )`: the pairs `(pg, span)`
printed, in order. The second argument is `j + 1`; the first bounds the number of rounds. -/
def listOuter (iptr : List Nat) : Nat → Nat → List (Nat × Nat)
  | 0, _ => []
  | _, 0 => []
  | fuel + 1, k + 1 =>
    (iptr.getD k 0, (listInner iptr (iptr.getD k 0) k 1).2) ::
      listOuter iptr fuel (listInner iptr (iptr.getD k 0) k 1).1

/-- The runs `(pg, span)` printed for a record at `-fff`. -/
def freeSpans (iptr : List Nat) : List (Nat × Nat) := listOuter iptr iptr.length iptr.length

/-- The page ids of a printed run: `pg`, `pg + 1`, up to `pg + span - 1`. -/
def runIds (r : Nat × Nat) : List Nat := (List.range r.2).map (fun t => r.1 + t)

/-- The ids at indices below `n`, read from the last to the first, each exceed the one read
before, the first of them exceeding `prev`. -/
def Rising (iptr : List Nat) : Nat → Nat → Prop
  | 0, _ => True
  | i + 1, prev => prev < iptr.getD i 0 ∧ Rising iptr i (iptr.getD i 0)

/-- The stored ids strictly descend: a later index holds a smaller id. -/
def Desc (l : List Nat) : Prop := ∀ a b, a < b → b < l.length → l.getD b 0 < l.getD a 0

/-- The ids at indices `i - s`, ..., `i` end a run: the id `s` places before index `i` is the
id at `i` plus `s`. -/
def RunAt (l : List Nat) (i s : Nat) : Prop := s ≤ i ∧ l.getD (i - s) 0 = l.getD i 0 + s

/-- Before index `n` is treated, `span` is the greatest length of a run ending at an index
from `n` on. -/
def Best (l : List Nat) (n span : Nat) : Prop :=
  (∀ i, n ≤ i → i < l.length → ∀ s, RunAt l i s → s < span) ∧
    (span = 0 ∧ n = l.length ∨ ∃ i, n ≤ i ∧ i < l.length ∧ 1 ≤ span ∧ RunAt l i (span - 1))

/-- The return codes `dumpit` names. Their values are declared in headers that are not part
of the sources at hand, so they are parameters. -/
structure Codes where
  RDB_SUCCESS : Int
  RDB_NOTFOUND : Int
  EINTR : Int

/-- What the cursor of `dumpit` gives: the key/data pairs that successive `rdb_cursor_get`
calls return with `RDB_SUCCESS`, then the code `stop` of the call that ends the scan. -/
structure Scan (c : Codes) where
  rows : List (List Byte × List Byte)
  stop : Int
  ends : stop ≠ c.RDB_SUCCESS

/-- The flag `PRINT` of `mode`. -/
def PRINT : Nat := 1

/-- The exit statuses of the C library. -/
def EXIT_SUCCESS : Int := 0

/-- The exit status of failure. -/
def EXIT_FAILURE : Int := 1

/-- The loop `while ((rc = rdb_cursor_get(mc, &key, &data, RDB_NEXT) == RDB_SUCCESS))`: as
the source is parenthesised, `rc` receives the value of the comparison, 1 or 0. `gotsig n` is
the signal flag as the n-th round reads it. The result is the lines written and `rc` after the
loop. -/
def dumpLoop (c : Codes) (mode : Nat) (gotsig : Nat → Bool) (stop : Int) :
    List (List Byte × List Byte) → Nat → List (List Char) → List (List Char) × Int
  | [], _, out => (out, if stop = c.RDB_SUCCESS then 1 else 0)
  | (key, data) :: rest, n, out =>
    if gotsig n then (out, c.EINTR)
    else if mode &&& PRINT ≠ 0 then
      dumpLoop c mode gotsig stop rest (n + 1) (out ++ [text key, text data])
    else
      dumpLoop c mode gotsig stop rest (n + 1) (out ++ [byte key, byte data])

/-- The part of `dumpit` from `rdb_cursor_open` on: `opened` is the code of
`rdb_cursor_open`. The result is the data lines written and the code returned. -/
def dumpit (c : Codes) (mode : Nat) (gotsig : Nat → Bool) (opened : Int) (s : Scan c) :
    List (List Char) × Int :=
  if opened ≠ 0 then ([], opened)
  else
    let r := dumpLoop c mode gotsig s.stop s.rows 0 []
    (r.1 ++ ["DATA=END\n".toList], if r.2 = c.RDB_NOTFOUND then c.RDB_SUCCESS else r.2)

/-- The last line of `main`: `return rc ? EXIT_FAILURE : EXIT_SUCCESS;`. -/
def exitStatus (rc : Int) : Int := if rc ≠ 0 then EXIT_FAILURE else EXIT_SUCCESS

/-- Codes for an example: success 0, not-found -30798, `EINTR` 4. -/
def sampleCodes : Codes := { RDB_SUCCESS := 0, RDB_NOTFOUND := -30798, EINTR := 4 }

/-- A scan for an example: one pair, then the call fails with the code -30796. -/
def corruptScan : Scan sampleCodes :=
  { rows := [([0x61], [0x62])], stop := -30796, ends := by decide }

/-- The character `s[i]` of a C string: the terminating NUL from its end on. -/
def cAt (s : List Char) (i : Nat) : Char := s.getD i '\x00'

/-- The constants of the header the copy tool uses; the header is not part of the sources at
hand, so they are parameters. -/
structure CopyConsts where
  RDB_SUCCESS : Int
  RDB_RDONLY : Nat
  RDB_NOSUBDIR : Nat
  RDB_CP_COMPACT : Nat

/-- The file descriptor `RDB_STDOUT`. -/
def RDB_STDOUT : Nat := 1

/-- The library calls of the copy tool that return a code. -/
inductive CopyCall where
  | rdb_env_create
  | rdb_env_open (path : List Char) (flags : Nat) (mode : Nat)
  | rdb_env_copyfd2 (fd : Nat) (cpflags : Nat)
  | rdb_env_copy2 (path : List Char) (cpflags : Nat)
  deriving DecidableEq

/-- How a run of the copy tool ends: after printing the version (status 0), after printing
the usage line (status `EXIT_FAILURE`), or after the library calls listed with their codes,
with the status returned. -/
inductive CopyExit where
  | version
  | usage
  | done (calls : List (CopyCall × Int)) (status : Int)
  deriving DecidableEq

/-- The option loop `for (; argc > 1 && argv[1][0] == '-'; argc--, argv++)`. The list is
`argv` from `argv[1]` on; `none` is the exit after `-V`. -/
def copyOpts (k : CopyConsts) :
    List (List Char) → Int → Nat → Nat → Option (List (List Char) × Int × Nat × Nat)
  | [], argc, flags, cpflags => some ([], argc, flags, cpflags)
  | a :: rest, argc, flags, cpflags =>
    if argc > 1 ∧ cAt a 0 = '-' then
      if cAt a 1 = 'n' ∧ cAt a 2 = '\x00' then
        copyOpts k rest (argc - 1) (flags ||| k.RDB_NOSUBDIR) cpflags
      else if cAt a 1 = 'c' ∧ cAt a 2 = '\x00' then
        copyOpts k rest (argc - 1) flags (cpflags ||| k.RDB_CP_COMPACT)
      else if cAt a 1 = 'V' ∧ cAt a 2 = '\x00' then none
      else copyOpts k rest (0 - 1) flags cpflags
    else some (a :: rest, argc, flags, cpflags)

/-- The calls after the command line is accepted: create, open, copy, each only after the
one before returned `RDB_SUCCESS`; then `return rc ? EXIT_FAILURE : EXIT_SUCCESS`. `dst` is
`argv[2]` when `argc` is 3. -/
def copyRun (k : CopyConsts) (api : CopyCall → Int) (src : List Char) (dst : Option (List Char))
    (flags cpflags : Nat) : CopyExit :=
  let c1 := CopyCall.rdb_env_create
  let c2 := CopyCall.rdb_env_open src flags 0o600
  let c3 := match dst with
    | none => CopyCall.rdb_env_copyfd2 RDB_STDOUT cpflags
    | some path => CopyCall.rdb_env_copy2 path cpflags
  if api c1 = k.RDB_SUCCESS then
    if api c2 = k.RDB_SUCCESS then
      .done [(c1, api c1), (c2, api c2), (c3, api c3)] (exitStatus (api c3))
    else .done [(c1, api c1), (c2, api c2)] (exitStatus (api c2))
  else .done [(c1, api c1)] (exitStatus (api c1))

/-- The program `main` of the copy tool on the argument vector `argv` (with `argc` its
length). -/
def copyMain (k : CopyConsts) (api : CopyCall → Int) (argv : List (List Char)) : CopyExit :=
  match copyOpts k argv.tail argv.length k.RDB_RDONLY 0 with
  | none => .version
  | some (tl, argc, flags, cpflags) =>
    if argc < 2 ∨ argc > 3 then .usage
    else copyRun k api (tl.getD 0 []) (if argc = 2 then none else some (tl.getD 1 [])) flags
      cpflags

/-- The argument `-n`. -/
def dashN : List Char := ['-', 'n']

/-- The argument `-c`. -/
def dashC : List Char := ['-', 'c']

/-- The argument `-V`. -/
def dashV : List Char := ['-', 'V']

/-- The arguments are options `-n` and `-c`, then one or two more of which the first does
not begin with `-`. -/
def CopyForm (args opts rest : List (List Char)) : Prop :=
  args = opts ++ rest ∧ (∀ o ∈ opts, o = dashN ∨ o = dashC) ∧
    (rest.length = 1 ∨ rest.length = 2) ∧ cAt (rest.getD 0 []) 0 ≠ '-'

/-- The arguments are options `-n` and `-c`, then `-V`. -/
def CopyVForm (args opts rest : List (List Char)) : Prop :=
  args = opts ++ dashV :: rest ∧ ∀ o ∈ opts, o = dashN ∨ o = dashC

/-- The calls a run can make for a source, a target and flags, in order. -/
def copyCalls (api : CopyCall → Int) (src : List Char) (dst : Option (List Char))
    (flags cpflags : Nat) : List (CopyCall × Int) :=
  [(.rdb_env_create, api .rdb_env_create),
    (.rdb_env_open src flags 0o600, api (.rdb_env_open src flags 0o600)),
    match dst with
    | none => (.rdb_env_copyfd2 RDB_STDOUT cpflags, api (.rdb_env_copyfd2 RDB_STDOUT cpflags))
    | some path => (.rdb_env_copy2 path cpflags, api (.rdb_env_copy2 path cpflags))]

/-- The calls of a list that are made when each is made only after the one before returned
zero: all up to and including the first with a nonzero code. -/
def stopAtFail : List (CopyCall × Int) → List (CopyCall × Int)
  | [] => []
  | e :: rest => if e.2 = 0 then e :: stopAtFail rest else [e]

/-- The command line `ripdb_copy -c -n src dst` with library calls that all succeed. -/
def copyArgs : List (List Char) := [dashC, dashN, ['s', 'r', 'c'], ['d', 's', 't']]

end Model24

section Model25

variable {K V : Type} [LinearOrder K]

/-- The call ends the read transaction `t`. -/
def Op.ends (t : Txn) : Op K V → Bool
  | .commit t2 => decide (t2 = t)
  | .abort t2 => decide (t2 = t)
  | _ => false

/-- A write transaction that overwrites key 10, deletes key 20 and commits, and a second one
that stores key 40 and commits. -/
def laterCommits : List (Op Nat Nat) :=
  [.beginTxn false, .put .write 10 99 false, .del .write 20, .commit .write,
    .beginTxn false, .put .write 40 4 true, .commit .write]

/-- The cursor position `c` is on entry number `i` of the tree `(root, depth)`. -/
def PosAt (rd : Nat → Option (Page K V)) (root depth : Nat) (c : CursorPos K) (i : Nat) :
    Prop :=
  At rd depth root c.stack i ∧ c.key.isSome = true

/-- The loop of the cursor tests, `while ((rc = rdb_cursor_get(cursor, &key, &data, op)) == 0)`:
the entries returned, the code that ended the loop and the cursor after it. The first argument
bounds the number of rounds; the code is success when the rounds run out. -/
def cursorScan (env : Env K V) (op : CursorOp) : Nat → Cursor K → List (K × V) × Rc × Cursor K
  | 0, c => ([], .success, c)
  | fuel + 1, c =>
    match rdb_cursor_get env c op with
    | (c2, .ok e) => (e :: (cursorScan env op fuel c2).1, (cursorScan env op fuel c2).2)
    | (c2, .error rc) => ([], rc, c2)

/-- A first move with `op1`, then the loop with `op`, as the tests scan from an end. -/
def scanFrom (env : Env K V) (op1 op : CursorOp) (fuel : Nat) (c : Cursor K) :
    List (K × V) × Rc × Cursor K :=
  match rdb_cursor_get env c op1 with
  | (c2, .ok e) => (e :: (cursorScan env op fuel c2).1, (cursorScan env op fuel c2).2)
  | (c2, .error rc) => ([], rc, c2)

/-- The cursor `c` of the reader in slot `i` is on entry number `n` of the reader's view. -/
def OnEntry (env : Env K V) (i : Nat) (r : RTxn) (c : Cursor K) (n : Nat) : Prop :=
  c.txn = .read i ∧ PosAt env.page r.root r.depth c.pos n

/-- The state of the cursor test before its scans: three keys committed, a reader begun. -/
def scanEnv : Env Nat Nat :=
  (Env.create testCfg).run [.beginTxn false, .put .write 10 1 true, .put .write 20 2 true,
    .put .write 30 3 true, .commit .write, .beginTxn true]

end Model25

section Model26

variable {K V : Type}

/-- The leaves of the tree below page `p` at height `d`, from left to right, each as its list
of entries. -/
def leavesOf (rd : Nat → Option (Page K V)) : Nat → Nat → List (List (K × V))
  | 0, p =>
    match rd p with
    | some (.leaf es) => [es]
    | _ => []
  | d + 1, p =>
    match rd p with
    | some (.branch cs) => cs.flatMap (fun e => leavesOf rd d e.2)
    | _ => []

/-- The number of leaf pages of the tree of the write transaction, if there is one. -/
def Env.leafPages (env : Env K V) : Option Nat :=
  env.writer.map (fun w => (leavesOf (w.page env.pages) w.depth w.root).length)

/-- How often a list of counts grows from one element to the next. -/
def growths : List (Option Nat) → Nat
  | a :: b :: rest => (if a ≠ b then 1 else 0) + growths (b :: rest)
  | _ => 0

end Model26

section Model27

variable {K V : Type}
variable [LinearOrder K]

/-- The first part of the split test: a write transaction with a cursor on an empty database
whose leaves hold at most four entries, then `rdb_cursor_put` with the no-overwrite flag of
the keys 0, 5, 10, ... (the first `n` of them). -/
def splitPuts : Nat → Env Nat Nat × Cursor Nat
  | 0 => ((rdb_txn_begin (Env.create testCfg) false).1, rdb_cursor_open .write)
  | n + 1 =>
    ((rdb_cursor_put (splitPuts n).1 (splitPuts n).2 (n * 5) (n * 5) true).1,
      (rdb_cursor_put (splitPuts n).1 (splitPuts n).2 (n * 5) (n * 5) true).2.1)

end Model27

section Model28

variable {K V : Type} [LinearOrder K]

end Model28

section Proofs1

variable {K V : Type} [LinearOrder K]

theorem leafFind_cons (k k1 : K) (v1 : V) (es : List (K × V)) :
    leafFind k ((k1, v1) :: es) =
      if k < k1 then none else if k = k1 then some v1 else leafFind k es := rfl

theorem leafInsert_cons (k k1 : K) (v v1 : V) (es : List (K × V)) :
    leafInsert k v ((k1, v1) :: es) =
      if k < k1 then (k, v) :: (k1, v1) :: es
      else if k = k1 then (k, v) :: es
      else (k1, v1) :: leafInsert k v es := rfl

theorem leafErase_cons (k k1 : K) (v1 : V) (es : List (K × V)) :
    leafErase k ((k1, v1) :: es) =
      if k < k1 then (k1, v1) :: es
      else if k = k1 then es
      else (k1, v1) :: leafErase k es := rfl

theorem leafFind_append_left (k : K) (a b : List (K × V)) (h : ∀ e ∈ a, e.1 < k) :
    leafFind k (a ++ b) = leafFind k b := by
  induction a with
  | nil => rfl
  | cons e a ih =>
    obtain ⟨k1, v1⟩ := e
    have h1 : k1 < k := h (k1, v1) (List.mem_cons_self _ _)
    have h2 : ¬ k < k1 := not_lt.mpr h1.le
    have h3 : ¬ k = k1 := fun h => (ne_of_lt h1) h.symm
    rw [List.cons_append, leafFind_cons]
    simp only [h2, h3, if_false]
    exact ih (fun e he => h e (List.mem_cons_of_mem _ he))

theorem leafFind_append_right (k : K) (a b : List (K × V)) (h : ∀ e ∈ b, k < e.1) :
    leafFind k (a ++ b) = leafFind k a := by
  induction a with
  | nil =>
    cases b with
    | nil => rfl
    | cons e b =>
      obtain ⟨k1, v1⟩ := e
      have h1 : k < k1 := h (k1, v1) (List.mem_cons_self _ _)
      simp [leafFind, h1]
  | cons e a ih =>
    obtain ⟨k1, v1⟩ := e
    rw [List.cons_append, leafFind_cons, leafFind_cons, ih]

theorem leafInsert_append_left (k : K) (v : V) (a b : List (K × V)) (h : ∀ e ∈ a, e.1 < k) :
    leafInsert k v (a ++ b) = a ++ leafInsert k v b := by
  induction a with
  | nil => rfl
  | cons e a ih =>
    obtain ⟨k1, v1⟩ := e
    have h1 : k1 < k := h (k1, v1) (List.mem_cons_self _ _)
    have h2 : ¬ k < k1 := not_lt.mpr h1.le
    have h3 : ¬ k = k1 := fun h => (ne_of_lt h1) h.symm
    rw [List.cons_append, leafInsert_cons]
    simp only [h2, h3, if_false, List.cons_append]
    rw [ih (fun e he => h e (List.mem_cons_of_mem _ he))]

theorem leafInsert_append_right (k : K) (v : V) (a b : List (K × V)) (h : ∀ e ∈ b, k < e.1) :
    leafInsert k v (a ++ b) = leafInsert k v a ++ b := by
  induction a with
  | nil =>
    cases b with
    | nil => rfl
    | cons e b =>
      obtain ⟨k1, v1⟩ := e
      have h1 : k < k1 := h (k1, v1) (List.mem_cons_self _ _)
      simp [leafInsert, h1]
  | cons e a ih =>
    obtain ⟨k1, v1⟩ := e
    rw [List.cons_append, leafInsert_cons, leafInsert_cons, ih]
    split_ifs <;> rfl

theorem leafErase_append_left (k : K) (a b : List (K × V)) (h : ∀ e ∈ a, e.1 < k) :
    leafErase k (a ++ b) = a ++ leafErase k b := by
  induction a with
  | nil => rfl
  | cons e a ih =>
    obtain ⟨k1, v1⟩ := e
    have h1 : k1 < k := h (k1, v1) (List.mem_cons_self _ _)
    have h2 : ¬ k < k1 := not_lt.mpr h1.le
    have h3 : ¬ k = k1 := fun h => (ne_of_lt h1) h.symm
    rw [List.cons_append, leafErase_cons]
    simp only [h2, h3, if_false, List.cons_append]
    rw [ih (fun e he => h e (List.mem_cons_of_mem _ he))]

theorem leafErase_append_right (k : K) (a b : List (K × V)) (h : ∀ e ∈ b, k < e.1) :
    leafErase k (a ++ b) = leafErase k a ++ b := by
  induction a with
  | nil =>
    cases b with
    | nil => rfl
    | cons e b =>
      obtain ⟨k1, v1⟩ := e
      have h1 : k < k1 := h (k1, v1) (List.mem_cons_self _ _)
      simp [leafErase, h1]
  | cons e a ih =>
    obtain ⟨k1, v1⟩ := e
    rw [List.cons_append, leafErase_cons, leafErase_cons, ih]
    split_ifs <;> rfl

theorem mem_leafInsert {k : K} {v : V} {es : List (K × V)} {e : K × V}
    (h : e ∈ leafInsert k v es) : e = (k, v) ∨ e ∈ es := by
  induction es with
  | nil => simp [leafInsert] at h; exact Or.inl h
  | cons e1 es ih =>
    obtain ⟨k1, v1⟩ := e1
    simp only [leafInsert] at h
    split_ifs at h with h1 h2
    · simp only [List.mem_cons] at h ⊢
      tauto
    · simp only [List.mem_cons] at h ⊢
      tauto
    · simp only [List.mem_cons] at h ⊢
      rcases h with h | h
      · tauto
      · have := ih h
        tauto

theorem mem_leafErase {k : K} {es : List (K × V)} {e : K × V}
    (h : e ∈ leafErase k es) : e ∈ es := by
  induction es with
  | nil => simp [leafErase] at h
  | cons e1 es ih =>
    obtain ⟨k1, v1⟩ := e1
    simp only [leafErase] at h
    split_ifs at h with h1 h2
    · exact h
    · exact List.mem_cons_of_mem _ h
    · simp only [List.mem_cons] at h ⊢
      rcases h with h | h
      · tauto
      · exact Or.inr (ih h)

theorem KeySorted.insert {k : K} {v : V} {es : List (K × V)} (h : KeySorted es) :
    KeySorted (leafInsert k v es) := by
  induction es with
  | nil => simp [leafInsert, KeySorted]
  | cons e1 es ih =>
    obtain ⟨k1, v1⟩ := e1
    unfold KeySorted at h ih ⊢
    rw [List.pairwise_cons] at h
    simp only [leafInsert]
    split_ifs with h1 h2
    · rw [List.pairwise_cons]
      refine ⟨?_, List.pairwise_cons.mpr h⟩
      intro e he
      rcases List.mem_cons.mp he with rfl | he
      · exact h1
      · exact lt_trans h1 (h.1 e he)
    · subst h2
      exact List.pairwise_cons.mpr h
    · rw [List.pairwise_cons]
      refine ⟨?_, ih h.2⟩
      intro e he
      rcases mem_leafInsert he with rfl | he
      · exact lt_of_le_of_ne (not_lt.mp h1) (fun h => h2 h.symm)
      · exact h.1 e he

theorem KeySorted.erase {k : K} {es : List (K × V)} (h : KeySorted es) :
    KeySorted (leafErase k es) := by
  induction es with
  | nil => simp [leafErase, KeySorted]
  | cons e1 es ih =>
    obtain ⟨k1, v1⟩ := e1
    unfold KeySorted at h ih ⊢
    have h0 := h
    rw [List.pairwise_cons] at h
    simp only [leafErase]
    split_ifs with h1 h2
    · exact h0
    · exact h.2
    · rw [List.pairwise_cons]
      exact ⟨fun e he => h.1 e (mem_leafErase he), ih h.2⟩

theorem leafFind_of_lt_all {k : K} {es : List (K × V)} (h : ∀ e ∈ es, k < e.1) :
    leafFind k es = none := by
  cases es with
  | nil => rfl
  | cons e es =>
    obtain ⟨k1, v1⟩ := e
    simp [leafFind, h (k1, v1) (List.mem_cons_self _ _)]

theorem leafFind_insert {k : K} {v : V} {es : List (K × V)} (h : KeySorted es) (k2 : K) :
    leafFind k2 (leafInsert k v es) = if k2 = k then some v else leafFind k2 es := by
  induction es with
  | nil =>
    simp only [leafInsert, leafFind]
    split_ifs <;> simp_all
  | cons e1 es ih =>
    obtain ⟨k1, v1⟩ := e1
    unfold KeySorted at h ih
    rw [List.pairwise_cons] at h
    rw [leafInsert_cons]
    by_cases h1 : k < k1
    · simp only [h1, if_true, leafFind_cons]
      by_cases h2 : k2 = k
      · subst h2; simp
      · by_cases h3 : k2 < k
        · simp [h3, h2, lt_trans h3 h1]
        · simp [h3, h2]
    · by_cases h2 : k = k1
      · subst h2
        simp only [lt_irrefl, if_false, if_true, leafFind_cons]
        by_cases h3 : k2 = k
        · subst h3; simp
        · simp [h3]
      · simp only [h1, h2, if_false, leafFind_cons, ih h.2]
        by_cases h3 : k2 = k
        · subst h3
          simp [h1, h2]
        · simp [h3]

theorem leafFind_erase {k : K} {es : List (K × V)} (h : KeySorted es) (k2 : K) :
    leafFind k2 (leafErase k es) = if k2 = k then none else leafFind k2 es := by
  induction es with
  | nil => simp [leafErase, leafFind]
  | cons e1 es ih =>
    obtain ⟨k1, v1⟩ := e1
    unfold KeySorted at h ih
    rw [List.pairwise_cons] at h
    rw [leafErase_cons]
    by_cases h1 : k < k1
    · simp only [h1, if_true, leafFind_cons]
      by_cases h2 : k2 = k
      · subst h2; simp [h1]
      · simp [h2]
    · by_cases h2 : k = k1
      · subst h2
        simp only [lt_irrefl, if_false, if_true, leafFind_cons]
        by_cases h3 : k2 = k
        · subst h3
          simp only [if_true]
          exact leafFind_of_lt_all (fun e he => h.1 e he)
        · simp only [h3, if_false]
          by_cases h4 : k2 < k
          · simp only [h4, if_true]
            exact leafFind_of_lt_all (fun e he => lt_trans h4 (h.1 e he))
          · simp [h4]
      · simp only [h1, h2, if_false, leafFind_cons, ih h.2]
        by_cases h3 : k2 = k
        · subst h3
          simp [h1, h2]
        · simp [h3]

end Proofs1

section Proofs2

variable {K V : Type}

theorem flatMap_congr_mem {α β : Type} {f g : α → List β} {l : List α}
    (h : ∀ x ∈ l, f x = g x) : l.flatMap f = l.flatMap g := by
  induction l with
  | nil => rfl
  | cons a l ih =>
    simp only [List.flatMap_cons]
    rw [h a (List.mem_cons_self _ _), ih (fun x hx => h x (List.mem_cons_of_mem _ hx))]

theorem self_mem_pagesOf (rd : Nat → Option (Page K V)) (d : Nat) (p : Nat) :
    p ∈ pagesOf rd d p := by
  cases d <;> simp [pagesOf]

theorem child_pagesOf {rd : Nat → Option (Page K V)} {d : Nat} {p : Nat}
    {cs : List (K × Nat)} (h : rd p = some (.branch cs)) {e : K × Nat} (he : e ∈ cs)
    {q : Nat} (hq : q ∈ pagesOf rd d e.2) : q ∈ pagesOf rd (d + 1) p := by
  simp only [pagesOf, h, List.mem_cons, List.mem_flatMap]
  exact Or.inr ⟨e, he, hq⟩

theorem pagesOf_congr {rd rd2 : Nat → Option (Page K V)} :
    ∀ (d : Nat) (p : Nat), (∀ q ∈ pagesOf rd d p, rd2 q = rd q) →
      pagesOf rd2 d p = pagesOf rd d p
  | 0, _, _ => rfl
  | d + 1, p, h => by
    have hp : rd2 p = rd p := h p (self_mem_pagesOf rd (d + 1) p)
    simp only [pagesOf, hp]
    cases hrd : rd p with
    | none => rfl
    | some pg =>
      cases pg with
      | meta m => rfl
      | leaf es => rfl
      | branch cs =>
        simp only
        congr 1
        apply flatMap_congr_mem
        intro e he
        exact pagesOf_congr d e.2 (fun q hq => h q (child_pagesOf hrd he hq))

theorem contents_congr {rd rd2 : Nat → Option (Page K V)} :
    ∀ (d : Nat) (p : Nat), (∀ q ∈ pagesOf rd d p, rd2 q = rd q) →
      contents rd2 d p = contents rd d p
  | 0, p, h => by
    have hp : rd2 p = rd p := h p (self_mem_pagesOf rd 0 p)
    simp only [contents, hp]
  | d + 1, p, h => by
    have hp : rd2 p = rd p := h p (self_mem_pagesOf rd (d + 1) p)
    simp only [contents, hp]
    cases hrd : rd p with
    | none => rfl
    | some pg =>
      cases pg with
      | meta m => rfl
      | leaf es => rfl
      | branch cs =>
        simp only
        apply flatMap_congr_mem
        intro e he
        exact contents_congr d e.2 (fun q hq => h q (child_pagesOf hrd he hq))

end Proofs2

section Proofs3

variable {K V : Type}
variable [LinearOrder K]

theorem wf.top {rd : Nat → Option (Page K V)} :
    ∀ {d : Nat} {p : Nat} {lo hi : Option K}, wf rd d p lo hi → wfTop rd d p lo hi
  | 0, _, _, _, ⟨es, h1, _, h3, h4⟩ => ⟨es, h1, h3, h4⟩
  | _ + 1, _, _, _, ⟨cs, h1, h2, h3⟩ =>
    ⟨cs, h1, by intro h; subst h; simp at h2, h3⟩

theorem wfRoot.topRoot {rd : Nat → Option (Page K V)} {d : Nat} {p : Nat}
    (h : wfRoot rd d p) : wfTop rd d p none none := by
  cases d with
  | zero => exact h
  | succ d => exact wf.top h

theorem wfCh_mono {P Q : Nat → Option K → Option K → Prop} :
    ∀ {cs : List (K × Nat)} {lo hi : Option K},
      (∀ e ∈ cs, ∀ lo hi, P e.2 lo hi → Q e.2 lo hi) → wfCh P lo hi cs → wfCh Q lo hi cs
  | [], _, _, _, _ => trivial
  | (_, c) :: rest, _, _, h, ⟨h1, h2, h3⟩ =>
    ⟨h1, h (_, c) (List.mem_cons_self _ _) _ _ h2,
      wfCh_mono (fun e he => h e (List.mem_cons_of_mem _ he)) h3⟩

theorem wf_congr {rd rd2 : Nat → Option (Page K V)} :
    ∀ (d : Nat) (p : Nat) (lo hi : Option K), (∀ q ∈ pagesOf rd d p, rd2 q = rd q) →
      wf rd d p lo hi → wf rd2 d p lo hi
  | 0, p, _, _, h, ⟨es, h1, h2⟩ =>
    ⟨es, by rw [h p (self_mem_pagesOf rd 0 p)]; exact h1, h2⟩
  | d + 1, p, _, _, h, ⟨cs, h1, h2, h3⟩ =>
    ⟨cs, by rw [h p (self_mem_pagesOf rd (d + 1) p)]; exact h1, h2,
      wfCh_mono (fun e he lo hi hw =>
        wf_congr d e.2 lo hi (fun q hq => h q (child_pagesOf h1 he hq)) hw) h3⟩

theorem wfTop_congr {rd rd2 : Nat → Option (Page K V)} :
    ∀ (d : Nat) (p : Nat) (lo hi : Option K), (∀ q ∈ pagesOf rd d p, rd2 q = rd q) →
      wfTop rd d p lo hi → wfTop rd2 d p lo hi
  | 0, p, _, _, h, ⟨es, h1, h2⟩ =>
    ⟨es, by rw [h p (self_mem_pagesOf rd 0 p)]; exact h1, h2⟩
  | d + 1, p, _, _, h, ⟨cs, h1, h2, h3⟩ =>
    ⟨cs, by rw [h p (self_mem_pagesOf rd (d + 1) p)]; exact h1, h2,
      wfCh_mono (fun e he lo hi hw =>
        wf_congr d e.2 lo hi (fun q hq => h q (child_pagesOf h1 he hq)) hw) h3⟩

theorem wfRoot_congr {rd rd2 : Nat → Option (Page K V)} (d : Nat) (p : Nat)
    (h : ∀ q ∈ pagesOf rd d p, rd2 q = rd q) (hw : wfRoot rd d p) : wfRoot rd2 d p := by
  cases d with
  | zero => exact wfTop_congr 0 p none none h hw
  | succ d => exact wf_congr (d + 1) p none none h hw

theorem loB_of_le {lo : Option K} {a b : K} (h : loB lo a) (hab : a ≤ b) : loB lo b := by
  cases lo with
  | none => trivial
  | some l => exact le_trans h hab

theorem hiB_of_le {hi : Option K} {a b : K} (h : hiB hi b) (hab : a ≤ b) : hiB hi a := by
  cases hi with
  | none => trivial
  | some l => exact lt_of_le_of_lt hab h

theorem bLt_of_mem {lo hi : Option K} {k : K} (h1 : loB lo k) (h2 : hiB hi k) : bLt lo hi := by
  cases lo <;> cases hi <;> simp only [bLt]
  exact lt_of_le_of_lt h1 h2

theorem loB_trans {lo : Option K} {m k : K} (h1 : bLt lo (some m)) (h2 : m ≤ k) : loB lo k := by
  cases lo with
  | none => trivial
  | some l => exact le_trans (le_of_lt h1) h2

theorem hiB_trans {hi : Option K} {m k : K} (h1 : k < m) (h2 : bLt (some m) hi) : hiB hi k := by
  cases hi with
  | none => trivial
  | some l => exact lt_trans h1 h2

theorem hiB_weaken {mid hi : Option K} {k : K} (h1 : hiB mid k) (h2 : mid = hi ∨ bLt mid hi)
    (h3 : mid = none → hi = none) : hiB hi k := by
  cases hi with
  | none => trivial
  | some h =>
    cases mid with
    | none => simp at h3
    | some m =>
      rcases h2 with h2 | h2
      · cases h2; exact h1
      · exact lt_trans h1 h2

/-- In a well-formed child list the range of the whole list is not empty, and the upper bound
of the first child is at most the upper bound of the list. -/
theorem wfCh_bLt {P : Nat → Option K → Option K → Prop} :
    ∀ {cs : List (K × Nat)} {lo hi : Option K}, cs ≠ [] → wfCh P lo hi cs → bLt lo hi
  | [], _, _, h, _ => absurd rfl h
  | [(_, _)], _, _, _, ⟨h1, _, _⟩ => h1
  | (_, _) :: (k1, c1) :: rest, lo, hi, _, ⟨h1, _, h3⟩ => by
    have h4 : bLt (some k1) hi := wfCh_bLt (List.cons_ne_nil _ _) h3
    simp only [nextB] at h1
    cases lo with
    | none => cases hi <;> trivial
    | some l =>
      cases hi with
      | none => trivial
      | some h => exact lt_trans h1 h4

theorem wfCh_contents_bounds {rd : Nat → Option (Page K V)} {d : Nat}
    {P : Nat → Option K → Option K → Prop}
    (hP : ∀ c lo hi, P c lo hi → ∀ e ∈ contents rd d c, loB lo e.1 ∧ hiB hi e.1) :
    ∀ {cs : List (K × Nat)} {lo hi : Option K}, wfCh P lo hi cs →
      ∀ e ∈ cs.flatMap (fun c => contents rd d c.2), loB lo e.1 ∧ hiB hi e.1
  | [], _, _, _, e, he => by simp at he
  | (_, c) :: rest, lo, hi, ⟨h1, h2, h3⟩, e, he => by
    simp only [List.flatMap_cons, List.mem_append] at he
    rcases he with he | he
    · have hb := hP c _ _ h2 e he
      refine ⟨hb.1, ?_⟩
      cases rest with
      | nil => exact hb.2
      | cons e1 rest =>
        obtain ⟨k1, c1⟩ := e1
        exact hiB_trans hb.2 (wfCh_bLt (List.cons_ne_nil _ _) h3)
    · have hb := wfCh_contents_bounds hP h3 e he
      refine ⟨?_, hb.2⟩
      cases rest with
      | nil => simp at he
      | cons e1 rest =>
        obtain ⟨k1, c1⟩ := e1
        exact loB_trans h1 hb.1

theorem wfCh_contents_sorted {rd : Nat → Option (Page K V)} {d : Nat}
    {P : Nat → Option K → Option K → Prop}
    (hP : ∀ c lo hi, P c lo hi → ∀ e ∈ contents rd d c, loB lo e.1 ∧ hiB hi e.1)
    (hS : ∀ c lo hi, P c lo hi → KeySorted (contents rd d c)) :
    ∀ {cs : List (K × Nat)} {lo hi : Option K}, wfCh P lo hi cs →
      KeySorted (cs.flatMap (fun c => contents rd d c.2))
  | [], _, _, _ => by simp [KeySorted]
  | (_, c) :: rest, lo, hi, ⟨_, h2, h3⟩ => by
    simp only [List.flatMap_cons, KeySorted]
    rw [List.pairwise_append]
    refine ⟨hS c _ _ h2, wfCh_contents_sorted hP hS h3, ?_⟩
    intro a ha b hb
    cases rest with
    | nil => simp at hb
    | cons e1 rest =>
      obtain ⟨k1, c1⟩ := e1
      have h4 := (hP c _ _ h2 a ha).2
      have h5 := (wfCh_contents_bounds hP h3 b hb).1
      exact lt_of_lt_of_le h4 h5

theorem wfTop_bounds {rd : Nat → Option (Page K V)} :
    ∀ {d : Nat} {p : Nat} {lo hi : Option K}, wfTop rd d p lo hi →
      ∀ e ∈ contents rd d p, loB lo e.1 ∧ hiB hi e.1
  | 0, p, _, _, ⟨es, h1, _, h3⟩, e, he => by
    simp only [contents, h1] at he
    exact h3 e he
  | d + 1, p, _, _, ⟨cs, h1, _, h3⟩, e, he => by
    simp only [contents, h1] at he
    exact wfCh_contents_bounds (fun c lo hi hc => wfTop_bounds (wf.top hc)) h3 e he

theorem wfTop_sorted {rd : Nat → Option (Page K V)} :
    ∀ {d : Nat} {p : Nat} {lo hi : Option K}, wfTop rd d p lo hi →
      KeySorted (contents rd d p)
  | 0, p, _, _, ⟨es, h1, h2, _⟩ => by
    simp only [contents, h1]
    exact h2
  | d + 1, p, _, _, ⟨cs, h1, _, h3⟩ => by
    simp only [contents, h1]
    exact wfCh_contents_sorted (fun c lo hi hc => wfTop_bounds (wf.top hc))
      (fun c lo hi hc => wfTop_sorted (wf.top hc)) h3

end Proofs3

section Proofs4

variable {K V : Type} [LinearOrder K]

omit [LinearOrder K] in
theorem nextB_append (a b : List (K × Nat)) (hi : Option K) :
    nextB (a ++ b) hi = nextB a (nextB b hi) := by
  cases a with
  | nil => rfl
  | cons e a => obtain ⟨k, c⟩ := e; rfl

theorem wfCh_cons (P : Nat → Option K → Option K → Prop) (lo hi : Option K) (k : K)
    (c : Nat) (rest : List (K × Nat)) :
    wfCh P lo hi ((k, c) :: rest) =
      (bLt lo (nextB rest hi) ∧ P c lo (nextB rest hi) ∧ wfCh P (nextB rest hi) hi rest) := rfl

theorem wfCh_append {P : Nat → Option K → Option K → Prop} :
    ∀ (a b : List (K × Nat)) (lo hi : Option K),
      wfCh P lo hi (a ++ b) ↔
        wfCh P lo (nextB b hi) a ∧ wfCh P (lowOf a lo (nextB b hi)) hi b
  | [], b, lo, hi => by simp [wfCh, lowOf]
  | (k0, c0) :: a, b, lo, hi => by
    have ih := wfCh_append (P := P) a b (nextB a (nextB b hi)) hi
    have hl : lowOf a (nextB a (nextB b hi)) (nextB b hi) = nextB b hi := by
      cases a with
      | nil => rfl
      | cons e a => rfl
    rw [hl] at ih
    rw [List.cons_append, wfCh_cons, wfCh_cons, nextB_append, ih]
    simp only [lowOf]
    tauto

theorem childIdx_split (k : K) :
    ∀ cs : List (K × Nat), cs ≠ [] →
      ∃ pre ki c post, cs = pre ++ (ki, c) :: post ∧ pre.length = childIdx k cs ∧
        (pre ≠ [] → ki ≤ k) ∧ (∀ e, post.head? = some e → k < e.1)
  | [], h => absurd rfl h
  | [(k0, c0)], _ => ⟨[], k0, c0, [], rfl, rfl, fun h => absurd rfl h, by simp⟩
  | (k0, c0) :: (k1, c1) :: rest, _ => by
    by_cases h1 : k < k1
    · refine ⟨[], k0, c0, (k1, c1) :: rest, rfl, ?_, fun h => absurd rfl h, ?_⟩
      · simp [childIdx, h1]
      · intro e he
        simp at he
        subst he
        exact h1
    · obtain ⟨pre, ki, c, post, h2, h3, h4, h5⟩ :=
        childIdx_split k ((k1, c1) :: rest) (List.cons_ne_nil _ _)
      refine ⟨(k0, c0) :: pre, ki, c, post, ?_, ?_, ?_, h5⟩
      · rw [h2]; rfl
      · simp [childIdx, h1, h3]
      · intro _
        cases pre with
        | nil =>
          simp only [List.nil_append, List.cons.injEq, Prod.mk.injEq] at h2
          rw [← h2.1.1]
          exact not_lt.mp h1
        | cons e pre => exact h4 (List.cons_ne_nil _ _)

theorem getElem?_split {α : Type} (pre : List α) (x : α) (post : List α) :
    (pre ++ x :: post)[pre.length]? = some x := by
  induction pre with
  | nil => simp
  | cons a pre ih => simpa using ih

theorem take_split {α : Type} (pre : List α) (x : α) (post : List α) :
    (pre ++ x :: post).take pre.length = pre := by
  simp

theorem drop_split {α : Type} (pre : List α) (x : α) (post : List α) :
    (pre ++ x :: post).drop (pre.length + 1) = post := by
  simp

theorem set_split {α : Type} (pre : List α) (x y : α) (post : List α) :
    (pre ++ x :: post).set pre.length y = pre ++ y :: post := by
  simp

theorem descent {rd : Nat → Option (Page K V)} {d : Nat} {lo hi : Option K} {k : K}
    {cs : List (K × Nat)} (hne : cs ≠ []) (hw : wfCh (wf rd d) lo hi cs)
    (hlo : loB lo k) (hhi : hiB hi k) : Nonempty (Descent rd d lo hi k cs) := by
  obtain ⟨pre, ki, c, post, h1, h2, h3, h4⟩ := childIdx_split k cs hne
  subst h1
  rw [wfCh_append] at hw
  obtain ⟨hw1, hw2⟩ := hw
  simp only [nextB] at hw1
  obtain ⟨hw3, hw4, hw5⟩ := hw2
  have hB : ∀ c lo hi, wf rd d c lo hi → ∀ e ∈ contents rd d c, loB lo e.1 ∧ hiB hi e.1 :=
    fun c lo hi hc => wfTop_bounds (wf.top hc)
  refine ⟨⟨pre, ki, c, post, rfl, h2.symm, hw1, hw4, hw3, hw5, ?_, ?_, ?_, ?_⟩⟩
  · cases pre with
    | nil => exact hlo
    | cons e pre => exact h3 (List.cons_ne_nil _ _)
  · cases post with
    | nil => exact hhi
    | cons e post => exact h4 e rfl
  · intro e he
    have hb := (wfCh_contents_bounds hB hw1 e he).2
    cases pre with
    | nil => simp at he
    | cons e1 pre => exact lt_of_lt_of_le hb (h3 (List.cons_ne_nil _ _))
  · intro e he
    have hb := (wfCh_contents_bounds hB hw5 e he).1
    cases post with
    | nil => simp at he
    | cons e1 post => exact lt_of_lt_of_le (h4 e1 rfl) hb

omit [LinearOrder K] in
theorem contents_branch {rd : Nat → Option (Page K V)} {d : Nat} {p : Nat}
    {cs : List (K × Nat)} (h : rd p = some (.branch cs)) :
    contents rd (d + 1) p = cs.flatMap (fun c => contents rd d c.2) := by
  simp only [contents, h]

omit [LinearOrder K] in
theorem contents_leaf {rd : Nat → Option (Page K V)} {p : Nat}
    {es : List (K × V)} (h : rd p = some (.leaf es)) : contents rd 0 p = es := by
  simp only [contents, h]

omit [LinearOrder K] in
theorem pagesOf_branch {rd : Nat → Option (Page K V)} {d : Nat} {p : Nat}
    {cs : List (K × Nat)} (h : rd p = some (.branch cs)) :
    pagesOf rd (d + 1) p = p :: cs.flatMap (fun c => pagesOf rd d c.2) := by
  simp only [pagesOf, h]

theorem flatMap_split {α β : Type} (f : α → List β) (pre : List α) (x : α) (post : List α) :
    (pre ++ x :: post).flatMap f = pre.flatMap f ++ f x ++ post.flatMap f := by
  simp [List.flatMap_append, List.flatMap_cons]

/-- Search finds exactly what the ordered contents of the tree hold. -/
theorem search_eq {rd : Nat → Option (Page K V)} {k : K} :
    ∀ (d : Nat) (p : Nat) (lo hi : Option K), wfTop rd d p lo hi → loB lo k → hiB hi k →
      search rd k d p = .ok (leafFind k (contents rd d p))
  | 0, p, _, _, ⟨es, h1, _, _⟩, _, _ => by
    simp only [search, contents, h1]
  | d + 1, p, lo, hi, ⟨cs, h1, h2, h3⟩, hlo, hhi => by
    obtain ⟨⟨pre, ki, c, post, rfl, idx, _, wc, _, _, klo, khi, below, above⟩⟩ :=
      descent h2 h3 hlo hhi
    simp only [search, h1, idx, getElem?_split]
    rw [search_eq d c _ _ (wf.top wc) klo khi, contents_branch h1, flatMap_split,
      List.append_assoc, leafFind_append_left _ _ _ below, leafFind_append_right _ _ _ above]

end Proofs4

section Proofs5

variable {K V : Type}

theorem Ext.reflE (base : List (Page K V)) (w : WTxn K V) : Ext base w w :=
  ⟨fun _ _ => rfl, fun _ h => h, rfl, rfl, rfl, rfl, le_refl _⟩

theorem Ext.transE {base : List (Page K V)} {w1 w2 w3 : WTxn K V}
    (h1 : Ext base w1 w2) (h2 : Ext base w2 w3) : Ext base w1 w3 :=
  ⟨fun q hq => by
      rw [h2.frame q (fun h => hq (h1.mono q h)), h1.frame q hq],
    fun q h => h1.mono q (h2.mono q h),
    h2.root.trans h1.root, h2.depth.trans h1.depth, h2.txnid.trans h1.txnid,
    h2.failed.trans h1.failed, le_trans h1.next h2.next⟩

theorem reclaim_pages (readers : List Nat) :
    ∀ (fr : List FreeRec),
      (reclaim readers fr).1.map (fun e => e.2) ++ (reclaim readers fr).2.flatMap (fun e => e.2)
        = fr.flatMap (fun e => e.2)
  | [] => rfl
  | (t, pgs) :: rest => by
    simp only [reclaim]
    split_ifs with h
    · cases pgs with
      | nil =>
        simp only [List.flatMap_cons, List.nil_append]
        exact reclaim_pages readers rest
      | cons q qs =>
        simp [List.flatMap_cons, List.map_map, Function.comp_def]
    · simp

theorem WTxn.page_release (base : List (Page K V)) (w : WTxn K V) (p q : Nat) :
    (w.release p).page base q = w.page base q := rfl

theorem WTxn.avail_release (w : WTxn K V) (p q : Nat) :
    (w.release p).Avail q ↔ w.Avail q := Iff.rfl

theorem Ext.releaseE (base : List (Page K V)) (w : WTxn K V) (p : Nat) :
    Ext base w (w.release p) :=
  ⟨fun _ _ => rfl, fun _ h => h, rfl, rfl, rfl, rfl, le_refl _⟩

theorem WTxn.Ok.releaseOk {w : WTxn K V} (h : w.Ok) {p : Nat} (hp : ¬ w.Avail p)
    (hf : p ∉ w.freed) : (w.release p).Ok :=
  ⟨h.nodup, h.below, fun q hq => by
    simp only [WTxn.release, List.mem_cons] at hq
    rcases hq with rfl | hq
    · exact hp
    · exact h.freed q hq, List.nodup_cons.mpr ⟨hf, h.fnodup⟩⟩

theorem dirtyFind_cons (p q : Nat) (pg : Page K V) (rest : List (Nat × Page K V)) :
    dirtyFind p ((q, pg) :: rest) = if q = p then some pg else dirtyFind p rest := rfl

theorem alloc_reuse (base : List (Page K V)) {w w2 : WTxn K V} (hw : w.Ok) {p : Nat}
    {pg : Page K V} (hav : w.availList = p :: w2.availList) (hnext : w2.next = w.next)
    (hd : w2.dirty = (p, pg) :: w.dirty) (hf : w2.freed = w.freed) (h1 : w2.root = w.root)
    (h2 : w2.depth = w.depth) (h3 : w2.txnid = w.txnid) (h4 : w2.failed = w.failed) :
    Alloc base w w2 p pg := by
  have hnd := hw.nodup
  rw [hav, List.nodup_cons] at hnd
  have hsub : ∀ q, w2.Avail q → w.Avail q := by
    intro q hq
    rcases hq with hq | hq
    · left; rw [hav]; exact List.mem_cons_of_mem _ hq
    · right; rw [← hnext]; exact hq
  have hp : w.Avail p := by left; rw [hav]; exact List.mem_cons_self _ _
  refine ⟨⟨?_, hsub, h1, h2, h3, h4, by rw [hnext]⟩,
    ⟨hnd.2, ?_, ?_, by rw [hf]; exact hw.fnodup⟩, ?_, hp, ?_, hf, hd⟩
  · intro q hq
    have hne : p ≠ q := by
      intro h; subst h; exact hq hp
    simp [WTxn.page, hd, dirtyFind_cons, hne]
  · intro q hq
    rw [hnext]
    apply hw.below; rw [hav]; exact List.mem_cons_of_mem _ hq
  · intro q hq hq2
    rw [hf] at hq
    exact hw.freed q hq (hsub q hq2)
  · simp [WTxn.page, hd, dirtyFind_cons]
  · intro h
    rcases h with h | h
    · exact hnd.1 h
    · have : p < w.next := by apply hw.below; rw [hav]; exact List.mem_cons_self _ _
      omega

theorem alloc_fresh (base : List (Page K V)) {w w2 : WTxn K V} (hw : w.Ok)
    {pg : Page K V} (hav : w2.availList = w.availList) (hnext : w2.next = w.next + 1)
    (hd : w2.dirty = (w.next, pg) :: w.dirty) (hf : w2.freed = w.freed) (h1 : w2.root = w.root)
    (h2 : w2.depth = w.depth) (h3 : w2.txnid = w.txnid) (h4 : w2.failed = w.failed) :
    Alloc base w w2 w.next pg := by
  have hsub : ∀ q, w2.Avail q → w.Avail q := by
    intro q hq
    rcases hq with hq | hq
    · left; rw [← hav]; exact hq
    · right; omega
  have hp : w.Avail w.next := by right; exact le_refl _
  refine ⟨⟨?_, hsub, h1, h2, h3, h4, by omega⟩,
    ⟨by rw [hav]; exact hw.nodup, ?_, ?_, by rw [hf]; exact hw.fnodup⟩, ?_, hp, ?_, hf, hd⟩
  · intro q hq
    have hne : w.next ≠ q := by
      intro h; rw [← h] at hq; exact hq hp
    simp [WTxn.page, hd, dirtyFind_cons, hne]
  · intro q hq
    rw [hav] at hq
    have := hw.below q hq
    omega
  · intro q hq hq2
    rw [hf] at hq
    exact hw.freed q hq (hsub q hq2)
  · simp [WTxn.page, hd, dirtyFind_cons]
  · intro h
    rcases h with h | h
    · rw [hav] at h
      have := hw.below _ h
      omega
    · omega

theorem alloc_spec (cfg : Cfg) (readers : List Nat) (base : List (Page K V))
    {w : WTxn K V} (hw : w.Ok) (pg : Page K V) :
    match w.alloc cfg readers pg with
    | .ok (w2, p) => Alloc base w w2 p pg
    | .error e => e = .mapFull := by
  have hrec := reclaim_pages readers w.free
  unfold WTxn.alloc
  cases hpool : w.pool with
  | cons e pool =>
    obtain ⟨t, p⟩ := e
    exact alloc_reuse base hw (by simp [WTxn.availList, hpool]) rfl rfl rfl rfl rfl rfl rfl
  | nil =>
    simp only
    have hav0 : w.availList = w.free.flatMap (fun e => e.2) := by
      simp [WTxn.availList, hpool]
    cases hr : reclaim readers w.free with
    | mk pool2 free2 =>
      rw [hr] at hrec
      simp only at hrec
      cases pool2 with
      | cons e pool =>
        obtain ⟨t, p⟩ := e
        exact alloc_reuse base hw (by rw [hav0, ← hrec]; rfl) rfl rfl rfl rfl rfl rfl rfl
      | nil =>
        simp only
        split_ifs with hlt
        · exact alloc_fresh base hw (by rw [hav0, ← hrec]; rfl) rfl rfl rfl rfl rfl rfl rfl
        · rfl

theorem PgPre.sub {w : WTxn K V} {O O2 : List Nat} (h : PgPre w O) (hs : O2.Sublist O) :
    PgPre w O2 :=
  ⟨h.nodup.sublist hs, fun x hx => h.notAvail x (hs.subset hx),
    fun x hx => h.notFreed x (hs.subset hx)⟩

theorem Fresh.mono_right {base : List (Page K V)} {w w2 w3 : WTxn K V} {x : Nat}
    (h : Fresh w w2 x) (e : Ext base w2 w3) : Fresh w w3 x :=
  ⟨h.1, fun h3 => h.2 (e.mono x h3)⟩

theorem Fresh.mono_left {base : List (Page K V)} {w w2 w3 : WTxn K V} {x : Nat}
    (e : Ext base w w2) (h : Fresh w2 w3 x) : Fresh w w3 x :=
  ⟨e.mono x h.1, h.2⟩

theorem PgPost.notAvail {w w2 : WTxn K V} {O N : List Nat} (h : PgPost w w2 O N)
    {base : List (Page K V)} (e : Ext base w w2) (hO : ∀ x ∈ O, ¬ w.Avail x) :
    ∀ x ∈ N, ¬ w2.Avail x := by
  intro x hx
  rcases h.src x hx with h1 | h1
  · exact fun h2 => hO x h1 (e.mono x h2)
  · exact h1.2

theorem PgPost.toPre {w w2 : WTxn K V} {O N : List Nat} (h : PgPost w w2 O N)
    {base : List (Page K V)} (e : Ext base w w2) (hO : ∀ x ∈ O, ¬ w.Avail x) :
    PgPre w2 N :=
  ⟨h.nodup, h.notAvail e hO, h.live⟩

/-- Subtrees whose pages the allocator cannot hand out are untouched by a continuation of the
write transaction. -/
theorem stable_pages {base : List (Page K V)} {w w2 : WTxn K V} (e : Ext base w w2)
    (d : Nat) (cs : List (K × Nat))
    (h : ∀ q ∈ pagesCh (w.page base) d cs, ¬ w.Avail q) :
    pagesCh (w2.page base) d cs = pagesCh (w.page base) d cs := by
  apply flatMap_congr_mem
  intro c hc
  apply pagesOf_congr
  intro q hq
  exact e.frame q (h q (List.mem_flatMap.mpr ⟨c, hc, hq⟩))

theorem stable_contents {base : List (Page K V)} {w w2 : WTxn K V} (e : Ext base w w2)
    (d : Nat) (cs : List (K × Nat))
    (h : ∀ q ∈ pagesCh (w.page base) d cs, ¬ w.Avail q) :
    contentsCh (w2.page base) d cs = contentsCh (w.page base) d cs := by
  apply flatMap_congr_mem
  intro c hc
  apply contents_congr
  intro q hq
  exact e.frame q (h q (List.mem_flatMap.mpr ⟨c, hc, hq⟩))

theorem stable_wfCh [LinearOrder K] {base : List (Page K V)} {w w2 : WTxn K V}
    (e : Ext base w w2) (d : Nat) (cs : List (K × Nat)) (lo hi : Option K)
    (h : ∀ q ∈ pagesCh (w.page base) d cs, ¬ w.Avail q)
    (hw : wfCh (wf (w.page base) d) lo hi cs) : wfCh (wf (w2.page base) d) lo hi cs := by
  apply wfCh_mono _ hw
  intro c hc lo hi hwc
  apply wf_congr d c.2 lo hi _ hwc
  intro q hq
  exact e.frame q (h q (List.mem_flatMap.mpr ⟨c, hc, hq⟩))

end Proofs5

section Proofs6

variable {K V : Type}
variable [LinearOrder K]

theorem storeNode_spec {X : Type} (cfg : Cfg) (readers : List Nat) (base : List (Page K V))
    (cap : Nat) (hcap : 1 ≤ cap) (mk : List (K × X) → Page K V) (es : List (K × X))
    {w : WTxn K V} (hw : w.Ok) :
    match storeNode cfg readers cap mk es w with
    | .ok (w2, pl, sp) => Stored base w w2 cap mk es pl sp
    | .error e => e = .mapFull := by
  unfold storeNode
  split_ifs with hlen
  · have h1 := alloc_spec cfg readers base hw (mk es)
    cases ha : w.alloc cfg readers (mk es) with
    | error e => rw [ha] at h1; exact h1
    | ok r =>
      obtain ⟨w1, p⟩ := r
      rw [ha] at h1
      exact ⟨h1.ext, h1.ok, h1.freed, ⟨h1.was, h1.now⟩, fun _ => ⟨h1.page, hlen⟩,
        fun s q h => by simp at h⟩
  · cases hd : es.drop (splitPoint es.length) with
    | nil =>
      exfalso
      have h2 := congrArg List.length hd
      simp only [List.length_drop, List.length_nil, splitPoint] at h2
      omega
    | cons e r =>
      obtain ⟨sep, x⟩ := e
      simp only
      have h1 := alloc_spec cfg readers base hw (mk (es.take (splitPoint es.length)))
      cases ha : w.alloc cfg readers (mk (es.take (splitPoint es.length))) with
      | error e => rw [ha] at h1; exact h1
      | ok r1 =>
        obtain ⟨w1, pl⟩ := r1
        rw [ha] at h1
        simp only
        have h2 := alloc_spec cfg readers base h1.ok (mk ((sep, x) :: r))
        cases hb : w1.alloc cfg readers (mk ((sep, x) :: r)) with
        | error e => rw [hb] at h2; exact h2
        | ok r2 =>
          obtain ⟨w2, pr⟩ := r2
          rw [hb] at h2
          have hne : pl ≠ pr := by
            intro h; subst h; exact h1.now h2.was
          refine ⟨h1.ext.transE h2.ext, h2.ok, h2.freed.trans h1.freed,
            ⟨h1.was, fun h => h1.now (h2.ext.mono _ h)⟩, fun h => by simp at h, ?_⟩
          intro s q hsq
          simp only [Option.some.injEq, Prod.mk.injEq] at hsq
          obtain ⟨rfl, rfl⟩ := hsq
          refine ⟨?_, by rw [hd]; exact h2.page, by rw [hd]; rfl,
            ⟨h1.ext.mono _ h2.was, h2.now⟩, hne, by omega⟩
          rw [h2.ext.frame pl h1.now]
          exact h1.page

end Proofs6

section Proofs7

variable {K V : Type}

theorem PgPost.transP {base : List (Page K V)} {w w1 w2 : WTxn K V} {O N1 N2 : List Nat}
    (e1 : Ext base w w1) (e2 : Ext base w1 w2)
    (h1 : PgPost w w1 O N1) (h2 : PgPost w1 w2 N1 N2) : PgPost w w2 O N2 := by
  refine ⟨h2.nodup, ?_, h2.live, ?_⟩
  · intro x hx
    rcases h2.src x hx with h | h
    · rcases h1.src x h with h | h
      · exact Or.inl h
      · exact Or.inr (h.mono_right e2)
    · exact Or.inr (Fresh.mono_left e1 h)
  · intro x hx
    rcases h2.freedSrc x hx with h | h | h
    · rcases h1.freedSrc x h with h | h | h
      · exact Or.inl h
      · exact Or.inr (Or.inl h)
      · exact Or.inr (Or.inr (h.mono_right e2))
    · rcases h1.src x h with h | h
      · exact Or.inr (Or.inl h)
      · exact Or.inr (Or.inr (h.mono_right e2))
    · exact Or.inr (Or.inr (Fresh.mono_left e1 h))

/-- Replace the pages `Oc` of one part of a tree by `Nc`; the other parts `A` and `B` and the
top page `p` stay. -/
theorem PgPost.lift {w w1 : WTxn K V} {Oc Nc : List Nat} (h : PgPost w w1 Oc Nc)
    (A B : List Nat) (hpre : PgPre w (A ++ Oc ++ B)) :
    PgPost w w1 (A ++ Oc ++ B) (A ++ Nc ++ B) := by
  have hnd := hpre.nodup
  rw [List.append_assoc, List.nodup_append, List.nodup_append] at hnd
  obtain ⟨hA, ⟨hOc, hB, hOB⟩, hAOB⟩ := hnd
  have hNcA : ∀ x ∈ Nc, x ∉ A := by
    intro x hx hxA
    rcases h.src x hx with h1 | h1
    · exact hAOB hxA (List.mem_append_left _ h1)
    · exact hpre.notAvail x (by simp [hxA]) h1.1
  have hNcB : ∀ x ∈ Nc, x ∉ B := by
    intro x hx hxB
    rcases h.src x hx with h1 | h1
    · exact hOB h1 hxB
    · exact hpre.notAvail x (by simp [hxB]) h1.1
  have hfr : ∀ x ∈ A ++ B, x ∉ w1.freed := by
    intro x hx hf
    have hxO : x ∈ A ++ Oc ++ B := by
      simp only [List.mem_append] at hx ⊢; tauto
    rcases h.freedSrc x hf with h1 | h1 | h1
    · exact hpre.notFreed x hxO h1
    · rcases List.mem_append.mp hx with h2 | h2
      · exact hAOB h2 (List.mem_append_left _ h1)
      · exact hOB h1 h2
    · exact hpre.notAvail x hxO h1.1
  refine ⟨?_, ?_, ?_, ?_⟩
  · rw [List.append_assoc, List.nodup_append, List.nodup_append]
    refine ⟨hA, ⟨h.nodup, hB, fun x hx hxB => hNcB x hx hxB⟩, ?_⟩
    intro x hxA hx
    rcases List.mem_append.mp hx with h1 | h1
    · exact hNcA x h1 hxA
    · exact hAOB hxA (List.mem_append_right _ h1)
  · intro x hx
    simp only [List.mem_append] at hx ⊢
    rcases hx with (hx | hx) | hx
    · tauto
    · rcases h.src x hx with h1 | h1 <;> tauto
    · tauto
  · intro x hx
    simp only [List.mem_append] at hx
    rcases hx with (hx | hx) | hx
    · exact hfr x (List.mem_append_left _ hx)
    · exact h.live x hx
    · exact hfr x (List.mem_append_right _ hx)
  · intro x hx
    rcases h.freedSrc x hx with h1 | h1 | h1
    · exact Or.inl h1
    · exact Or.inr (Or.inl (by simp [h1]))
    · exact Or.inr (Or.inr h1)

/-- Freeing the top page `p` of a tree leaves the pages below it. -/
theorem PgPost.releaseP {w : WTxn K V} {p : Nat} {R : List Nat} (h : PgPre w (p :: R)) :
    PgPost w (w.release p) (p :: R) R := by
  have hnd := List.nodup_cons.mp h.nodup
  refine ⟨hnd.2, fun x hx => Or.inl (List.mem_cons_of_mem _ hx), ?_, ?_⟩
  · intro x hx hf
    simp only [WTxn.release, List.mem_cons] at hf
    rcases hf with rfl | hf
    · exact hnd.1 hx
    · exact h.notFreed x (List.mem_cons_of_mem _ hx) hf
  · intro x hx
    simp only [WTxn.release, List.mem_cons] at hx
    rcases hx with rfl | hx
    · exact Or.inr (Or.inl (List.mem_cons_self _ _))
    · exact Or.inl hx

/-- Allocating the new pages `F` above the pages `R`. -/
theorem PgPost.store {base : List (Page K V)} {w w2 : WTxn K V} {R F N : List Nat}
    (h : PgPre w R) (hw : w.Ok) (e : Ext base w w2) (hf : w2.freed = w.freed)
    (hF : ∀ x ∈ F, Fresh w w2 x) (hFn : F.Nodup) (hN : N.Perm (F ++ R)) :
    PgPost w w2 R N := by
  refine ⟨?_, ?_, ?_, ?_⟩
  · rw [hN.nodup_iff, List.nodup_append]
    exact ⟨hFn, h.nodup, fun x hx hxR => h.notAvail x hxR (hF x hx).1⟩
  · intro x hx
    rcases List.mem_append.mp (hN.subset hx) with h1 | h1
    · exact Or.inr (hF x h1)
    · exact Or.inl h1
  · intro x hx
    rw [hf]
    rcases List.mem_append.mp (hN.subset hx) with h1 | h1
    · exact fun h2 => hw.freed x h2 (hF x h1).1
    · exact h.notFreed x h1
  · intro x hx
    rw [hf] at hx
    exact Or.inl hx

theorem PgPost.reflP {w : WTxn K V} {O : List Nat} (h : PgPre w O) : PgPost w w O O :=
  ⟨h.nodup, fun _ hx => Or.inl hx, h.notFreed, fun _ hx => Or.inl hx⟩

theorem PgPost.permP {w w2 : WTxn K V} {O N N2 : List Nat} (h : PgPost w w2 O N)
    (hp : N2.Perm N) : PgPost w w2 O N2 :=
  ⟨hp.nodup_iff.mpr h.nodup, fun x hx => h.src x (hp.subset hx),
    fun x hx => h.live x (hp.subset hx), h.freedSrc⟩

theorem PgPost.permO {w w2 : WTxn K V} {O O2 N : List Nat} (h : PgPost w w2 O N)
    (hp : O.Perm O2) : PgPost w w2 O2 N :=
  ⟨h.nodup, fun x hx => (h.src x hx).imp (fun h1 => hp.subset h1) id, h.live,
    fun x hx => (h.freedSrc x hx).imp id (Or.imp (fun h1 => hp.subset h1) id)⟩

theorem PgPre.permPre {w : WTxn K V} {O O2 : List Nat} (h : PgPre w O) (hp : O2.Perm O) :
    PgPre w O2 :=
  ⟨hp.nodup_iff.mpr h.nodup, fun x hx => h.notAvail x (hp.subset hx),
    fun x hx => h.notFreed x (hp.subset hx)⟩

end Proofs7

section Proofs8

variable {K V : Type} [LinearOrder K]

omit [LinearOrder K] in
theorem contentsCh_nil (rd : Nat → Option (Page K V)) (d : Nat) :
    contentsCh rd d [] = [] := rfl

omit [LinearOrder K] in
theorem contentsCh_cons (rd : Nat → Option (Page K V)) (d : Nat) (k : K) (c : Nat)
    (rest : List (K × Nat)) :
    contentsCh rd d ((k, c) :: rest) = contents rd d c ++ contentsCh rd d rest := rfl

omit [LinearOrder K] in
theorem contentsCh_append (rd : Nat → Option (Page K V)) (d : Nat) (a b : List (K × Nat)) :
    contentsCh rd d (a ++ b) = contentsCh rd d a ++ contentsCh rd d b :=
  List.flatMap_append _ _ _

omit [LinearOrder K] in
theorem pagesCh_nil (rd : Nat → Option (Page K V)) (d : Nat) : pagesCh rd d [] = [] := rfl

omit [LinearOrder K] in
theorem pagesCh_cons (rd : Nat → Option (Page K V)) (d : Nat) (k : K) (c : Nat)
    (rest : List (K × Nat)) :
    pagesCh rd d ((k, c) :: rest) = pagesOf rd d c ++ pagesCh rd d rest := rfl

omit [LinearOrder K] in
theorem pagesCh_append (rd : Nat → Option (Page K V)) (d : Nat) (a b : List (K × Nat)) :
    pagesCh rd d (a ++ b) = pagesCh rd d a ++ pagesCh rd d b :=
  List.flatMap_append _ _ _

omit [LinearOrder K] in
theorem contents_branchCh {rd : Nat → Option (Page K V)} {d : Nat} {p : Nat}
    {cs : List (K × Nat)} (h : rd p = some (.branch cs)) :
    contents rd (d + 1) p = contentsCh rd d cs := contents_branch h

omit [LinearOrder K] in
theorem pagesOf_branchCh {rd : Nat → Option (Page K V)} {d : Nat} {p : Nat}
    {cs : List (K × Nat)} (h : rd p = some (.branch cs)) :
    pagesOf rd (d + 1) p = p :: pagesCh rd d cs := pagesOf_branch h

omit [LinearOrder K] in
theorem insRepl_none (ki : K) (p : Nat) : insRepl ki p none = [(ki, p)] := rfl

omit [LinearOrder K] in
theorem insRepl_some (ki s : K) (p q : Nat) : insRepl ki p (some (s, q)) = [(ki, p), (s, q)] := rfl

theorem wf_leaf_intro {rd : Nat → Option (Page K V)} {p : Nat} {es : List (K × V)}
    {lo hi : Option K} (h1 : rd p = some (.leaf es)) (h2 : es ≠ []) (h3 : KeySorted es)
    (h4 : ∀ e ∈ es, loB lo e.1 ∧ hiB hi e.1) : wf rd 0 p lo hi :=
  ⟨es, h1, h2, h3, h4⟩

theorem sorted_take_drop {X : Type} {es : List (K × X)} (n : Nat)
    (hs : es.Pairwise (fun a b => a.1 < b.1)) :
    (es.take n).Pairwise (fun a b => a.1 < b.1) ∧ (es.drop n).Pairwise (fun a b => a.1 < b.1) ∧
      ∀ a ∈ es.take n, ∀ b ∈ es.drop n, a.1 < b.1 := by
  have h := hs
  rw [← List.take_append_drop n es, List.pairwise_append] at h
  exact h

theorem leaf_store {base : List (Page K V)} {w w2 : WTxn K V} {cap : Nat}
    {es : List (K × V)} {p2 : Nat} {sp : Option (K × Nat)} (lo hi : Option K)
    (h : Stored base w w2 cap Page.leaf es p2 sp) (hcap : 1 ≤ cap) (hne : es ≠ [])
    (hs : KeySorted es) (hb : ∀ e ∈ es, loB lo e.1 ∧ hiB hi e.1) (ki : K) :
    wfCh (wf (w2.page base) 0) lo hi (insRepl ki p2 sp) ∧
      contentsCh (w2.page base) 0 (insRepl ki p2 sp) = es ∧
      ∃ F, (pagesCh (w2.page base) 0 (insRepl ki p2 sp)).Perm (F ++ []) ∧ F.Nodup ∧
        ∀ x ∈ F, Fresh w w2 x := by
  cases sp with
  | none =>
    obtain ⟨hp, _⟩ := h.one rfl
    obtain ⟨e0, he0⟩ := List.exists_mem_of_ne_nil es hne
    refine ⟨⟨bLt_of_mem (hb e0 he0).1 (hb e0 he0).2, wf_leaf_intro hp hne hs hb, trivial⟩, ?_,
      [p2], ?_, by simp, ?_⟩
    · simp [insRepl_none, contentsCh_cons, contentsCh_nil, contents_leaf hp]
    · simp [insRepl_none, pagesCh_cons, pagesCh_nil, pagesOf]
    · intro x hx
      simp only [List.mem_singleton] at hx
      subst hx
      exact h.fresh
  | some sq =>
    obtain ⟨s, q⟩ := sq
    obtain ⟨hp, hq, hhd, hfq, hne2, hlen⟩ := h.two s q rfl
    obtain ⟨hs1, hs2, hs3⟩ := sorted_take_drop (splitPoint es.length) hs
    have hn : 2 ≤ es.length := by omega
    cases hd : es.drop (splitPoint es.length) with
    | nil => rw [hd] at hhd; simp at hhd
    | cons e r =>
      rw [hd] at hhd hs2 hs3 hq
      simp only [List.head?_cons, Option.map_some', Option.some.injEq] at hhd
      have htl : (es.take (splitPoint es.length)) ≠ [] := by
        intro h0
        have := congrArg List.length h0
        simp only [List.length_take, List.length_nil, splitPoint] at this
        omega
      have hsub1 : ∀ e ∈ es.take (splitPoint es.length), e ∈ es :=
        fun e he => List.mem_of_mem_take he
      have hsub2 : ∀ x ∈ e :: r, x ∈ es := by
        intro x hx; rw [← hd] at hx; exact List.mem_of_mem_drop hx
      have hb1 : ∀ x ∈ es.take (splitPoint es.length), loB lo x.1 ∧ hiB (some s) x.1 := by
        intro x hx
        refine ⟨(hb x (hsub1 x hx)).1, ?_⟩
        have := hs3 x hx e (List.mem_cons_self _ _)
        rw [hhd] at this
        exact this
      have hb2 : ∀ x ∈ e :: r, loB (some s) x.1 ∧ hiB hi x.1 := by
        intro x hx
        refine ⟨?_, (hb x (hsub2 x hx)).2⟩
        rcases List.mem_cons.mp hx with rfl | hx
        · exact le_of_eq hhd.symm
        · rw [← hhd]
          exact le_of_lt ((List.pairwise_cons.mp hs2).1 x hx)
      obtain ⟨e0, he0⟩ := List.exists_mem_of_ne_nil _ htl
      refine ⟨⟨bLt_of_mem (hb1 e0 he0).1 (hb1 e0 he0).2, wf_leaf_intro hp htl hs1 hb1,
        bLt_of_mem (hb2 e (List.mem_cons_self _ _)).1 (hb2 e (List.mem_cons_self _ _)).2,
        wf_leaf_intro hq (List.cons_ne_nil _ _) hs2 hb2, trivial⟩, ?_, [p2, q], ?_, ?_, ?_⟩
      · simp only [insRepl_some, contentsCh_cons, contentsCh_nil,
          contents_leaf hp, contents_leaf hq, List.append_nil]
        rw [← hd, List.take_append_drop]
      · simp [insRepl_some, pagesCh_cons, pagesCh_nil, pagesOf]
      · simp [hne2]
      · intro x hx
        simp only [List.mem_cons, List.mem_singleton, List.not_mem_nil, or_false] at hx
        rcases hx with rfl | rfl
        · exact h.fresh
        · exact hfq

theorem branch_store {base : List (Page K V)} {w w2 : WTxn K V} {cap d : Nat}
    {cs : List (K × Nat)} {p2 : Nat} {sp : Option (K × Nat)} (lo hi : Option K)
    (h : Stored base w w2 cap Page.branch cs p2 sp) (hcap : 3 ≤ cap) (hlen : 2 ≤ cs.length)
    (hw : wfCh (wf (w.page base) d) lo hi cs)
    (hna : ∀ x ∈ pagesCh (w.page base) d cs, ¬ w.Avail x) (ki : K) :
    wfCh (wf (w2.page base) (d + 1)) lo hi (insRepl ki p2 sp) ∧
      contentsCh (w2.page base) (d + 1) (insRepl ki p2 sp) = contentsCh (w.page base) d cs ∧
      ∃ F, (pagesCh (w2.page base) (d + 1) (insRepl ki p2 sp)).Perm
          (F ++ pagesCh (w.page base) d cs) ∧ F.Nodup ∧ ∀ x ∈ F, Fresh w w2 x := by
  have hw2 := stable_wfCh h.ext d cs lo hi hna hw
  have hc2 := stable_contents h.ext d cs hna
  have hp2 := stable_pages h.ext d cs hna
  have hne : cs ≠ [] := by intro h0; subst h0; simp at hlen
  cases sp with
  | none =>
    obtain ⟨hp, _⟩ := h.one rfl
    refine ⟨⟨wfCh_bLt hne hw2, ⟨cs, hp, hlen, hw2⟩, trivial⟩, ?_, [p2], ?_, by simp, ?_⟩
    · simp only [insRepl_none, contentsCh_cons, contentsCh_nil,
        List.append_nil, contents_branchCh hp]
      exact hc2
    · simp only [insRepl_none, pagesCh_cons, pagesCh_nil,
        List.append_nil, pagesOf_branchCh hp, List.singleton_append]
      rw [← hp2]
    · intro x hx
      simp only [List.mem_singleton] at hx
      subst hx
      exact h.fresh
  | some sq =>
    obtain ⟨s, q⟩ := sq
    obtain ⟨hp, hq, hhd, hfq, hne2, hlen2⟩ := h.two s q rfl
    have hfp := h.fresh
    have hn : 4 ≤ cs.length := by omega
    have hl1 : 2 ≤ (cs.take (splitPoint cs.length)).length := by
      simp only [List.length_take, splitPoint]; omega
    have hl2 : 2 ≤ (cs.drop (splitPoint cs.length)).length := by
      simp only [List.length_drop, splitPoint]; omega
    have hsplit := List.take_append_drop (splitPoint cs.length) cs
    cases hd : cs.drop (splitPoint cs.length) with
    | nil => rw [hd] at hhd; simp at hhd
    | cons e r =>
      obtain ⟨s0, x⟩ := e
      rw [hd] at hhd hq hl2 hsplit
      simp only [List.head?_cons, Option.map_some', Option.some.injEq] at hhd
      subst hhd
      have htl : (cs.take (splitPoint cs.length)) ≠ [] := by
        intro h0; rw [h0] at hl1; simp at hl1
      generalize cs.take (splitPoint cs.length) = L at hp hl1 hsplit htl
      clear hd h hlen2 hn hlen hne
      subst hsplit
      rw [wfCh_append] at hw2
      obtain ⟨hwl, hwr⟩ := hw2
      have hlow : lowOf L lo (nextB ((s0, x) :: r) hi) = some s0 := by
        cases L with
        | nil => exact absurd rfl htl
        | cons a l => rfl
      rw [hlow] at hwr
      simp only [nextB] at hwl
      refine ⟨⟨wfCh_bLt htl hwl, ⟨_, hp, hl1, hwl⟩, wfCh_bLt (List.cons_ne_nil _ _) hwr,
        ⟨_, hq, hl2, hwr⟩, trivial⟩, ?_, [p2, q], ?_, by simp [hne2], ?_⟩
      · rw [insRepl_some, contentsCh_cons, contentsCh_cons, contentsCh_nil, List.append_nil,
          contents_branchCh hp, contents_branchCh hq, ← contentsCh_append]
        exact hc2
      · rw [insRepl_some, pagesCh_cons, pagesCh_cons, pagesCh_nil, List.append_nil,
          pagesOf_branchCh hp, pagesOf_branchCh hq, ← hp2, pagesCh_append]
        simp only [List.cons_append, List.nil_append]
        apply List.Perm.cons
        exact List.perm_middle
      · intro x hx
        simp only [List.mem_cons, List.mem_singleton, List.not_mem_nil, or_false] at hx
        rcases hx with rfl | rfl
        · assumption
        · exact hfq

theorem wf.toIn {rd : Nat → Option (Page K V)} {d : Nat} {p : Nat} {lo hi : Option K}
    (h : wf rd d p lo hi) : wfIn rd d p lo hi := by
  cases d with
  | zero => exact wf.top h
  | succ d => exact h

theorem wfIn.topIn {rd : Nat → Option (Page K V)} {d : Nat} {p : Nat} {lo hi : Option K}
    (h : wfIn rd d p lo hi) : wfTop rd d p lo hi := by
  cases d with
  | zero => exact h
  | succ d => exact wf.top h

theorem wfRoot_iff_wfIn {rd : Nat → Option (Page K V)} {d : Nat} {p : Nat} :
    wfRoot rd d p ↔ wfIn rd d p none none := by
  cases d <;> exact Iff.rfl

theorem leafInsert_ne_nil (k : K) (v : V) (es : List (K × V)) : leafInsert k v es ≠ [] := by
  cases es with
  | nil => simp [leafInsert]
  | cons e es =>
    obtain ⟨k1, v1⟩ := e
    rw [leafInsert_cons]
    split_ifs <;> simp

omit [LinearOrder K] in
theorem nextB_insRepl (ki : K) (c1 : Nat) (sp : Option (K × Nat)) (rest : List (K × Nat))
    (hi : Option K) : nextB (insRepl ki c1 sp ++ rest) hi = some ki := by
  cases sp with
  | none => rfl
  | some sq => rfl

omit [LinearOrder K] in
theorem lowOf_insRepl (ki : K) (c1 : Nat) (sp : Option (K × Nat)) (lo x : Option K) :
    lowOf (insRepl ki c1 sp) lo x = x := by
  cases sp with
  | none => rfl
  | some sq => rfl

omit [LinearOrder K] in
theorem length_insRepl (ki : K) (c1 : Nat) (sp : Option (K × Nat)) :
    1 ≤ (insRepl ki c1 sp).length := by
  cases sp with
  | none => simp [insRepl]
  | some sq => simp [insRepl]

theorem insAt_leaf (cfg : Cfg) (hc : CfgOk cfg) (readers : List Nat) (base : List (Page K V))
    (k : K) (v : V) (p : Nat) (w : WTxn K V) (lo hi : Option K) (hw : w.Ok)
    (hwf : wfTop (w.page base) 0 p lo hi) (hpre : PgPre w [p])
    (hlo : loB lo k) (hhi : hiB hi k) :
    match insAt cfg readers base k v 0 p w with
    | .error e => e = .mapFull
    | .ok (w2, p2, sp) =>
      InsPost base w w2 0 lo hi [p] (leafInsert k v (contents (w.page base) 0 p)) p2 sp := by
  obtain ⟨es, h1, h2, h3⟩ := hwf
  have hna : ¬ w.Avail p := hpre.notAvail p (List.mem_singleton_self p)
  have hok1 := hw.releaseOk hna (hpre.notFreed p (List.mem_singleton_self p))
  have hst := storeNode_spec cfg readers base cfg.leafCap hc.leafCap Page.leaf
    (leafInsert k v es) hok1
  simp only [insAt, h1]
  cases hr : storeNode cfg readers cfg.leafCap Page.leaf (leafInsert k v es) (w.release p) with
  | error e => rw [hr] at hst; exact hst
  | ok r =>
    obtain ⟨w2, p2, sp⟩ := r
    rw [hr] at hst
    simp only at hst ⊢
    have hb : ∀ e ∈ leafInsert k v es, loB lo e.1 ∧ hiB hi e.1 := by
      intro e he
      rcases mem_leafInsert he with rfl | he
      · exact ⟨hlo, hhi⟩
      · exact h3 e he
    have hL := fun ki => leaf_store lo hi hst hc.leafCap
      (leafInsert_ne_nil k v es) h2.insert hb ki
    have hext : Ext base w w2 := (Ext.releaseE base w p).transE hst.ext
    refine ⟨hext, hst.ok, fun ki => (hL ki).1, ?_, ?_⟩
    · intro ki
      rw [(hL ki).2.1, contents_leaf h1]
    · intro ki
      obtain ⟨F, hF1, hF2, hF3⟩ := (hL ki).2.2
      have hP1 : PgPost w (w.release p) [p] [] := PgPost.releaseP hpre
      have hpre1 : PgPre (w.release p) [] := hP1.toPre (Ext.releaseE base w p) hpre.notAvail
      have hP2 : PgPost (w.release p) w2 [] _ :=
        PgPost.store hpre1 hok1 hst.ext hst.freed hF3 hF2 hF1
      exact PgPost.transP (Ext.releaseE base w p) hst.ext hP1 hP2

theorem insAt_spec (cfg : Cfg) (hc : CfgOk cfg) (readers : List Nat) (base : List (Page K V))
    (k : K) (v : V) :
    ∀ (d p : Nat) (w : WTxn K V) (lo hi : Option K), w.Ok →
      wfIn (w.page base) d p lo hi → PgPre w (pagesOf (w.page base) d p) →
      loB lo k → hiB hi k →
      match insAt cfg readers base k v d p w with
      | .error e => e = .mapFull
      | .ok (w2, p2, sp) =>
        InsPost base w w2 d lo hi (pagesOf (w.page base) d p)
          (leafInsert k v (contents (w.page base) d p)) p2 sp
  | 0, p, w, lo, hi, hw, hwf, hpre, hlo, hhi =>
    insAt_leaf cfg hc readers base k v p w lo hi hw hwf hpre hlo hhi
  | d + 1, p, w, lo, hi, hw, hwf, hpre, hlo, hhi => by
    obtain ⟨cs, h1, h2, h3⟩ := hwf
    have hne : cs ≠ [] := by intro h0; subst h0; simp at h2
    obtain ⟨⟨pre, ki, c, post, rfl, idx, wpre, wc, _, wpost, klo, khi, below, above⟩⟩ :=
      descent hne h3 hlo hhi
    rw [pagesOf_branchCh h1, pagesCh_append, pagesCh_cons, ← List.append_assoc] at hpre
    have hpreT : PgPre w (pagesCh (w.page base) d pre ++ pagesOf (w.page base) d c ++
        pagesCh (w.page base) d post) := hpre.sub (List.sublist_cons_self _ _)
    have hpreC : PgPre w (pagesOf (w.page base) d c) :=
      hpreT.sub ((List.sublist_append_right _ _).trans (List.sublist_append_left _ _))
    have ih := insAt_spec cfg hc readers base k v d c w _ _ hw wc.toIn hpreC klo khi
    simp only [insAt, h1, idx, getElem?_split, take_split, drop_split]
    cases hr : insAt cfg readers base k v d c w with
    | error e => rw [hr] at ih; exact ih
    | ok r =>
      obtain ⟨w1, c1, sp1⟩ := r
      rw [hr] at ih
      simp only at ih ⊢
      -- the state after the insert below
      have hnaP : ¬ w1.Avail p := fun h =>
        hpre.notAvail p (List.mem_cons_self _ _) (ih.ext.mono p h)
      have hP1 := (ih.pages ki).lift (p :: pagesCh (w.page base) d pre)
        (pagesCh (w.page base) d post) hpre
      have hpre1 := hP1.toPre ih.ext hpre.notAvail
      have hok1 := ih.ok.releaseOk hnaP (hpre1.notFreed p (by simp))
      have hnaPre : ∀ q ∈ pagesCh (w.page base) d pre, ¬ w.Avail q := fun q hq =>
        hpre.notAvail q (by simp [hq])
      have hnaPost : ∀ q ∈ pagesCh (w.page base) d post, ¬ w.Avail q := fun q hq =>
        hpre.notAvail q (by simp [hq])
      have hsPre := stable_pages ih.ext d pre hnaPre
      have hsPost := stable_pages ih.ext d post hnaPost
      have hcPre := stable_contents ih.ext d pre hnaPre
      have hcPost := stable_contents ih.ext d post hnaPost
      have hwPre := stable_wfCh ih.ext d pre _ _ hnaPre wpre
      have hwPost := stable_wfCh ih.ext d post _ _ hnaPost wpost
      have hpg1 : pagesCh (w1.page base) d (pre ++ insRepl ki c1 sp1 ++ post) =
          pagesCh (w.page base) d pre ++ pagesCh (w1.page base) d (insRepl ki c1 sp1) ++
            pagesCh (w.page base) d post := by
        rw [pagesCh_append, pagesCh_append, hsPre, hsPost]
      have hP2 : PgPost w1 (w1.release p) _ _ := PgPost.releaseP hpre1
      have hpre2 := hP2.toPre (Ext.releaseE base w1 p) hpre1.notAvail
      have hwf1 : wfCh (wf ((w1.release p).page base) d) lo hi
          (pre ++ insRepl ki c1 sp1 ++ post) := by
        rw [List.append_assoc, wfCh_append, nextB_insRepl, wfCh_append, lowOf_insRepl]
        refine ⟨hwPre, ?_, hwPost⟩
        have := ih.tree ki
        cases pre with
        | nil => exact this
        | cons a l => exact this
      have hlen : 2 ≤ (pre ++ insRepl ki c1 sp1 ++ post).length := by
        have := length_insRepl ki c1 sp1
        simp only [List.length_append, List.length_cons] at h2 ⊢
        omega
      have hna1 : ∀ x ∈ pagesCh ((w1.release p).page base) d
          (pre ++ insRepl ki c1 sp1 ++ post), ¬ (w1.release p).Avail x := by
        intro x hx
        have hx2 : x ∈ pagesCh (w1.page base) d (pre ++ insRepl ki c1 sp1 ++ post) := hx
        rw [hpg1] at hx2
        exact hpre2.notAvail x hx2
      have hst := storeNode_spec cfg readers base cfg.branchCap
        (le_trans (by decide) hc.branchCap) Page.branch
        (pre ++ insRepl ki c1 sp1 ++ post) hok1
      cases hr2 : storeNode cfg readers cfg.branchCap Page.branch
          (pre ++ insRepl ki c1 sp1 ++ post) (w1.release p) with
      | error e => rw [hr2] at hst; exact hst
      | ok r2 =>
        obtain ⟨w2, p2, sp⟩ := r2
        rw [hr2] at hst
        simp only at hst ⊢
        have hB := fun kj => branch_store lo hi hst hc.branchCap hlen hwf1 hna1 kj
        have hext : Ext base w w2 := (ih.ext.transE (Ext.releaseE base w1 p)).transE hst.ext
        refine ⟨hext, hst.ok, fun kj => (hB kj).1, ?_, ?_⟩
        · intro kj
          rw [(hB kj).2.1]
          show contentsCh (w1.page base) d (pre ++ insRepl ki c1 sp1 ++ post) = _
          rw [contentsCh_append, contentsCh_append, hcPre, hcPost, ih.cont ki,
            contents_branchCh h1, contentsCh_append, contentsCh_cons, List.append_assoc,
            leafInsert_append_left k v (contentsCh (w.page base) d pre) _ below,
            leafInsert_append_right k v _ (contentsCh (w.page base) d post) above]
        · intro kj
          obtain ⟨F, hF1, hF2, hF3⟩ := (hB kj).2.2
          have hF1b : (pagesCh (w2.page base) (d + 1) (insRepl kj p2 sp)).Perm
              (F ++ (pagesCh (w.page base) d pre ++
                pagesCh (w1.page base) d (insRepl ki c1 sp1) ++
                pagesCh (w.page base) d post)) := by
            rw [← hpg1]; exact hF1
          have hP3b := PgPost.store hpre2 hok1 hst.ext hst.freed hF3 hF2 hF1b
          have hP12 := PgPost.transP ih.ext (Ext.releaseE base w1 p) hP1 hP2
          have hfin := PgPost.transP (ih.ext.transE (Ext.releaseE base w1 p)) hst.ext hP12 hP3b
          rw [pagesOf_branchCh h1, pagesCh_append, pagesCh_cons, ← List.append_assoc]
          exact hfin

theorem wfTop_iff {rd : Nat → Option (Page K V)} {d p : Nat} {lo hi : Option K} :
    wfTop rd d p lo hi ↔ ∃ pg, rd p = some pg ∧ NodeTop rd d pg lo hi := by
  cases d with
  | zero =>
    constructor
    · rintro ⟨es, h1, h2, h3⟩
      exact ⟨.leaf es, h1, h2, h3⟩
    · rintro ⟨pg, h1, h2⟩
      cases pg with
      | meta m => exact h2.elim
      | leaf es => exact ⟨es, h1, h2.1, h2.2⟩
      | branch cs => exact h2.elim
  | succ d =>
    constructor
    · rintro ⟨cs, h1, h2, h3⟩
      exact ⟨.branch cs, h1, h2, h3⟩
    · rintro ⟨pg, h1, h2⟩
      cases pg with
      | meta m => exact h2.elim
      | leaf es => exact h2.elim
      | branch cs => exact ⟨cs, h1, h2.1, h2.2⟩

theorem wf_iff {rd : Nat → Option (Page K V)} {d p : Nat} {lo hi : Option K} :
    wf rd d p lo hi ↔
      ∃ pg, rd p = some pg ∧ NodeTop rd d pg lo hi ∧ minCount d ≤ nodeCount pg := by
  cases d with
  | zero =>
    constructor
    · rintro ⟨es, h1, h2, h3, h4⟩
      refine ⟨.leaf es, h1, ⟨h3, h4⟩, ?_⟩
      simp only [minCount, nodeCount, if_true]
      cases es with
      | nil => exact absurd rfl h2
      | cons e es => simp
    · rintro ⟨pg, h1, h2, h3⟩
      cases pg with
      | meta m => exact h2.elim
      | leaf es =>
        refine ⟨es, h1, ?_, h2.1, h2.2⟩
        intro h0; subst h0; simp [minCount, nodeCount] at h3
      | branch cs => exact h2.elim
  | succ d =>
    constructor
    · rintro ⟨cs, h1, h2, h3⟩
      refine ⟨.branch cs, h1, ⟨?_, h3⟩, by simpa [minCount, nodeCount] using h2⟩
      intro h0; subst h0; simp at h2
    · rintro ⟨pg, h1, h2, h3⟩
      cases pg with
      | meta m => exact h2.elim
      | leaf es => exact h2.elim
      | branch cs => exact ⟨cs, h1, by simpa [minCount, nodeCount] using h3, h2.2⟩

omit [LinearOrder K] in
theorem contents_eq_pg {rd : Nat → Option (Page K V)} {d p : Nat} {pg : Page K V}
    (h : rd p = some pg) : contents rd d p = contentsPg rd d pg := by
  cases d <;> cases pg <;> simp [contents, contentsPg, h, contentsCh]

omit [LinearOrder K] in
theorem pagesOf_eq_pg {rd : Nat → Option (Page K V)} {d p : Nat} {pg : Page K V}
    (h : rd p = some pg) : pagesOf rd d p = p :: pagesPg rd d pg := by
  cases d <;> cases pg <;> simp [pagesOf, pagesPg, h, pagesCh]

theorem NodeTop.bLt {rd : Nat → Option (Page K V)} {d : Nat} {pg : Page K V}
    {lo hi : Option K} (h : NodeTop rd d pg lo hi) (hn : 1 ≤ nodeCount pg) : bLt lo hi := by
  cases d with
  | zero =>
    cases pg with
    | meta m => exact h.elim
    | branch cs => exact h.elim
    | leaf es =>
      cases es with
      | nil => simp [nodeCount] at hn
      | cons e es =>
        have := h.2 e (List.mem_cons_self _ _)
        exact bLt_of_mem this.1 this.2
  | succ d =>
    cases pg with
    | meta m => exact h.elim
    | leaf es => exact h.elim
    | branch cs => exact wfCh_bLt h.1 h.2

/-- A page content whose children the allocator cannot hand out keeps its invariant, entries
and pages in a continuation of the write transaction. -/
theorem NodeTop.stable {base : List (Page K V)} {w w2 : WTxn K V} (e : Ext base w w2)
    {d : Nat} {pg : Page K V} {lo hi : Option K}
    (hna : ∀ q ∈ pagesPg (w.page base) d pg, ¬ w.Avail q)
    (h : NodeTop (w.page base) d pg lo hi) :
    NodeTop (w2.page base) d pg lo hi ∧
      contentsPg (w2.page base) d pg = contentsPg (w.page base) d pg ∧
      pagesPg (w2.page base) d pg = pagesPg (w.page base) d pg := by
  cases d with
  | zero =>
    cases pg with
    | meta m => exact h.elim
    | branch cs => exact h.elim
    | leaf es => exact ⟨h, rfl, rfl⟩
  | succ d =>
    cases pg with
    | meta m => exact h.elim
    | leaf es => exact h.elim
    | branch cs =>
      exact ⟨⟨h.1, stable_wfCh e d cs lo hi hna h.2⟩, stable_contents e d cs hna,
        stable_pages e d cs hna⟩

omit [LinearOrder K] in
theorem contentsCh_setKey (rd : Nat → Option (Page K V)) (d : Nat) (sep : K)
    (r : List (K × Nat)) : contentsCh rd d (setKey sep r) = contentsCh rd d r := by
  cases r with
  | nil => rfl
  | cons e r => obtain ⟨k, c⟩ := e; rfl

omit [LinearOrder K] in
theorem pagesCh_setKey (rd : Nat → Option (Page K V)) (d : Nat) (sep : K)
    (r : List (K × Nat)) : pagesCh rd d (setKey sep r) = pagesCh rd d r := by
  cases r with
  | nil => rfl
  | cons e r => obtain ⟨k, c⟩ := e; rfl

omit [LinearOrder K] in
theorem length_setKey (sep : K) (r : List (K × Nat)) : (setKey sep r).length = r.length := by
  cases r with
  | nil => rfl
  | cons e r => obtain ⟨k, c⟩ := e; rfl

theorem wfCh_setKey {P : Nat → Option K → Option K → Prop} (sep : K) (lo hi : Option K)
    (r : List (K × Nat)) (h : wfCh P lo hi r) : wfCh P lo hi (setKey sep r) := by
  cases r with
  | nil => exact h
  | cons e r => obtain ⟨k, c⟩ := e; exact h

omit [LinearOrder K] in
theorem nextB_setKey (sep : K) (r : List (K × Nat)) (hi : Option K) (h : r ≠ []) :
    nextB (setKey sep r) hi = some sep := by
  cases r with
  | nil => exact absurd rfl h
  | cons e r => obtain ⟨k, c⟩ := e; rfl

omit [LinearOrder K] in
theorem lowOf_ne_nil {l : List (K × Nat)} (h : l ≠ []) (lo x : Option K) : lowOf l lo x = x := by
  cases l with
  | nil => exact absurd rfl h
  | cons e l => rfl

theorem join_spec {rd : Nat → Option (Page K V)} {d : Nat} {L R : Page K V}
    {lo hi : Option K} {sep : K} (hL : NodeTop rd d L lo (some sep))
    (hR : NodeTop rd d R (some sep) hi) (h1 : bLt lo (some sep)) (h2 : bLt (some sep) hi) :
    ∃ M, joinPages sep L R = some M ∧ Joined rd d L R M lo hi := by
  cases d with
  | zero =>
    cases L with
    | meta m => exact hL.elim
    | branch cs => exact hL.elim
    | leaf l =>
      cases R with
      | meta m => exact hR.elim
      | branch cs => exact hR.elim
      | leaf r =>
        refine ⟨.leaf (l ++ r), rfl, ⟨?_, ?_⟩, by simp [nodeCount], rfl, rfl⟩
        · unfold KeySorted
          rw [List.pairwise_append]
          refine ⟨hL.1, hR.1, fun a ha b hb => ?_⟩
          exact lt_of_lt_of_le (hL.2 a ha).2 (hR.2 b hb).1
        · intro e he
          rcases List.mem_append.mp he with he | he
          · exact ⟨(hL.2 e he).1, hiB_trans (hL.2 e he).2 h2⟩
          · exact ⟨loB_trans h1 (hR.2 e he).1, (hR.2 e he).2⟩
  | succ d =>
    cases L with
    | meta m => exact hL.elim
    | leaf cs => exact hL.elim
    | branch l =>
      cases R with
      | meta m => exact hR.elim
      | leaf cs => exact hR.elim
      | branch r =>
        refine ⟨.branch (l ++ setKey sep r), rfl, ⟨?_, ?_⟩, ?_, ?_, ?_⟩
        · simp [hL.1]
        · rw [wfCh_append, nextB_setKey sep r hi hR.1, lowOf_ne_nil hL.1]
          exact ⟨hL.2, wfCh_setKey sep _ _ r hR.2⟩
        · simp [nodeCount, length_setKey]
        · show contentsCh rd d (l ++ setKey sep r) = _
          rw [contentsCh_append, contentsCh_setKey]; rfl
        · show pagesCh rd d (l ++ setKey sep r) = _
          rw [pagesCh_append, pagesCh_setKey]; rfl

theorem shiftLeft_spec {rd : Nat → Option (Page K V)} {d : Nat} {L R : Page K V}
    {lo hi : Option K} {sep : K} (hL : NodeTop rd d L lo (some sep))
    (hR : NodeTop rd d R (some sep) hi) (h1 : bLt lo (some sep)) (hn : 2 ≤ nodeCount R) :
    ∃ L2 R2 s, shiftLeft sep L R = some (L2, R2, s) ∧ Shifted rd d L R L2 R2 lo hi s ∧
      nodeCount L2 = nodeCount L + 1 := by
  cases d with
  | zero =>
    cases L with
    | meta m => exact hL.elim
    | branch cs => exact hL.elim
    | leaf l =>
      cases R with
      | meta m => exact hR.elim
      | branch cs => exact hR.elim
      | leaf r =>
        cases r with
        | nil => simp [nodeCount] at hn
        | cons e r =>
          cases r with
          | nil => simp [nodeCount] at hn
          | cons e2 r =>
            obtain ⟨hs, hb⟩ := hR
            unfold KeySorted at hs
            rw [List.pairwise_cons] at hs
            have he : e.1 < e2.1 := hs.1 e2 (List.mem_cons_self _ _)
            have hsep : sep ≤ e.1 := (hb e (List.mem_cons_self _ _)).1
            refine ⟨.leaf (l ++ [e]), .leaf (e2 :: r), e2.1, rfl, ⟨⟨?_, ?_⟩, ⟨hs.2, ?_⟩, ?_, rfl, ?_⟩,
              by simp [nodeCount]⟩
            · unfold KeySorted
              rw [List.pairwise_append]
              refine ⟨hL.1, by simp, fun a ha b hb2 => ?_⟩
              simp only [List.mem_singleton] at hb2
              subst hb2
              exact lt_of_lt_of_le (hL.2 a ha).2 hsep
            · intro a ha
              rcases List.mem_append.mp ha with ha | ha
              · exact ⟨(hL.2 a ha).1, lt_trans (lt_of_lt_of_le (hL.2 a ha).2 hsep) he⟩
              · simp only [List.mem_singleton] at ha
                subst ha
                exact ⟨loB_trans h1 hsep, he⟩
            · intro a ha
              refine ⟨?_, (hb a (List.mem_cons_of_mem _ ha)).2⟩
              rcases List.mem_cons.mp ha with rfl | ha
              · exact le_refl _
              · exact le_of_lt ((List.pairwise_cons.mp hs.2).1 a ha)
            · simp [contentsPg]
            · simp [nodeCount]; omega
  | succ d =>
    cases L with
    | meta m => exact hL.elim
    | leaf cs => exact hL.elim
    | branch l =>
      cases R with
      | meta m => exact hR.elim
      | leaf cs => exact hR.elim
      | branch r =>
        cases r with
        | nil => simp [nodeCount] at hn
        | cons e r =>
          cases r with
          | nil => simp [nodeCount] at hn
          | cons e2 r =>
            obtain ⟨k0, c⟩ := e
            obtain ⟨k2, c2⟩ := e2
            obtain ⟨_, hw⟩ := hR
            rw [wfCh_cons] at hw
            simp only [nextB] at hw
            refine ⟨.branch (l ++ [(sep, c)]), .branch ((k2, c2) :: r), k2, rfl,
              ⟨⟨by simp, ?_⟩, ⟨by simp, hw.2.2⟩, ?_, ?_, ?_⟩, by simp [nodeCount]⟩
            · rw [wfCh_append, lowOf_ne_nil hL.1]
              exact ⟨hL.2, hw.1, hw.2.1, trivial⟩
            · show contentsCh rd d (l ++ [(sep, c)]) ++ contentsCh rd d ((k2, c2) :: r) =
                contentsCh rd d l ++ contentsCh rd d ((k0, c) :: (k2, c2) :: r)
              simp [contentsCh_append, contentsCh_cons, contentsCh_nil]
            · show pagesCh rd d (l ++ [(sep, c)]) ++ pagesCh rd d ((k2, c2) :: r) =
                pagesCh rd d l ++ pagesCh rd d ((k0, c) :: (k2, c2) :: r)
              simp [pagesCh_append, pagesCh_cons, pagesCh_nil]
            · simp [nodeCount]; omega

theorem shiftRight_spec {rd : Nat → Option (Page K V)} {d : Nat} {L R : Page K V}
    {lo hi : Option K} {sep : K} (hL : NodeTop rd d L lo (some sep))
    (hR : NodeTop rd d R (some sep) hi) (h2 : bLt (some sep) hi) (hn : 2 ≤ nodeCount L) :
    ∃ L2 R2 s, shiftRight sep L R = some (L2, R2, s) ∧ Shifted rd d L R L2 R2 lo hi s ∧
      nodeCount R2 = nodeCount R + 1 := by
  cases d with
  | zero =>
    cases L with
    | meta m => exact hL.elim
    | branch cs => exact hL.elim
    | leaf l =>
      cases R with
      | meta m => exact hR.elim
      | branch cs => exact hR.elim
      | leaf r =>
        rcases List.eq_nil_or_concat l with h0 | ⟨l0, e, h0⟩
        · subst h0; simp [nodeCount] at hn
        · rw [List.concat_eq_append] at h0
          subst h0
          cases l0 with
          | nil => simp [nodeCount] at hn
          | cons e0 l0 =>
            obtain ⟨hs, hb⟩ := hL
            unfold KeySorted at hs
            rw [List.pairwise_append] at hs
            have he : e.1 < sep := (hb e (by simp)).2
            refine ⟨.leaf (e0 :: l0), .leaf (e :: r), e.1, ?_, ⟨⟨hs.1, ?_⟩, ⟨?_, ?_⟩, ?_, rfl, ?_⟩,
              by simp [nodeCount]⟩
            · simp only [shiftRight]
              rw [show (e0 :: l0 ++ [e]).getLast? = some e from List.getLast?_concat _,
                show (e0 :: l0 ++ [e]).dropLast = e0 :: l0 from List.dropLast_concat]
            · intro a ha
              exact ⟨(hb a (List.mem_append_left _ ha)).1, hs.2.2 a ha e (by simp)⟩
            · unfold KeySorted
              rw [List.pairwise_cons]
              exact ⟨fun b hb2 => lt_of_lt_of_le he (hR.2 b hb2).1, hR.1⟩
            · intro a ha
              rcases List.mem_cons.mp ha with rfl | ha
              · exact ⟨le_refl _, hiB_trans he h2⟩
              · exact ⟨le_of_lt (lt_of_lt_of_le he (hR.2 a ha).1), (hR.2 a ha).2⟩
            · simp [contentsPg]
            · simp [nodeCount]; omega
  | succ d =>
    cases L with
    | meta m => exact hL.elim
    | leaf cs => exact hL.elim
    | branch l =>
      cases R with
      | meta m => exact hR.elim
      | leaf cs => exact hR.elim
      | branch r =>
        rcases List.eq_nil_or_concat l with h0 | ⟨l0, e, h0⟩
        · subst h0; simp [nodeCount] at hn
        · rw [List.concat_eq_append] at h0
          subst h0
          cases l0 with
          | nil => simp [nodeCount] at hn
          | cons e0 l0 =>
            obtain ⟨kl, cl⟩ := e
            obtain ⟨k0, c0⟩ := e0
            obtain ⟨_, hw⟩ := hL
            rw [wfCh_append, lowOf_ne_nil (List.cons_ne_nil _ _)] at hw
            obtain ⟨hw1, hw2⟩ := hw
            have hw : wfCh (wf rd d) lo (some kl) ((k0, c0) :: l0) ∧
                bLt (some kl) (some sep) ∧ wf rd d cl (some kl) (some sep) :=
              ⟨hw1, hw2.1, hw2.2.1⟩
            refine ⟨.branch ((k0, c0) :: l0), .branch ((kl, cl) :: setKey sep r), kl, ?_,
              ⟨⟨by simp, hw.1⟩, ⟨by simp, ?_⟩, ?_, ?_, ?_⟩, by simp [nodeCount, length_setKey]⟩
            · simp only [shiftRight]
              rw [show ((k0, c0) :: l0 ++ [(kl, cl)]).getLast? = some (kl, cl) from
                  List.getLast?_concat _,
                show ((k0, c0) :: l0 ++ [(kl, cl)]).dropLast = (k0, c0) :: l0 from
                  List.dropLast_concat]
            · rw [wfCh_cons, nextB_setKey sep r hi hR.1]
              exact ⟨hw.2.1, hw.2.2, wfCh_setKey sep _ _ r hR.2⟩
            · show contentsCh rd d ((k0, c0) :: l0) ++
                  contentsCh rd d ((kl, cl) :: setKey sep r) =
                contentsCh rd d (((k0, c0) :: l0) ++ [(kl, cl)]) ++ contentsCh rd d r
              rw [contentsCh_append, contentsCh_cons rd d kl, contentsCh_cons rd d kl, contentsCh_nil,
                contentsCh_setKey]
              simp
            · show pagesCh rd d ((k0, c0) :: l0) ++ pagesCh rd d ((kl, cl) :: setKey sep r) =
                pagesCh rd d (((k0, c0) :: l0) ++ [(kl, cl)]) ++ pagesCh rd d r
              rw [pagesCh_append, pagesCh_cons rd d kl, pagesCh_cons rd d kl, pagesCh_nil,
                pagesCh_setKey]
              simp
            · simp [nodeCount, length_setKey]; omega

omit [LinearOrder K] in
theorem getElem?_split_succ {α : Type} (A : List α) (x y : α) (B : List α) :
    (A ++ x :: y :: B)[A.length + 1]? = some y := by
  induction A with
  | nil => simp
  | cons a A ih => simpa using ih

omit [LinearOrder K] in
theorem drop_split_two {α : Type} (A : List α) (x y : α) (B : List α) :
    (A ++ x :: y :: B).drop (A.length + 2) = B := by
  induction A with
  | nil => simp
  | cons a A ih => simpa using ih

omit [LinearOrder K] in
theorem take_split_two {α : Type} (A : List α) (x y : α) (B : List α) :
    (A ++ x :: y :: B).take A.length = A := by
  simp

omit [LinearOrder K] in
/-- Page accounting for replacing two adjacent children `pl` and `pr` of a branch. -/
theorem pair_pages {base : List (Page K V)} {w w2 : WTxn K V} {pl pr : Nat}
    {pA pgL pgR pB F Nmid : List Nat}
    (hpre : PgPre w (pA ++ (pl :: pgL ++ pr :: pgR) ++ pB))
    (e : Ext base ((w.release pl).release pr) w2) (hok : ((w.release pl).release pr).Ok)
    (hf : w2.freed = ((w.release pl).release pr).freed)
    (hF : ∀ x ∈ F, Fresh ((w.release pl).release pr) w2 x) (hFn : F.Nodup)
    (hN : Nmid.Perm (F ++ (pgL ++ pgR))) :
    PgPost w w2 (pA ++ (pl :: pgL ++ pr :: pgR) ++ pB) (pA ++ Nmid ++ pB) := by
  have hmid : PgPre w (pl :: pgL ++ pr :: pgR) :=
    hpre.sub ((List.sublist_append_right _ _).trans (List.sublist_append_left _ _))
  have e1 := Ext.releaseE base w pl
  have e2 := Ext.releaseE base (w.release pl) pr
  have hP1 : PgPost w (w.release pl) (pl :: (pgL ++ pr :: pgR)) (pgL ++ pr :: pgR) :=
    PgPost.releaseP hmid
  have hP1b : PgPost w (w.release pl) (pl :: (pgL ++ pr :: pgR)) (pr :: (pgL ++ pgR)) :=
    hP1.permP List.perm_middle.symm
  have hpre1 : PgPre (w.release pl) (pr :: (pgL ++ pgR)) := hP1b.toPre e1 hmid.notAvail
  have hP2 : PgPost (w.release pl) ((w.release pl).release pr) (pr :: (pgL ++ pgR))
      (pgL ++ pgR) := PgPost.releaseP hpre1
  have hpre2 := hP2.toPre e2 hpre1.notAvail
  have hP3 := PgPost.store hpre2 hok e hf hF hFn hN
  have hP := PgPost.transP (e1.transE e2) e (PgPost.transP e1 e2 hP1b hP2) hP3
  exact hP.lift pA pB hpre

theorem PairPre.pagesEq {base : List (Page K V)} {w : WTxn K V} {d : Nat} {lo hi : Option K}
    {A : List (K × Nat)} {kl : K} {pl : Nat} {kr : K} {pr : Nat} {B : List (K × Nat)}
    {L R : Page K V} (h : PairPre base w d lo hi A kl pl kr pr B L R) :
    pagesCh (w.page base) d (A ++ (kl, pl) :: (kr, pr) :: B) =
      pagesCh (w.page base) d A ++
        (pl :: pagesPg (w.page base) d L ++ pr :: pagesPg (w.page base) d R) ++
        pagesCh (w.page base) d B := by
  rw [pagesCh_append, pagesCh_cons, pagesCh_cons, pagesOf_eq_pg h.pL, pagesOf_eq_pg h.pR]
  simp

theorem mergeAt_spec (cfg : Cfg) (readers : List Nat) {base : List (Page K V)}
    {w : WTxn K V} {d : Nat} {lo hi : Option K}
    {A : List (K × Nat)} {kl : K} {pl : Nat} {kr : K} {pr : Nat} {B : List (K × Nat)}
    {L R : Page K V} (h : PairPre base w d lo hi A kl pl kr pr B L R)
    (hcount : minCount d ≤ nodeCount L + nodeCount R) :
    match mergeAt cfg readers base (A ++ (kl, pl) :: (kr, pr) :: B) A.length w with
    | .error e => e = .mapFull
    | .ok (w2, cs2) =>
      FixPost base w w2 d lo hi (A ++ (kl, pl) :: (kr, pr) :: B) cs2 := by
  obtain ⟨M, hj, hJ⟩ := join_spec h.nL h.nR h.b1 h.b2
  have hpg := h.pg
  rw [h.pagesEq] at hpg
  have hnaL : ¬ w.Avail pl := hpg.notAvail pl (by simp)
  have hnaR : ¬ w.Avail pr := hpg.notAvail pr (by simp)
  have hok : ((w.release pl).release pr).Ok := by
    refine (h.ok.releaseOk hnaL (hpg.notFreed pl (by simp))).releaseOk hnaR ?_
    intro hx
    simp only [WTxn.release, List.mem_cons] at hx
    have hnd := hpg.nodup
    rw [List.append_assoc, List.nodup_append] at hnd
    have hnd2 := hnd.2.1
    rw [List.nodup_append] at hnd2
    have hnd3 := hnd2.1
    rw [List.cons_append, List.nodup_cons] at hnd3
    rcases hx with hx | hx
    · exact hnd3.1 (by rw [hx]; simp)
    · exact hpg.notFreed pr (by simp) hx
  have e0 : Ext base w ((w.release pl).release pr) :=
    (Ext.releaseE base w pl).transE (Ext.releaseE base _ pr)
  simp only [mergeAt, getElem?_split, getElem?_split_succ, h.pL, h.pR, hj, take_split_two,
    drop_split_two]
  have ha := alloc_spec cfg readers base hok M
  cases hr : ((w.release pl).release pr).alloc cfg readers M with
  | error e => rw [hr] at ha; exact ha
  | ok r =>
    obtain ⟨w2, pm⟩ := r
    rw [hr] at ha
    simp only at ha ⊢
    have hext : Ext base w w2 := e0.transE ha.ext
    have hnaA : ∀ q ∈ pagesCh (w.page base) d A, ¬ w.Avail q := fun q hq =>
      hpg.notAvail q (by simp [hq])
    have hnaB : ∀ q ∈ pagesCh (w.page base) d B, ¬ w.Avail q := fun q hq =>
      hpg.notAvail q (by simp [hq])
    have hnaM : ∀ q ∈ pagesPg (w.page base) d M, ¬ w.Avail q := by
      intro q hq
      rw [hJ.pages] at hq
      apply hpg.notAvail q
      simp only [List.mem_append, List.mem_cons] at hq ⊢
      tauto
    obtain ⟨hM1, hM2, hM3⟩ := hJ.top.stable hext hnaM
    have hwfM : wf (w2.page base) d pm (lowOf A lo (some kl)) (nextB B hi) :=
      wf_iff.mpr ⟨M, ha.page, hM1, by rw [hJ.count]; exact hcount⟩
    have hbl : bLt (lowOf A lo (some kl)) (nextB B hi) := by
      apply hJ.top.bLt
      rw [hJ.count]
      have : 1 ≤ minCount d := by unfold minCount; split_ifs <;> omega
      omega
    refine ⟨hext, ha.ok, ?_, ?_, ?_, by simp only [List.length_append, List.length_cons]; omega⟩
    · rw [wfCh_append]
      exact ⟨stable_wfCh hext d A _ _ hnaA h.wA, hbl, hwfM, stable_wfCh hext d B _ _ hnaB h.wB⟩
    · rw [contentsCh_append, contentsCh_cons, contentsCh_append, contentsCh_cons,
        contentsCh_cons, stable_contents hext d A hnaA, stable_contents hext d B hnaB,
        contents_eq_pg ha.page, hM2, hJ.cont, contents_eq_pg h.pL, contents_eq_pg h.pR]
      simp
    · have hF : ∀ x ∈ [pm], Fresh ((w.release pl).release pr) w2 x := by
        intro x hx
        simp only [List.mem_singleton] at hx
        subst hx
        exact ⟨ha.was, ha.now⟩
      have hN : (pm :: (pagesPg (w.page base) d L ++ pagesPg (w.page base) d R)).Perm
          ([pm] ++ (pagesPg (w.page base) d L ++ pagesPg (w.page base) d R)) := by
        simp
      have hP := pair_pages hpg ha.ext hok ha.freed hF (by simp) hN
      have hN2 : pagesCh (w2.page base) d (A ++ (kl, pm) :: B) =
          pagesCh (w.page base) d A ++
            (pm :: (pagesPg (w.page base) d L ++ pagesPg (w.page base) d R)) ++
            pagesCh (w.page base) d B := by
        rw [pagesCh_append, pagesCh_cons, stable_pages hext d A hnaA,
          stable_pages hext d B hnaB, pagesOf_eq_pg ha.page, hM3, hJ.pages]
        simp
      rw [h.pagesEq, hN2]
      exact hP

theorem shiftAt_spec (cfg : Cfg) (readers : List Nat) {base : List (Page K V)}
    {w : WTxn K V} {d : Nat} {lo hi : Option K}
    {A : List (K × Nat)} {kl : K} {pl : Nat} {kr : K} {pr : Nat} {B : List (K × Nat)}
    {L R : Page K V} (h : PairPre base w d lo hi A kl pl kr pr B L R) (toLeft : Bool)
    (hcount : if toLeft then minCount d ≤ nodeCount L + 1 ∧ minCount d + 1 ≤ nodeCount R
      else minCount d + 1 ≤ nodeCount L ∧ minCount d ≤ nodeCount R + 1) :
    match shiftAt cfg readers base toLeft (A ++ (kl, pl) :: (kr, pr) :: B) A.length w with
    | .error e => e = .mapFull
    | .ok (w2, cs2) =>
      FixPost base w w2 d lo hi (A ++ (kl, pl) :: (kr, pr) :: B) cs2 := by
  have hmin : 1 ≤ minCount d := by unfold minCount; split_ifs <;> omega
  have hS : ∃ L2 R2 s,
      (if toLeft then shiftLeft kr L R else shiftRight kr L R) = some (L2, R2, s) ∧
      Shifted (w.page base) d L R L2 R2 (lowOf A lo (some kl)) (nextB B hi) s ∧
      minCount d ≤ nodeCount L2 ∧ minCount d ≤ nodeCount R2 := by
    cases toLeft with
    | true =>
      simp only [if_true] at hcount ⊢
      obtain ⟨L2, R2, s, h1, h2, h3⟩ := shiftLeft_spec h.nL h.nR h.b1 (by omega)
      have := h2.total
      exact ⟨L2, R2, s, h1, h2, by omega, by omega⟩
    | false =>
      simp only [Bool.false_eq_true, if_false] at hcount ⊢
      obtain ⟨L2, R2, s, h1, h2, h3⟩ := shiftRight_spec h.nL h.nR h.b2 (by omega)
      have := h2.total
      exact ⟨L2, R2, s, h1, h2, by omega, by omega⟩
  obtain ⟨L2, R2, s, hsh, hS, hc1, hc2⟩ := hS
  have hpg := h.pg
  rw [h.pagesEq] at hpg
  have hnaL : ¬ w.Avail pl := hpg.notAvail pl (by simp)
  have hnaR : ¬ w.Avail pr := hpg.notAvail pr (by simp)
  have hok : ((w.release pl).release pr).Ok := by
    refine (h.ok.releaseOk hnaL (hpg.notFreed pl (by simp))).releaseOk hnaR ?_
    intro hx
    simp only [WTxn.release, List.mem_cons] at hx
    have hnd := hpg.nodup
    rw [List.append_assoc, List.nodup_append] at hnd
    have hnd2 := hnd.2.1
    rw [List.nodup_append] at hnd2
    have hnd3 := hnd2.1
    rw [List.cons_append, List.nodup_cons] at hnd3
    rcases hx with hx | hx
    · exact hnd3.1 (by rw [hx]; simp)
    · exact hpg.notFreed pr (by simp) hx
  have e0 : Ext base w ((w.release pl).release pr) :=
    (Ext.releaseE base w pl).transE (Ext.releaseE base _ pr)
  simp only [shiftAt, getElem?_split, getElem?_split_succ, h.pL, h.pR, hsh, take_split_two,
    drop_split_two]
  have ha := alloc_spec cfg readers base hok L2
  cases hr : ((w.release pl).release pr).alloc cfg readers L2 with
  | error e => rw [hr] at ha; exact ha
  | ok r =>
    obtain ⟨w1, pl1⟩ := r
    rw [hr] at ha
    simp only at ha ⊢
    have hb := alloc_spec cfg readers base ha.ok R2
    cases hr2 : w1.alloc cfg readers R2 with
    | error e => rw [hr2] at hb; exact hb
    | ok r2 =>
      obtain ⟨w2, pr1⟩ := r2
      rw [hr2] at hb
      simp only at hb ⊢
      have e12 : Ext base ((w.release pl).release pr) w2 := ha.ext.transE hb.ext
      have hext : Ext base w w2 := e0.transE e12
      have hnaA : ∀ q ∈ pagesCh (w.page base) d A, ¬ w.Avail q := fun q hq =>
        hpg.notAvail q (by simp [hq])
      have hnaB : ∀ q ∈ pagesCh (w.page base) d B, ¬ w.Avail q := fun q hq =>
        hpg.notAvail q (by simp [hq])
      have hnaLR : ∀ q ∈ pagesPg (w.page base) d L2 ++ pagesPg (w.page base) d R2,
          ¬ w.Avail q := by
        intro q hq
        rw [hS.pages] at hq
        apply hpg.notAvail q
        simp only [List.mem_append, List.mem_cons] at hq ⊢
        tauto
      obtain ⟨hL1, hL2, hL3⟩ := hS.left.stable hext
        (fun q hq => hnaLR q (List.mem_append_left _ hq))
      obtain ⟨hR1, hR2, hR3⟩ := hS.right.stable hext
        (fun q hq => hnaLR q (List.mem_append_right _ hq))
      have hpl1 : w2.page base pl1 = some L2 := by
        rw [hb.ext.frame pl1 ha.now]; exact ha.page
      have hne : pl1 ≠ pr1 := by
        intro h0; subst h0; exact ha.now hb.was
      have hwfL : wf (w2.page base) d pl1 (lowOf A lo (some kl)) (some s) :=
        wf_iff.mpr ⟨L2, hpl1, hL1, hc1⟩
      have hwfR : wf (w2.page base) d pr1 (some s) (nextB B hi) :=
        wf_iff.mpr ⟨R2, hb.page, hR1, hc2⟩
      refine ⟨hext, hb.ok, ?_, ?_, ?_, by simp⟩
      · rw [wfCh_append, wfCh_cons, wfCh_cons]
        exact ⟨stable_wfCh hext d A _ _ hnaA h.wA, hS.left.bLt (by omega), hwfL,
          hS.right.bLt (by omega), hwfR, stable_wfCh hext d B _ _ hnaB h.wB⟩
      · rw [contentsCh_append, contentsCh_cons, contentsCh_cons, contentsCh_append,
          contentsCh_cons, contentsCh_cons, stable_contents hext d A hnaA,
          stable_contents hext d B hnaB, contents_eq_pg hpl1, contents_eq_pg hb.page, hL2, hR2,
          contents_eq_pg h.pL, contents_eq_pg h.pR, ← List.append_assoc (contentsPg _ d L2),
          hS.cont]
        simp
      · have hF : ∀ x ∈ [pl1, pr1], Fresh ((w.release pl).release pr) w2 x := by
          intro x hx
          simp only [List.mem_cons, List.mem_singleton, List.not_mem_nil, or_false] at hx
          rcases hx with rfl | rfl
          · exact ⟨ha.was, fun h0 => ha.now (hb.ext.mono _ h0)⟩
          · exact ⟨ha.ext.mono _ hb.was, hb.now⟩
        have hN : (pl1 :: pagesPg (w.page base) d L2 ++ pr1 :: pagesPg (w.page base) d R2).Perm
            ([pl1, pr1] ++ (pagesPg (w.page base) d L ++ pagesPg (w.page base) d R)) := by
          rw [← hS.pages]
          simp only [List.cons_append, List.nil_append]
          exact List.Perm.cons _ List.perm_middle
        have hP := pair_pages hpg e12 hok (hb.freed.trans ha.freed) hF (by simp [hne]) hN
        have hN2 : pagesCh (w2.page base) d (A ++ (kl, pl1) :: (s, pr1) :: B) =
            pagesCh (w.page base) d A ++
              (pl1 :: pagesPg (w.page base) d L2 ++ pr1 :: pagesPg (w.page base) d R2) ++
              pagesCh (w.page base) d B := by
          rw [pagesCh_append, pagesCh_cons, pagesCh_cons, stable_pages hext d A hnaA,
            stable_pages hext d B hnaB, pagesOf_eq_pg hpl1, pagesOf_eq_pg hb.page, hL3, hR3]
          simp
        rw [h.pagesEq, hN2]
        exact hP

theorem chooseFix_mergeLeft {m cap i n : Nat} {left right : Option Nat}
    (h : chooseFix m cap i n left right = .mergeLeft) :
    i ≠ 0 ∧ ∃ l, left = some l ∧ l + n ≤ cap := by
  unfold chooseFix at h
  split_ifs at h with h1 h2 <;> cases left <;> cases right <;> simp only at h <;>
    (try split_ifs at h) <;>
    first | exact ⟨h2, _, rfl, by assumption⟩ | cases h

theorem chooseFix_mergeRight {m cap i n : Nat} {left right : Option Nat}
    (h : chooseFix m cap i n left right = .mergeRight) :
    ∃ r, right = some r ∧ r + n ≤ cap := by
  unfold chooseFix at h
  split_ifs at h with h1 h2 <;> cases left <;> cases right <;> simp only at h <;>
    (try split_ifs at h) <;>
    first | exact ⟨_, rfl, by assumption⟩ | cases h

theorem chooseFix_fromLeft {m cap i n : Nat} {left right : Option Nat}
    (h : chooseFix m cap i n left right = .fromLeft) :
    i ≠ 0 ∧ ∃ l, left = some l ∧ n < l ∧ cap < l + n := by
  unfold chooseFix at h
  split_ifs at h with h1 h2 <;> cases left <;> cases right <;> simp only at h <;>
    (try split_ifs at h) <;>
    first | exact ⟨h2, _, rfl, by assumption, by omega⟩ | cases h

theorem chooseFix_fromRight {m cap i n : Nat} {left right : Option Nat}
    (h : chooseFix m cap i n left right = .fromRight) :
    ∃ r, right = some r ∧ n < r ∧ cap < r + n := by
  unfold chooseFix at h
  split_ifs at h with h1 h2 <;> cases left <;> cases right <;> simp only at h <;>
    (try split_ifs at h) <;>
    first | exact ⟨_, rfl, by assumption, by omega⟩ | cases h

theorem chooseFix_keep {m cap i n : Nat} {left right : Option Nat}
    (h : chooseFix m cap i n left right = .keep) :
    m ≤ n ∨ ((∀ l, i ≠ 0 → left = some l → l ≤ n) ∧ (∀ r, right = some r → r ≤ n)) := by
  unfold chooseFix at h
  split_ifs at h with h1 h2
  · exact Or.inl h1
  · right
    subst h2
    cases right <;> simp only at h <;> (try split_ifs at h) <;> simp <;> omega
  · right
    cases left <;> cases right <;> simp only at h <;> (try split_ifs at h) <;>
      simp [h2] <;> omega

theorem NodeTop.count_pos {rd : Nat → Option (Page K V)} {d : Nat} {pg : Page K V}
    {lo hi : Option K} (h : NodeTop rd d pg lo hi) : (if d = 0 then 0 else 1) ≤ nodeCount pg := by
  cases d with
  | zero => simp
  | succ d =>
    cases pg with
    | meta m => exact h.elim
    | leaf es => exact h.elim
    | branch cs =>
      simp only [Nat.succ_ne_zero, if_false, nodeCount]
      cases cs with
      | nil => exact absurd rfl h.1
      | cons e cs => simp

omit [LinearOrder K] in
theorem childCount_split (base : List (Page K V)) (w : WTxn K V) (pre : List (K × Nat))
    (k : K) (c : Nat) (post : List (K × Nat)) {pg : Page K V} (h : w.page base c = some pg) :
    childCount base w (pre ++ (k, c) :: post) pre.length = some (nodeCount pg) := by
  simp only [childCount, getElem?_split, h]

omit [LinearOrder K] in
theorem childCount_end (base : List (Page K V)) (w : WTxn K V) (cs : List (K × Nat)) :
    childCount base w cs cs.length = none := by
  simp [childCount]

theorem RebPre.keep {base : List (Page K V)} {w : WTxn K V} {d : Nat} {lo hi : Option K}
    {pre : List (K × Nat)} {ki : K} {c1 : Nat} {post : List (K × Nat)} {pg1 : Page K V}
    (h : RebPre base w d lo hi pre ki c1 post pg1) (hn : minCount d ≤ nodeCount pg1) :
    FixPost base w w d lo hi (pre ++ (ki, c1) :: post) (pre ++ (ki, c1) :: post) := by
  refine ⟨Ext.reflE base w, h.ok, ?_, rfl, PgPost.reflP h.pg, Nat.le_succ _⟩
  rw [wfCh_append]
  exact ⟨h.wPre, h.blt, wf_iff.mpr ⟨pg1, h.page, h.node, hn⟩, h.wPost⟩

/-- The left sibling of the child, when there is one. -/
theorem RebPre.left {base : List (Page K V)} {w : WTxn K V} {d : Nat} {lo hi : Option K}
    {A : List (K × Nat)} {kl : K} {pl : Nat} {ki : K} {c1 : Nat} {post : List (K × Nat)}
    {pg1 : Page K V} (h : RebPre base w d lo hi (A ++ [(kl, pl)]) ki c1 post pg1) :
    ∃ L, PairPre base w d lo hi A kl pl ki c1 post L pg1 ∧ minCount d ≤ nodeCount L := by
  have hw := h.wPre
  rw [wfCh_append] at hw
  obtain ⟨hA, hb, hwl, _⟩ := hw
  obtain ⟨L, hL1, hL2, hL3⟩ := wf_iff.mp hwl
  have hlow : lowOf (A ++ [(kl, pl)]) lo (some ki) = some ki := lowOf_ne_nil (by simp) _ _
  have hnode := h.node
  have hblt := h.blt
  rw [hlow] at hnode hblt
  have hpg := h.pg
  rw [List.append_assoc] at hpg
  exact ⟨L, ⟨h.ok, hA, hL1, h.page, hL2, hnode, h.wPost, hb, hblt, hpg⟩, hL3⟩

/-- The right sibling of the child, when there is one. -/
theorem RebPre.right {base : List (Page K V)} {w : WTxn K V} {d : Nat} {lo hi : Option K}
    {pre : List (K × Nat)} {ki : K} {c1 : Nat} {kr : K} {pr : Nat} {B : List (K × Nat)}
    {pg1 : Page K V} (h : RebPre base w d lo hi pre ki c1 ((kr, pr) :: B) pg1) :
    ∃ R, PairPre base w d lo hi pre ki c1 kr pr B pg1 R ∧ minCount d ≤ nodeCount R := by
  have hw := h.wPost
  rw [wfCh_cons] at hw
  obtain ⟨hb, hwr, hB⟩ := hw
  obtain ⟨R, hR1, hR2, hR3⟩ := wf_iff.mp hwr
  exact ⟨R, ⟨h.ok, h.wPre, h.page, hR1, h.node, hR2, hB, h.blt, hb, h.pg⟩, hR3⟩

omit [LinearOrder K] in
theorem childCount_left (base : List (Page K V)) (w : WTxn K V) (A : List (K × Nat))
    (kl : K) (pl : Nat) (e : K × Nat) (post : List (K × Nat)) {L : Page K V}
    (h : w.page base pl = some L) :
    childCount base w (A ++ [(kl, pl)] ++ e :: post) ((A ++ [(kl, pl)]).length - 1) =
      some (nodeCount L) := by
  have e1 : (A ++ [(kl, pl)]).length - 1 = A.length := by simp
  have e2 : A ++ [(kl, pl)] ++ e :: post = A ++ (kl, pl) :: e :: post := by simp
  rw [e1, e2]
  exact childCount_split base w A kl pl _ h

omit [LinearOrder K] in
theorem childCount_right (base : List (Page K V)) (w : WTxn K V) (pre : List (K × Nat))
    (e : K × Nat) (kr : K) (pr : Nat) (B : List (K × Nat)) {R : Page K V}
    (h : w.page base pr = some R) :
    childCount base w (pre ++ e :: (kr, pr) :: B) (pre.length + 1) = some (nodeCount R) := by
  simp only [childCount, getElem?_split_succ, h]

omit [LinearOrder K] in
theorem childCount_right_none (base : List (Page K V)) (w : WTxn K V) (pre : List (K × Nat))
    (e : K × Nat) : childCount base w (pre ++ [e]) (pre.length + 1) = none := by
  have : (pre ++ [e])[pre.length + 1]? = none := by
    apply List.getElem?_eq_none
    simp
  simp only [childCount, this]

theorem rebalance_spec (cfg : Cfg) (hc : CfgOk cfg) (readers : List Nat)
    {base : List (Page K V)} {w : WTxn K V} {d : Nat} {lo hi : Option K}
    {pre : List (K × Nat)} {ki : K} {c1 : Nat} {post : List (K × Nat)} {pg1 : Page K V}
    (h : RebPre base w d lo hi pre ki c1 post pg1) :
    match rebalance cfg readers base d (pre ++ (ki, c1) :: post) pre.length w with
    | .error e => e = .mapFull
    | .ok (w2, cs2) => FixPost base w w2 d lo hi (pre ++ (ki, c1) :: post) cs2 := by
  have hn0 := h.node.count_pos
  have hm : minCount d ≤ (if d = 0 then cfg.leafMin else cfg.branchMin) := by
    unfold minCount; split_ifs
    · exact hc.leafMin
    · exact hc.branchMin
  have hcap : (if d = 0 then 1 else 3) ≤ (if d = 0 then cfg.leafCap else cfg.branchCap) := by
    split_ifs
    · exact hc.leafCap
    · exact hc.branchCap
  have hmc : minCount d = if d = 0 then 1 else 2 := rfl
  simp only [rebalance, childCount_split base w pre ki c1 post h.page]
  generalize hminF : (if d = 0 then cfg.leafMin else cfg.branchMin) = minF at hm ⊢
  generalize hcapF : (if d = 0 then cfg.leafCap else cfg.branchCap) = cap at hcap ⊢
  cases hfix : chooseFix minF cap pre.length (nodeCount pg1)
      (childCount base w (pre ++ (ki, c1) :: post) (pre.length - 1))
      (childCount base w (pre ++ (ki, c1) :: post) (pre.length + 1)) with
  | keep =>
    simp only
    apply h.keep
    rcases chooseFix_keep hfix with h1 | ⟨h1, h2⟩
    · omega
    · rcases List.eq_nil_or_concat pre with hp | ⟨A, ⟨kl, pl⟩, hp⟩
      · subst hp
        cases post with
        | nil => have := h.len; simp at this
        | cons e B =>
          obtain ⟨kr, pr⟩ := e
          obtain ⟨R, hR, hRc⟩ := h.right
          have := h2 _ (childCount_right base w [] (ki, c1) kr pr B hR.pR)
          omega
      · rw [List.concat_eq_append] at hp
        subst hp
        obtain ⟨L, hL, hLc⟩ := h.left
        have := h1 _ (by simp) (childCount_left base w A kl pl (ki, c1) post hL.pL)
        omega
  | mergeLeft =>
    obtain ⟨hi0, l, hl, hle⟩ := chooseFix_mergeLeft hfix
    rcases List.eq_nil_or_concat pre with hp | ⟨A, ⟨kl, pl⟩, hp⟩
    · subst hp; simp at hi0
    · rw [List.concat_eq_append] at hp
      subst hp
      obtain ⟨L, hL, hLc⟩ := h.left
      rw [childCount_left base w A kl pl (ki, c1) post hL.pL] at hl
      simp only [Option.some.injEq] at hl
      subst hl
      have e1 : (A ++ [(kl, pl)]).length - 1 = A.length := by simp
      have e2 : A ++ [(kl, pl)] ++ (ki, c1) :: post = A ++ (kl, pl) :: (ki, c1) :: post := by
        simp
      simp only [e1, e2]
      exact mergeAt_spec cfg readers hL (by omega)
  | mergeRight =>
    obtain ⟨r, hr, hle⟩ := chooseFix_mergeRight hfix
    cases post with
    | nil => rw [childCount_right_none] at hr; cases hr
    | cons e B =>
      obtain ⟨kr, pr⟩ := e
      obtain ⟨R, hR, hRc⟩ := h.right
      rw [childCount_right base w pre (ki, c1) kr pr B hR.pR] at hr
      simp only [Option.some.injEq] at hr
      subst hr
      exact mergeAt_spec cfg readers hR (by omega)
  | fromLeft =>
    obtain ⟨hi0, l, hl, hlt, hgt⟩ := chooseFix_fromLeft hfix
    rcases List.eq_nil_or_concat pre with hp | ⟨A, ⟨kl, pl⟩, hp⟩
    · subst hp; simp at hi0
    · rw [List.concat_eq_append] at hp
      subst hp
      obtain ⟨L, hL, hLc⟩ := h.left
      rw [childCount_left base w A kl pl (ki, c1) post hL.pL] at hl
      simp only [Option.some.injEq] at hl
      subst hl
      have e1 : (A ++ [(kl, pl)]).length - 1 = A.length := by simp
      have e2 : A ++ [(kl, pl)] ++ (ki, c1) :: post = A ++ (kl, pl) :: (ki, c1) :: post := by
        simp
      simp only [e1, e2]
      apply shiftAt_spec cfg readers hL false
      simp only [Bool.false_eq_true, if_false]
      by_cases hd : d = 0
      · subst hd
        simp only [if_true] at hmc hcap hn0
        omega
      · simp only [hd, if_false] at hmc hcap hn0
        omega
  | fromRight =>
    obtain ⟨r, hr, hlt, hgt⟩ := chooseFix_fromRight hfix
    cases post with
    | nil => rw [childCount_right_none] at hr; cases hr
    | cons e B =>
      obtain ⟨kr, pr⟩ := e
      obtain ⟨R, hR, hRc⟩ := h.right
      rw [childCount_right base w pre (ki, c1) kr pr B hR.pR] at hr
      simp only [Option.some.injEq] at hr
      subst hr
      apply shiftAt_spec cfg readers hR true
      simp only [if_true]
      by_cases hd : d = 0
      · subst hd
        simp only [if_true] at hmc hcap hn0
        omega
      · simp only [hd, if_false] at hmc hcap hn0
        omega

omit [LinearOrder K] in
theorem PgPost.liftTop {w w1 : WTxn K V} {Oc Nc : List Nat} (h : PgPost w w1 Oc Nc)
    (p : Nat) (hpre : PgPre w (p :: Oc)) : PgPost w w1 (p :: Oc) (p :: Nc) := by
  have := h.lift [p] [] (by simpa using hpre)
  simpa using this

theorem delAt_leaf (cfg : Cfg) (readers : List Nat) (base : List (Page K V))
    (k : K) (p : Nat) (w : WTxn K V) (lo hi : Option K) (hw : w.Ok)
    (hwf : wfTop (w.page base) 0 p lo hi) (hpre : PgPre w [p]) :
    match delAt cfg readers base k 0 p w with
    | .error e => e = .mapFull
    | .ok (w2, p2) =>
      DelPost base w w2 0 lo hi [p] (leafErase k (contents (w.page base) 0 p)) p2 := by
  obtain ⟨es, h1, h2, h3⟩ := hwf
  have hna : ¬ w.Avail p := hpre.notAvail p (List.mem_singleton_self p)
  have hok1 := hw.releaseOk hna (hpre.notFreed p (List.mem_singleton_self p))
  have ha := alloc_spec cfg readers base hok1 (Page.leaf (leafErase k es))
  simp only [delAt, h1]
  cases hr : (w.release p).alloc cfg readers (Page.leaf (leafErase k es)) with
  | error e => rw [hr] at ha; exact ha
  | ok r =>
    obtain ⟨w2, p2⟩ := r
    rw [hr] at ha
    simp only at ha ⊢
    have e1 := Ext.releaseE base w p
    refine ⟨e1.transE ha.ext, ha.ok, ⟨_, ha.page, h2.erase, fun e he => h3 e (mem_leafErase he)⟩,
      ?_, ?_⟩
    · rw [contents_leaf ha.page, contents_leaf h1]
    · have hP1 : PgPost w (w.release p) [p] [] := PgPost.releaseP hpre
      have hpre1 : PgPre (w.release p) [] := hP1.toPre e1 hpre.notAvail
      have hF : ∀ x ∈ [p2], Fresh (w.release p) w2 x := by
        intro x hx
        simp only [List.mem_singleton] at hx
        subst hx
        exact ⟨ha.was, ha.now⟩
      have hP2 : PgPost (w.release p) w2 [] [p2] :=
        PgPost.store hpre1 hok1 ha.ext ha.freed hF (by simp) (by simp)
      exact PgPost.transP e1 ha.ext hP1 hP2

theorem delAt_spec (cfg : Cfg) (hc : CfgOk cfg) (readers : List Nat) (base : List (Page K V))
    (k : K) :
    ∀ (d p : Nat) (w : WTxn K V) (lo hi : Option K), w.Ok →
      wfIn (w.page base) d p lo hi → PgPre w (pagesOf (w.page base) d p) →
      loB lo k → hiB hi k →
      match delAt cfg readers base k d p w with
      | .error e => e = .mapFull
      | .ok (w2, p2) =>
        DelPost base w w2 d lo hi (pagesOf (w.page base) d p)
          (leafErase k (contents (w.page base) d p)) p2
  | 0, p, w, lo, hi, hw, hwf, hpre, _, _ =>
    delAt_leaf cfg readers base k p w lo hi hw hwf hpre
  | d + 1, p, w, lo, hi, hw, hwf, hpre, hlo, hhi => by
    obtain ⟨cs, h1, h2, h3⟩ := hwf
    have hne : cs ≠ [] := by intro h0; subst h0; simp at h2
    obtain ⟨⟨pre, ki, c, post, rfl, idx, wpre, wc, blt, wpost, klo, khi, below, above⟩⟩ :=
      descent hne h3 hlo hhi
    rw [pagesOf_branchCh h1, pagesCh_append, pagesCh_cons, ← List.append_assoc] at hpre
    have hpreT : PgPre w (pagesCh (w.page base) d pre ++ pagesOf (w.page base) d c ++
        pagesCh (w.page base) d post) := hpre.sub (List.sublist_cons_self _ _)
    have hpreC : PgPre w (pagesOf (w.page base) d c) :=
      hpreT.sub ((List.sublist_append_right _ _).trans (List.sublist_append_left _ _))
    have ih := delAt_spec cfg hc readers base k d c w _ _ hw wc.toIn hpreC klo khi
    simp only [delAt, h1, idx, getElem?_split, set_split]
    cases hr : delAt cfg readers base k d c w with
    | error e => rw [hr] at ih; exact ih
    | ok r =>
      obtain ⟨w1, c1⟩ := r
      rw [hr] at ih
      simp only at ih ⊢
      have hnaPre : ∀ q ∈ pagesCh (w.page base) d pre, ¬ w.Avail q := fun q hq =>
        hpre.notAvail q (by simp [hq])
      have hnaPost : ∀ q ∈ pagesCh (w.page base) d post, ¬ w.Avail q := fun q hq =>
        hpre.notAvail q (by simp [hq])
      have hsPre := stable_pages ih.ext d pre hnaPre
      have hsPost := stable_pages ih.ext d post hnaPost
      have hcPre := stable_contents ih.ext d pre hnaPre
      have hcPost := stable_contents ih.ext d post hnaPost
      have hP1 := ih.pages.lift (p :: pagesCh (w.page base) d pre)
        (pagesCh (w.page base) d post) hpre
      have hpre1 := hP1.toPre ih.ext hpre.notAvail
      have hpg1 : pagesCh (w1.page base) d (pre ++ (ki, c1) :: post) =
          pagesCh (w.page base) d pre ++ pagesOf (w1.page base) d c1 ++
            pagesCh (w.page base) d post := by
        rw [pagesCh_append, pagesCh_cons, hsPre, hsPost, List.append_assoc]
      have hpre1b : PgPre w1 (pagesCh (w1.page base) d (pre ++ (ki, c1) :: post)) := by
        rw [hpg1]
        exact hpre1.sub (List.sublist_cons_self _ _)
      obtain ⟨pg1, hpg1a, hpg1b⟩ := wfTop_iff.mp ih.tree
      have hreb : RebPre base w1 d lo hi pre ki c1 post pg1 :=
        ⟨ih.ok, by simpa using h2, stable_wfCh ih.ext d pre _ _ hnaPre wpre, hpg1a, hpg1b,
          stable_wfCh ih.ext d post _ _ hnaPost wpost, blt, hpre1b⟩
      have hR := rebalance_spec cfg hc readers hreb
      cases hr2 : rebalance cfg readers base d (pre ++ (ki, c1) :: post) pre.length w1 with
      | error e => rw [hr2] at hR; exact hR
      | ok r2 =>
        obtain ⟨w2, cs2⟩ := r2
        rw [hr2] at hR
        simp only at hR ⊢
        have hnaP2 : ¬ w2.Avail p := fun h =>
          hpre.notAvail p (List.mem_cons_self _ _) (ih.ext.mono p (hR.ext.mono p h))
        have hfull : PgPost w w1 (p :: (pagesCh (w.page base) d pre ++
            pagesOf (w.page base) d c ++ pagesCh (w.page base) d post))
            (p :: pagesCh (w1.page base) d (pre ++ (ki, c1) :: post)) := by
          rw [hpg1]; exact hP1
        have hP2 : PgPost w1 w2 (p :: pagesCh (w1.page base) d (pre ++ (ki, c1) :: post))
            (p :: pagesCh (w2.page base) d cs2) :=
          hR.pages.liftTop p (hfull.toPre ih.ext hpre.notAvail)
        have hP12 := PgPost.transP ih.ext hR.ext hfull hP2
        have hpre3 : PgPre w2 (p :: pagesCh (w2.page base) d cs2) :=
          hP12.toPre (ih.ext.transE hR.ext) hpre.notAvail
        have hok2 := hR.ok.releaseOk hnaP2 (hpre3.notFreed p (List.mem_cons_self _ _))
        have e2 := Ext.releaseE base w2 p
        have ha := alloc_spec cfg readers base hok2 (Page.branch cs2)
        cases hr3 : (w2.release p).alloc cfg readers (Page.branch cs2) with
        | error e => rw [hr3] at ha; exact ha
        | ok r3 =>
          obtain ⟨w3, p3⟩ := r3
          rw [hr3] at ha
          simp only at ha ⊢
          have hpre2 : PgPre w2 (pagesCh (w2.page base) d cs2) :=
            hR.pages.toPre hR.ext hpre1b.notAvail
          have hna2 : ∀ q ∈ pagesCh (w2.page base) d cs2, ¬ w2.Avail q := hpre2.notAvail
          have e23 : Ext base w2 w3 := e2.transE ha.ext
          have hlen : cs2 ≠ [] := by
            intro h0
            have := hR.len
            rw [h0] at this
            simp only [List.length_append, List.length_cons, List.length_nil] at this h2
            omega
          have hP3 : PgPost w2 (w2.release p) (p :: pagesCh (w2.page base) d cs2)
              (pagesCh (w2.page base) d cs2) := PgPost.releaseP hpre3
          have hpre4 := hP3.toPre e2 hpre3.notAvail
          have hF : ∀ x ∈ [p3], Fresh (w2.release p) w3 x := by
            intro x hx
            simp only [List.mem_singleton] at hx
            subst hx
            exact ⟨ha.was, ha.now⟩
          have hsp := stable_pages e23 d cs2 hna2
          have hP4 : PgPost (w2.release p) w3 (pagesCh (w2.page base) d cs2)
              (p3 :: pagesCh (w3.page base) d cs2) :=
            PgPost.store hpre4 hok2 ha.ext ha.freed hF (by simp) (by rw [hsp]; simp)
          refine ⟨(ih.ext.transE hR.ext).transE e23, ha.ok,
            ⟨cs2, ha.page, hlen, stable_wfCh e23 d cs2 lo hi hna2 hR.tree⟩, ?_, ?_⟩
          · rw [contents_branchCh ha.page, stable_contents e23 d cs2 hna2, hR.cont,
              contentsCh_append, contentsCh_cons, hcPre, hcPost, ih.cont,
              contents_branchCh h1, contentsCh_append, contentsCh_cons,
              leafErase_append_left k (contentsCh (w.page base) d pre) _ below,
              leafErase_append_right k _ (contentsCh (w.page base) d post) above]
          · rw [pagesOf_branchCh h1, pagesCh_append, pagesCh_cons, ← List.append_assoc,
              pagesOf_branchCh ha.page]
            exact PgPost.transP ((ih.ext.transE hR.ext).transE e2) ha.ext
              (PgPost.transP (ih.ext.transE hR.ext) e2 hP12 hP3) hP4

omit [LinearOrder K] in
theorem Ext.grow {base : List (Page K V)} {w w2 : WTxn K V} (e : Ext base w w2) :
    Grow base w w2 :=
  ⟨e.frame, e.mono, e.txnid, e.failed, e.next⟩

omit [LinearOrder K] in
theorem Grow.reflG (base : List (Page K V)) (w : WTxn K V) : Grow base w w :=
  (Ext.reflE base w).grow

omit [LinearOrder K] in
theorem Grow.transG {base : List (Page K V)} {w1 w2 w3 : WTxn K V}
    (h1 : Grow base w1 w2) (h2 : Grow base w2 w3) : Grow base w1 w3 :=
  ⟨fun q hq => by
      rw [h2.frame q (fun h => hq (h1.mono q h)), h1.frame q hq],
    fun q h => h1.mono q (h2.mono q h), h2.txnid.trans h1.txnid,
    h2.failed.trans h1.failed, le_trans h1.next h2.next⟩

omit [LinearOrder K] in
theorem WTxn.Ok.rerootOk {w : WTxn K V} (h : w.Ok) (p d : Nat) :
    WTxn.Ok { w with root := p, depth := d } :=
  ⟨h.nodup, h.below, h.freed, h.fnodup⟩

omit [LinearOrder K] in
theorem PgPre.rerootPre {w : WTxn K V} {O : List Nat} (h : PgPre w O) (p d : Nat) :
    PgPre { w with root := p, depth := d } O :=
  ⟨h.nodup, h.notAvail, h.notFreed⟩

omit [LinearOrder K] in
theorem PgPost.rerootP {w w1 : WTxn K V} {O N : List Nat} (h : PgPost w w1 O N) (p d : Nat) :
    PgPost w { w1 with root := p, depth := d } O N :=
  ⟨h.nodup, h.src, h.live, h.freedSrc⟩

theorem insert_spec (cfg : Cfg) (hc : CfgOk cfg) (readers : List Nat) (base : List (Page K V))
    (w : WTxn K V) (k : K) (v : V) (h : WTree base w) :
    match w.insert cfg readers base k v with
    | .error e => e = .mapFull
    | .ok w2 => Mutated base w w2 (leafInsert k v (w.contents base)) := by
  have hI := insAt_spec cfg hc readers base k v w.depth w.root w none none h.ok h.wf h.pg
    trivial trivial
  unfold WTxn.insert
  cases hr : insAt cfg readers base k v w.depth w.root w with
  | error e => rw [hr] at hI; exact hI
  | ok r =>
    obtain ⟨w1, p, sp⟩ := r
    rw [hr] at hI
    simp only at hI
    cases sp with
    | none =>
      simp only
      have ht := hI.tree k
      have hcn := hI.cont k
      have hpg := hI.pages k
      rw [insRepl_none] at ht hcn hpg
      rw [contentsCh_cons, contentsCh_nil, List.append_nil] at hcn
      rw [pagesCh_cons, pagesCh_nil, List.append_nil] at hpg
      have hdep : w1.depth = w.depth := hI.ext.depth
      refine ⟨⟨hI.ok.rerootOk _ _, ?_, PgPre.rerootPre ?_ _ _⟩, ⟨hI.ext.frame, hI.ext.mono,
        hI.ext.txnid, hI.ext.failed, hI.ext.next⟩, ?_, PgPost.rerootP ?_ _ _⟩
      · show wfIn (w1.page base) w1.depth p none none
        rw [hdep]; exact ht.2.1.toIn
      · show PgPre w1 (pagesOf (w1.page base) w1.depth p)
        rw [hdep]; exact hpg.toPre hI.ext h.pg.notAvail
      · show RipDB.contents (w1.page base) w1.depth p = _
        rw [hdep]; exact hcn
      · show PgPost w w1 _ (pagesOf (w1.page base) w1.depth p)
        rw [hdep]; exact hpg
    | some sq =>
      obtain ⟨s, q⟩ := sq
      simp only
      have ht := hI.tree s
      have hcn := hI.cont s
      have hpg := hI.pages s
      rw [insRepl_some] at ht hcn hpg
      have hdep : w1.depth = w.depth := hI.ext.depth
      have ha := alloc_spec cfg readers base hI.ok (Page.branch [(s, p), (s, q)])
      cases hr2 : w1.alloc cfg readers (Page.branch [(s, p), (s, q)]) with
      | error e => rw [hr2] at ha; exact ha
      | ok r2 =>
        obtain ⟨w2, r⟩ := r2
        rw [hr2] at ha
        simp only at ha ⊢
        have hpre1 := hpg.toPre hI.ext h.pg.notAvail
        have hst := stable_pages ha.ext w.depth [(s, p), (s, q)] hpre1.notAvail
        have hsc := stable_contents ha.ext w.depth [(s, p), (s, q)] hpre1.notAvail
        have hsw := stable_wfCh ha.ext w.depth [(s, p), (s, q)] none none hpre1.notAvail ht
        have hF : ∀ x ∈ [r], Fresh w1 w2 x := by
          intro x hx
          simp only [List.mem_singleton] at hx
          subst hx
          exact ⟨ha.was, ha.now⟩
        have hP2 : PgPost w1 w2 (pagesCh (w1.page base) w.depth [(s, p), (s, q)])
            (r :: pagesCh (w2.page base) w.depth [(s, p), (s, q)]) :=
          PgPost.store hpre1 hI.ok ha.ext ha.freed hF (by simp) (by rw [hst]; simp)
        have hP := PgPost.transP hI.ext ha.ext hpg hP2
        have e := hI.ext.transE ha.ext
        refine ⟨⟨ha.ok.rerootOk _ _, ?_, PgPre.rerootPre ?_ _ _⟩,
          ⟨e.frame, e.mono, e.txnid, e.failed, e.next⟩, ?_, PgPost.rerootP ?_ _ _⟩
        · show wfIn (w2.page base) (w1.depth + 1) r none none
          rw [hdep]
          exact ⟨_, ha.page, by simp, hsw⟩
        · show PgPre w2 (pagesOf (w2.page base) (w1.depth + 1) r)
          rw [hdep, pagesOf_branchCh ha.page]
          exact hP.toPre e h.pg.notAvail
        · show RipDB.contents (w2.page base) (w1.depth + 1) r = _
          rw [hdep, contents_branchCh ha.page, hsc]
          exact hcn
        · show PgPost w w2 _ (pagesOf (w2.page base) (w1.depth + 1) r)
          rw [hdep, pagesOf_branchCh ha.page]
          exact hP

theorem delete_root {base : List (Page K V)} {w w1 : WTxn K V} {p : Nat}
    {O : List Nat} {C : List (K × V)} (hOna : ∀ x ∈ O, ¬ w.Avail x)
    (hD : DelPost base w w1 w1.depth none none O C p) :
    WTree base (w1.shrinkRoot base p) ∧ Grow base w (w1.shrinkRoot base p) ∧
      (w1.shrinkRoot base p).contents base = C ∧
      PgPost w (w1.shrinkRoot base p) O ((w1.shrinkRoot base p).pages base) := by
  have hpre1 := hD.pages.toPre hD.ext hOna
  unfold WTxn.shrinkRoot
  generalize hdep : w1.depth = dep at *
  have keep : wfIn (w1.page base) dep p none none →
      WTree base { w1 with root := p, depth := dep } ∧
      Grow base w { w1 with root := p, depth := dep } ∧
      WTxn.contents base { w1 with root := p, depth := dep } = C ∧
      PgPost w { w1 with root := p, depth := dep } O
        (WTxn.pages base { w1 with root := p, depth := dep }) := by
    intro hw
    exact ⟨⟨hD.ok.rerootOk _ _, hw, PgPre.rerootPre hpre1 _ _⟩, ⟨hD.ext.frame, hD.ext.mono,
      hD.ext.txnid, hD.ext.failed, hD.ext.next⟩, hD.cont, PgPost.rerootP hD.pages _ _⟩
  cases dep with
  | zero => exact keep hD.tree
  | succ d =>
    obtain ⟨cs, hp, hne, hw⟩ := hD.tree
    rw [hp]
    cases cs with
    | nil => exact absurd rfl hne
    | cons e cs =>
      obtain ⟨k0, c⟩ := e
      cases cs with
      | cons e2 cs => exact keep ⟨_, hp, by simp, hw⟩
      | nil =>
        have hcw : wf (w1.page base) d c none none := hw.2.1
        have hnaP : ¬ w1.Avail p := hpre1.notAvail p (self_mem_pagesOf _ _ _)
        have e1 := Ext.releaseE base w1 p
        have hpgp : pagesOf (w1.page base) (d + 1) p = p :: pagesOf (w1.page base) d c := by
          rw [pagesOf_branchCh hp, pagesCh_cons, pagesCh_nil, List.append_nil]
        rw [hpgp] at hpre1
        have hP1 : PgPost w w1 O (p :: pagesOf (w1.page base) d c) := by
          rw [← hpgp]; exact hD.pages
        have hP2 : PgPost w1 (w1.release p) (p :: pagesOf (w1.page base) d c)
            (pagesOf (w1.page base) d c) := PgPost.releaseP hpre1
        have e := hD.ext.transE e1
        have hP := PgPost.transP hD.ext e1 hP1 hP2
        refine ⟨⟨(hD.ok.releaseOk hnaP (hpre1.notFreed p (List.mem_cons_self _ _))).rerootOk _ _,
          hcw.toIn,
          (hP.toPre e hOna).rerootPre _ _⟩,
          ⟨e.frame, e.mono, e.txnid, e.failed, e.next⟩, ?_, hP.rerootP _ _⟩
        show RipDB.contents (w1.page base) d c = _
        rw [← hD.cont, contents_branchCh hp, contentsCh_cons, contentsCh_nil,
          List.append_nil]

theorem delete_spec (cfg : Cfg) (hc : CfgOk cfg) (readers : List Nat) (base : List (Page K V))
    (w : WTxn K V) (k : K) (h : WTree base w) :
    match w.delete cfg readers base k with
    | .error e => e = .mapFull
    | .ok w2 => Mutated base w w2 (leafErase k (w.contents base)) := by
  have hD := delAt_spec cfg hc readers base k w.depth w.root w none none h.ok h.wf h.pg
    trivial trivial
  unfold WTxn.delete
  cases hr : delAt cfg readers base k w.depth w.root w with
  | error e => rw [hr] at hD; exact hD
  | ok r =>
    obtain ⟨w1, p⟩ := r
    rw [hr] at hD
    simp only at hD ⊢
    have hdep : w1.depth = w.depth := hD.ext.depth
    have hD2 : DelPost base w w1 w1.depth none none (w.pages base)
        (leafErase k (w.contents base)) p := by
      rw [hdep]; exact hD
    obtain ⟨h1, h2, h3, h4⟩ := delete_root h.pg.notAvail hD2
    exact ⟨h1, h2, h3, h4⟩

omit [LinearOrder K] in
theorem At.length {rd : Nat → Option (Page K V)} :
    ∀ {d p : Nat} {s : List (Nat × Nat)} {i : Nat}, At rd d p s i → s.length = d + 1
  | 0, _, _, _, ⟨_, _, hs, _⟩ => by rw [hs]; rfl
  | d + 1, _, _, _, ⟨_, _, _, _, _, _, _, _, hs, ha, _⟩ => by
    rw [hs, List.length_cons, At.length ha]

omit [LinearOrder K] in
theorem contentsCh_take_get {rd : Nat → Option (Page K V)} {d : Nat} {cs : List (K × Nat)}
    {j : Nat} {k : K} {c : Nat} (h : cs[j]? = some (k, c)) :
    contentsCh rd d cs =
      contentsCh rd d (cs.take j) ++ contents rd d c ++ contentsCh rd d (cs.drop (j + 1)) := by
  have h1 : cs = cs.take j ++ (k, c) :: cs.drop (j + 1) := by
    have hj : j < cs.length := by
      by_contra hn
      rw [List.getElem?_eq_none (by omega)] at h
      cases h
    rw [List.getElem?_eq_getElem hj] at h
    simp only [Option.some.injEq] at h
    rw [← h, List.getElem_cons_drop, List.take_append_drop]
  conv => lhs; rw [h1]
  rw [contentsCh_append, contentsCh_cons, List.append_assoc]

omit [LinearOrder K] in
theorem At.lt {rd : Nat → Option (Page K V)} :
    ∀ {d p : Nat} {s : List (Nat × Nat)} {i : Nat}, At rd d p s i →
      i < (contents rd d p).length
  | 0, p, _, _, ⟨es, h1, _, h3⟩ => by rw [contents_leaf h1]; exact h3
  | d + 1, p, _, _, ⟨cs, j, k, c, s1, i1, h1, h2, _, ha, hi⟩ => by
    rw [contents_branchCh h1, contentsCh_take_get h2, hi]
    have := At.lt ha
    simp only [List.length_append]
    omega

omit [LinearOrder K] in
theorem stackEntry_cons (rd : Nat → Option (Page K V)) (e0 e : Nat × Nat)
    (rest : List (Nat × Nat)) : stackEntry rd (e0 :: e :: rest) = stackEntry rd (e :: rest) :=
  rfl

omit [LinearOrder K] in
/-- The entry under a cursor stack is the entry of that number. -/
theorem At.entry {rd : Nat → Option (Page K V)} :
    ∀ {d p : Nat} {s : List (Nat × Nat)} {i : Nat}, At rd d p s i →
      ∃ e, (contents rd d p)[i]? = some e ∧ stackEntry rd s = .ok e
  | 0, p, _, i, ⟨es, h1, hs, h3⟩ => by
    refine ⟨es[i], ?_, ?_⟩
    · rw [contents_leaf h1]; exact List.getElem?_eq_getElem h3
    · rw [hs]; simp only [stackEntry, h1, List.getElem?_eq_getElem h3]
  | d + 1, p, _, _, ⟨cs, j, k, c, s1, i1, h1, h2, hs, ha, hi⟩ => by
    obtain ⟨e, he1, he2⟩ := At.entry ha
    refine ⟨e, ?_, ?_⟩
    · rw [contents_branchCh h1, contentsCh_take_get h2, hi, List.append_assoc,
        List.getElem?_append_right (by omega)]
      simp only [Nat.add_sub_cancel_left]
      rw [List.getElem?_append_left (At.lt ha)]
      exact he1
    · have hl := At.length ha
      cases s1 with
      | nil => simp at hl
      | cons e1 rest =>
        rw [hs, stackEntry_cons]
        exact he2

theorem wf_contents_pos {rd : Nat → Option (Page K V)} :
    ∀ {d p : Nat} {lo hi : Option K}, wf rd d p lo hi → 0 < (contents rd d p).length
  | 0, p, _, _, ⟨es, h1, h2, _⟩ => by
    rw [contents_leaf h1]
    exact List.length_pos.mpr h2
  | d + 1, p, _, _, ⟨cs, h1, h2, h3⟩ => by
    rw [contents_branchCh h1]
    cases cs with
    | nil => simp at h2
    | cons e cs =>
      obtain ⟨k, c⟩ := e
      rw [contentsCh_cons, List.length_append]
      have := wf_contents_pos h3.2.1
      omega

theorem wfCh_mem {P : Nat → Option K → Option K → Prop} :
    ∀ {cs : List (K × Nat)} {lo hi : Option K}, wfCh P lo hi cs →
      ∀ e ∈ cs, ∃ lo1 hi1, P e.2 lo1 hi1
  | [], _, _, _, e, he => by simp at he
  | (_, c) :: rest, _, _, ⟨_, h2, h3⟩, e, he => by
    rcases List.mem_cons.mp he with rfl | he
    · exact ⟨_, _, h2⟩
    · exact wfCh_mem h3 e he

/-- The first position below a page that satisfies the invariant. -/
theorem descFirst_spec {rd : Nat → Option (Page K V)} :
    ∀ {d p : Nat} {lo hi : Option K}, wf rd d p lo hi →
      ∃ s, descFirst rd d p = .ok s ∧ At rd d p s 0
  | 0, p, _, _, ⟨es, h1, h2, _⟩ => by
    cases es with
    | nil => exact absurd rfl h2
    | cons e es =>
      exact ⟨[(p, 0)], by simp only [descFirst, h1], ⟨e :: es, h1, rfl, by simp⟩⟩
  | d + 1, p, _, _, ⟨cs, h1, h2, h3⟩ => by
    cases cs with
    | nil => simp at h2
    | cons e cs =>
      obtain ⟨k, c⟩ := e
      obtain ⟨s, hs1, hs2⟩ := descFirst_spec h3.2.1
      refine ⟨(p, 0) :: s, by simp only [descFirst, h1, hs1], ?_⟩
      exact ⟨_, 0, k, c, s, 0, h1, by simp, rfl, hs2, by simp [contentsCh_nil]⟩

/-- The last position below a page that satisfies the invariant. -/
theorem descLast_spec {rd : Nat → Option (Page K V)} :
    ∀ {d p : Nat} {lo hi : Option K}, wf rd d p lo hi →
      ∃ s, descLast rd d p = .ok s ∧ At rd d p s ((contents rd d p).length - 1)
  | 0, p, _, _, ⟨es, h1, h2, _⟩ => by
    cases es with
    | nil => exact absurd rfl h2
    | cons e es =>
      refine ⟨[(p, (e :: es).length - 1)], by simp only [descLast, h1], ?_⟩
      rw [contents_leaf h1]
      exact ⟨e :: es, h1, rfl, by simp⟩
  | d + 1, p, _, _, ⟨cs, h1, h2, h3⟩ => by
    rcases List.eq_nil_or_concat cs with h0 | ⟨cs0, e, h0⟩
    · subst h0; simp at h2
    · rw [List.concat_eq_append] at h0
      subst h0
      obtain ⟨k, c⟩ := e
      obtain ⟨lo1, hi1, hw⟩ := wfCh_mem h3 (k, c) (by simp)
      obtain ⟨s, hs1, hs2⟩ := descLast_spec hw
      have hpos := wf_contents_pos hw
      refine ⟨(p, (cs0 ++ [(k, c)]).length - 1) :: s, ?_, ?_⟩
      · simp only [descLast, h1, List.getLast?_concat, hs1]
      · refine ⟨_, _, k, c, s, _, h1, ?_, rfl, hs2, ?_⟩
        · simp
        · rw [contents_branchCh h1, contentsCh_append, contentsCh_cons, contentsCh_nil]
          simp only [List.length_append, List.length_cons, List.length_nil,
            Nat.add_sub_cancel, List.append_nil, List.take_left']
          simp only [] at hpos
          omega

omit [LinearOrder K] in
theorem stackNext_cons_ok {rd : Nat → Option (Page K V)} (p i : Nat) {e : Nat × Nat}
    {rest s : List (Nat × Nat)} (h : stackNext rd (e :: rest) = .ok s) :
    stackNext rd ((p, i) :: e :: rest) = .ok ((p, i) :: s) := by
  rw [stackNext, h]

omit [LinearOrder K] in
theorem stackNext_cons_end {rd : Nat → Option (Page K V)} {p i : Nat} {e : Nat × Nat}
    {rest : List (Nat × Nat)} {cs : List (K × Nat)}
    (h : stackNext rd (e :: rest) = .error .notfound) (hp : rd p = some (.branch cs))
    (hc : cs[i + 1]? = none) :
    stackNext rd ((p, i) :: e :: rest) = .error .notfound := by
  rw [stackNext, h]
  simp only [hp, hc]

omit [LinearOrder K] in
theorem stackNext_cons_sib {rd : Nat → Option (Page K V)} {p i : Nat} {e : Nat × Nat}
    {rest s : List (Nat × Nat)} {cs : List (K × Nat)} {k : K} {c : Nat}
    (h : stackNext rd (e :: rest) = .error .notfound) (hp : rd p = some (.branch cs))
    (hc : cs[i + 1]? = some (k, c)) (hd : descFirst rd rest.length c = .ok s) :
    stackNext rd ((p, i) :: e :: rest) = .ok ((p, i + 1) :: s) := by
  rw [stackNext, h]
  simp only [hp, hc, hd]

omit [LinearOrder K] in
theorem stackPrev_cons_ok {rd : Nat → Option (Page K V)} (p i : Nat) {e : Nat × Nat}
    {rest s : List (Nat × Nat)} (h : stackPrev rd (e :: rest) = .ok s) :
    stackPrev rd ((p, i) :: e :: rest) = .ok ((p, i) :: s) := by
  rw [stackPrev, h]

omit [LinearOrder K] in
theorem stackPrev_cons_end {rd : Nat → Option (Page K V)} {p : Nat} {e : Nat × Nat}
    {rest : List (Nat × Nat)} {cs : List (K × Nat)}
    (h : stackPrev rd (e :: rest) = .error .notfound) (hp : rd p = some (.branch cs)) :
    stackPrev rd ((p, 0) :: e :: rest) = .error .notfound := by
  rw [stackPrev, h]
  simp only [hp, Nat.lt_irrefl, if_false]

omit [LinearOrder K] in
theorem stackPrev_cons_sib {rd : Nat → Option (Page K V)} {p i : Nat} {e : Nat × Nat}
    {rest s : List (Nat × Nat)} {cs : List (K × Nat)} {k : K} {c : Nat}
    (h : stackPrev rd (e :: rest) = .error .notfound) (hp : rd p = some (.branch cs))
    (hi : 0 < i) (hc : cs[i - 1]? = some (k, c)) (hd : descLast rd rest.length c = .ok s) :
    stackPrev rd ((p, i) :: e :: rest) = .ok ((p, i - 1) :: s) := by
  rw [stackPrev, h]
  simp only [hp, hi, if_true, hc, hd]

omit [LinearOrder K] in
theorem take_succ_get {cs : List (K × Nat)} {j : Nat} {e : K × Nat} (h : cs[j]? = some e) :
    cs.take (j + 1) = cs.take j ++ [e] := by
  rw [List.take_succ, h]; rfl

omit [LinearOrder K] in
theorem mem_of_get {cs : List (K × Nat)} {j : Nat} {e : K × Nat} (h : cs[j]? = some e) :
    e ∈ cs := List.getElem?_mem h

/-- Moving a cursor stack forward: the next entry number, or not-found at the last entry. -/
theorem stackNext_spec {rd : Nat → Option (Page K V)} :
    ∀ {d p : Nat} {lo hi : Option K} {s : List (Nat × Nat)} {i : Nat},
      wfTop rd d p lo hi → At rd d p s i →
      (∃ s2, stackNext rd s = .ok s2 ∧ At rd d p s2 (i + 1)) ∨
        (stackNext rd s = .error .notfound ∧ i + 1 = (contents rd d p).length)
  | 0, p, _, _, _, i, ⟨es0, h0, _⟩, ⟨es, h1, hs, h3⟩ => by
    subst hs
    rw [contents_leaf h1]
    by_cases hi : i + 1 < es.length
    · left
      exact ⟨[(p, i + 1)], by simp only [stackNext, h1, hi, if_true], ⟨es, h1, rfl, hi⟩⟩
    · right
      exact ⟨by simp only [stackNext, h1, hi, if_false], by omega⟩
  | d + 1, p, _, _, _, _, ⟨cs0, h0, _, hw⟩, ⟨cs, j, k, c, s1, i1, h1, h2, hs, ha, hi⟩ => by
    have hcs : cs0 = cs := by rw [h0] at h1; injection h1 with h1; injection h1
    subst hcs hs hi
    obtain ⟨lo1, hi1, hwc⟩ := wfCh_mem hw (k, c) (mem_of_get h2)
    have hl := At.length ha
    have hlt := At.lt ha
    cases s1 with
    | nil => simp at hl
    | cons e rest =>
      have hr : rest.length = d := by simpa using hl
      rcases stackNext_spec hwc.top ha with ⟨s2, e1, e2⟩ | ⟨e1, e2⟩
      · left
        exact ⟨_, stackNext_cons_ok p j e1, ⟨_, j, k, c, s2, i1 + 1, h0, h2, rfl, e2, by omega⟩⟩
      · cases h4 : cs0[j + 1]? with
        | none =>
          right
          refine ⟨stackNext_cons_end e1 h0 h4, ?_⟩
          rw [contents_branchCh h0, contentsCh_take_get h2,
            List.drop_eq_nil_of_le (by
              by_contra hn
              rw [List.getElem?_eq_getElem (by omega)] at h4
              cases h4), contentsCh_nil]
          simp only [List.length_append, List.length_nil]
          simp only [] at e2
          omega
        | some e4 =>
          obtain ⟨k4, c4⟩ := e4
          obtain ⟨lo4, hi4, hw4⟩ := wfCh_mem hw (k4, c4) (mem_of_get h4)
          obtain ⟨s3, e3, a3⟩ := descFirst_spec hw4
          left
          rw [← hr] at e3
          refine ⟨_, stackNext_cons_sib e1 h0 h4 e3, ⟨_, j + 1, k4, c4, s3, 0, h0, h4, rfl, a3, ?_⟩⟩
          rw [take_succ_get h2, contentsCh_append, contentsCh_cons, contentsCh_nil]
          simp only [List.length_append, List.length_nil, List.append_nil]
          simp only [] at e2
          omega

/-- Moving a cursor stack backward: the previous entry number, or not-found at the first
entry. -/
theorem stackPrev_spec {rd : Nat → Option (Page K V)} :
    ∀ {d p : Nat} {lo hi : Option K} {s : List (Nat × Nat)} {i : Nat},
      wfTop rd d p lo hi → At rd d p s i →
      (∃ s2, stackPrev rd s = .ok s2 ∧ At rd d p s2 (i - 1) ∧ 0 < i) ∨
        (stackPrev rd s = .error .notfound ∧ i = 0)
  | 0, p, _, _, _, i, ⟨es0, h0, _⟩, ⟨es, h1, hs, h3⟩ => by
    subst hs
    by_cases hi : 0 < i
    · left
      exact ⟨[(p, i - 1)], by simp only [stackPrev, h1, hi, if_true],
        ⟨es, h1, rfl, by omega⟩, hi⟩
    · right
      exact ⟨by simp only [stackPrev, h1, hi, if_false], by omega⟩
  | d + 1, p, _, _, _, _, ⟨cs0, h0, _, hw⟩, ⟨cs, j, k, c, s1, i1, h1, h2, hs, ha, hi⟩ => by
    have hcs : cs0 = cs := by rw [h0] at h1; injection h1 with h1; injection h1
    subst hcs hs hi
    obtain ⟨lo1, hi1, hwc⟩ := wfCh_mem hw (k, c) (mem_of_get h2)
    have hl := At.length ha
    cases s1 with
    | nil => simp at hl
    | cons e rest =>
      have hr : rest.length = d := by simpa using hl
      rcases stackPrev_spec hwc.top ha with ⟨s2, e1, e2, e3⟩ | ⟨e1, e2⟩
      · left
        exact ⟨_, stackPrev_cons_ok p j e1, ⟨_, j, k, c, s2, i1 - 1, h0, h2, rfl, e2, by omega⟩,
          by omega⟩
      · subst e2
        by_cases hj : 0 < j
        · have hjl : j < cs0.length := by
            by_contra hn
            rw [List.getElem?_eq_none (by omega)] at h2
            cases h2
          have h4 : cs0[j - 1]? = some cs0[j - 1] := List.getElem?_eq_getElem (by omega)
          generalize cs0[j - 1] = e4 at h4
          obtain ⟨k4, c4⟩ := e4
          obtain ⟨lo4, hi4, hw4⟩ := wfCh_mem hw (k4, c4) (mem_of_get h4)
          obtain ⟨s3, e3, a3⟩ := descLast_spec hw4
          have hpos := wf_contents_pos hw4
          left
          rw [← hr] at e3
          have htk : cs0.take j = cs0.take (j - 1) ++ [(k4, c4)] := by
            have := take_succ_get h4
            rwa [Nat.sub_add_cancel hj] at this
          refine ⟨_, stackPrev_cons_sib e1 h0 hj h4 e3,
            ⟨_, j - 1, k4, c4, s3, _, h0, h4, rfl, a3, ?_⟩, ?_⟩
          · rw [htk, contentsCh_append, contentsCh_cons, contentsCh_nil]
            simp only [List.length_append, List.length_nil, List.append_nil]
            simp only [] at hpos
            omega
          · rw [htk, contentsCh_append, contentsCh_cons, contentsCh_nil]
            simp only [List.length_append, List.length_nil, List.append_nil]
            simp only [] at hpos
            omega
        · right
          have : j = 0 := by omega
          subst this
          exact ⟨stackPrev_cons_end e1 h0, by simp [contentsCh_nil]⟩

end Proofs8

section Proofs9

variable {K V : Type}

theorem Trace.reflT (readers : List Nat) (w : WTxn K V) : Trace readers w w :=
  ⟨fun _ _ h => Or.inl h, fun _ h => h, le_refl _, fun _ h => Or.inl h, fun _ h => h,
    fun h => h, fun _ h => Or.inl h⟩

theorem Taken.back {readers : List Nat} {w w2 : WTxn K V} (h : Trace readers w w2) {q : Nat}
    (hq : Taken readers w2 q) : Taken readers w q := by
  rcases hq with ⟨t, ht⟩ | ⟨t, ps, h1, h2, h3⟩ | h1
  · rcases h.pool t q ht with h1 | ⟨h1, ps, h2, h3⟩
    · exact Or.inl ⟨t, h1⟩
    · exact Or.inr (Or.inl ⟨t, ps, h2, h3, h1⟩)
  · exact Or.inr (Or.inl ⟨t, ps, h.free _ h1, h2, h3⟩)
  · exact Or.inr (Or.inr (le_trans h.next h1))

theorem Trace.transT {readers : List Nat} {w1 w2 w3 : WTxn K V} (h1 : Trace readers w1 w2)
    (h2 : Trace readers w2 w3) : Trace readers w1 w3 := by
  refine ⟨?_, fun e he => h1.free e (h2.free e he), le_trans h1.next h2.next, ?_,
    fun q hq => h2.freed q (h1.freed q hq), fun h => h2.uni (h1.uni h),
    fun e he => (h1.used e he).elim (fun h => h2.used e h) Or.inr⟩
  · intro t q hq
    rcases h2.pool t q hq with h | ⟨h3, ps, h4, h5⟩
    · exact h1.pool t q h
    · exact Or.inr ⟨h3, ps, h1.free _ h4, h5⟩
  · intro q hq
    rcases h2.dirty q hq with h | h
    · exact h1.dirty q h
    · exact Or.inr (h.back h1)

theorem Trace.releaseT (readers : List Nat) (w : WTxn K V) (p : Nat) :
    Trace readers w (w.release p) :=
  ⟨fun _ _ h => Or.inl h, fun _ h => h, le_refl _, fun _ h => Or.inl h,
    fun _ h => List.mem_cons_of_mem _ h, fun h => h, fun _ h => Or.inl h⟩

theorem Trace.rerootT {readers : List Nat} {w w2 : WTxn K V} (h : Trace readers w w2)
    (r d : Nat) : Trace readers w { w2 with root := r, depth := d } :=
  ⟨h.pool, h.free, h.next, h.dirty, h.freed, h.uni, h.used⟩

theorem reclaim_fst (readers : List Nat) :
    ∀ (fr : List FreeRec), ∀ e ∈ (reclaim readers fr).1,
      reclaimable readers e.1 = true ∧ ∃ ps, (e.1, ps) ∈ fr ∧ e.2 ∈ ps
  | [], e, he => by simp [reclaim] at he
  | (t, pgs) :: rest, e, he => by
    simp only [reclaim] at he
    split_ifs at he with h
    · cases pgs with
      | nil =>
        obtain ⟨h1, ps, h2, h3⟩ := reclaim_fst readers rest e he
        exact ⟨h1, ps, List.mem_cons_of_mem _ h2, h3⟩
      | cons q qs =>
        simp only [List.mem_map] at he
        obtain ⟨x, hx, rfl⟩ := he
        exact ⟨h, q :: qs, List.mem_cons_self _ _, hx⟩
    · simp at he

theorem reclaim_snd (readers : List Nat) :
    ∀ (fr : List FreeRec), ∀ e ∈ (reclaim readers fr).2, e ∈ fr
  | [], e, he => by simp [reclaim] at he
  | (t, pgs) :: rest, e, he => by
    simp only [reclaim] at he
    split_ifs at he with h
    · cases pgs with
      | nil => exact List.mem_cons_of_mem _ (reclaim_snd readers rest e he)
      | cons q qs => exact List.mem_cons_of_mem _ he
    · exact he

theorem reclaim_uni (readers : List Nat) :
    ∀ (fr : List FreeRec), ∀ e1 ∈ (reclaim readers fr).1, ∀ e2 ∈ (reclaim readers fr).1,
      e1.1 = e2.1
  | [], e, he, _, _ => by simp [reclaim] at he
  | (t, pgs) :: rest, e1, h1, e2, h2 => by
    simp only [reclaim] at h1 h2
    split_ifs at h1 h2 with h
    · cases pgs with
      | nil => exact reclaim_uni readers rest e1 h1 e2 h2
      | cons q qs =>
        simp only [List.mem_map] at h1 h2
        obtain ⟨x, _, rfl⟩ := h1
        obtain ⟨y, _, rfl⟩ := h2
        rfl
    · simp at h1

/-- An entry that `reclaim` does not leave in the free list is one no reader forbids. -/
theorem reclaim_used (readers : List Nat) :
    ∀ (fr : List FreeRec), ∀ e ∈ fr,
      e ∈ (reclaim readers fr).2 ∨ reclaimable readers e.1 = true
  | [], e, he => by cases he
  | (t, pgs) :: rest, e, he => by
    simp only [reclaim]
    split_ifs with h
    · rcases List.mem_cons.1 he with rfl | h2
      · exact Or.inr h
      · cases pgs with
        | nil => exact reclaim_used readers rest e h2
        | cons q qs => exact Or.inl h2
    · exact Or.inl he

/-- Every allocation respects the provenance rules. -/
theorem alloc_trace {cfg : Cfg} {readers : List Nat} {w w2 : WTxn K V} {pg : Page K V}
    {p : Nat} (h : w.alloc cfg readers pg = .ok (w2, p)) : Trace readers w w2 := by
  unfold WTxn.alloc at h
  cases hpool : w.pool with
  | cons e pool =>
    obtain ⟨t, q⟩ := e
    rw [hpool] at h
    simp only [Except.ok.injEq, Prod.mk.injEq] at h
    obtain ⟨rfl, rfl⟩ := h
    refine ⟨?_, fun _ h => h, le_refl _, ?_, fun _ h => h, ?_, fun _ h => Or.inl h⟩
    · intro t1 q1 h1
      left; rw [hpool]; exact List.mem_cons_of_mem _ h1
    · intro q1 h1
      simp only [WTxn.dirtyIds, List.map_cons, List.mem_cons] at h1
      rcases h1 with rfl | h1
      · right; left; exact ⟨t, by rw [hpool]; exact List.mem_cons_self _ _⟩
      · left; exact h1
    · intro hu e1 h1 e2 h2
      exact hu e1 (by rw [hpool]; exact List.mem_cons_of_mem _ h1) e2
        (by rw [hpool]; exact List.mem_cons_of_mem _ h2)
  | nil =>
    rw [hpool] at h
    simp only at h
    have hf := reclaim_fst readers w.free
    have hs := reclaim_snd readers w.free
    have hu := reclaim_uni readers w.free
    have hd := reclaim_used readers w.free
    cases hr : reclaim readers w.free with
    | mk pool2 free2 =>
      rw [hr] at h hf hs hu hd
      simp only at hf hs hu hd
      cases pool2 with
      | cons e pool =>
        obtain ⟨t, q⟩ := e
        simp only [Except.ok.injEq, Prod.mk.injEq] at h
        obtain ⟨rfl, rfl⟩ := h
        refine ⟨?_, hs, le_refl _, ?_, fun _ h => h, ?_, hd⟩
        · intro t1 q1 h1
          right
          exact hf (t1, q1) (List.mem_cons_of_mem _ h1)
        · intro q1 h1
          simp only [WTxn.dirtyIds, List.map_cons, List.mem_cons] at h1
          rcases h1 with rfl | h1
          · right; right; left
            obtain ⟨h2, ps, h3, h4⟩ := hf (t, q1) (List.mem_cons_self _ _)
            exact ⟨t, ps, h3, h4, h2⟩
          · left; exact h1
        · intro _ e1 h1 e2 h2
          exact hu e1 (List.mem_cons_of_mem _ h1) e2 (List.mem_cons_of_mem _ h2)
      | nil =>
        simp only at h
        split_ifs at h with hlt
        simp only [Except.ok.injEq, Prod.mk.injEq] at h
        obtain ⟨rfl, rfl⟩ := h
        refine ⟨?_, hs, Nat.le_succ _, ?_, fun _ h => h, ?_, hd⟩
        · intro t1 q1 h1
          simp at h1
        · intro q1 h1
          simp only [WTxn.dirtyIds, List.map_cons, List.mem_cons] at h1
          rcases h1 with rfl | h1
          · right; right; right; exact le_refl _
          · left; exact h1
        · intro _ e1 h1
          simp at h1

end Proofs9

section Proofs10

variable {K V : Type}
variable [LinearOrder K]

omit [LinearOrder K] in
theorem storeNode_trace {X : Type} {cfg : Cfg} {readers : List Nat} {cap : Nat}
    {mk : List (K × X) → Page K V} {es : List (K × X)} {w w2 : WTxn K V} {p : Nat}
    {sp : Option (K × Nat)} (h : storeNode cfg readers cap mk es w = .ok (w2, p, sp)) :
    Trace readers w w2 := by
  unfold storeNode at h
  split_ifs at h with hc
  · cases ha : w.alloc cfg readers (mk es) with
    | error e => rw [ha] at h; cases h
    | ok r =>
      obtain ⟨w1, p1⟩ := r
      rw [ha] at h
      simp only [Except.ok.injEq, Prod.mk.injEq] at h
      obtain ⟨rfl, _⟩ := h
      exact alloc_trace ha
  · cases hd : es.drop (splitPoint es.length) with
    | nil =>
      rw [hd] at h
      cases ha : w.alloc cfg readers (mk es) with
      | error e => rw [ha] at h; cases h
      | ok r =>
        obtain ⟨w1, p1⟩ := r
        rw [ha] at h
        simp only [Except.ok.injEq, Prod.mk.injEq] at h
        obtain ⟨rfl, _⟩ := h
        exact alloc_trace ha
    | cons e r =>
      obtain ⟨sep, x⟩ := e
      rw [hd] at h
      simp only at h
      cases ha : w.alloc cfg readers (mk (es.take (splitPoint es.length))) with
      | error e => rw [ha] at h; cases h
      | ok r1 =>
        obtain ⟨w1, pl⟩ := r1
        rw [ha] at h
        simp only at h
        cases hb : w1.alloc cfg readers (mk ((sep, x) :: r)) with
        | error e => rw [hb] at h; cases h
        | ok r2 =>
          obtain ⟨w3, pr⟩ := r2
          rw [hb] at h
          simp only [Except.ok.injEq, Prod.mk.injEq] at h
          obtain ⟨rfl, _⟩ := h
          exact (alloc_trace ha).transT (alloc_trace hb)

theorem insAt_trace {cfg : Cfg} {readers : List Nat} {base : List (Page K V)} {k : K} {v : V} :
    ∀ {d p : Nat} {w w2 : WTxn K V} {p2 : Nat} {sp : Option (K × Nat)},
      insAt cfg readers base k v d p w = .ok (w2, p2, sp) → Trace readers w w2
  | 0, p, w, w2, p2, sp, h => by
    unfold insAt at h
    split at h
    · exact (Trace.releaseT readers w p).transT (storeNode_trace h)
    · cases h
  | d + 1, p, w, w2, p2, sp, h => by
    unfold insAt at h
    split at h
    · split at h
      · cases h
      · split at h
        · cases h
        · rename_i w1 c1 sp1 hi
          exact ((insAt_trace hi).transT (Trace.releaseT readers w1 p)).transT (storeNode_trace h)
    · cases h

theorem insert_trace {cfg : Cfg} {readers : List Nat} {base : List (Page K V)} {k : K} {v : V}
    {w w2 : WTxn K V} (h : w.insert cfg readers base k v = .ok w2) : Trace readers w w2 := by
  unfold WTxn.insert at h
  split at h
  · cases h
  · rename_i w1 p hi
    simp only [Except.ok.injEq] at h
    subst h
    exact (insAt_trace hi).rerootT p w1.depth
  · rename_i w1 p s q hi
    split at h
    · rename_i w3 r ha
      simp only [Except.ok.injEq] at h
      subst h
      exact ((insAt_trace hi).transT (alloc_trace ha)).rerootT r (w1.depth + 1)
    · cases h

omit [LinearOrder K] in
theorem mergeAt_trace {cfg : Cfg} {readers : List Nat} {base : List (Page K V)}
    {cs cs2 : List (K × Nat)} {j : Nat} {w w2 : WTxn K V}
    (h : mergeAt cfg readers base cs j w = .ok (w2, cs2)) : Trace readers w w2 := by
  unfold mergeAt at h
  split at h
  · split at h
    · split at h
      · split at h
        · rename_i ha
          simp only [Except.ok.injEq, Prod.mk.injEq] at h
          obtain ⟨rfl, _⟩ := h
          exact ((Trace.releaseT readers w _).transT (Trace.releaseT readers _ _)).transT
            (alloc_trace ha)
        · cases h
      · cases h
    · cases h
  · cases h

theorem shiftAt_trace {cfg : Cfg} {readers : List Nat} {base : List (Page K V)} {toLeft : Bool}
    {cs cs2 : List (K × Nat)} {j : Nat} {w w2 : WTxn K V}
    (h : shiftAt cfg readers base toLeft cs j w = .ok (w2, cs2)) : Trace readers w w2 := by
  unfold shiftAt at h
  split at h
  · split at h
    · split at h
      · split at h
        · split at h
          · rename_i ha _ _ _ hb
            simp only [Except.ok.injEq, Prod.mk.injEq] at h
            obtain ⟨rfl, _⟩ := h
            exact (((Trace.releaseT readers w _).transT (Trace.releaseT readers _ _)).transT
              (alloc_trace ha)).transT (alloc_trace hb)
          · cases h
        · cases h
      · cases h
    · cases h
  · cases h

theorem rebalance_trace {cfg : Cfg} {readers : List Nat} {base : List (Page K V)} {d : Nat}
    {cs cs2 : List (K × Nat)} {i : Nat} {w w2 : WTxn K V}
    (h : rebalance cfg readers base d cs i w = .ok (w2, cs2)) : Trace readers w w2 := by
  unfold rebalance at h
  split at h
  · cases h
  · split at h
    · simp only [Except.ok.injEq, Prod.mk.injEq] at h
      obtain ⟨rfl, _⟩ := h
      exact Trace.reflT readers w
    · exact mergeAt_trace h
    · exact mergeAt_trace h
    · exact shiftAt_trace h
    · exact shiftAt_trace h

theorem delAt_trace {cfg : Cfg} {readers : List Nat} {base : List (Page K V)} {k : K} :
    ∀ {d p : Nat} {w w2 : WTxn K V} {p2 : Nat},
      delAt cfg readers base k d p w = .ok (w2, p2) → Trace readers w w2
  | 0, p, w, w2, p2, h => by
    unfold delAt at h
    split at h
    · exact (Trace.releaseT readers w p).transT (alloc_trace h)
    · cases h
  | d + 1, p, w, w2, p2, h => by
    unfold delAt at h
    split at h
    · split at h
      · cases h
      · split at h
        · cases h
        · rename_i w1 c1 hi
          split at h
          · cases h
          · rename_i w3 cs3 hr
            exact (((delAt_trace hi).transT (rebalance_trace hr)).transT
              (Trace.releaseT readers w3 p)).transT (alloc_trace h)
    · cases h

omit [LinearOrder K] in
theorem shrinkRoot_trace (readers : List Nat) (base : List (Page K V)) (w : WTxn K V)
    (p : Nat) : Trace readers w (w.shrinkRoot base p) := by
  unfold WTxn.shrinkRoot
  split
  · exact (Trace.releaseT readers w p).rerootT _ _
  · exact (Trace.reflT readers w).rerootT p w.depth

theorem delete_trace {cfg : Cfg} {readers : List Nat} {base : List (Page K V)} {k : K}
    {w w2 : WTxn K V} (h : w.delete cfg readers base k = .ok w2) : Trace readers w w2 := by
  unfold WTxn.delete at h
  split at h
  · cases h
  · rename_i w1 p hd
    simp only [Except.ok.injEq] at h
    subst h
    exact (delAt_trace hd).transT (shrinkRoot_trace readers base w1 p)

end Proofs10

section Proofs11

variable {K V : Type}

theorem writePage_self (pages : List (Page K V)) (p : Nat) (pg : Page K V) :
    (writePage pages p pg)[p]? = some pg := by
  unfold writePage
  split_ifs with h
  · simp [h]
  · have hl : (pages ++ List.replicate (p - pages.length) (Page.leaf [])).length = p := by
      simp only [List.length_append, List.length_replicate]
      omega
    rw [List.getElem?_append_right (by omega), hl]
    simp

theorem writePage_other (pages : List (Page K V)) (p : Nat) (pg : Page K V) {q : Nat}
    (hq : q < pages.length) (hne : p ≠ q) : (writePage pages p pg)[q]? = pages[q]? := by
  unfold writePage
  split_ifs with h
  · exact List.getElem?_set_ne hne
  · rw [List.append_assoc, List.getElem?_append_left hq]

theorem lt_of_get {α : Type} {l : List α} {q : Nat} {x : α} (h : l[q]? = some x) :
    q < l.length := by
  by_contra hn
  rw [List.getElem?_eq_none (by omega)] at h
  cases h

theorem flush_dirty (base : List (Page K V)) :
    ∀ (dirty : List (Nat × Page K V)) {q : Nat} {pg : Page K V},
      dirtyFind q dirty = some pg → (flush base dirty)[q]? = some pg
  | [], _, _, h => by simp [dirtyFind] at h
  | (p, pg1) :: rest, q, pg, h => by
    rw [dirtyFind_cons] at h
    simp only [flush]
    split_ifs at h with hp
    · subst hp
      rw [writePage_self]; exact h
    · have ih := flush_dirty base rest h
      rw [writePage_other _ _ _ (lt_of_get ih) hp]
      exact ih

theorem flush_base (base : List (Page K V)) :
    ∀ (dirty : List (Nat × Page K V)) {q : Nat} {pg : Page K V},
      dirtyFind q dirty = none → base[q]? = some pg → (flush base dirty)[q]? = some pg
  | [], _, _, _, hb => hb
  | (p, pg1) :: rest, q, pg, h, hb => by
    rw [dirtyFind_cons] at h
    simp only [flush]
    split_ifs at h with hp
    have ih := flush_base base rest h hb
    rw [writePage_other _ _ _ (lt_of_get ih) hp]
    exact ih

theorem dirtyFind_none :
    ∀ (dirty : List (Nat × Page K V)) {q : Nat},
      q ∉ dirty.map (fun e => e.1) → dirtyFind q dirty = none
  | [], _, _ => rfl
  | (p, pg1) :: rest, q, h => by
    rw [dirtyFind_cons]
    simp only [List.map_cons, List.mem_cons, not_or] at h
    rw [if_neg (fun e => h.1 e.symm)]
    exact dirtyFind_none rest h.2

/-- After the flush the mapped file holds every page as the write transaction saw it. -/
theorem flush_page (base : List (Page K V)) (w : WTxn K V) {q : Nat} {pg : Page K V}
    (h : w.page base q = some pg) : (flush base w.dirty)[q]? = some pg := by
  unfold WTxn.page at h
  cases hd : dirtyFind q w.dirty with
  | some pg1 =>
    rw [hd] at h
    simp only [Option.some.injEq] at h
    subst h
    exact flush_dirty base _ hd
  | none =>
    rw [hd] at h
    exact flush_base base _ hd h

/-- The flush leaves the pages that were not staged as they are. -/
theorem flush_keep (base : List (Page K V)) (w : WTxn K V) {q : Nat} {pg : Page K V}
    (hq : q ∉ w.dirtyIds) (h : base[q]? = some pg) : (flush base w.dirty)[q]? = some pg :=
  flush_base base _ (dirtyFind_none _ hq) h

theorem page_clean (base : List (Page K V)) (w : WTxn K V) {q : Nat}
    (hq : q ∉ w.dirtyIds) : w.page base q = base[q]? := by
  unfold WTxn.page
  rw [dirtyFind_none _ hq]

end Proofs11

section Proofs12

variable {K V : Type} [LinearOrder K]

omit [LinearOrder K] in
theorem mem_freePages {fr : List FreeRec} {q : Nat} :
    q ∈ freePages fr ↔ ∃ t ps, (t, ps) ∈ fr ∧ q ∈ ps := by
  simp only [freePages, List.mem_flatMap]
  constructor
  · rintro ⟨⟨t, ps⟩, h1, h2⟩
    exact ⟨t, ps, h1, h2⟩
  · rintro ⟨t, ps, h1, h2⟩
    exact ⟨(t, ps), h1, h2⟩

theorem wfIn_congr {rd rd2 : Nat → Option (Page K V)} (d : Nat) (p : Nat) (lo hi : Option K)
    (h : ∀ q ∈ pagesOf rd d p, rd2 q = rd q) (hw : wfIn rd d p lo hi) : wfIn rd2 d p lo hi := by
  cases d with
  | zero => exact wfTop_congr 0 p lo hi h hw
  | succ d => exact wf_congr (d + 1) p lo hi h hw

omit [LinearOrder K] in
theorem reclaimable_readers {env : Env K V} {t : Nat}
    (h : reclaimable env.readerIds t = true) :
    ∀ r, some r ∈ env.readers → t ≤ r.txnid := by
  intro r hr
  unfold reclaimable at h
  rw [List.all_eq_true] at h
  have := h r.txnid (by
    unfold Env.readerIds
    rw [List.mem_filterMap]
    exact ⟨some r, hr, rfl⟩)
  exact of_decide_eq_true this

/-- A free page whose entry no reader forbids is safe. -/
theorem InvAt.free_safe {env : Env K V} {m : Meta} (h : InvAt env m) {t : Nat} {ps : List Nat}
    {q : Nat} (he : (t, ps) ∈ m.free) (hq : q ∈ ps)
    (hr : ∀ r, some r ∈ env.readers → t ≤ r.txnid) : env.Safe m q := by
  have hf : q ∈ freePages m.free := mem_freePages.mpr ⟨t, ps, he, hq⟩
  exact ⟨(h.committed.frange q hf).1, h.committed.disj q hf,
    fun r hm => (h.readers r hm).disj (t, ps) he (hr r hm) q hq⟩

/-- A page beyond the pages in use is safe. -/
theorem InvAt.beyond_safe {env : Env K V} {m : Meta} (h : InvAt env m) {q : Nat}
    (hq : m.lastPg ≤ q) : env.Safe m q := by
  refine ⟨le_trans h.committed.last hq, ?_, ?_⟩
  · intro hm
    have := (h.committed.low q hm).2
    omega
  · intro r hr hm
    have := ((h.readers r hr).low q hm).2
    omega

/-- Whatever the allocator may take is safe. -/
theorem InvAt.taken_safe {env : Env K V} {m : Meta} (h : InvAt env m) {w : WTxn K V}
    (hw : WInv env m w) {q : Nat} (hq : Taken env.readerIds w q) : env.Safe m q := by
  rcases hq with ⟨t, ht⟩ | ⟨t, ps, h1, h2, h3⟩ | h1
  · obtain ⟨h1, ps, h2, h3⟩ := hw.pool t q ht
    exact h.free_safe h2 h3 h1
  · exact h.free_safe (hw.free _ h1) h2 (reclaimable_readers h3)
  · exact h.beyond_safe (le_trans hw.next h1)

/-- Every page available to the allocator is a data page. -/
theorem InvAt.avail_low {env : Env K V} {m : Meta} (h : InvAt env m) {w : WTxn K V}
    (hw : WInv env m w) {q : Nat} (hq : w.Avail q) : 2 ≤ q := by
  rcases hq with hq | hq
  · unfold WTxn.availList at hq
    rw [List.mem_append] at hq
    rcases hq with hq | hq
    · rw [List.mem_map] at hq
      obtain ⟨⟨t, q1⟩, h1, rfl⟩ := hq
      obtain ⟨_, ps, h2, h3⟩ := hw.pool t q1 h1
      exact (h.committed.frange q1 (mem_freePages.mpr ⟨t, ps, h2, h3⟩)).1
    · obtain ⟨t, ps, h1, h2⟩ := mem_freePages.mp hq
      exact (h.committed.frange q (mem_freePages.mpr ⟨t, ps, hw.free _ h1, h2⟩)).1
  · exact le_trans h.committed.last (le_trans hw.next hq)

theorem WTree.markFailedT {base : List (Page K V)} {w : WTxn K V} (h : WTree base w) :
    WTree base { w with failed := true } :=
  ⟨⟨h.ok.nodup, h.ok.below, h.ok.freed, h.ok.fnodup⟩, h.wf,
    ⟨h.pg.nodup, h.pg.notAvail, h.pg.notFreed⟩⟩

/-- A mutation of the write transaction keeps the environment sound. -/
theorem InvAt.mutate {env : Env K V} {m : Meta} {w w2 : WTxn K V} {C : List (K × V)}
    (h : InvAt env m) (hw : env.writer = some w) (hm : Mutated env.pages w w2 C)
    (ht : Trace env.readerIds w w2) : InvAt { env with writer := some w2 } m := by
  have old := h.writer w hw
  refine ⟨h.cfg, h.cur, h.committed, h.readers, ?_⟩
  intro w3 h3
  simp only [Option.some.injEq] at h3
  subst h3
  refine ⟨hm.tree, hm.grow.txnid.trans old.txnid, le_trans old.next hm.grow.next, ?_, ?_,
    ht.uni old.uni, ?_, ?_, ?_⟩
  · intro t q hq
    rcases ht.pool t q hq with h1 | ⟨h1, ps, h2, h3⟩
    · exact old.pool t q h1
    · exact ⟨reclaimable_readers h1, ps, old.free _ h2, h3⟩
  · exact fun e he => old.free e (ht.free e he)
  · intro q hq
    rcases ht.dirty q hq with h1 | h1
    · exact old.dirty q h1
    · exact h.taken_safe old h1
  · intro q hq
    rcases hm.pages.src q hq with h1 | h1
    · exact old.low q h1
    · exact h.avail_low old h1.1
  · intro q hq
    rcases hm.pages.freedSrc q hq with h1 | h1 | h1
    · exact old.flow q h1
    · exact old.low q h1
    · exact h.avail_low old h1.1

/-- Marking the write transaction failed keeps the environment sound. -/
theorem InvAt.markFailed {env : Env K V} {m : Meta} {w : WTxn K V}
    (h : InvAt env m) (hw : env.writer = some w) :
    InvAt { env with writer := some { w with failed := true } } m := by
  have old := h.writer w hw
  refine ⟨h.cfg, h.cur, h.committed, h.readers, ?_⟩
  intro w3 h3
  simp only [Option.some.injEq] at h3
  subst h3
  exact ⟨old.tree.markFailedT, old.txnid, old.next, old.pool, old.free, old.uni, old.dirty,
    old.low, old.flow⟩

/-- Dropping the write transaction keeps the environment sound. -/
theorem InvAt.dropWriter {env : Env K V} {m : Meta} (h : InvAt env m) :
    InvAt { env with writer := none } m :=
  ⟨h.cfg, h.cur, h.committed, h.readers, fun _ hw => by cases hw⟩

omit [LinearOrder K] in
theorem mem_set_none {rs : List (Option RTxn)} {i : Nat} {r : RTxn}
    (h : some r ∈ rs.set i none) : some r ∈ rs := by
  rcases List.mem_or_eq_of_mem_set h with h1 | h1
  · exact h1
  · cases h1

/-- Deregistering a reader keeps the environment sound. -/
theorem InvAt.endRead {env : Env K V} {m : Meta} (h : InvAt env m) (i : Nat) :
    InvAt { env with readers := env.readers.set i none } m := by
  refine ⟨h.cfg, h.cur, h.committed, fun r hr => h.readers r (mem_set_none hr), ?_⟩
  intro w hw
  have old := h.writer w hw
  refine ⟨old.tree, old.txnid, old.next, ?_, old.free, old.uni, ?_, old.low, old.flow⟩
  · intro t q hq
    obtain ⟨h1, h2⟩ := old.pool t q hq
    exact ⟨fun r hr => h1 r (mem_set_none hr), h2⟩
  · intro q hq
    obtain ⟨h1, h2, h3⟩ := old.dirty q hq
    exact ⟨h1, h2, fun r hr => h3 r (mem_set_none hr)⟩

/-- Registering a reader on the current meta page keeps the environment sound. -/
theorem InvAt.beginRead {env : Env K V} {m : Meta} (h : InvAt env m) (i : Nat) :
    InvAt { env with readers := env.readers.set i (some (RTxn.mk m.txnid m.root m.depth)) }
      m := by
  have hnew : RInv env.page m (RTxn.mk m.txnid m.root m.depth) :=
    ⟨h.committed.tree, le_refl _, h.committed.low,
      fun e he _ q hq => h.committed.disj q (mem_freePages.mpr ⟨e.1, e.2, he, hq⟩)⟩
  refine ⟨h.cfg, h.cur, h.committed, ?_, ?_⟩
  · intro r hr
    rcases List.mem_or_eq_of_mem_set hr with h1 | h1
    · exact h.readers r h1
    · simp only [Option.some.injEq] at h1
      subst h1
      exact hnew
  · intro w hw
    have old := h.writer w hw
    refine ⟨old.tree, old.txnid, old.next, ?_, old.free, old.uni, ?_, old.low, old.flow⟩
    · intro t q hq
      obtain ⟨h1, ps, h2, h3⟩ := old.pool t q hq
      refine ⟨?_, ps, h2, h3⟩
      intro r hr
      rcases List.mem_or_eq_of_mem_set hr with h4 | h4
      · exact h1 r h4
      · simp only [Option.some.injEq] at h4
        subst h4
        exact h.committed.keys _ h2
    · intro q hq
      obtain ⟨h1, h2, h3⟩ := old.dirty q hq
      refine ⟨h1, h2, ?_⟩
      intro r hr
      rcases List.mem_or_eq_of_mem_set hr with h4 | h4
      · exact h3 r h4
      · simp only [Option.some.injEq] at h4
        subst h4
        exact h2

omit [LinearOrder K] in
theorem WTxn.start_page (base : List (Page K V)) (m : Meta) (q : Nat) :
    (WTxn.start m : WTxn K V).page base q = base[q]? := rfl

/-- Beginning a write transaction keeps the environment sound. -/
theorem InvAt.beginWrite {env : Env K V} {m : Meta} (h : InvAt env m) :
    InvAt { env with writer := some (WTxn.start m) } m := by
  refine ⟨h.cfg, h.cur, h.committed, h.readers, ?_⟩
  intro w3 h3
  simp only [Option.some.injEq] at h3
  subst h3
  have hav : (WTxn.start m : WTxn K V).availList = freePages m.free := by
    simp [WTxn.availList, WTxn.start, freePages]
  have hpg : (WTxn.start m : WTxn K V).pages env.pages = pagesOf env.page m.depth m.root := rfl
  refine ⟨⟨⟨?_, ?_, ?_, List.nodup_nil⟩, h.committed.tree, ⟨?_, ?_, ?_⟩⟩, rfl, le_refl _, ?_,
    fun e he => he, ?_, ?_, ?_, ?_⟩
  · rw [hav]; exact h.committed.fnodup
  · intro q hq
    rw [hav] at hq
    exact (h.committed.frange q hq).2
  · intro q hq
    simp [WTxn.start] at hq
  · rw [hpg]; exact h.committed.nodup
  · intro q hq hav2
    rw [hpg] at hq
    rcases hav2 with h1 | h1
    · rw [hav] at h1
      exact h.committed.disj q h1 hq
    · have := (h.committed.low q hq).2
      have h2 : m.lastPg ≤ q := h1
      omega
  · intro q _ hq
    simp [WTxn.start] at hq
  · intro t q hq
    simp [WTxn.start] at hq
  · intro e1 h1
    simp [WTxn.start] at h1
  · intro q hq
    simp [WTxn.dirtyIds, WTxn.start] at hq
  · intro q hq
    rw [hpg] at hq
    exact (h.committed.low q hq).1
  · intro q hq
    simp [WTxn.start] at hq

omit [LinearOrder K] in
/-- The current slot and the current meta page, read off the two meta slots. -/
theorem cur_cases {env : Env K V} {m : Meta} {s : Nat} (hc : env.curMeta = some m)
    (hs : env.curSlot = some s) :
    ∃ a b, env.pages[0]? = some (.meta a) ∧ env.pages[1]? = some (.meta b) ∧
      ((a.txnid < b.txnid ∧ s = 1 ∧ m = b) ∨ (¬ a.txnid < b.txnid ∧ s = 0 ∧ m = a)) := by
  unfold Env.curMeta Env.metaAt at hc
  unfold Env.curSlot Env.metaAt at hs
  cases h0 : env.pages[0]? with
  | none => rw [h0] at hc; simp at hc
  | some p0 =>
    cases h1 : env.pages[1]? with
    | none => rw [h0, h1] at hc; cases p0 <;> simp at hc
    | some p1 =>
      rw [h0, h1] at hc hs
      cases p0 with
      | leaf es => simp at hc
      | branch cs => simp at hc
      | meta a =>
        cases p1 with
        | leaf es => simp at hc
        | branch cs => simp at hc
        | meta b =>
          simp only [Option.some.injEq] at hc hs
          refine ⟨a, b, rfl, rfl, ?_⟩
          by_cases hab : a.txnid < b.txnid
          · left
            simp only [hab, if_true] at hc hs
            exact ⟨hab, hs.symm, hc.symm⟩
          · right
            simp only [hab, if_false] at hc hs
            exact ⟨hab, hs.symm, hc.symm⟩

omit [LinearOrder K] in
theorem curSlot_of_curMeta {env : Env K V} {m : Meta} (hc : env.curMeta = some m) :
    ∃ s, env.curSlot = some s := by
  unfold Env.curMeta at hc
  unfold Env.curSlot
  cases h0 : env.metaAt 0 with
  | none => rw [h0] at hc; simp at hc
  | some a =>
    cases h1 : env.metaAt 1 with
    | none => rw [h0, h1] at hc; simp at hc
    | some b => exact ⟨_, rfl⟩

omit [LinearOrder K] in
/-- Writing a meta page with a higher transaction id into the other slot makes it current. -/
theorem curMeta_flip {env : Env K V} {m : Meta} {s : Nat} (hc : env.curMeta = some m)
    (hs : env.curSlot = some s) (pages2 : List (Page K V)) (m2 : Meta)
    (h1 : pages2[1 - s]? = some (.meta m2)) (h2 : pages2[s]? = env.pages[s]?)
    (hlt : m.txnid < m2.txnid) (wr : Option (WTxn K V)) :
    Env.curMeta { env with pages := pages2, writer := wr } = some m2 := by
  obtain ⟨a, b, ha, hb, h | h⟩ := cur_cases hc hs
  · obtain ⟨hab, rfl, rfl⟩ := h
    rw [hb] at h2
    simp only [Nat.sub_self] at h1
    simp only [Env.curMeta, Env.metaAt, h1, h2]
    have : ¬ m2.txnid < m.txnid := by omega
    simp only [this, if_false]
  · obtain ⟨hab, rfl, rfl⟩ := h
    rw [ha] at h2
    simp only [Nat.sub_zero] at h1
    simp only [Env.curMeta, Env.metaAt, h1, h2]
    simp only [hlt, if_true]

omit [LinearOrder K] in
theorem freePages_poolBack (pool : List (Nat × Nat)) :
    freePages (poolBack pool) = pool.map (fun e => e.2) := by
  cases pool with
  | nil => rfl
  | cons e rest =>
    obtain ⟨t, p⟩ := e
    simp [poolBack, freePages]

omit [LinearOrder K] in
theorem freePages_toMeta (w : WTxn K V) :
    freePages w.toMeta.free = w.availList ++ w.freed := by
  simp only [WTxn.toMeta, freePages, List.flatMap_append, WTxn.availList]
  have := freePages_poolBack w.pool
  unfold freePages at this
  rw [this]
  simp

omit [LinearOrder K] in
theorem mem_poolBack {pool : List (Nat × Nat)} {e : FreeRec} (h : e ∈ poolBack pool) :
    (∃ p, (e.1, p) ∈ pool) ∧ ∀ q ∈ e.2, ∃ t, (t, q) ∈ pool := by
  cases pool with
  | nil => simp [poolBack] at h
  | cons e1 rest =>
    obtain ⟨t, p⟩ := e1
    simp only [poolBack, List.mem_singleton] at h
    subst h
    refine ⟨⟨p, List.mem_cons_self _ _⟩, ?_⟩
    intro q hq
    simp only [List.mem_cons, List.mem_map] at hq
    rcases hq with rfl | ⟨x, hx, rfl⟩
    · exact ⟨t, List.mem_cons_self _ _⟩
    · exact ⟨x.1, List.mem_cons_of_mem _ hx⟩

/-- Every page of a tree that satisfies the invariant can be read. -/
theorem pagesOf_some {rd : Nat → Option (Page K V)} :
    ∀ {d p : Nat} {lo hi : Option K}, wfTop rd d p lo hi →
      ∀ q ∈ pagesOf rd d p, ∃ pg, rd q = some pg
  | 0, p, _, _, ⟨es, h1, _⟩, q, hq => by
    simp only [pagesOf, List.mem_singleton] at hq
    subst hq
    exact ⟨_, h1⟩
  | d + 1, p, _, _, ⟨cs, h1, _, h3⟩, q, hq => by
    simp only [pagesOf, h1, List.mem_cons, List.mem_flatMap] at hq
    rcases hq with rfl | ⟨e, he, hq⟩
    · exact ⟨_, h1⟩
    · obtain ⟨lo1, hi1, hw⟩ := wfCh_mem h3 e he
      exact pagesOf_some hw.top q hq

omit [LinearOrder K] in
theorem commitPages_tree {pages : List (Page K V)} {w : WTxn K V} {s : Nat} {q : Nat}
    {pg : Page K V} (hq : 2 ≤ q) (h : w.page pages q = some pg) :
    (commitPages pages w s)[q]? = some pg := by
  unfold commitPages
  rw [List.getElem?_set_ne (by omega)]
  exact flush_page pages w h

omit [LinearOrder K] in
theorem commitPages_keep {pages : List (Page K V)} {w : WTxn K V} {s : Nat} {q : Nat}
    {pg : Page K V} (hq : q ≠ 1 - s) (hd : q ∉ w.dirtyIds) (h : pages[q]? = some pg) :
    (commitPages pages w s)[q]? = some pg := by
  unfold commitPages
  rw [List.getElem?_set_ne (fun e => hq e.symm)]
  exact flush_keep pages w hd h

omit [LinearOrder K] in
theorem commitPages_meta {pages : List (Page K V)} {w : WTxn K V} {s : Nat}
    {pg : Page K V} (hd : (1 - s) ∉ w.dirtyIds) (h : pages[1 - s]? = some pg) :
    (commitPages pages w s)[1 - s]? = some (.meta w.toMeta) := by
  unfold commitPages
  have := lt_of_get (flush_keep pages w hd h)
  rw [List.getElem?_set_self this]

/-- Committing the write transaction keeps the environment sound, with the new meta page as
the current one. -/
theorem InvAt.commit {env : Env K V} {m : Meta} {w : WTxn K V} {s : Nat}
    (h : InvAt env m) (hw : env.writer = some w) (hs : env.curSlot = some s) :
    InvAt { env with pages := commitPages env.pages w s, writer := none } w.toMeta := by
  have old := h.writer w hw
  obtain ⟨a, b, ha, hb, hcase⟩ := cur_cases h.cur hs
  have hs01 : s = 0 ∨ s = 1 := by
    rcases hcase with ⟨_, h1, _⟩ | ⟨_, h1, _⟩
    · exact Or.inr h1
    · exact Or.inl h1
  have hnd : ∀ q, q < 2 → q ∉ w.dirtyIds := by
    intro q hq hm
    have := (old.dirty q hm).1
    omega
  have hex : ∀ q, q < 2 → ∃ pg, env.pages[q]? = some pg := by
    intro q hq
    have : q = 0 ∨ q = 1 := by omega
    rcases this with rfl | rfl
    · exact ⟨_, ha⟩
    · exact ⟨_, hb⟩
  -- the new tree reads as the write transaction saw it
  have htree : ∀ q ∈ w.pages env.pages,
      (commitPages env.pages w s)[q]? = w.page env.pages q := by
    intro q hq
    obtain ⟨pg, hpg⟩ := pagesOf_some old.tree.wf.topIn q hq
    rw [hpg]
    exact commitPages_tree (old.low q hq) hpg
  -- the readers' trees read as before
  have hread : ∀ r, some r ∈ env.readers → ∀ q ∈ pagesOf env.page r.depth r.root,
      (commitPages env.pages w s)[q]? = env.page q := by
    intro r hr q hq
    obtain ⟨pg, hpg⟩ := pagesOf_some (h.readers r hr).tree.topIn q hq
    have h2 := ((h.readers r hr).low q hq).1
    rw [hpg]
    refine commitPages_keep (by omega) ?_ hpg
    intro hd
    exact (old.dirty q hd).2.2 r hr hq
  have hpgs : pagesOf (fun q => (commitPages env.pages w s)[q]?) w.depth w.root
      = w.pages env.pages := pagesOf_congr _ _ htree
  have hnext : ∀ q, ¬ w.Avail q → q < w.next := by
    intro q hq
    by_contra hn
    exact hq (Or.inr (by omega))
  refine ⟨h.cfg, ?_, ⟨?_, ?_, ?_, ?_, ?_, ?_, ?_, ?_⟩, ?_, fun _ hw => by cases hw⟩
  · -- the new meta page is current
    obtain ⟨pg, hpg⟩ := hex (1 - s) (by omega)
    obtain ⟨pg2, hpg2⟩ := hex s (by omega)
    refine curMeta_flip h.cur hs _ _ (commitPages_meta (hnd _ (by omega)) hpg) ?_ ?_ none
    · rw [hpg2]
      exact commitPages_keep (by omega) (hnd _ (by omega)) hpg2
    · show m.txnid < w.txnid
      rw [old.txnid]; omega
  · exact wfIn_congr _ _ _ _ (fun q hq => htree q hq) old.tree.wf
  · show (pagesOf (fun q => (commitPages env.pages w s)[q]?) w.depth w.root).Nodup
    rw [hpgs]; exact old.tree.pg.nodup
  · intro q hq
    have hq2 : q ∈ w.pages env.pages := by rw [← hpgs]; exact hq
    exact ⟨old.low q hq2, hnext q (old.tree.pg.notAvail q hq2)⟩
  · rw [freePages_toMeta]
    refine List.Nodup.append old.tree.ok.nodup old.tree.ok.fnodup ?_
    intro q h1 h2
    exact old.tree.ok.freed q h2 (Or.inl h1)
  · intro q hq
    rw [freePages_toMeta, List.mem_append] at hq
    rcases hq with hq | hq
    · exact ⟨h.avail_low old (Or.inl hq), old.tree.ok.below q hq⟩
    · exact ⟨old.flow q hq, hnext q (old.tree.ok.freed q hq)⟩
  · intro q hq hq2
    have hq3 : q ∈ w.pages env.pages := by rw [← hpgs]; exact hq2
    rw [freePages_toMeta, List.mem_append] at hq
    rcases hq with hq | hq
    · exact old.tree.pg.notAvail q hq3 (Or.inl hq)
    · exact old.tree.pg.notFreed q hq3 hq
  · intro e he
    show e.1 ≤ w.txnid
    simp only [WTxn.toMeta, List.mem_append, List.mem_singleton] at he
    rcases he with (he | he) | he
    · obtain ⟨⟨p, hp⟩, _⟩ := mem_poolBack he
      obtain ⟨_, ps, h2, _⟩ := old.pool _ _ hp
      have := h.committed.keys _ h2
      rw [old.txnid]
      exact Nat.le_succ_of_le this
    · have := h.committed.keys _ (old.free e he)
      rw [old.txnid]
      exact Nat.le_succ_of_le this
    · rw [he]
  · exact le_trans h.committed.last old.next
  · intro r hr
    have hr0 := h.readers r hr
    have hp : pagesOf (fun q => (commitPages env.pages w s)[q]?) r.depth r.root
        = pagesOf env.page r.depth r.root := pagesOf_congr _ _ (hread r hr)
    refine ⟨wfIn_congr _ _ _ _ (hread r hr) hr0.tree, ?_, ?_, ?_⟩
    · show r.txnid ≤ w.txnid
      rw [old.txnid]
      exact Nat.le_succ_of_le hr0.le
    · intro q hq
      have hq2 : q ∈ pagesOf env.page r.depth r.root := by rw [← hp]; exact hq
      exact ⟨(hr0.low q hq2).1, lt_of_lt_of_le (hr0.low q hq2).2 old.next⟩
    · intro e he hle q hq hq2
      have hq3 : q ∈ pagesOf env.page r.depth r.root := by rw [← hp]; exact hq2
      simp only [WTxn.toMeta, List.mem_append, List.mem_singleton] at he
      rcases he with (he | he) | he
      · obtain ⟨_, h2⟩ := mem_poolBack he
        obtain ⟨t, ht⟩ := h2 q hq
        obtain ⟨h3, ps, h4, h5⟩ := old.pool t q ht
        exact hr0.disj (t, ps) h4 (h3 r hr) q h5 hq3
      · exact hr0.disj e (old.free e he) hle q hq hq3
      · have h1 : e.1 = w.txnid := by rw [he]
        have := hr0.le
        rw [h1, old.txnid] at hle
        omega

theorem search_root {rd : Nat → Option (Page K V)} {d p : Nat} (h : wfIn rd d p none none)
    (k : K) : search rd k d p = .ok (leafFind k (contents rd d p)) :=
  search_eq d p none none h.topIn trivial trivial

/-- A get through a sound read transaction looks the key up in its snapshot. -/
theorem get_read {env : Env K V} {i : Nat} {r : RTxn}
    (hr : env.readers[i]? = some (some r)) (hw : wfIn env.page r.depth r.root none none)
    (k : K) : rdb_get env (.read i) k = lookup (r.view env.page) k := by
  unfold rdb_get lookup RTxn.view
  simp only [hr, search_root hw]
  cases leafFind k (contents env.page r.depth r.root) <;> rfl

/-- A no-overwrite put of a key that is present reports that the key exists and changes
nothing. -/
theorem put_exists {env : Env K V} {w : WTxn K V} (hw : env.writer = some w)
    (hf : w.failed = false) (ht : WTree env.pages w) {k : K} (v : V) {v0 : V}
    (hk : leafFind k (w.contents env.pages) = some v0) :
    rdb_put env .write k v true = (env, .keyexist) := by
  unfold rdb_put
  unfold WTxn.contents at hk
  simp only [hw, hf, search_root ht.wf, hk]
  rfl

/-- Any other put inserts into the staged tree, or fails because the map is full. -/
theorem put_insert {env : Env K V} {w : WTxn K V} (hc : CfgOk env.cfg)
    (hw : env.writer = some w) (hf : w.failed = false) (ht : WTree env.pages w) (k : K) (v : V)
    {f : Bool} (hk : f = false ∨ leafFind k (w.contents env.pages) = none) :
    (∃ w1, rdb_put env .write k v f = ({ env with writer := some w1 }, .success) ∧
        w.insert env.cfg env.readerIds env.pages k v = .ok w1 ∧
        Mutated env.pages w w1 (leafInsert k v (w.contents env.pages))) ∨
      rdb_put env .write k v f =
        ({ env with writer := some { w with failed := true } }, .mapFull) := by
  have hI := insert_spec env.cfg hc env.readerIds env.pages w k v ht
  unfold rdb_put
  unfold WTxn.contents at hk
  simp only [hw, hf, search_root ht.wf]
  have hcond : (f && (leafFind k (contents (w.page env.pages) w.depth w.root)).isSome)
      = false := by
    rcases hk with rfl | hk
    · rfl
    · rw [hk]; simp
  simp only [hcond]
  cases hi : w.insert env.cfg env.readerIds env.pages k v with
  | error e =>
    rw [hi] at hI
    simp only at hI
    subst hI
    right
    rfl
  | ok w1 =>
    rw [hi] at hI
    left
    exact ⟨w1, rfl, rfl, hI⟩

/-- A delete of a key that is absent reports not-found and changes nothing. -/
theorem del_absent {env : Env K V} {w : WTxn K V} (hw : env.writer = some w)
    (hf : w.failed = false) (ht : WTree env.pages w) {k : K}
    (hk : leafFind k (w.contents env.pages) = none) :
    rdb_del env .write k = (env, .notfound) := by
  unfold rdb_del
  unfold WTxn.contents at hk
  simp only [hw, hf, search_root ht.wf, hk]
  rfl

/-- A delete of a key that is present erases it from the staged tree, or fails because the
map is full. -/
theorem del_present {env : Env K V} {w : WTxn K V} (hc : CfgOk env.cfg)
    (hw : env.writer = some w) (hf : w.failed = false) (ht : WTree env.pages w) {k : K}
    {v0 : V} (hk : leafFind k (w.contents env.pages) = some v0) :
    (∃ w1, rdb_del env .write k = ({ env with writer := some w1 }, .success) ∧
        w.delete env.cfg env.readerIds env.pages k = .ok w1 ∧
        Mutated env.pages w w1 (leafErase k (w.contents env.pages))) ∨
      rdb_del env .write k =
        ({ env with writer := some { w with failed := true } }, .mapFull) := by
  have hD := delete_spec env.cfg hc env.readerIds env.pages w k ht
  unfold rdb_del
  unfold WTxn.contents at hk
  simp only [hw, hf, search_root ht.wf, hk]
  cases hi : w.delete env.cfg env.readerIds env.pages k with
  | error e =>
    rw [hi] at hD
    simp only at hD
    subst hD
    right
    rfl
  | ok w1 =>
    rw [hi] at hD
    left
    exact ⟨w1, rfl, rfl, hD⟩

end Proofs12

section Proofs13

variable {K V : Type}
variable [LinearOrder K]

theorem Inv.create {cfg : Cfg} (hc : CfgOk cfg) : Inv (Env.create cfg : Env K V) := by
  refine ⟨{ txnid := 0, root := 2, depth := 0, free := [], lastPg := 3 }, hc, rfl,
    ⟨?_, ?_, ?_, ?_, ?_, ?_, ?_, ?_⟩, ?_, ?_⟩
  · exact ⟨[], rfl, List.Pairwise.nil, fun e he => by cases he⟩
  · simp [pagesOf]
  · intro q hq
    simp only [pagesOf, List.mem_singleton] at hq
    subst hq
    exact ⟨le_refl _, by decide⟩
  · exact List.nodup_nil
  · intro q hq; cases hq
  · intro q hq; cases hq
  · intro e he; cases he
  · decide
  · intro r hr
    simp only [Env.create] at hr
    have := List.eq_of_mem_replicate hr
    cases this
  · intro w hw
    cases hw

theorem Inv.begin {env : Env K V} (h : Inv env) (rdonly : Bool) :
    Inv (rdb_txn_begin env rdonly).1 := by
  obtain ⟨m, hm⟩ := h
  unfold rdb_txn_begin
  rw [hm.cur]
  cases rdonly with
  | true =>
    simp only [if_true]
    cases freeSlot env.readers with
    | none => exact ⟨m, hm⟩
    | some i => exact ⟨m, hm.beginRead i⟩
  | false =>
    simp only [Bool.false_eq_true, if_false]
    cases hw : env.writer with
    | some w => exact ⟨m, hm⟩
    | none => exact ⟨m, hm.beginWrite⟩

theorem Inv.put {env : Env K V} (h : Inv env) (t : Txn) (k : K) (v : V) (f : Bool) :
    Inv (rdb_put env t k v f).1 := by
  obtain ⟨m, hm⟩ := h
  cases t with
  | read i => exact ⟨m, hm⟩
  | write =>
    cases hw : env.writer with
    | none =>
      unfold rdb_put; simp only [hw]; exact ⟨m, hm⟩
    | some w =>
      cases hf : w.failed with
      | true =>
        unfold rdb_put; simp only [hw, hf, if_true]; exact ⟨m, hm⟩
      | false =>
        have hwi := hm.writer w hw
        have key : ∀ (hk : f = false ∨ leafFind k (w.contents env.pages) = none),
            Inv (rdb_put env .write k v f).1 := by
          intro hk
          rcases put_insert hm.cfg hw hf hwi.tree k v hk with ⟨w1, h1, h2, h3⟩ | h1
          · rw [h1]
            exact ⟨m, hm.mutate hw h3 (insert_trace h2)⟩
          · rw [h1]
            exact ⟨m, hm.markFailed hw⟩
        cases hk : leafFind k (w.contents env.pages) with
        | none => exact key (Or.inr hk)
        | some v0 =>
          cases f with
          | false => exact key (Or.inl rfl)
          | true =>
            rw [put_exists hw hf hwi.tree v hk]
            exact ⟨m, hm⟩

theorem Inv.del {env : Env K V} (h : Inv env) (t : Txn) (k : K) :
    Inv (rdb_del env t k).1 := by
  obtain ⟨m, hm⟩ := h
  cases t with
  | read i => exact ⟨m, hm⟩
  | write =>
    cases hw : env.writer with
    | none =>
      unfold rdb_del; simp only [hw]; exact ⟨m, hm⟩
    | some w =>
      cases hf : w.failed with
      | true =>
        unfold rdb_del; simp only [hw, hf, if_true]; exact ⟨m, hm⟩
      | false =>
        have hwi := hm.writer w hw
        cases hk : leafFind k (w.contents env.pages) with
        | none =>
          rw [del_absent hw hf hwi.tree hk]
          exact ⟨m, hm⟩
        | some v0 =>
          rcases del_present hm.cfg hw hf hwi.tree hk with ⟨w1, h1, h2, h3⟩ | h1
          · rw [h1]
            exact ⟨m, hm.mutate hw h3 (delete_trace h2)⟩
          · rw [h1]
            exact ⟨m, hm.markFailed hw⟩

theorem Inv.commitI {env : Env K V} (h : Inv env) (t : Txn) :
    Inv (rdb_txn_commit env t).1 := by
  obtain ⟨m, hm⟩ := h
  cases t with
  | read i =>
    simp only [rdb_txn_commit]
    split
    · exact ⟨m, hm.endRead i⟩
    · exact ⟨m, hm⟩
  | write =>
    cases hw : env.writer with
    | none => simp only [rdb_txn_commit, hw]; exact ⟨m, hm⟩
    | some w =>
      simp only [rdb_txn_commit, hw]
      split_ifs with hf
      · exact ⟨m, hm.dropWriter⟩
      · cases hs : env.curSlot with
        | none => exact ⟨m, hm.dropWriter⟩
        | some s => exact ⟨w.toMeta, hm.commit hw hs⟩

theorem Inv.abort {env : Env K V} (h : Inv env) (t : Txn) :
    Inv (rdb_txn_abort env t) := by
  obtain ⟨m, hm⟩ := h
  cases t with
  | read i =>
    simp only [rdb_txn_abort]
    split
    · exact ⟨m, hm.endRead i⟩
    · exact ⟨m, hm⟩
  | write => exact ⟨m, hm.dropWriter⟩

theorem Inv.step {env : Env K V} (h : Inv env) (op : Op K V) : Inv (env.step op) := by
  cases op with
  | beginTxn rdonly => exact h.begin rdonly
  | put t k v f => exact h.put t k v f
  | del t k => exact h.del t k
  | commit t => exact h.commitI t
  | abort t => exact h.abort t

theorem Inv.run {env : Env K V} (h : Inv env) (ops : List (Op K V)) : Inv (env.run ops) := by
  induction ops generalizing env with
  | nil => exact h
  | cons op ops ih => exact ih (h.step op)

/-- Every reachable environment satisfies the invariant. -/
theorem Reachable.inv {env : Env K V} (h : Reachable env) : Inv env := by
  obtain ⟨cfg, ops, hc, rfl⟩ := h
  exact (Inv.create hc).run ops

theorem Reachable.stepR {env : Env K V} (h : Reachable env) (op : Op K V) :
    Reachable (env.step op) := by
  obtain ⟨cfg, ops, hc, rfl⟩ := h
  refine ⟨cfg, ops ++ [op], hc, ?_⟩
  simp [Env.run, List.foldl_append]

end Proofs13

section Proofs14

variable {K V : Type}

theorem freeSlot_spec : ∀ {rs : List (Option RTxn)} {i : Nat}, freeSlot rs = some i →
    rs[i]? = some none
  | [], _, h => by simp [freeSlot] at h
  | none :: _, i, h => by
    simp only [freeSlot, Option.some.injEq] at h
    subst h
    simp
  | some r :: rest, i, h => by
    simp only [freeSlot, Option.map_eq_some'] at h
    obtain ⟨j, hj, rfl⟩ := h
    simpa using freeSlot_spec hj

/-- A successful begin of a read transaction registers the snapshot of the current meta page
in an empty reader slot. -/
theorem begin_read_spec {env env2 : Env K V} {m : Meta} {t : Txn} (hc : env.curMeta = some m)
    (h : rdb_txn_begin env true = (env2, .ok t)) :
    ∃ i, t = .read i ∧ env.readers[i]? = some none ∧
      env2 = { env with readers := env.readers.set i (some (RTxn.mk m.txnid m.root m.depth)) } := by
  unfold rdb_txn_begin at h
  rw [hc] at h
  simp only [if_true] at h
  cases hf : freeSlot env.readers with
  | none => rw [hf] at h; simp at h
  | some i =>
    rw [hf] at h
    simp only [Prod.mk.injEq, Except.ok.injEq] at h
    exact ⟨i, h.2.symm, freeSlot_spec hf, h.1.symm⟩

/-- A successful begin of a write transaction starts it on the current meta page; there was
no write transaction before. -/
theorem begin_write_spec {env env2 : Env K V} {m : Meta} {t : Txn} (hc : env.curMeta = some m)
    (h : rdb_txn_begin env false = (env2, .ok t)) :
    t = .write ∧ env.writer = none ∧ env2 = { env with writer := some (WTxn.start m) } := by
  unfold rdb_txn_begin at h
  rw [hc] at h
  simp only [Bool.false_eq_true, if_false] at h
  cases hw : env.writer with
  | some w => rw [hw] at h; simp at h
  | none =>
    rw [hw] at h
    simp only [Prod.mk.injEq, Except.ok.injEq] at h
    exact ⟨h.2.symm, rfl, h.1.symm⟩

/-- A successful commit of the write transaction flushes it through the slot that is not
current. -/
theorem commit_write_spec {env env2 : Env K V} {w : WTxn K V} (hw : env.writer = some w)
    (h : rdb_txn_commit env .write = (env2, .success)) :
    w.failed = false ∧ ∃ s, env.curSlot = some s ∧
      env2 = { env with pages := commitPages env.pages w s, writer := none } := by
  simp only [rdb_txn_commit, hw] at h
  cases hf : w.failed with
  | true => rw [hf] at h; simp at h
  | false =>
    rw [hf] at h
    simp only [Bool.false_eq_true, if_false] at h
    cases hs : env.curSlot with
    | none => rw [hs] at h; simp at h
    | some s =>
      rw [hs] at h
      simp only [Prod.mk.injEq, and_true] at h
      exact ⟨rfl, s, rfl, h.symm⟩

end Proofs14

section Proofs15

variable {K V : Type}
variable [LinearOrder K]

/-- After a commit the mapped file holds the tree of the write transaction. -/
theorem commit_tree {env : Env K V} {m : Meta} {w : WTxn K V} (hw : WInv env m w) (s : Nat) :
    ∀ q ∈ w.pages env.pages, (commitPages env.pages w s)[q]? = w.page env.pages q := by
  intro q hq
  obtain ⟨pg, hpg⟩ := pagesOf_some hw.tree.wf.topIn q hq
  rw [hpg]
  exact commitPages_tree (hw.low q hq) hpg

/-- A commit leaves every page of a registered reader's tree as it is. -/
theorem commit_read {env : Env K V} {m : Meta} {w : WTxn K V} (h : InvAt env m)
    (hw : WInv env m w) (s : Nat) {r : RTxn} (hr : some r ∈ env.readers) :
    ∀ q ∈ pagesOf env.page r.depth r.root, (commitPages env.pages w s)[q]? = env.page q := by
  intro q hq
  obtain ⟨pg, hpg⟩ := pagesOf_some (h.readers r hr).tree.topIn q hq
  have h2 := ((h.readers r hr).low q hq).1
  rw [hpg]
  refine commitPages_keep (by omega) ?_ hpg
  intro hd
  exact (hw.dirty q hd).2.2 r hr hq

omit [LinearOrder K] in
theorem put_pages (env : Env K V) [LinearOrder K] (t : Txn) (k : K) (v : V) (f : Bool) :
    (rdb_put env t k v f).1.pages = env.pages ∧
      (rdb_put env t k v f).1.readers = env.readers ∧
      (rdb_put env t k v f).1.cfg = env.cfg ∧
      ((rdb_put env t k v f).1.writer = none ↔ env.writer = none) := by
  unfold rdb_put
  cases t with
  | read i => exact ⟨rfl, rfl, rfl, Iff.rfl⟩
  | write =>
    cases hw : env.writer with
    | none => simp [hw]
    | some w =>
      simp only
      split_ifs
      · simp [hw]
      · split
        · simp
        · split_ifs
          · simp [hw]
          · split <;> simp

omit [LinearOrder K] in
theorem del_pages (env : Env K V) [LinearOrder K] (t : Txn) (k : K) :
    (rdb_del env t k).1.pages = env.pages ∧
      (rdb_del env t k).1.readers = env.readers ∧
      (rdb_del env t k).1.cfg = env.cfg ∧
      ((rdb_del env t k).1.writer = none ↔ env.writer = none) := by
  unfold rdb_del
  cases t with
  | read i => exact ⟨rfl, rfl, rfl, Iff.rfl⟩
  | write =>
    cases hw : env.writer with
    | none => simp [hw]
    | some w =>
      simp only
      split_ifs
      · simp [hw]
      · split
        · simp
        · simp [hw]
        · split <;> simp

end Proofs15

section Proofs16

theorem testCfg_ok : CfgOk testCfg := ⟨by decide, by decide, by decide, by decide⟩

end Proofs16

section Proofs17

variable {K V : Type}
variable [LinearOrder K]

theorem step_staged (env : Env K V) {op : Op K V} (h : op.staged = true) :
    (env.step op).pages = env.pages ∧ (env.step op).readers = env.readers ∧
      (env.step op).cfg = env.cfg := by
  cases op with
  | put t k v f =>
    have := put_pages env t k v f
    exact ⟨this.1, this.2.1, this.2.2.1⟩
  | del t k =>
    have := del_pages env t k
    exact ⟨this.1, this.2.1, this.2.2.1⟩
  | beginTxn r => cases h
  | commit t => cases h
  | abort t => cases h

theorem run_staged : ∀ (ops : List (Op K V)) (env : Env K V),
    (∀ op ∈ ops, op.staged = true) →
    (env.run ops).pages = env.pages ∧ (env.run ops).readers = env.readers ∧
      (env.run ops).cfg = env.cfg
  | [], _, _ => ⟨rfl, rfl, rfl⟩
  | op :: ops, env, h => by
    have h1 := step_staged env (h op (List.mem_cons_self _ _))
    have h2 := run_staged ops (env.step op) (fun o ho => h o (List.mem_cons_of_mem _ ho))
    show ((env.step op).run ops).pages = env.pages ∧ _
    exact ⟨h2.1.trans h1.1, h2.2.1.trans h1.2.1, h2.2.2.trans h1.2.2⟩

omit [LinearOrder K] in
theorem begin_write_any {env env2 : Env K V} {t : Txn}
    (h : rdb_txn_begin env false = (env2, .ok t)) :
    ∃ m, env.curMeta = some m ∧ t = .write ∧ env.writer = none ∧
      env2 = { env with writer := some (WTxn.start m) } := by
  cases hc : env.curMeta with
  | none =>
    unfold rdb_txn_begin at h
    rw [hc] at h
    simp at h
  | some m =>
    obtain ⟨h1, h2, h3⟩ := begin_write_spec hc h
    exact ⟨m, rfl, h1, h2, h3⟩

/-- C4: aborting a write transaction after arbitrary staged puts and deletes gives back
exactly the environment from before the transaction began, so the mapped file with both meta
pages is identical and a read transaction that begins afterwards returns, for every key, what
one begun before the aborted transaction returns. -/
theorem abort_no_effect (env0 env1 : Env K V) (t : Txn) (ops : List (Op K V))
    (hb : rdb_txn_begin env0 false = (env1, .ok t))
    (hs : ∀ op ∈ ops, op.staged = true) :
    rdb_txn_abort (env1.run ops) t = env0 ∧
      (rdb_txn_abort (env1.run ops) t).pages = env0.pages ∧
      ∀ k, readNow (rdb_txn_abort (env1.run ops) t) k = readNow env0 k := by
  obtain ⟨m, _, rfl, hw, rfl⟩ := begin_write_any hb
  obtain ⟨h1, h2, h3⟩ := run_staged ops { env0 with writer := some (WTxn.start m) } hs
  have key : rdb_txn_abort (Env.run { env0 with writer := some (WTxn.start m) } ops) .write
      = env0 := by
    simp only [rdb_txn_abort]
    rw [h1, h2, h3]
    cases env0
    simp only at hw
    subst hw
    rfl
  rw [key]
  exact ⟨rfl, rfl, fun _ => rfl⟩

end Proofs17

section Proofs18

/-- The delete of the absent key 25 reports not-found; the transaction is then aborted. -/
theorem abort_no_effect_witness :
    (rdb_del abortEnv1 .write 25).2 = .notfound ∧
      rdb_txn_abort (abortEnv1.run [.del .write 25]) .write = abortEnv0 :=
  ⟨by decide,
    (abort_no_effect abortEnv0 abortEnv1 .write [.del .write 25] (by rfl)
      (by intro op hop; simp only [List.mem_singleton] at hop; subst hop; rfl)).1⟩

end Proofs18

section Proofs19

variable {K V : Type} [LinearOrder K]

/-- What a successful put tells about the write transaction. -/
theorem put_success {env env1 : Env K V} {m : Meta} (h : InvAt env m) {k : K} {v : V}
    {f : Bool} (hp : rdb_put env .write k v f = (env1, .success)) :
    ∃ w w1, env.writer = some w ∧ w.failed = false ∧
      env1 = { env with writer := some w1 } ∧
      w.insert env.cfg env.readerIds env.pages k v = .ok w1 ∧
      Mutated env.pages w w1 (leafInsert k v (w.contents env.pages)) := by
  cases hw : env.writer with
  | none =>
    unfold rdb_put at hp
    simp [hw] at hp
  | some w =>
    cases hf : w.failed with
    | true =>
      unfold rdb_put at hp
      simp [hw, hf] at hp
    | false =>
      have hwi := h.writer w hw
      have key : ∀ (_ : f = false ∨ leafFind k (w.contents env.pages) = none),
          ∃ w0 w1, some w = some w0 ∧ w0.failed = false ∧
            env1 = { env with writer := some w1 } ∧
            w0.insert env.cfg env.readerIds env.pages k v = .ok w1 ∧
            Mutated env.pages w0 w1 (leafInsert k v (w0.contents env.pages)) := by
        intro hk
        rcases put_insert h.cfg hw hf hwi.tree k v hk with ⟨w1, h1, h2, h3⟩ | h1
        · rw [h1] at hp
          simp only [Prod.mk.injEq, and_true] at hp
          exact ⟨w, w1, rfl, hf, hp.symm, h2, h3⟩
        · rw [h1] at hp
          simp at hp
      cases hk : leafFind k (w.contents env.pages) with
      | none =>
        exact key (Or.inr hk)
      | some v0 =>
        cases f with
        | false =>
          exact key (Or.inl rfl)
        | true =>
          rw [put_exists hw hf hwi.tree v hk] at hp
          simp at hp

/-- What a successful delete tells about the write transaction. -/
theorem del_success {env env1 : Env K V} {m : Meta} (h : InvAt env m) {k : K}
    (hp : rdb_del env .write k = (env1, .success)) :
    ∃ w w1, env.writer = some w ∧ w.failed = false ∧
      env1 = { env with writer := some w1 } ∧
      w.delete env.cfg env.readerIds env.pages k = .ok w1 ∧
      Mutated env.pages w w1 (leafErase k (w.contents env.pages)) := by
  cases hw : env.writer with
  | none =>
    unfold rdb_del at hp
    simp [hw] at hp
  | some w =>
    cases hf : w.failed with
    | true =>
      unfold rdb_del at hp
      simp [hw, hf] at hp
    | false =>
      have hwi := h.writer w hw
      cases hk : leafFind k (w.contents env.pages) with
      | none =>
        rw [del_absent hw hf hwi.tree hk] at hp
        simp at hp
      | some v0 =>
        rcases del_present h.cfg hw hf hwi.tree hk with ⟨w1, h1, h2, h3⟩ | h1
        · rw [h1] at hp
          simp only [Prod.mk.injEq, and_true] at hp
          exact ⟨w, w1, rfl, hf, hp.symm, h2, h3⟩
        · rw [h1] at hp
          simp at hp

/-- The entries of a sound write transaction are in strictly ascending key order. -/
theorem WTree.sorted {base : List (Page K V)} {w : WTxn K V} (h : WTree base w) :
    KeySorted (w.contents base) :=
  wfTop_sorted h.wf.topIn

/-- A staged put or delete of another key leaves what the write transaction holds for `k`. -/
theorem Holds.stepOp {env : Env K V} {k : K} {r : Option V} (h : Holds env k r)
    {op : Op K V} (hs : op.staged = true) (ht : op.touches k = false) :
    Holds (env.step op) k r := by
  obtain ⟨m, w, hm, hw, hr⟩ := h
  have hwi := hm.writer w hw
  cases hf : w.failed with
  | true =>
    have same : env.step op = env := by
      cases op with
      | put t k2 v2 f =>
        cases t with
        | read i => rfl
        | write => simp only [Env.step]; unfold rdb_put; simp [hw, hf]
      | del t k2 =>
        cases t with
        | read i => rfl
        | write => simp only [Env.step]; unfold rdb_del; simp [hw, hf]
      | beginTxn r => cases hs
      | commit t => cases hs
      | abort t => cases hs
    rw [same]
    exact ⟨m, w, hm, hw, hr⟩
  | false =>
    have hr0 := hr hf
    cases op with
    | beginTxn r => cases hs
    | commit t => cases hs
    | abort t => cases hs
    | put t k2 v2 f =>
      have hne : ¬ k = k2 := by
        intro e
        simp [Op.touches, e] at ht
      cases t with
      | read i => exact ⟨m, w, hm, hw, hr⟩
      | write =>
        simp only [Env.step]
        have ins : ∀ (_ : f = false ∨ leafFind k2 (w.contents env.pages) = none),
            Holds (rdb_put env .write k2 v2 f).1 k r := by
          intro hk
          rcases put_insert hm.cfg hw hf hwi.tree k2 v2 hk with ⟨w1, h1, h2, h3⟩ | h1
          · rw [h1]
            refine ⟨m, w1, hm.mutate hw h3 (insert_trace h2), rfl, fun _ => ?_⟩
            show leafFind k (w1.contents env.pages) = r
            rw [h3.cont, leafFind_insert hwi.tree.sorted, if_neg hne]
            exact hr0
          · rw [h1]
            exact ⟨m, _, hm.markFailed hw, rfl, fun hf2 => by simp at hf2⟩
        cases hk : leafFind k2 (w.contents env.pages) with
        | none => exact ins (Or.inr hk)
        | some v0 =>
          cases f with
          | false => exact ins (Or.inl rfl)
          | true =>
            rw [put_exists hw hf hwi.tree v2 hk]
            exact ⟨m, w, hm, hw, hr⟩
    | del t k2 =>
      have hne : ¬ k = k2 := by
        intro e
        simp [Op.touches, e] at ht
      cases t with
      | read i => exact ⟨m, w, hm, hw, hr⟩
      | write =>
        simp only [Env.step]
        cases hk : leafFind k2 (w.contents env.pages) with
        | none =>
          rw [del_absent hw hf hwi.tree hk]
          exact ⟨m, w, hm, hw, hr⟩
        | some v0 =>
          rcases del_present hm.cfg hw hf hwi.tree hk with ⟨w1, h1, h2, h3⟩ | h1
          · rw [h1]
            refine ⟨m, w1, hm.mutate hw h3 (delete_trace h2), rfl, fun _ => ?_⟩
            show leafFind k (w1.contents env.pages) = r
            rw [h3.cont, leafFind_erase hwi.tree.sorted, if_neg hne]
            exact hr0
          · rw [h1]
            exact ⟨m, _, hm.markFailed hw, rfl, fun hf2 => by simp at hf2⟩

theorem Holds.runOps {k : K} {r : Option V} : ∀ (ops : List (Op K V)) {env : Env K V},
    Holds env k r → (∀ op ∈ ops, op.staged = true ∧ op.touches k = false) →
    Holds (env.run ops) k r
  | [], _, h, _ => h
  | op :: ops, env, h, ho => by
    have h1 := h.stepOp (ho op (List.mem_cons_self _ _)).1 (ho op (List.mem_cons_self _ _)).2
    exact Holds.runOps ops h1 (fun o hm => ho o (List.mem_cons_of_mem _ hm))

/-- After a successful commit a read transaction that begins sees, for every key, what the
write transaction held. -/
theorem commit_then_read {env env2 env3 : Env K V} {m : Meta} {w : WTxn K V} {t : Txn}
    (h : InvAt env m) (hw : env.writer = some w)
    (hc : rdb_txn_commit env .write = (env2, .success))
    (hb : rdb_txn_begin env2 true = (env3, .ok t)) (k : K) :
    w.failed = false ∧ rdb_get env3 t k = lookup (w.contents env.pages) k := by
  obtain ⟨hf, s, hs, rfl⟩ := commit_write_spec hw hc
  have hwi := h.writer w hw
  have h2 := h.commit hw hs
  obtain ⟨i, rfl, hi, rfl⟩ := begin_read_spec h2.cur hb
  refine ⟨hf, ?_⟩
  have hcont : contents (fun q => (commitPages env.pages w s)[q]?) w.depth w.root
      = w.contents env.pages := contents_congr _ _ (commit_tree hwi s)
  have hlt := lt_of_get hi
  have hr : (Env.mk env.cfg (commitPages env.pages w s)
      (env.readers.set i (some (RTxn.mk w.toMeta.txnid w.toMeta.root w.toMeta.depth)))
      (none : Option (WTxn K V))).readers[i]?
      = some (some (RTxn.mk w.toMeta.txnid w.toMeta.root w.toMeta.depth)) :=
    List.getElem?_set_self hlt
  refine (get_read hr h2.committed.tree k).trans ?_
  show lookup (contents (fun q => (commitPages env.pages w s)[q]?) w.depth w.root) k = _
  rw [hcont]

theorem putGetCfg_ok : CfgOk putGetCfg := by
  refine ⟨?_, ?_, ?_, ?_⟩ <;> decide

/-- C1: in a reachable environment, a pair that `rdb_put` stores successfully in the write
transaction, followed by any further puts and deletes of other keys and a successful commit,
is returned by `rdb_get` in a read transaction begun after the commit: the result is success
with the very byte string that was put. -/
theorem round_trip (env env1 env2 env3 : Env K V) (k : K) (v : V) (f : Bool)
    (ops : List (Op K V)) (t : Txn) (hr : Reachable env)
    (hput : rdb_put env .write k v f = (env1, .success))
    (hops : ∀ op ∈ ops, op.staged = true ∧ op.touches k = false)
    (hcommit : rdb_txn_commit (env1.run ops) .write = (env2, .success))
    (hbegin : rdb_txn_begin env2 true = (env3, .ok t)) :
    rdb_get env3 t k = .ok v := by
  obtain ⟨m, hm⟩ := hr.inv
  obtain ⟨w, w1, hw, hf, rfl, hins, hmut⟩ := put_success hm hput
  have hwi := hm.writer w hw
  have h1 : Holds ({ env with writer := some w1 } : Env K V) k (some v) := by
    refine ⟨m, w1, hm.mutate hw hmut (insert_trace hins), rfl, fun _ => ?_⟩
    show leafFind k (w1.contents env.pages) = some v
    rw [hmut.cont, leafFind_insert hwi.tree.sorted, if_pos rfl]
  obtain ⟨m2, w2, hm2, hw2, hr2⟩ := Holds.runOps ops h1 hops
  obtain ⟨hf2, hg⟩ := commit_then_read hm2 hw2 hcommit hbegin k
  rw [hg, lookup, hr2 hf2]

theorem round_trip_witness :
    rdb_get (rdb_txn_begin (rdb_txn_commit (rdb_put putGetEnv .write fooKey barVal false).1
      .write).1 true).1 (.read 0) fooKey = .ok barVal :=
  round_trip putGetEnv (rdb_put putGetEnv .write fooKey barVal false).1
    (rdb_txn_commit (rdb_put putGetEnv .write fooKey barVal false).1 .write).1
    (rdb_txn_begin (rdb_txn_commit (rdb_put putGetEnv .write fooKey barVal false).1
      .write).1 true).1
    fooKey barVal false [] (.read 0) ⟨putGetCfg, [.beginTxn false], putGetCfg_ok, rfl⟩
    (by rfl) (by intro op h; cases h) (by rfl) (by rfl)

end Proofs19

section Proofs20

theorem hexc_get (n : Nat) (h : n < 16) : hexc.getD n '\x00' = hexDigit n := by
  interval_cases n <;> rfl

theorem hexVal_digit (n : Nat) (h : n < 16) : hexVal (hexDigit n) = some n := by
  interval_cases n <;> rfl

theorem hexDigit_ne (n : Nat) (h : n < 16) : hexDigit n ≠ '\\' := by
  interval_cases n <;> decide

theorem hexDigit_print (n : Nat) (h : n < 16) :
    0x20 ≤ (hexDigit n).toNat ∧ (hexDigit n).toNat ≤ 0x7e := by
  interval_cases n <;> decide

/-- The two characters of `hex` are the digits of the high and the low nibble. -/
theorem hex_digits (c : Byte) : hex c = [hexDigit (c.val / 16), hexDigit (c.val % 16)] := by
  have h1 : c.val >>> 4 = c.val / 16 := by
    rw [Nat.shiftRight_eq_div_pow]
  have h2 : c.val &&& 0xf = c.val % 16 := Nat.and_pow_two_sub_one_eq_mod c.val 4
  have h3 : c.val / 16 < 16 := by
    have := c.isLt
    omega
  unfold hex
  rw [h1, h2, hexc_get _ h3, hexc_get _ (Nat.mod_lt _ (by decide))]

theorem toByte_val (c : Byte) : toByte c.val = some c := by
  unfold toByte
  rw [dif_pos c.isLt]

theorem toByte_nibbles (c : Byte) : toByte (16 * (c.val / 16) + c.val % 16) = some c := by
  rw [Nat.div_add_mod]
  exact toByte_val c

theorem putchar_toNat (c : Byte) : (putchar c).toNat = c.val := by
  unfold putchar
  have h : c.val < 256 := c.isLt
  have hv : c.val.isValidChar := Or.inl (by omega)
  simp only [Char.ofNat, dif_pos hv, Char.toNat, Char.ofNatAux]
  show (UInt32.ofNat' c.val _).toNat = c.val
  rfl

theorem putchar_bs (c : Byte) : putchar c = '\\' ↔ c.val = 0x5c := by
  constructor
  · intro h
    have := congrArg Char.toNat h
    rw [putchar_toNat] at this
    exact this
  · intro h
    have hc : c = (0x5c : Byte) := Fin.ext h
    rw [hc]
    rfl

theorem byteLoop_digits (v : List Byte) :
    byteLoop v = v.flatMap (fun b => [hexDigit (b.val / 16), hexDigit (b.val % 16)]) := by
  induction v with
  | nil => rfl
  | cons c rest ih =>
    rw [byteLoop, ih, hex_digits, List.flatMap_cons]

theorem byteLoop_length (v : List Byte) : (byteLoop v).length = 2 * v.length := by
  induction v with
  | nil => rfl
  | cons c rest ih =>
    rw [byteLoop, List.length_append, ih, hex_digits]
    simp only [List.length_cons, List.length_nil]
    omega

theorem unhexPairs_byteLoop (v : List Byte) : unhexPairs (byteLoop v) = some v := by
  induction v with
  | nil => rfl
  | cons c rest ih =>
    have h3 : c.val / 16 < 16 := by
      have := c.isLt
      omega
    rw [byteLoop, hex_digits]
    show unhexPairs (hexDigit (c.val / 16) :: hexDigit (c.val % 16) :: byteLoop rest) = _
    rw [unhexPairs, hexVal_digit _ h3, hexVal_digit _ (Nat.mod_lt _ (by decide)), ih]
    simp only [toByte_nibbles, Option.map_some']

/-- C18: `byte(v)` writes exactly 2n+2 characters for a byte string of length n: a space, then
for each byte in order its two lowercase hexadecimal digits, the high nibble first, then a
newline; reading the digit pairs back as base-16 numbers gives `v` again. -/
theorem byte_round_trip (v : List Byte) :
    (byte v).length = 2 * v.length + 2 ∧
      byte v = ' ' :: v.flatMap (fun b => [hexDigit (b.val / 16), hexDigit (b.val % 16)])
        ++ ['\n'] ∧
      unbyte (byte v) = some v := by
  refine ⟨?_, ?_, ?_⟩
  · simp only [byte, List.length_cons, List.length_append, byteLoop_length, List.length_nil]
  · rw [byte, byteLoop_digits]
  · simp only [byte, List.cons_append, unbyte, List.getLast?_concat, and_self, if_true,
      List.dropLast_concat]
    exact unhexPairs_byteLoop v

theorem untextLoop_plain (ch : Char) (x : Byte) (rest : List Char) (h1 : ch ≠ '\\')
    (h2 : toByte ch.toNat = some x) :
    untextLoop (ch :: rest) = (untextLoop rest).map (fun bs => x :: bs) := by
  match rest with
  | [] => simp [untextLoop, h1, h2]
  | [h] =>
    rw [untextLoop.eq_3, if_neg h1, h2]
    cases untextLoop [h] <;> rfl
  | h :: l :: rest =>
    rw [untextLoop.eq_4, if_neg h1, h2]
    cases untextLoop (h :: l :: rest) <;> rfl

theorem untextLoop_bs (rest : List Char) :
    untextLoop ('\\' :: '\\' :: rest) = (untextLoop rest).map (fun bs => 0x5c :: bs) := by
  match rest with
  | [] => rfl
  | l :: rest => simp [untextLoop]

theorem untextLoop_hex (h l : Char) (a b : Nat) (x : Byte) (rest : List Char)
    (h1 : h ≠ '\\') (ha : hexVal h = some a) (hb : hexVal l = some b)
    (hx : toByte (16 * a + b) = some x) :
    untextLoop ('\\' :: h :: l :: rest) = (untextLoop rest).map (fun bs => x :: bs) := by
  rw [untextLoop, if_pos rfl, if_neg h1, ha, hb]
  cases untextLoop rest with
  | none => rfl
  | some bs => simp [hx]

theorem textLoop_esc (v : List Byte) : textLoop v = v.flatMap escByte := by
  induction v with
  | nil => rfl
  | cons c rest ih =>
    rw [textLoop, ih, List.flatMap_cons]
    congr 1
    unfold escByte
    cases hp : isprint c with
    | false =>
      have hne : c.val ≠ 0x5c := by
        intro h
        have hc : c = (0x5c : Byte) := Fin.ext h
        rw [hc] at hp
        exact absurd hp (by decide)
      simp [hne, hex_digits]
    | true =>
      by_cases hb : c.val = 0x5c
      · have hc : c = (0x5c : Byte) := Fin.ext hb
        subst hc
        rfl
      · have hn : ¬ putchar c = '\\' := fun h => hb ((putchar_bs c).1 h)
        have hc : (true = true ∧ c.val ≠ 0x5c) := And.intro rfl hb
        rw [if_neg hn, if_pos hc]
        rfl

theorem untextLoop_textLoop (v : List Byte) : untextLoop (textLoop v) = some v := by
  induction v with
  | nil => rfl
  | cons c rest ih =>
    rw [textLoop]
    cases hp : isprint c with
    | false =>
      have h3 : c.val / 16 < 16 := by
        have := c.isLt
        omega
      simp only [Bool.false_eq_true, if_false, hex_digits, List.cons_append, List.nil_append]
      rw [untextLoop_hex _ _ _ _ c _ (hexDigit_ne _ h3) (hexVal_digit _ h3)
        (hexVal_digit _ (Nat.mod_lt _ (by decide))) (toByte_nibbles c), ih]
      rfl
    | true =>
      simp only [if_true]
      by_cases hb : putchar c = '\\'
      · have hc : c = (0x5c : Byte) := Fin.ext ((putchar_bs c).1 hb)
        rw [if_pos hb, hb]
        show untextLoop ('\\' :: '\\' :: textLoop rest) = _
        rw [untextLoop_bs, ih, hc]
        rfl
      · rw [if_neg hb]
        show untextLoop (putchar c :: textLoop rest) = _
        rw [untextLoop_plain _ c _ hb (by rw [putchar_toNat]; exact toByte_val c), ih]
        rfl

theorem escByte_print (b : Byte) : ∀ ch ∈ escByte b, 0x20 ≤ ch.toNat ∧ ch.toNat ≤ 0x7e := by
  intro ch hch
  have h3 : b.val / 16 < 16 := by
    have := b.isLt
    omega
  unfold escByte at hch
  split_ifs at hch with h1 h2
  · simp only [List.mem_singleton] at hch
    subst hch
    have := putchar_toNat b
    unfold putchar at this
    rw [this]
    simp only [isprint, Bool.and_eq_true, decide_eq_true_eq] at h1
    exact h1.1
  · simp only [List.mem_cons, List.mem_singleton, List.not_mem_nil, or_false, or_self] at hch
    subst hch
    decide
  · simp only [List.mem_cons, List.mem_singleton, List.not_mem_nil, or_false] at hch
    rcases hch with rfl | rfl | rfl
    · decide
    · exact hexDigit_print _ h3
    · exact hexDigit_print _ (Nat.mod_lt _ (by decide))

/-- C16: `text(v)` writes a space, then for each byte in order the byte itself when it is
printable and not a backslash, two backslashes when it is a backslash, a backslash and the two
lowercase hexadecimal digits of the byte (high nibble first) otherwise, then a newline. With
`isprint` the range 0x20 to 0x7e, every character before the final newline is printable, the
line decodes back to `v`, and two different byte strings never give the same line. -/
theorem text_lossless :
    (∀ v : List Byte, text v = ' ' :: v.flatMap escByte ++ ['\n'] ∧
      (∀ ch ∈ (text v).dropLast, 0x20 ≤ ch.toNat ∧ ch.toNat ≤ 0x7e) ∧
      untext (text v) = some v) ∧
    ∀ v w : List Byte, text v = text w → v = w := by
  have dec : ∀ v : List Byte, untext (text v) = some v := by
    intro v
    simp only [text, List.cons_append, untext, List.getLast?_concat, and_self, if_true,
      List.dropLast_concat]
    exact untextLoop_textLoop v
  refine ⟨fun v => ⟨?_, ?_, dec v⟩, ?_⟩
  · rw [text, textLoop_esc]
  · intro ch hch
    have e : (text v).dropLast = ' ' :: v.flatMap escByte := by
      rw [text, textLoop_esc]
      exact @List.dropLast_concat _ (' ' :: v.flatMap escByte) '\n'
    rw [e] at hch
    rcases List.mem_cons.1 hch with rfl | hm
    · decide
    · obtain ⟨b, _, hb⟩ := List.mem_flatMap.1 hm
      exact escByte_print b ch hb
  · intro v w h
    have := dec v
    rw [h, dec w] at this
    exact (Option.some.inj this).symm

theorem text_lossless_witness :
    text [0x41, 0x5c, 0x0a] = [' ', 'A', '\\', '\\', '\\', '0', 'a', '\n'] ∧
      ([0x41, 0x5c, 0x0a] : List Byte) = [0x41, 0x5c, 0x0a] :=
  ⟨by decide, text_lossless.2 [0x41, 0x5c, 0x0a] [0x41, 0x5c, 0x0a] (by decide)⟩

theorem spanOuter_bad (iptr : List Nat) : ∀ (n : Nat) (bad : String) (prev span : Nat),
    (spanOuter iptr n bad prev span).1 = " [bad sequence]" ↔
      bad = " [bad sequence]" ∨ ¬ Rising iptr n prev
  | 0, bad, prev, span => by simp [spanOuter, Rising]
  | i + 1, bad, prev, span => by
    rw [spanOuter, spanOuter_bad iptr i, Rising]
    by_cases h : iptr.getD i 0 ≤ prev
    · simp only [if_pos h, true_or, true_iff]
      right
      intro h2
      exact absurd h2.1 (by omega)
    · simp only [if_neg h]
      have h2 : prev < iptr.getD i 0 := by omega
      simp only [h2, true_and]

theorem rising_take (l : List Nat) (a : Nat) (prev : Nat) :
    Rising (l ++ [a]) (l.length + 1) prev ↔ prev < a ∧ Rising l l.length a := by
  have frame : ∀ (n : Nat) (p : Nat), n ≤ l.length → (Rising (l ++ [a]) n p ↔ Rising l n p) := by
    intro n
    induction n with
    | zero => intro p _; simp [Rising]
    | succ i ih =>
      intro p hi
      have e : (l ++ [a]).getD i 0 = l.getD i 0 := by
        simp only [List.getD_eq_getElem?_getD]
        rw [List.getElem?_append_left (by omega)]
      rw [Rising, Rising, e, ih _ (by omega)]
  have e : (l ++ [a]).getD l.length 0 = a := by simp [List.getD_eq_getElem?_getD]
  rw [Rising, e, frame _ _ (le_refl _)]

/-- Reading from the last id to the first, the ids rise from `prev` exactly when the stored
ids strictly descend and the last one exceeds `prev`. -/
theorem rising_iff (l : List Nat) : ∀ prev : Nat,
    Rising l l.length prev ↔
      List.Pairwise (fun a b => b < a) l ∧ ∀ x, l.getLast? = some x → prev < x := by
  induction l using List.reverseRecOn with
  | nil => intro prev; simp [Rising]
  | append_singleton l a ih =>
    intro prev
    rw [List.length_append, List.length_singleton, rising_take, ih a]
    simp only [List.getLast?_concat, Option.some.injEq, forall_eq, List.pairwise_append,
      List.pairwise_singleton, List.mem_singleton, true_and]
    constructor
    · rintro ⟨h1, h2, h3⟩
      refine ⟨⟨h2, ?_⟩, fun x hx => hx ▸ h1⟩
      intro x hx
      rcases List.eq_nil_or_concat l with hnil | ⟨l2, y, hl⟩
      · subst hnil; cases hx
      · rw [List.concat_eq_append] at hl
        subst hl
        have hy := h3 y (List.getLast?_concat l2)
        rcases List.mem_append.1 hx with hx2 | hx2
        · have := (List.pairwise_append.1 h2).2.2 x hx2 y (List.mem_singleton_self y)
          omega
        · rw [List.mem_singleton.1 hx2]; exact hy
    · rintro ⟨⟨h2, h4⟩, h1⟩
      refine ⟨h1 a rfl, h2, ?_⟩
      intro x hx
      exact h4 x (List.mem_of_mem_getLast? hx)

/-- C17: at `-ff` a free-list record is labelled " [bad sequence]" exactly when its page ids,
read from the last stored to the first, fail to be strictly increasing or the last stored id
is not greater than 1; a record with no page ids is never labelled, and a record that is not
labelled has the empty label. -/
theorem bad_sequence_iff (iptr : List Nat) :
    (badLabel iptr = " [bad sequence]" ↔
      ¬ List.Pairwise (fun a b => a < b) iptr.reverse ∨
        ∃ x, iptr.getLast? = some x ∧ ¬ 1 < x) ∧
      (badLabel iptr = " [bad sequence]" ∨ badLabel iptr = "") ∧
      badLabel [] = "" := by
  refine ⟨?_, ?_, rfl⟩
  · unfold badLabel freeSummary
    rw [spanOuter_bad, rising_iff, List.pairwise_reverse]
    simp only [String.reduceEq, false_or, not_and_or, not_forall, exists_prop]
  · unfold badLabel freeSummary
    have key : ∀ (n : Nat) (bad : String) (prev span : Nat),
        (bad = " [bad sequence]" ∨ bad = "") →
        ((spanOuter iptr n bad prev span).1 = " [bad sequence]" ∨
          (spanOuter iptr n bad prev span).1 = "") := by
      intro n
      induction n with
      | zero => intro bad prev span h; exact h
      | succ i ih =>
        intro bad prev span h
        rw [spanOuter]
        apply ih
        split_ifs
        · exact Or.inl rfl
        · exact h
    exact key _ _ _ _ (Or.inr rfl)

theorem desc_of_pairwise {l : List Nat} (h : List.Pairwise (fun a b => b < a) l) : Desc l := by
  intro a b hab hb
  have ha : a < l.length := by omega
  rw [List.getD_eq_getElem l 0 hb, List.getD_eq_getElem l 0 ha]
  exact List.pairwise_iff_getElem.1 h a b ha hb hab

theorem mem_iff_getD {l : List Nat} {x : Nat} : x ∈ l ↔ ∃ k, k < l.length ∧ l.getD k 0 = x := by
  rw [List.mem_iff_getElem]
  constructor
  · rintro ⟨k, hk, e⟩
    exact ⟨k, hk, by rw [List.getD_eq_getElem l 0 hk]; exact e⟩
  · rintro ⟨k, hk, e⟩
    exact ⟨k, hk, by rw [List.getD_eq_getElem l 0 hk] at e; exact e⟩

theorem Desc.gap {l : List Nat} (h : Desc l) : ∀ (d a : Nat), a + d < l.length →
    l.getD (a + d) 0 + d ≤ l.getD a 0
  | 0, a, _ => by simp
  | d + 1, a, hb => by
    have h1 := Desc.gap h d a (by omega)
    have h2 := h (a + d) (a + (d + 1)) (by omega) hb
    omega

theorem Desc.index_lt {l : List Nat} (h : Desc l) {a b : Nat} (ha : a < l.length)
    (hb : b < l.length) (hv : l.getD b 0 < l.getD a 0) : a < b := by
  rcases Nat.lt_trichotomy a b with h1 | h1 | h1
  · exact h1
  · subst h1; omega
  · have := h b a h1 ha
    omega

theorem RunAt.zero (l : List Nat) (i : Nat) : RunAt l i 0 := ⟨Nat.zero_le _, by simp⟩

theorem RunAt.pred {l : List Nat} (h : Desc l) {i s : Nat} (hi : i < l.length)
    (hr : RunAt l i (s + 1)) : RunAt l i s := by
  obtain ⟨h1, h2⟩ := hr
  refine ⟨by omega, ?_⟩
  have h3 := h (i - (s + 1)) (i - s) (by omega) (by omega)
  have h4 := h.gap s (i - s) (by omega)
  have e : i - s + s = i := by omega
  rw [e] at h4
  omega

theorem RunAt.down {l : List Nat} (h : Desc l) {i : Nat} (hi : i < l.length) :
    ∀ (d s : Nat), RunAt l i (s + d) → RunAt l i s
  | 0, _, hr => hr
  | d + 1, s, hr => RunAt.down h hi d s (RunAt.pred h hi hr)

theorem RunAt.le {l : List Nat} (h : Desc l) {i s t : Nat} (hi : i < l.length)
    (hr : RunAt l i s) (ht : t ≤ s) : RunAt l i t := by
  have e : s = t + (s - t) := by omega
  rw [e] at hr
  exact RunAt.down h hi _ _ hr

/-- The test of the inner loop holds exactly when the run extends. -/
theorem span_test {l : List Nat} (h : Desc l) (hb : ∀ x ∈ l, x < sizeMod) {i span : Nat}
    (hi : i < l.length) :
    (span ≤ i ∧ l.getD (i - span) 0 = (l.getD i 0 + span) % sizeMod) ↔ RunAt l i span := by
  unfold RunAt
  constructor
  · rintro ⟨h1, h2⟩
    have h4 := h.gap span (i - span) (by omega)
    have e : i - span + span = i := by omega
    rw [e] at h4
    have h5 : l.getD (i - span) 0 < sizeMod :=
      hb _ (mem_iff_getD.2 ⟨i - span, by omega, rfl⟩)
    rw [Nat.mod_eq_of_lt (by omega)] at h2
    exact ⟨h1, h2⟩
  · rintro ⟨h1, h2⟩
    have h5 : l.getD (i - span) 0 < sizeMod :=
      hb _ (mem_iff_getD.2 ⟨i - span, by omega, rfl⟩)
    rw [Nat.mod_eq_of_lt (by omega)]
    exact ⟨h1, h2⟩

/-- The inner loop stops at the first length from `span` on to which the run ending at `i`
does not extend. -/
theorem spanInner_spec {l : List Nat} (h : Desc l) (hb : ∀ x ∈ l, x < sizeMod) {i : Nat}
    (hi : i < l.length) : ∀ (fuel span pg : Nat), pg = (l.getD i 0 + span) % sizeMod →
    i + 1 ≤ fuel + span →
    span ≤ spanInner l i fuel span pg ∧
      (∀ s, span ≤ s → s < spanInner l i fuel span pg → RunAt l i s) ∧
      ¬ RunAt l i (spanInner l i fuel span pg)
  | 0, span, pg, _, hf => by
    rw [spanInner]
    refine ⟨le_refl _, fun s h1 h2 => by omega, ?_⟩
    intro hr
    have := hr.1
    omega
  | fuel + 1, span, pg, hpg, hf => by
    rw [spanInner]
    by_cases ht : span ≤ i ∧ l.getD (i - span) 0 = pg
    · rw [if_pos ht]
      have hr : RunAt l i span := (span_test h hb hi).1 (by rw [← hpg]; exact ht)
      have hpg2 : (pg + 1) % sizeMod = (l.getD i 0 + (span + 1)) % sizeMod := by
        rw [hpg, Nat.add_mod, Nat.mod_mod, ← Nat.add_mod, Nat.add_assoc]
      obtain ⟨h1, h2, h3⟩ := spanInner_spec h hb hi fuel (span + 1) _ hpg2 (by omega)
      refine ⟨by omega, ?_, h3⟩
      intro s hs1 hs2
      rcases Nat.eq_or_lt_of_le hs1 with e | e
      · rw [← e]; exact hr
      · exact h2 s e hs2
    · rw [if_neg ht]
      refine ⟨le_refl _, fun s h1 h2 => by omega, ?_⟩
      intro hr
      have := (span_test h hb hi).2 hr
      rw [← hpg] at this
      exact ht this

theorem spanOuter_best {l : List Nat} (h : Desc l) (hb : ∀ x ∈ l, x < sizeMod) :
    ∀ (n : Nat) (bad : String) (prev span : Nat), n ≤ l.length → Best l n span →
    Best l 0 (spanOuter l n bad prev span).2
  | 0, _, _, _, _, hbest => hbest
  | i + 1, bad, prev, span, hn, hbest => by
    rw [spanOuter]
    apply spanOuter_best h hb i _ _ _ (by omega)
    have hi : i < l.length := by omega
    obtain ⟨h1, h2, h3⟩ := spanInner_spec h hb hi (i + 1 - span) span
      ((l.getD i 0 + span) % sizeMod) rfl (by omega)
    generalize spanInner l i (i + 1 - span) span ((l.getD i 0 + span) % sizeMod) = r at h1 h2 h3
    obtain ⟨hA, hB⟩ := hbest
    refine ⟨?_, ?_⟩
    · intro j hj1 hj2 s hs
      rcases Nat.eq_or_lt_of_le hj1 with e | e
      · subst e
        by_contra hlt
        exact h3 (RunAt.le h hi hs (by omega))
      · have := hA j e hj2 s hs
        omega
    · right
      rcases Nat.eq_or_lt_of_le h1 with e | e
      · rcases hB with ⟨h0, _⟩ | ⟨j, hj1, hj2, hj3, hj4⟩
        · exfalso
          rw [← e, h0] at h3
          exact h3 (RunAt.zero l i)
        · exact ⟨j, by omega, hj2, by omega, by rw [← e]; exact hj4⟩
      · exact ⟨i, le_refl _, hi, by omega, h2 (r - 1) (by omega) (by omega)⟩

/-- The ids of a run `p`, ..., `p + m - 1` sit at adjacent indices, ending at the index of `p`. -/
theorem run_adjacent {l : List Nat} (h : Desc l) {p i : Nat} (hi : i < l.length)
    (hp : l.getD i 0 = p) : ∀ (t : Nat), (∀ u, u ≤ t → p + u ∈ l) → RunAt l i t
  | 0, _ => RunAt.zero l i
  | t + 1, hm => by
    obtain ⟨h1, h2⟩ := run_adjacent h hi hp t (fun u hu => hm u (by omega))
    obtain ⟨k, hk, hkv⟩ := mem_iff_getD.1 (hm (t + 1) (le_refl _))
    have hlt : k < i - t := h.index_lt hk (by omega) (by omega)
    have h3 := h (i - (t + 1)) (i - t) (by omega) (by omega)
    refine ⟨by omega, ?_⟩
    rcases Nat.eq_or_lt_of_le (show k ≤ i - (t + 1) by omega) with e | e
    · rw [← e]; omega
    · have := h k (i - (t + 1)) e (by omega)
      omega

/-- For a strictly descending record `maxspan` is the greatest length of a run. -/
theorem maxspan_best {l : List Nat} (hd : Desc l) (hsize : ∀ x ∈ l, x < sizeMod) :
    Best l 0 (maxspan l) := by
  unfold maxspan freeSummary
  exact spanOuter_best hd hsize _ _ _ _ (le_refl _)
    ⟨fun i h1 h2 => by omega, Or.inl ⟨rfl, rfl⟩⟩

/-- Every run of consecutive ids of a strictly descending record is at most `maxspan` long. -/
theorem maxspan_upper {l : List Nat} (hd : Desc l) (hsize : ∀ x ∈ l, x < sizeMod) (p n : Nat)
    (hrun : ∀ t, t < n → p + t ∈ l) : n ≤ maxspan l := by
  obtain ⟨hA, _⟩ := maxspan_best hd hsize
  rcases Nat.eq_zero_or_pos n with h0 | hpos
  · omega
  · obtain ⟨i, hi, hiv⟩ := mem_iff_getD.1 (hrun 0 hpos)
    have hr := run_adjacent hd hi hiv (n - 1) (fun u hu => hrun u (by omega))
    have := hA i (Nat.zero_le _) hi _ hr
    omega

/-- C13: for a free-list record whose page ids are stored in strictly descending order, the
`maxspan` computed at `-ff` is the length of the longest run of consecutive page ids in the
record: every run `p`, `p + 1`, ..., `p + n - 1` of ids of the record has `n ≤ maxspan`, and a
non-empty record has a run of `maxspan` ids with `maxspan` positive; a record with no page ids
has `maxspan` 0. -/
theorem maxspan_longest_run (iptr : List Nat)
    (hdesc : List.Pairwise (fun a b => b < a) iptr) (hsize : ∀ x ∈ iptr, x < 2 ^ 64) :
    (∀ p n, (∀ t, t < n → p + t ∈ iptr) → n ≤ maxspan iptr) ∧
      (iptr ≠ [] → 0 < maxspan iptr ∧ ∃ p, ∀ t, t < maxspan iptr → p + t ∈ iptr) ∧
      maxspan [] = 0 := by
  have hd := desc_of_pairwise hdesc
  obtain ⟨hA, hB⟩ := maxspan_best hd hsize
  refine ⟨?_, ?_, rfl⟩
  · exact maxspan_upper hd hsize
  · intro hne
    rcases hB with ⟨_, h0⟩ | ⟨i, _, hi, hpos, hr⟩
    · exact absurd (List.length_eq_zero.1 h0.symm) hne
    · refine ⟨by omega, iptr.getD i 0, ?_⟩
      intro t ht
      have hrt := RunAt.le hd hi hr (show t ≤ maxspan iptr - 1 by omega)
      rw [← hrt.2]
      exact mem_iff_getD.2 ⟨i - t, by omega, rfl⟩

theorem maxspan_longest_run_witness :
    maxspan [9, 8, 7, 5, 4, 2] = 3 ∧
      (∀ p n, (∀ t, t < n → p + t ∈ [9, 8, 7, 5, 4, 2]) → n ≤ maxspan [9, 8, 7, 5, 4, 2]) :=
  ⟨by decide, (maxspan_longest_run [9, 8, 7, 5, 4, 2] (by decide) (by decide)).1⟩

/-- The inner loop of the listing takes the ids below index `k` that continue the run, and
stops at the first that does not. -/
theorem listInner_spec (l : List Nat) (pg : Nat) : ∀ (k span : Nat),
    (listInner l pg k span).1 ≤ k ∧
      (listInner l pg k span).2 = span + (k - (listInner l pg k span).1) ∧
      (∀ u, (listInner l pg k span).1 ≤ u → u < k →
        l.getD u 0 = (pg + (span + (k - 1 - u))) % sizeMod) ∧
      ((listInner l pg k span).1 = 0 ∨
        l.getD ((listInner l pg k span).1 - 1) 0 ≠
          (pg + (listInner l pg k span).2) % sizeMod)
  | 0, span => by
    rw [listInner]
    exact ⟨le_refl _, rfl, fun u h1 h2 => by omega, Or.inl rfl⟩
  | k + 1, span => by
    rw [listInner]
    by_cases ht : l.getD k 0 = (pg + span) % sizeMod
    · rw [if_pos ht]
      obtain ⟨h1, h2, h3, h4⟩ := listInner_spec l pg k (span + 1)
      refine ⟨by omega, by omega, ?_, h4⟩
      intro u hu1 hu2
      rcases Nat.eq_or_lt_of_le (show u ≤ k by omega) with e | e
      · subst e
        rw [ht]
        congr 2
        omega
      · rw [h3 u hu1 e]
        congr 2
        omega
    · rw [if_neg ht]
      exact ⟨le_refl _, by simp, fun u h1 h2 => by omega, Or.inr ht⟩

/-- One round of the listing, for a record whose ids do not overflow: the run printed and
the ids it covers. -/
theorem listInner_run {l : List Nat} (hb : ∀ x ∈ l, x + l.length < sizeMod) {k : Nat}
    (hk : k < l.length) :
    (listInner l (l.getD k 0) k 1).1 ≤ k ∧
      (listInner l (l.getD k 0) k 1).2 = k + 1 - (listInner l (l.getD k 0) k 1).1 ∧
      (∀ u, (listInner l (l.getD k 0) k 1).1 ≤ u → u ≤ k →
        l.getD u 0 = l.getD k 0 + (k - u)) ∧
      ((listInner l (l.getD k 0) k 1).1 = 0 ∨
        l.getD ((listInner l (l.getD k 0) k 1).1 - 1) 0 ≠
          l.getD k 0 + (listInner l (l.getD k 0) k 1).2) := by
  obtain ⟨h1, h2, h3, h4⟩ := listInner_spec l (l.getD k 0) k 1
  have hpg := hb _ (mem_iff_getD.2 ⟨k, hk, rfl⟩)
  refine ⟨h1, by omega, ?_, ?_⟩
  · intro u hu1 hu2
    rcases Nat.eq_or_lt_of_le hu2 with e | e
    · subst e; simp
    · rw [h3 u hu1 e, Nat.mod_eq_of_lt (by omega)]
      omega
  · rcases h4 with h4 | h4
    · exact Or.inl h4
    · right
      rw [Nat.mod_eq_of_lt (by omega)] at h4
      exact h4

theorem take_reverse_split (l : List Nat) {m n : Nat} (h : m ≤ n) :
    (l.take n).reverse = ((l.take n).drop m).reverse ++ (l.take m).reverse := by
  rw [← List.reverse_append]
  congr 1
  have e : l.take m = (l.take n).take m := by
    rw [List.take_take, Nat.min_eq_left h]
  rw [e, List.take_append_drop]

theorem run_segment {l : List Nat} {k m : Nat} (hk : k < l.length) (hm : m ≤ k)
    (hrun : ∀ u, m ≤ u → u ≤ k → l.getD u 0 = l.getD k 0 + (k - u)) :
    ((l.take (k + 1)).drop m).reverse = runIds (l.getD k 0, k + 1 - m) := by
  apply List.ext_getElem
  · simp only [runIds, List.length_reverse, List.length_drop, List.length_take,
      List.length_map, List.length_range]
    omega
  · intro t h1 h2
    simp only [runIds, List.length_map, List.length_range] at h2
    simp only [runIds, List.getElem_reverse, List.getElem_drop, List.getElem_take,
      List.getElem_map, List.getElem_range, List.length_drop, List.length_take]
    have e : m + (min (k + 1) l.length - m - 1 - t) = k - t := by omega
    have hu := hrun (k - t) (by omega) (by omega)
    rw [List.getD_eq_getElem l 0 (by omega)] at hu
    simp only [e]
    rw [hu]
    congr 1
    omega

theorem listOuter_spec {l : List Nat} (hb : ∀ x ∈ l, x + l.length < sizeMod) :
    ∀ (fuel m : Nat), m ≤ fuel → m ≤ l.length →
    ((listOuter l fuel m).map Prod.snd).sum = m ∧
      (l.take m).reverse = (listOuter l fuel m).flatMap runIds ∧
      (∀ r ∈ listOuter l fuel m, 1 ≤ r.2) ∧
      List.Chain' (fun r1 r2 : Nat × Nat => r2.1 ≠ r1.1 + r1.2) (listOuter l fuel m) ∧
      (∀ r, (listOuter l fuel m).head? = some r → 1 ≤ m ∧ r.1 = l.getD (m - 1) 0)
  | 0, m, hf, _ => by
    have : m = 0 := by omega
    subst this
    simp [listOuter]
  | fuel + 1, 0, _, _ => by
    simp [listOuter]
  | fuel + 1, k + 1, hf, hm => by
    have hk : k < l.length := by omega
    obtain ⟨h1, h2, h3, h4⟩ := listInner_run hb hk
    obtain ⟨i1, i2, i3, i4, i5⟩ := listOuter_spec hb fuel (listInner l (l.getD k 0) k 1).1
      (by omega) (by omega)
    rw [listOuter]
    generalize hrest : listOuter l fuel (listInner l (l.getD k 0) k 1).1 = rest at i1 i2 i3 i4 i5
    generalize hm1 : (listInner l (l.getD k 0) k 1).1 = m1 at h1 h2 h3 h4 i1 i2 i5
    generalize hs1 : (listInner l (l.getD k 0) k 1).2 = s1 at h2 h4
    refine ⟨?_, ?_, ?_, ?_, ?_⟩
    · simp only [List.map_cons, List.sum_cons, i1]
      omega
    · rw [List.flatMap_cons, take_reverse_split l (show m1 ≤ k + 1 by omega),
        run_segment hk h1 h3, i2, h2]
    · intro r hr
      rcases List.mem_cons.1 hr with e | e
      · rw [e]
        show 1 ≤ s1
        omega
      · exact i3 r e
    · rw [List.chain'_cons']
      refine ⟨?_, i4⟩
      intro y hy
      obtain ⟨y1, y2⟩ := i5 y hy
      show y.1 ≠ l.getD k 0 + s1
      rw [y2]
      rcases h4 with h4 | h4
      · omega
      · exact h4
    · intro r hr
      simp only [List.head?_cons, Option.some.injEq] at hr
      rw [← hr]
      exact ⟨by omega, rfl⟩

/-- A run of adjacent ids ending at an index still to be listed is inside one printed run. -/
theorem listOuter_covers {l : List Nat} (hb : ∀ x ∈ l, x + l.length < sizeMod) :
    ∀ (fuel m : Nat), m ≤ fuel → m ≤ l.length → ∀ (i n : Nat), i < m →
    (∀ t, t < n → t ≤ i ∧ l.getD (i - t) 0 = l.getD i 0 + t) →
    ∃ r ∈ listOuter l fuel m, n ≤ r.2
  | 0, m, hf, _, i, n, hi, _ => by omega
  | fuel + 1, 0, _, _, i, n, hi, _ => by omega
  | fuel + 1, k + 1, hf, hm, i, n, hi, hrun => by
    have hk : k < l.length := by omega
    obtain ⟨h1, h2, h3, h4⟩ := listInner_run hb hk
    rw [listOuter]
    by_cases hlt : i < (listInner l (l.getD k 0) k 1).1
    · obtain ⟨r, hr, hn⟩ := listOuter_covers hb fuel (listInner l (l.getD k 0) k 1).1
        (by omega) (by omega) i n hlt hrun
      exact ⟨r, List.mem_cons_of_mem _ hr, hn⟩
    · refine ⟨_, List.mem_cons_self _ _, ?_⟩
      show n ≤ (listInner l (l.getD k 0) k 1).2
      generalize (listInner l (l.getD k 0) k 1).1 = m1 at h1 h2 h3 h4 hlt
      generalize (listInner l (l.getD k 0) k 1).2 = s1 at h2 h4
      by_contra hcon
      have hi2 := h3 i (by omega) (by omega)
      obtain ⟨t1, t2⟩ := hrun (i + 1 - m1) (by omega)
      rcases h4 with h4 | h4
      · omega
      · apply h4
        have e : i - (i + 1 - m1) = m1 - 1 := by omega
        rw [e] at t2
        omega

theorem foldr_max_eq (xs : List Nat) (b : Nat) (h1 : ∀ x ∈ xs, x ≤ b) (h2 : ∃ x ∈ xs, b ≤ x) :
    xs.foldr max 0 = b := by
  induction xs with
  | nil =>
    obtain ⟨x, hx, _⟩ := h2
    cases hx
  | cons a rest ih =>
    have ha := h1 a (List.mem_cons_self _ _)
    have hr : rest.foldr max 0 ≤ b := by
      clear ih h2
      induction rest with
      | nil => exact Nat.zero_le _
      | cons c rest2 ih2 =>
        have hc := h1 c (List.mem_cons_of_mem _ (List.mem_cons_self _ _))
        have := ih2 (fun x hx => by
          rcases List.mem_cons.1 hx with e | e
          · rw [e]; exact ha
          · exact h1 x (List.mem_cons_of_mem _ (List.mem_cons_of_mem _ e)))
        simp only [List.foldr_cons]
        exact max_le hc this
    simp only [List.foldr_cons]
    obtain ⟨x, hx, hbx⟩ := h2
    rcases List.mem_cons.1 hx with e | e
    · subst e
      have : x = b := le_antisymm ha hbx
      subst this
      exact max_eq_left hr
    · have := ih (fun y hy => h1 y (List.mem_cons_of_mem _ hy)) ⟨x, e, hbx⟩
      rw [this]
      exact max_eq_right ha

/-- C14: for a free-list record whose ids do not overflow (`id + j < 2 ^ 64` for each id, `j`
the number of ids), the runs `(pg, span)` printed at `-fff` partition the record read from the
last stored id to the first: the spans sum to `j`, the reversed record is the concatenation of
the runs `pg`, `pg + 1`, ..., `pg + span - 1`, every span is at least 1, and each run is
maximal (the first id of the next run is not `pg + span`). For a strictly descending record
the largest printed span is the `maxspan` of the summary line. -/
theorem span_listing (iptr : List Nat) (hsize : ∀ x ∈ iptr, x + iptr.length < 2 ^ 64) :
    ((freeSpans iptr).map Prod.snd).sum = iptr.length ∧
      iptr.reverse = (freeSpans iptr).flatMap runIds ∧
      (∀ r ∈ freeSpans iptr, 1 ≤ r.2) ∧
      List.Chain' (fun r1 r2 : Nat × Nat => r2.1 ≠ r1.1 + r1.2) (freeSpans iptr) ∧
      (List.Pairwise (fun a b => b < a) iptr →
        ((freeSpans iptr).map Prod.snd).foldr max 0 = maxspan iptr) := by
  obtain ⟨h1, h2, h3, h4, _⟩ := listOuter_spec hsize iptr.length iptr.length (le_refl _)
    (le_refl _)
  rw [List.take_length] at h2
  refine ⟨h1, h2, h3, h4, ?_⟩
  intro hdesc
  have hd := desc_of_pairwise hdesc
  have hlt : ∀ x ∈ iptr, x < sizeMod := fun x hx => by
    have := hsize x hx
    unfold sizeMod
    omega
  rcases List.eq_nil_or_concat iptr with hnil | ⟨l2, y, hl⟩
  · subst hnil
    rfl
  · have hne : iptr ≠ [] := by
      rw [hl]
      simp
    apply foldr_max_eq
    · intro s hs
      obtain ⟨r, hr, rfl⟩ := List.mem_map.1 hs
      apply maxspan_upper hd hlt r.1 r.2
      intro t ht
      have : r.1 + t ∈ (freeSpans iptr).flatMap runIds := by
        refine List.mem_flatMap.2 ⟨r, hr, ?_⟩
        unfold runIds
        exact List.mem_map.2 ⟨t, List.mem_range.2 ht, rfl⟩
      have h5 : iptr.reverse = (freeSpans iptr).flatMap runIds := h2
      rw [← h5] at this
      exact List.mem_reverse.1 this
    · obtain ⟨_, hB⟩ := maxspan_best hd hlt
      rcases hB with ⟨_, h0⟩ | ⟨i, _, hi, hpos, hr⟩
      · exact absurd (List.length_eq_zero.1 h0.symm) hne
      · obtain ⟨r, hr1, hr2⟩ := listOuter_covers hsize iptr.length iptr.length (le_refl _)
          (le_refl _) i (maxspan iptr) hi (fun t ht => by
            have := RunAt.le hd hi hr (show t ≤ maxspan iptr - 1 by omega)
            exact this)
        exact ⟨r.2, List.mem_map.2 ⟨r, hr1, rfl⟩, hr2⟩

theorem span_listing_witness :
    freeSpans [9, 8, 7, 5, 4, 2] = [(2, 1), (4, 2), (7, 3)] ∧
      [9, 8, 7, 5, 4, 2].reverse = (freeSpans [9, 8, 7, 5, 4, 2]).flatMap runIds :=
  ⟨by decide, (span_listing [9, 8, 7, 5, 4, 2] (by decide)).2.1⟩

/-- The record with the ids 0 and 2^64 - 1 (in this order) is listed as one run of two ids
from 2^64 - 1, although its ids are not 2^64 - 1 and 2^64: the comparison `iptr[j] == pg+span`
wraps. -/
theorem span_listing_wraps :
    freeSpans [0, 2 ^ 64 - 1] = [(2 ^ 64 - 1, 2)] ∧
      ¬ ([0, 2 ^ 64 - 1].reverse = (freeSpans [0, 2 ^ 64 - 1]).flatMap runIds) := by
  decide

theorem dumpLoop_quiet (c : Codes) (mode : Nat) (gotsig : Nat → Bool) (stop : Int)
    (hq : ∀ n, gotsig n = false) (hs : stop ≠ c.RDB_SUCCESS) :
    ∀ (rows : List (List Byte × List Byte)) (n : Nat) (out : List (List Char)),
      (dumpLoop c mode gotsig stop rows n out).2 = 0
  | [], _, _ => by simp [dumpLoop, hs]
  | (key, data) :: rest, n, out => by
    rw [dumpLoop]
    simp only [hq n, Bool.false_eq_true, if_false]
    split_ifs
    · exact dumpLoop_quiet c mode gotsig stop hq hs rest _ _
    · exact dumpLoop_quiet c mode gotsig stop hq hs rest _ _

/-- C15: whatever code other than `RDB_SUCCESS` ends the scan when no signal arrives,
`dumpit` returns `RDB_SUCCESS` (success being 0 and not-found not), so the code of a failing
`rdb_cursor_get` is lost and `main` exits with success; the scan that ends with
`RDB_NOTFOUND` returns `RDB_SUCCESS` for the same reason. -/
theorem dumpit_loses_code (c : Codes) (mode : Nat) (gotsig : Nat → Bool) (s : Scan c)
    (h0 : c.RDB_SUCCESS = 0) (hn : c.RDB_NOTFOUND ≠ 0) (hq : ∀ n, gotsig n = false) :
    (dumpit c mode gotsig 0 s).2 = c.RDB_SUCCESS ∧
      exitStatus (dumpit c mode gotsig 0 s).2 = EXIT_SUCCESS := by
  have h : (dumpit c mode gotsig 0 s).2 = 0 := by
    unfold dumpit
    simp only [ne_eq, not_true_eq_false, if_false,
      dumpLoop_quiet c mode gotsig s.stop hq s.ends s.rows 0 []]
    rw [if_neg (fun e => hn e.symm)]
  rw [h, h0]
  exact ⟨rfl, rfl⟩

theorem dumpit_loses_code_witness :
    corruptScan.stop = -30796 ∧
      (dumpit sampleCodes PRINT (fun _ => false) 0 corruptScan).2 = 0 ∧
      exitStatus (dumpit sampleCodes PRINT (fun _ => false) 0 corruptScan).2 = EXIT_SUCCESS :=
  ⟨rfl, dumpit_loses_code sampleCodes PRINT (fun _ => false) corruptScan rfl (by decide)
    (fun _ => rfl)⟩

theorem cAt_dashN {a : List Char} (hz : '\x00' ∉ a) :
    (cAt a 0 = '-' ∧ cAt a 1 = 'n' ∧ cAt a 2 = '\x00') ↔ a = dashN := by
  constructor
  · rintro ⟨h0, h1, h2⟩
    match a, hz, h0, h1, h2 with
    | [], _, h0, _, _ => exact absurd h0 (by decide)
    | [x], _, _, h1, _ =>
      simp only [cAt, List.getD_cons_zero, List.getD_cons_succ, List.getD_nil] at h1
      exact absurd h1 (by decide)
    | [x, y], _, h0, h1, _ =>
      simp only [cAt, List.getD_cons_zero, List.getD_cons_succ] at h0 h1
      rw [h0, h1]; rfl
    | x :: y :: z :: r, hz, _, _, h2 =>
      simp only [cAt, List.getD_cons_zero, List.getD_cons_succ] at h2
      exact absurd (by rw [h2]; simp) hz
  · intro h
    subst h
    decide

theorem cAt_dashC {a : List Char} (hz : '\x00' ∉ a) :
    (cAt a 0 = '-' ∧ cAt a 1 = 'c' ∧ cAt a 2 = '\x00') ↔ a = dashC := by
  constructor
  · rintro ⟨h0, h1, h2⟩
    match a, hz, h0, h1, h2 with
    | [], _, h0, _, _ => exact absurd h0 (by decide)
    | [x], _, _, h1, _ =>
      simp only [cAt, List.getD_cons_zero, List.getD_cons_succ, List.getD_nil] at h1
      exact absurd h1 (by decide)
    | [x, y], _, h0, h1, _ =>
      simp only [cAt, List.getD_cons_zero, List.getD_cons_succ] at h0 h1
      rw [h0, h1]; rfl
    | x :: y :: z :: r, hz, _, _, h2 =>
      simp only [cAt, List.getD_cons_zero, List.getD_cons_succ] at h2
      exact absurd (by rw [h2]; simp) hz
  · intro h
    subst h
    decide

theorem cAt_dashV {a : List Char} (hz : '\x00' ∉ a) :
    (cAt a 0 = '-' ∧ cAt a 1 = 'V' ∧ cAt a 2 = '\x00') ↔ a = dashV := by
  constructor
  · rintro ⟨h0, h1, h2⟩
    match a, hz, h0, h1, h2 with
    | [], _, h0, _, _ => exact absurd h0 (by decide)
    | [x], _, _, h1, _ =>
      simp only [cAt, List.getD_cons_zero, List.getD_cons_succ, List.getD_nil] at h1
      exact absurd h1 (by decide)
    | [x, y], _, h0, h1, _ =>
      simp only [cAt, List.getD_cons_zero, List.getD_cons_succ] at h0 h1
      rw [h0, h1]; rfl
    | x :: y :: z :: r, hz, _, _, h2 =>
      simp only [cAt, List.getD_cons_zero, List.getD_cons_succ] at h2
      exact absurd (by rw [h2]; simp) hz
  · intro h
    subst h
    decide

/-- With `argc` at most 1 the option loop does not run. -/
theorem copyOpts_stop (k : CopyConsts) (tl : List (List Char)) (argc : Int) (f c : Nat)
    (h : argc ≤ 1) : copyOpts k tl argc f c = some (tl, argc, f, c) := by
  cases tl with
  | nil => rfl
  | cons a rest =>
    rw [copyOpts, if_neg]
    intro h2
    omega

/-- An argument that does not begin with `-` ends the option loop. -/
theorem copyOpts_plain (k : CopyConsts) (a : List Char) (rest : List (List Char)) (argc : Int)
    (f c : Nat) (h : cAt a 0 ≠ '-') :
    copyOpts k (a :: rest) argc f c = some (a :: rest, argc, f, c) := by
  rw [copyOpts, if_neg]
  intro h2
  exact h h2.2

theorem copyOpts_n (k : CopyConsts) (rest : List (List Char)) (argc : Int) (f c : Nat)
    (h : 1 < argc) :
    copyOpts k (dashN :: rest) argc f c = copyOpts k rest (argc - 1) (f ||| k.RDB_NOSUBDIR) c := by
  rw [copyOpts, if_pos ⟨h, by decide⟩, if_pos (by decide)]

theorem copyOpts_c (k : CopyConsts) (rest : List (List Char)) (argc : Int) (f c : Nat)
    (h : 1 < argc) :
    copyOpts k (dashC :: rest) argc f c =
      copyOpts k rest (argc - 1) f (c ||| k.RDB_CP_COMPACT) := by
  rw [copyOpts, if_pos ⟨h, by decide⟩, if_neg (by decide), if_pos (by decide)]

theorem copyOpts_V (k : CopyConsts) (rest : List (List Char)) (argc : Int) (f c : Nat)
    (h : 1 < argc) : copyOpts k (dashV :: rest) argc f c = none := by
  rw [copyOpts, if_pos ⟨h, by decide⟩, if_neg (by decide), if_neg (by decide),
    if_pos (by decide)]

/-- Any other argument that begins with `-` makes the loop set `argc` to 0 and end. -/
theorem copyOpts_other (k : CopyConsts) (a : List Char) (rest : List (List Char)) (argc : Int)
    (f c : Nat) (hz : '\x00' ∉ a) (h : 1 < argc) (h0 : cAt a 0 = '-') (hn : a ≠ dashN)
    (hc : a ≠ dashC) (hv : a ≠ dashV) :
    copyOpts k (a :: rest) argc f c = some (rest, -1, f, c) := by
  have e1 : ¬ (cAt a 1 = 'n' ∧ cAt a 2 = '\x00') := fun h2 => hn ((cAt_dashN hz).1 ⟨h0, h2⟩)
  have e2 : ¬ (cAt a 1 = 'c' ∧ cAt a 2 = '\x00') := fun h2 => hc ((cAt_dashC hz).1 ⟨h0, h2⟩)
  have e3 : ¬ (cAt a 1 = 'V' ∧ cAt a 2 = '\x00') := fun h2 => hv ((cAt_dashV hz).1 ⟨h0, h2⟩)
  rw [copyOpts, if_pos ⟨h, h0⟩, if_neg e1, if_neg e2, if_neg e3]
  exact copyOpts_stop k rest (0 - 1) f c (by decide)

/-- The loop over leading `-n` and `-c` options. -/
theorem copyOpts_valid (k : CopyConsts) : ∀ (opts tl : List (List Char)) (f c : Nat),
    (∀ o ∈ opts, o = dashN ∨ o = dashC) →
    copyOpts k (opts ++ tl) (((opts ++ tl).length : Int) + 1) f c =
      copyOpts k tl ((tl.length : Int) + 1)
        (if dashN ∈ opts then f ||| k.RDB_NOSUBDIR else f)
        (if dashC ∈ opts then c ||| k.RDB_CP_COMPACT else c)
  | [], tl, f, c, _ => by simp
  | o :: opts, tl, f, c, hv => by
    have ih := copyOpts_valid k opts tl
    have hv2 : ∀ o ∈ opts, o = dashN ∨ o = dashC := fun x hx => hv x (List.mem_cons_of_mem _ hx)
    have hlen : (((o :: (opts ++ tl)).length : Int) + 1) - 1 = ((opts ++ tl).length : Int) + 1 := by
      simp only [List.length_cons]
      push_cast
      omega
    have hgt : (1 : Int) < ((o :: (opts ++ tl)).length : Int) + 1 := by
      simp only [List.length_cons]
      push_cast
      omega
    have hNC : dashN ≠ dashC := by decide
    rcases hv o (List.mem_cons_self _ _) with e | e
    · subst e
      rw [List.cons_append, copyOpts_n k _ _ _ _ hgt, hlen, ih _ _ hv2]
      simp only [List.mem_cons, true_or, if_true, hNC.symm, false_or]
      congr 1
      split_ifs
      · rw [Nat.or_assoc, Nat.or_self]
      · rfl
    · subst e
      rw [List.cons_append, copyOpts_c k _ _ _ _ hgt, hlen, ih _ _ hv2]
      simp only [List.mem_cons, true_or, if_true, hNC, false_or]
      congr 2
      split_ifs
      · rw [Nat.or_assoc, Nat.or_self]
      · rfl

theorem copyMain_form (k : CopyConsts) (api : CopyCall → Int) (prog : List Char)
    {args opts rest : List (List Char)} (h : CopyForm args opts rest) :
    copyMain k api (prog :: args) =
      copyRun k api (rest.getD 0 []) (if rest.length = 1 then none else some (rest.getD 1 []))
        (if dashN ∈ opts then k.RDB_RDONLY ||| k.RDB_NOSUBDIR else k.RDB_RDONLY)
        (if dashC ∈ opts then k.RDB_CP_COMPACT else 0) := by
  obtain ⟨rfl, hv, hlen, hd⟩ := h
  unfold copyMain
  simp only [List.tail_cons, List.length_cons]
  rw [show (((opts ++ rest).length + 1 : Nat) : Int) = ((opts ++ rest).length : Int) + 1 by
    push_cast; rfl, copyOpts_valid k opts rest _ _ hv]
  match rest, hlen, hd with
  | [], hlen, _ => simp at hlen
  | a :: r, hlen, hd =>
    rw [copyOpts_plain k a r _ _ _ hd]
    simp only [List.length_cons] at hlen ⊢
    have h2 : ¬ ((((r.length + 1 : Nat) : Int) + 1 < 2) ∨ (((r.length + 1 : Nat) : Int) + 1 > 3)) := by
      push_cast
      omega
    simp only [h2, if_false, Nat.zero_or]
    have h3 : ((((r.length + 1 : Nat) : Int) + 1 = 2) ↔ r.length + 1 = 1) := by
      push_cast
      omega
    simp only [h3]

theorem copyOpts_usage (k : CopyConsts) : ∀ (args : List (List Char)) (f c : Nat),
    (∀ a ∈ args, '\x00' ∉ a) → (¬ ∃ opts rest, CopyForm args opts rest) →
    (¬ ∃ opts rest, CopyVForm args opts rest) →
    ∃ tl argc f2 c2, copyOpts k args ((args.length : Int) + 1) f c = some (tl, argc, f2, c2) ∧
      (argc < 2 ∨ argc > 3)
  | [], f, c, _, _, _ => ⟨[], _, f, c, rfl, Or.inl (by decide)⟩
  | a :: rest, f, c, hz, hform, hvform => by
    have hz2 : ∀ x ∈ rest, '\x00' ∉ x := fun x hx => hz x (List.mem_cons_of_mem _ hx)
    have hza := hz a (List.mem_cons_self _ _)
    have hgt : (1 : Int) < ((a :: rest).length : Int) + 1 := by
      simp only [List.length_cons]
      push_cast
      omega
    have hlen : (((a :: rest).length : Int) + 1) - 1 = (rest.length : Int) + 1 := by
      simp only [List.length_cons]
      push_cast
      omega
    have sub1 : ∀ o, (o = dashN ∨ o = dashC) → a = o →
        (¬ ∃ opts r, CopyForm rest opts r) ∧ (¬ ∃ opts r, CopyVForm rest opts r) := by
      intro o ho ha
      constructor
      · rintro ⟨opts, r, h1, h2, h3⟩
        refine hform ⟨a :: opts, r, by rw [h1]; rfl, ?_, h3⟩
        intro x hx
        rcases List.mem_cons.1 hx with e | e
        · rw [e, ha]; exact ho
        · exact h2 x e
      · rintro ⟨opts, r, h1, h2⟩
        refine hvform ⟨a :: opts, r, by rw [h1]; rfl, ?_⟩
        intro x hx
        rcases List.mem_cons.1 hx with e | e
        · rw [e, ha]; exact ho
        · exact h2 x e
    by_cases hd : cAt a 0 = '-'
    · by_cases hn : a = dashN
      · obtain ⟨s1, s2⟩ := sub1 dashN (Or.inl rfl) hn
        subst hn
        rw [copyOpts_n k _ _ _ _ hgt, hlen]
        exact copyOpts_usage k rest _ _ hz2 s1 s2
      · by_cases hc : a = dashC
        · obtain ⟨s1, s2⟩ := sub1 dashC (Or.inr rfl) hc
          subst hc
          rw [copyOpts_c k _ _ _ _ hgt, hlen]
          exact copyOpts_usage k rest _ _ hz2 s1 s2
        · by_cases hv : a = dashV
          · exfalso
            exact hvform ⟨[], rest, by rw [hv]; rfl, fun o ho => absurd ho (List.not_mem_nil o)⟩
          · rw [copyOpts_other k a rest _ f c hza hgt hd hn hc hv]
            exact ⟨rest, -1, f, c, rfl, Or.inl (by decide)⟩
    · rw [copyOpts_plain k a rest _ f c hd]
      refine ⟨a :: rest, _, f, c, rfl, ?_⟩
      by_contra hcon
      apply hform
      refine ⟨[], a :: rest, rfl, fun o ho => absurd ho (List.not_mem_nil o), ?_, hd⟩
      simp only [List.length_cons] at hcon ⊢
      push_cast at hcon
      omega

theorem copyRun_calls (k : CopyConsts) (api : CopyCall → Int) (h0 : k.RDB_SUCCESS = 0)
    (src : List Char) (dst : Option (List Char)) (flags cpflags : Nat) :
    ∃ calls status, copyRun k api src dst flags cpflags = .done calls status ∧
      calls = stopAtFail (copyCalls api src dst flags cpflags) ∧
      (status = EXIT_FAILURE ↔ ∃ e ∈ calls, e.2 ≠ 0) ∧
      (status = EXIT_FAILURE ∨ status = EXIT_SUCCESS) := by
  have hst : ∀ rc : Int, (exitStatus rc = EXIT_FAILURE ↔ rc ≠ 0) ∧
      (exitStatus rc = EXIT_FAILURE ∨ exitStatus rc = EXIT_SUCCESS) := by
    intro rc
    unfold exitStatus
    by_cases h : rc = 0
    · simp [h, EXIT_SUCCESS, EXIT_FAILURE]
    · simp [h]
  cases dst <;>
  unfold copyRun copyCalls <;>
  simp only [h0, stopAtFail]
  all_goals
    by_cases h1 : api .rdb_env_create = 0
    · by_cases h2 : api (.rdb_env_open src flags 0o600) = 0
      · rw [if_pos h1, if_pos h2, if_pos h1, if_pos h2]
        refine ⟨_, _, rfl, ?_, ?_, (hst _).2⟩
        · split_ifs <;> rfl
        · rw [(hst _).1]
          simp [h1, h2]
      · rw [if_pos h1, if_neg h2, if_pos h1, if_neg h2]
        refine ⟨_, _, rfl, rfl, ?_, (hst _).2⟩
        rw [(hst _).1]
        simp [h1, h2]
    · rw [if_neg h1, if_neg h1]
      refine ⟨_, _, rfl, rfl, ?_, (hst _).2⟩
      rw [(hst _).1]
      simp [h1]

/-- C11: for a command line of NUL-free arguments, `ripdb_copy` goes on to the library calls
exactly when the arguments after the program name are options each exactly `-n` or `-c`
followed by one or two more arguments of which the first does not begin with `-`. Then the
environment is opened with `RDB_RDONLY`, and `RDB_NOSUBDIR` exactly when `-n` was given, the
copy is asked to compact exactly when `-c` was given, it goes to standard output when one
argument remains and to the second as a path when two remain: the calls made are exactly
`rdb_env_create`, `rdb_env_open` and the copy call with these arguments, in this order, up to
and including the first that returns a nonzero code, and the exit status is failure exactly
when some call returned a nonzero code.
Otherwise the tool prints its version when the options `-n` and `-c` lead to `-V`, and in
every other case prints the usage line and exits with failure. -/
theorem copy_command_line (k : CopyConsts) (api : CopyCall → Int) (prog : List Char)
    (args : List (List Char)) (hz : ∀ a ∈ args, '\x00' ∉ a) (h0 : k.RDB_SUCCESS = 0) :
    (∀ opts rest, CopyForm args opts rest →
      ∃ calls status, copyMain k api (prog :: args) = .done calls status ∧
        calls = stopAtFail (copyCalls api (rest.getD 0 [])
          (if rest.length = 1 then none else some (rest.getD 1 []))
          (if dashN ∈ opts then k.RDB_RDONLY ||| k.RDB_NOSUBDIR else k.RDB_RDONLY)
          (if dashC ∈ opts then k.RDB_CP_COMPACT else 0)) ∧
        (status = EXIT_FAILURE ↔ ∃ e ∈ calls, e.2 ≠ 0) ∧
        (status = EXIT_FAILURE ∨ status = EXIT_SUCCESS)) ∧
      (∀ opts rest, CopyVForm args opts rest → copyMain k api (prog :: args) = .version) ∧
      ((¬ ∃ opts rest, CopyForm args opts rest) → (¬ ∃ opts rest, CopyVForm args opts rest) →
        copyMain k api (prog :: args) = .usage) := by
  refine ⟨?_, ?_, ?_⟩
  · intro opts rest hf
    rw [copyMain_form k api prog hf]
    exact copyRun_calls k api h0 _ _ _ _
  · rintro opts rest ⟨rfl, hv⟩
    unfold copyMain
    simp only [List.tail_cons, List.length_cons]
    rw [show (((opts ++ dashV :: rest).length + 1 : Nat) : Int)
      = ((opts ++ dashV :: rest).length : Int) + 1 by push_cast; rfl,
      copyOpts_valid k opts _ _ _ hv, copyOpts_V]
    simp only [List.length_cons]
    push_cast
    omega
  · intro hf hv
    obtain ⟨tl, argc, f2, c2, h1, h2⟩ := copyOpts_usage k args k.RDB_RDONLY 0 hz hf hv
    unfold copyMain
    simp only [List.tail_cons, List.length_cons]
    rw [show ((args.length + 1 : Nat) : Int) = (args.length : Int) + 1 by push_cast; rfl, h1]
    simp only [h2, if_true]

theorem copy_command_line_witness :
    CopyForm copyArgs [dashC, dashN] [['s', 'r', 'c'], ['d', 's', 't']] ∧
      copyMain ⟨0, 0x20000, 0x4000, 1⟩ (fun _ => 0) (['c', 'p'] :: copyArgs) =
        .done [(.rdb_env_create, 0), (.rdb_env_open ['s', 'r', 'c'] 0x24000 0o600, 0),
          (.rdb_env_copy2 ['d', 's', 't'] 1, 0)] EXIT_SUCCESS ∧
      ∃ calls status,
        copyMain ⟨0, 0x20000, 0x4000, 1⟩ (fun _ => 0) (['c', 'p'] :: copyArgs) =
          .done calls status ∧
        calls = stopAtFail (copyCalls (fun _ => 0) ['s', 'r', 'c'] (some ['d', 's', 't'])
          (0x20000 ||| 0x4000) 1) ∧
        (status = EXIT_FAILURE ↔ ∃ e ∈ calls, e.2 ≠ 0) ∧
        (status = EXIT_FAILURE ∨ status = EXIT_SUCCESS) :=
  ⟨⟨rfl, by decide, by decide, by decide⟩, by decide,
    (copy_command_line ⟨0, 0x20000, 0x4000, 1⟩ (fun _ => 0) ['c', 'p'] copyArgs (by decide)
      rfl).1 [dashC, dashN] [['s', 'r', 'c'], ['d', 's', 't']]
      ⟨rfl, by decide, by decide, by decide⟩⟩

end Proofs20

section Proofs21

variable {K V : Type} [LinearOrder K]

theorem lookup_some {C : List (K × V)} {k : K} {v : V} :
    lookup C k = .ok v ↔ leafFind k C = some v := by
  unfold lookup
  cases leafFind k C with
  | none => simp
  | some x => simp

omit [LinearOrder K] in
theorem set_keep {rs : List (Option RTxn)} {i j : Nat} {r : RTxn} (x : Option RTxn)
    (hr : rs[i]? = some (some r)) (hj : ¬ j = i) : (rs.set j x)[i]? = some (some r) := by
  rw [List.getElem?_set_ne hj]
  exact hr

/-- One call that does not end the reader in slot `i` leaves the slot and every page of the
reader's snapshot as they are. -/
theorem step_snapshot {env : Env K V} {m : Meta} (h : InvAt env m) {i : Nat} {r : RTxn}
    (hr : env.readers[i]? = some (some r)) (op : Op K V) (hop : op.ends (.read i) = false) :
    (env.step op).readers[i]? = some (some r) ∧
      ∀ q ∈ pagesOf env.page r.depth r.root, (env.step op).page q = env.page q := by
  have hmem : some r ∈ env.readers := List.getElem?_mem hr
  cases op with
  | beginTxn rdonly =>
    simp only [Env.step, rdb_txn_begin, h.cur]
    cases rdonly with
    | true =>
      simp only [if_true]
      cases hs : freeSlot env.readers with
      | none => exact ⟨hr, fun _ _ => rfl⟩
      | some j =>
        have hj := (freeSlot_spec hs)
        refine ⟨set_keep _ hr ?_, fun _ _ => rfl⟩
        intro e
        rw [e, hr] at hj
        cases hj
    | false =>
      simp only [Bool.false_eq_true, if_false]
      cases env.writer with
      | none => exact ⟨hr, fun _ _ => rfl⟩
      | some w => exact ⟨hr, fun _ _ => rfl⟩
  | put t k v f =>
    obtain ⟨h1, h2, _, _⟩ := put_pages env t k v f
    simp only [Env.step, Env.page]
    rw [h1, h2]
    exact ⟨hr, fun _ _ => rfl⟩
  | del t k =>
    obtain ⟨h1, h2, _, _⟩ := del_pages env t k
    simp only [Env.step, Env.page]
    rw [h1, h2]
    exact ⟨hr, fun _ _ => rfl⟩
  | commit t =>
    cases t with
    | read j =>
      have hj : ¬ j = i := by
        intro e
        simp [Op.ends, e] at hop
      simp only [Env.step, rdb_txn_commit]
      split
      · exact ⟨set_keep _ hr hj, fun _ _ => rfl⟩
      · exact ⟨hr, fun _ _ => rfl⟩
    | write =>
      simp only [Env.step, rdb_txn_commit]
      cases hw : env.writer with
      | none => exact ⟨hr, fun _ _ => rfl⟩
      | some w =>
        simp only
        split_ifs
        · exact ⟨hr, fun _ _ => rfl⟩
        · cases hs : env.curSlot with
          | none => exact ⟨hr, fun _ _ => rfl⟩
          | some s =>
            refine ⟨hr, ?_⟩
            intro q hq
            exact commit_read h (h.writer w hw) s hmem q hq
  | abort t =>
    cases t with
    | read j =>
      have hj : ¬ j = i := by
        intro e
        simp [Op.ends, e] at hop
      simp only [Env.step, rdb_txn_abort]
      split
      · exact ⟨set_keep _ hr hj, fun _ _ => rfl⟩
      · exact ⟨hr, fun _ _ => rfl⟩
    | write => exact ⟨hr, fun _ _ => rfl⟩

/-- Calls that do not end the reader in slot `i` leave what it reads. -/
theorem run_snapshot {i : Nat} {r : RTxn} : ∀ (ops : List (Op K V)) {env : Env K V},
    Inv env → env.readers[i]? = some (some r) →
    (∀ op ∈ ops, op.ends (.read i) = false) →
    Inv (env.run ops) ∧ (env.run ops).readers[i]? = some (some r) ∧
      r.view (env.run ops).page = r.view env.page
  | [], _, h, hr, _ => ⟨h, hr, rfl⟩
  | op :: ops, env, h, hr, hops => by
    obtain ⟨m, hm⟩ := h
    obtain ⟨h1, h2⟩ := step_snapshot hm hr op (hops op (List.mem_cons_self _ _))
    obtain ⟨r1, r2, r3⟩ := run_snapshot ops (Inv.step ⟨m, hm⟩ op) h1
      (fun o ho => hops o (List.mem_cons_of_mem _ ho))
    refine ⟨r1, r2, ?_⟩
    show r.view ((env.step op).run ops).page = _
    rw [r3]
    exact contents_congr _ _ h2

/-- C2: a read transaction begun in a reachable environment returns, for every key and after
every sequence of calls that does not end it (begins, puts, deletes, commits and aborts of
write transactions and of other readers), exactly the result it returned at its begin time,
which is the result for the state committed when it began. -/
theorem snapshot_isolation (env0 env : Env K V) (t : Txn) (ops : List (Op K V)) (k : K)
    (hr : Reachable env0) (hb : rdb_txn_begin env0 true = (env, .ok t))
    (hops : ∀ op ∈ ops, op.ends t = false) :
    rdb_get (env.run ops) t k = rdb_get env t k ∧ rdb_get env t k = readNow env0 k := by
  obtain ⟨m, hm⟩ := hr.inv
  have hinv : Inv env := by
    have := Inv.begin ⟨m, hm⟩ true
    rw [hb] at this
    exact this
  obtain ⟨i, rfl, hi, henv⟩ := begin_read_spec hm.cur hb
  have hslot : env.readers[i]? = some (some (RTxn.mk m.txnid m.root m.depth)) := by
    rw [henv]
    exact List.getElem?_set_self (lt_of_get hi)
  obtain ⟨h1, h2, h3⟩ := run_snapshot ops hinv hslot hops
  obtain ⟨m1, hm1⟩ := h1
  obtain ⟨m0, hm0⟩ := hinv
  constructor
  · rw [get_read h2 (hm1.readers _ (List.getElem?_mem h2)).tree,
      get_read hslot (hm0.readers _ (List.getElem?_mem hslot)).tree, h3]
  · unfold readNow
    rw [hb]

set_option maxRecDepth 100000 in
theorem snapshot_isolation_witness :
    rdb_get ((rdb_txn_begin abortEnv0 true).1.run laterCommits) (.read 0) 20 =
        rdb_get (rdb_txn_begin abortEnv0 true).1 (.read 0) 20 ∧
      rdb_get (rdb_txn_begin abortEnv0 true).1 (.read 0) 20 = .ok 2 ∧
      readNow ((rdb_txn_begin abortEnv0 true).1.run laterCommits) 20 = .error .notfound :=
  ⟨(snapshot_isolation abortEnv0 (rdb_txn_begin abortEnv0 true).1 (.read 0) laterCommits 20
      ⟨testCfg, _, testCfg_ok, rfl⟩ (by rfl) (by decide)).1, by rfl, by rfl⟩

omit [LinearOrder K] in
theorem At.valid {rd : Nat → Option (Page K V)} {d p : Nat} {s : List (Nat × Nat)} {i : Nat}
    (h : At rd d p s i) : stackValid p s = true := by
  cases d with
  | zero =>
    obtain ⟨es, _, hs, _⟩ := h
    rw [hs]
    simp [stackValid]
  | succ d =>
    obtain ⟨cs, j, k, c, s1, i1, _, _, hs, _, _⟩ := h
    rw [hs]
    simp [stackValid]

/-- First and last position of a sound tree: none when it is empty. -/
theorem ends_spec {rd : Nat → Option (Page K V)} {d p : Nat} (h : wfIn rd d p none none) :
    (contents rd d p = [] ∧ descFirst rd d p = .error .notfound ∧
        descLast rd d p = .error .notfound) ∨
      (0 < (contents rd d p).length ∧ (∃ s, descFirst rd d p = .ok s ∧ At rd d p s 0) ∧
        ∃ s, descLast rd d p = .ok s ∧ At rd d p s ((contents rd d p).length - 1)) := by
  cases d with
  | zero =>
    obtain ⟨es, h1, h2, h3⟩ := h
    cases es with
    | nil =>
      left
      exact ⟨contents_leaf h1, by simp only [descFirst, h1], by simp only [descLast, h1]⟩
    | cons e es =>
      right
      have hw : wf rd 0 p none none := ⟨e :: es, h1, by simp, h2, h3⟩
      exact ⟨wf_contents_pos hw, descFirst_spec hw, descLast_spec hw⟩
  | succ d =>
    right
    exact ⟨wf_contents_pos h, descFirst_spec h, descLast_spec h⟩

omit [LinearOrder K] in
/-- Landing on a stack that is on entry `i` reports that entry and leaves the cursor there. -/
theorem landOn_at {rd : Nat → Option (Page K V)} {d p : Nat} {s : List (Nat × Nat)} {i : Nat}
    (c : CursorPos K) (h : At rd d p s i) :
    ∃ e c2, (contents rd d p)[i]? = some e ∧ landOn rd c (.ok s) = (c2, .ok e) ∧
      PosAt rd p d c2 i := by
  obtain ⟨e, h1, h2⟩ := h.entry
  obtain ⟨k, v⟩ := e
  refine ⟨(k, v), { stack := s, key := some k }, h1, ?_, h, rfl⟩
  simp only [landOn, h2]

/-- What a move to the first or last entry does. -/
theorem move_ends {rd : Nat → Option (Page K V)} {d p : Nat} (h : wfIn rd d p none none)
    (c : CursorPos K) :
    (contents rd d p = [] ∧ cursorMove rd p d c .first = (c, .error .notfound) ∧
        cursorMove rd p d c .last = (c, .error .notfound)) ∨
      (0 < (contents rd d p).length ∧
        (∃ e c2, (contents rd d p)[0]? = some e ∧ cursorMove rd p d c .first = (c2, .ok e) ∧
          PosAt rd p d c2 0) ∧
        ∃ e c2, (contents rd d p)[(contents rd d p).length - 1]? = some e ∧
          cursorMove rd p d c .last = (c2, .ok e) ∧
          PosAt rd p d c2 ((contents rd d p).length - 1)) := by
  rcases ends_spec h with ⟨h1, h2, h3⟩ | ⟨h0, ⟨s1, h1, a1⟩, ⟨s2, h2, a2⟩⟩
  · left
    refine ⟨h1, ?_, ?_⟩
    · simp only [cursorMove, h2, landOn]
    · simp only [cursorMove, h3, landOn]
  · right
    refine ⟨h0, ?_, ?_⟩
    · obtain ⟨e, c2, r1, r2, r3⟩ := landOn_at c a1
      exact ⟨e, c2, r1, by simp only [cursorMove, h1]; exact r2, r3⟩
    · obtain ⟨e, c2, r1, r2, r3⟩ := landOn_at c a2
      exact ⟨e, c2, r1, by simp only [cursorMove, h2]; exact r2, r3⟩

/-- A move of a cursor that is not positioned: next is first, previous is last. -/
theorem move_fresh {rd : Nat → Option (Page K V)} {d p : Nat} (c : CursorPos K)
    (hk : c.key = none) :
    cursorMove rd p d c .next = cursorMove rd p d c .first ∧
      cursorMove rd p d c .prev = cursorMove rd p d c .last := by
  simp only [cursorMove, hk, and_self]

/-- What a move to the next entry does from entry `i`. -/
theorem move_next {rd : Nat → Option (Page K V)} {d p : Nat} (h : wfIn rd d p none none)
    {c : CursorPos K} {i : Nat} (hc : PosAt rd p d c i) :
    (i + 1 = (contents rd d p).length ∧ cursorMove rd p d c .next = (c, .error .notfound)) ∨
      (∃ e c2, (contents rd d p)[i + 1]? = some e ∧
        cursorMove rd p d c .next = (c2, .ok e) ∧ PosAt rd p d c2 (i + 1)) := by
  obtain ⟨ha, hk⟩ := hc
  obtain ⟨k0, hk0⟩ := Option.isSome_iff_exists.1 hk
  have hv := ha.valid
  have e1 : cursorMove rd p d c .next = landOn rd c (stackNext rd c.stack) := by
    simp only [cursorMove, hk0, revalidate, hv, if_true]
  rcases stackNext_spec h.topIn ha with ⟨s2, h1, h2⟩ | ⟨h1, h2⟩
  · right
    obtain ⟨e, c2, r1, r2, r3⟩ := landOn_at c h2
    exact ⟨e, c2, r1, by rw [e1, h1]; exact r2, r3⟩
  · left
    refine ⟨h2, ?_⟩
    rw [e1, h1]
    rfl

/-- What a move to the previous entry does from entry `i`. -/
theorem move_prev {rd : Nat → Option (Page K V)} {d p : Nat} (h : wfIn rd d p none none)
    {c : CursorPos K} {i : Nat} (hc : PosAt rd p d c i) :
    (i = 0 ∧ cursorMove rd p d c .prev = (c, .error .notfound)) ∨
      (0 < i ∧ ∃ e c2, (contents rd d p)[i - 1]? = some e ∧
        cursorMove rd p d c .prev = (c2, .ok e) ∧ PosAt rd p d c2 (i - 1)) := by
  obtain ⟨ha, hk⟩ := hc
  obtain ⟨k0, hk0⟩ := Option.isSome_iff_exists.1 hk
  have hv := ha.valid
  have e1 : cursorMove rd p d c .prev = landOn rd c (stackPrev rd c.stack) := by
    simp only [cursorMove, hk0, revalidate, hv, if_true]
  rcases stackPrev_spec h.topIn ha with ⟨s2, h1, h2, h3⟩ | ⟨h1, h2⟩
  · right
    obtain ⟨e, c2, r1, r2, r3⟩ := landOn_at c h2
    exact ⟨h3, e, c2, r1, by rw [e1, h1]; exact r2, r3⟩
  · left
    refine ⟨h2, ?_⟩
    rw [e1, h1]
    rfl

/-- A cursor move of a registered reader is the move on its snapshot tree. -/
theorem cursor_get_read {env : Env K V} {i : Nat} {r : RTxn}
    (hr : env.readers[i]? = some (some r)) (c : Cursor K) (hc : c.txn = .read i)
    (op : CursorOp) :
    rdb_cursor_get env c op =
      ({ c with pos := (cursorMove env.page r.root r.depth c.pos op).1 },
        (cursorMove env.page r.root r.depth c.pos op).2) := by
  unfold rdb_cursor_get
  rw [hc]
  simp only [hr]

theorem cursorScan_ok {env : Env K V} {op : CursorOp} {c c2 : Cursor K} {e : K × V}
    (fuel : Nat) (h : rdb_cursor_get env c op = (c2, .ok e)) :
    cursorScan env op (fuel + 1) c =
      (e :: (cursorScan env op fuel c2).1, (cursorScan env op fuel c2).2) := by
  rw [cursorScan, h]

theorem cursorScan_err {env : Env K V} {op : CursorOp} {c c2 : Cursor K} {rc : Rc}
    (fuel : Nat) (h : rdb_cursor_get env c op = (c2, .error rc)) :
    cursorScan env op (fuel + 1) c = ([], rc, c2) := by
  rw [cursorScan, h]

omit [LinearOrder K] in
theorem drop_get {l : List (K × V)} {n : Nat} {e : K × V} (h : l[n]? = some e) :
    l.drop n = e :: l.drop (n + 1) := by
  rw [List.drop_eq_getElem?_toList_append, h]
  rfl

/-- A move to the next entry by a reader's cursor on entry `n`. -/
theorem get_next_read {env : Env K V} {i : Nat} {r : RTxn}
    (hr : env.readers[i]? = some (some r)) (hw : wfIn env.page r.depth r.root none none)
    {c : Cursor K} {n : Nat} (hc : OnEntry env i r c n) :
    (n + 1 = (r.view env.page).length ∧ rdb_cursor_get env c .next = (c, .error .notfound)) ∨
      ∃ e c2, (r.view env.page)[n + 1]? = some e ∧ rdb_cursor_get env c .next = (c2, .ok e) ∧
        OnEntry env i r c2 (n + 1) := by
  rw [cursor_get_read hr c hc.1]
  rcases move_next hw hc.2 with ⟨h1, h2⟩ | ⟨e, c2, h1, h2, h3⟩
  · left
    rw [h2]
    exact ⟨h1, rfl⟩
  · right
    rw [h2]
    exact ⟨e, { c with pos := c2 }, h1, rfl, hc.1, h3⟩

/-- A move to the previous entry by a reader's cursor on entry `n`. -/
theorem get_prev_read {env : Env K V} {i : Nat} {r : RTxn}
    (hr : env.readers[i]? = some (some r)) (hw : wfIn env.page r.depth r.root none none)
    {c : Cursor K} {n : Nat} (hc : OnEntry env i r c n) :
    (n = 0 ∧ rdb_cursor_get env c .prev = (c, .error .notfound)) ∨
      (0 < n ∧ ∃ e c2, (r.view env.page)[n - 1]? = some e ∧
        rdb_cursor_get env c .prev = (c2, .ok e) ∧ OnEntry env i r c2 (n - 1)) := by
  rw [cursor_get_read hr c hc.1]
  rcases move_prev hw hc.2 with ⟨h1, h2⟩ | ⟨h0, e, c2, h1, h2, h3⟩
  · left
    rw [h2]
    exact ⟨h1, rfl⟩
  · right
    rw [h2]
    exact ⟨h0, e, { c with pos := c2 }, h1, rfl, hc.1, h3⟩

/-- A move to the first or last entry by a reader's cursor. -/
theorem get_ends_read {env : Env K V} {i : Nat} {r : RTxn}
    (hr : env.readers[i]? = some (some r)) (hw : wfIn env.page r.depth r.root none none)
    (c : Cursor K) (hc : c.txn = .read i) :
    (r.view env.page = [] ∧ rdb_cursor_get env c .first = (c, .error .notfound) ∧
        rdb_cursor_get env c .last = (c, .error .notfound)) ∨
      (0 < (r.view env.page).length ∧
        (∃ e c2, (r.view env.page)[0]? = some e ∧ rdb_cursor_get env c .first = (c2, .ok e) ∧
          OnEntry env i r c2 0) ∧
        ∃ e c2, (r.view env.page)[(r.view env.page).length - 1]? = some e ∧
          rdb_cursor_get env c .last = (c2, .ok e) ∧
          OnEntry env i r c2 ((r.view env.page).length - 1)) := by
  rw [cursor_get_read hr c hc, cursor_get_read hr c hc]
  rcases move_ends hw c.pos with ⟨h1, h2, h3⟩ | ⟨h0, ⟨e1, c1, a1, a2, a3⟩, ⟨e2, c2, b1, b2, b3⟩⟩
  · left
    rw [h2, h3]
    exact ⟨h1, rfl, rfl⟩
  · right
    rw [a2, b2]
    exact ⟨h0, ⟨e1, { c with pos := c1 }, a1, rfl, hc, a3⟩,
      ⟨e2, { c with pos := c2 }, b1, rfl, hc, b3⟩⟩

/-- The forward loop from entry `n` returns the entries after it and ends with not-found, the
cursor on the last entry. -/
theorem scan_next_from {env : Env K V} {i : Nat} {r : RTxn}
    (hr : env.readers[i]? = some (some r)) (hw : wfIn env.page r.depth r.root none none) :
    ∀ (fuel : Nat) (c : Cursor K) (n : Nat), OnEntry env i r c n →
      (r.view env.page).length ≤ n + fuel →
      (cursorScan env .next fuel c).1 = (r.view env.page).drop (n + 1) ∧
        (cursorScan env .next fuel c).2.1 = .notfound ∧
        OnEntry env i r (cursorScan env .next fuel c).2.2 ((r.view env.page).length - 1)
  | 0, c, n, hc, hf => by
    have := hc.2.1.lt
    unfold RTxn.view at hf
    omega
  | fuel + 1, c, n, hc, hf => by
    rcases get_next_read hr hw hc with ⟨h1, h2⟩ | ⟨e, c2, h1, h2, h3⟩
    · rw [cursorScan_err fuel h2]
      refine ⟨?_, rfl, ?_⟩
      · rw [List.drop_eq_nil_of_le (by omega)]
      · have e1 : (r.view env.page).length - 1 = n := by omega
        rw [e1]
        exact hc
    · rw [cursorScan_ok fuel h2]
      obtain ⟨r1, r2, r3⟩ := scan_next_from hr hw fuel c2 (n + 1) h3 (by omega)
      refine ⟨?_, r2, r3⟩
      show e :: (cursorScan env .next fuel c2).1 = _
      rw [r1, ← drop_get h1]

/-- The backward loop from entry `n` returns the entries before it, last first, and ends
with not-found, the cursor on the first entry. -/
theorem scan_prev_from {env : Env K V} {i : Nat} {r : RTxn}
    (hr : env.readers[i]? = some (some r)) (hw : wfIn env.page r.depth r.root none none) :
    ∀ (fuel : Nat) (c : Cursor K) (n : Nat), OnEntry env i r c n → n < fuel →
      (cursorScan env .prev fuel c).1 = ((r.view env.page).take n).reverse ∧
        (cursorScan env .prev fuel c).2.1 = .notfound ∧
        OnEntry env i r (cursorScan env .prev fuel c).2.2 0
  | 0, c, n, hc, hf => by omega
  | fuel + 1, c, n, hc, hf => by
    rcases get_prev_read hr hw hc with ⟨h1, h2⟩ | ⟨h0, e, c2, h1, h2, h3⟩
    · rw [cursorScan_err fuel h2]
      subst h1
      exact ⟨rfl, rfl, hc⟩
    · rw [cursorScan_ok fuel h2]
      obtain ⟨r1, r2, r3⟩ := scan_prev_from hr hw fuel c2 (n - 1) h3 (by omega)
      refine ⟨?_, r2, r3⟩
      show e :: (cursorScan env .prev fuel c2).1 = _
      rw [r1]
      have e1 : n = (n - 1) + 1 := by omega
      conv_rhs => rw [e1, List.take_succ, h1]
      simp

theorem leafFind_iff_mem {es : List (K × V)} (h : KeySorted es) (k : K) (v : V) :
    leafFind k es = some v ↔ (k, v) ∈ es := by
  induction es with
  | nil => simp [leafFind]
  | cons e es ih =>
    obtain ⟨k1, v1⟩ := e
    have h2 := List.pairwise_cons.1 h
    simp only [leafFind, List.mem_cons, Prod.mk.injEq]
    constructor
    · intro hf
      split_ifs at hf with a b
      · simp only [Option.some.injEq] at hf
        exact Or.inl ⟨b, hf.symm⟩
      · exact Or.inr ((ih h2.2).1 hf)
    · rintro (⟨rfl, rfl⟩ | hm)
      · rw [if_neg (lt_irrefl _), if_pos rfl]
      · have hlt : k1 < k := h2.1 (k, v) hm
        rw [if_neg (not_lt.2 (le_of_lt hlt)), if_neg (ne_of_gt hlt), (ih h2.2).2 hm]

theorem reader_sound {env : Env K V} (h : Reachable env) {i : Nat} {r : RTxn}
    (hs : env.readers[i]? = some (some r)) : wfIn env.page r.depth r.root none none := by
  obtain ⟨m, hm⟩ := h.inv
  exact (hm.readers r (List.getElem?_mem hs)).tree

/-- C3: for the view of a read transaction of a reachable environment (the set of keys
committed when it began), a newly opened cursor moved with next until it reports not-found
returns exactly the entries of the view, which are in strictly ascending key order and are
exactly the pairs that `rdb_get` finds, so every key comes exactly once; moving to the last
entry and then with previous until not-found returns exactly the reverse sequence. -/
theorem traversal_order (env : Env K V) (i : Nat) (r : RTxn) (fuel : Nat) (hr : Reachable env)
    (hs : env.readers[i]? = some (some r)) (hf : (r.view env.page).length < fuel) :
    (cursorScan env .next fuel (rdb_cursor_open (.read i))).1 = r.view env.page ∧
      (cursorScan env .next fuel (rdb_cursor_open (.read i))).2.1 = .notfound ∧
      (scanFrom env .last .prev fuel (rdb_cursor_open (.read i))).1 =
        (r.view env.page).reverse ∧
      (scanFrom env .last .prev fuel (rdb_cursor_open (.read i))).2.1 = .notfound ∧
      KeySorted (r.view env.page) ∧
      ∀ k v, (k, v) ∈ r.view env.page ↔ rdb_get env (.read i) k = .ok v := by
  have hw := reader_sound hr hs
  have hsort : KeySorted (r.view env.page) := wfTop_sorted hw.topIn
  have ends := get_ends_read hs hw (rdb_cursor_open (.read i)) rfl
  have hnext : rdb_cursor_get env (rdb_cursor_open (.read i)) .next =
      rdb_cursor_get env (rdb_cursor_open (.read i)) .first := by
    rw [cursor_get_read hs _ rfl, cursor_get_read hs _ rfl, (move_fresh _ rfl).1]
  refine ⟨?_, ?_, ?_, ?_, hsort, ?_⟩
  · cases fuel with
    | zero => omega
    | succ fuel =>
      rcases ends with ⟨h1, h2, _⟩ | ⟨h0, ⟨e, c2, a1, a2, a3⟩, _⟩
      · rw [cursorScan_err fuel (hnext.trans h2), h1]
      · rw [cursorScan_ok fuel (hnext.trans a2)]
        show e :: (cursorScan env .next fuel c2).1 = _
        rw [(scan_next_from hs hw fuel c2 0 a3 (by omega)).1, ← drop_get a1]
        rfl
  · cases fuel with
    | zero => omega
    | succ fuel =>
      rcases ends with ⟨h1, h2, _⟩ | ⟨h0, ⟨e, c2, a1, a2, a3⟩, _⟩
      · rw [cursorScan_err fuel (hnext.trans h2)]
      · rw [cursorScan_ok fuel (hnext.trans a2)]
        exact (scan_next_from hs hw fuel c2 0 a3 (by omega)).2.1
  · rcases ends with ⟨h1, _, h3⟩ | ⟨h0, _, ⟨e, c2, a1, a2, a3⟩⟩
    · simp only [scanFrom, h3, h1, List.reverse_nil]
    · simp only [scanFrom, a2]
      rw [(scan_prev_from hs hw fuel c2 _ a3 (by omega)).1]
      have e1 : r.view env.page =
          (r.view env.page).take ((r.view env.page).length - 1) ++ [e] := by
        have h2 := drop_get a1
        have e2 : (r.view env.page).length - 1 + 1 = (r.view env.page).length := by omega
        rw [e2, List.drop_length] at h2
        conv_lhs => rw [← List.take_append_drop ((r.view env.page).length - 1)
          (r.view env.page), h2]
      conv_rhs => rw [e1]
      simp
  · rcases ends with ⟨h1, _, h3⟩ | ⟨h0, _, ⟨e, c2, a1, a2, a3⟩⟩
    · simp only [scanFrom, h3]
    · simp only [scanFrom, a2]
      exact (scan_prev_from hs hw fuel c2 _ a3 (by omega)).2.1
  · intro k v
    rw [get_read hs hw, lookup_some, leafFind_iff_mem hsort]

set_option maxRecDepth 100000 in
theorem traversal_order_witness :
    (cursorScan scanEnv .next 4 (rdb_cursor_open (.read 0))).1 = [(10, 1), (20, 2), (30, 3)] ∧
      (cursorScan scanEnv .next 4 (rdb_cursor_open (.read 0))).1 =
        (RTxn.mk 1 5 0).view scanEnv.page :=
  ⟨by decide,
    (traversal_order scanEnv 0 (RTxn.mk 1 5 0) 4 ⟨testCfg, _, testCfg_ok, rfl⟩ (by rfl)
      (by decide)).1⟩

omit [LinearOrder K] in
/-- The entries of a tree are those of its leaves, from left to right. -/
theorem leavesOf_flatten (rd : Nat → Option (Page K V)) :
    ∀ (d p : Nat), (leavesOf rd d p).flatten = contents rd d p
  | 0, p => by
    simp only [leavesOf, contents]
    cases rd p with
    | none => rfl
    | some pg =>
      cases pg with
      | leaf es => simp
      | branch cs => rfl
      | «meta» m => rfl
  | d + 1, p => by
    simp only [leavesOf, contents]
    cases rd p with
    | none => rfl
    | some pg =>
      cases pg with
      | leaf es => rfl
      | «meta» m => rfl
      | branch cs =>
        simp only
        induction cs with
        | nil => rfl
        | cons e rest ih =>
          rw [List.flatMap_cons, List.flatMap_cons, List.flatten_append, ih,
            leavesOf_flatten rd d e.2]

/-- In a sound tree every leaf is in strictly ascending key order and every key of a leaf is
below every key of any leaf to its right. -/
theorem leaves_ordered {rd : Nat → Option (Page K V)} {d p : Nat}
    (h : wfIn rd d p none none) :
    (∀ l ∈ leavesOf rd d p, KeySorted l) ∧
      List.Pairwise (fun l1 l2 : List (K × V) => ∀ e1 ∈ l1, ∀ e2 ∈ l2, e1.1 < e2.1)
        (leavesOf rd d p) := by
  have hs : KeySorted (contents rd d p) := wfTop_sorted h.topIn
  rw [← leavesOf_flatten] at hs
  exact List.pairwise_flatten.1 hs

set_option maxRecDepth 1000000 in
theorem split_counts :
    (List.range 13).map (fun n => (splitPuts n).1.leafPages) =
      [some 1, some 1, some 1, some 1, some 1, some 2, some 2, some 2, some 3, some 3,
        some 3, some 4, some 4] := by
  decide

set_option maxRecDepth 1000000 in
theorem split_scan :
    (scanFrom (splitPuts 12).1 .first .next 13 (splitPuts 12).2).1 =
        [(0, 0), (5, 5), (10, 10), (15, 15), (20, 20), (25, 25), (30, 30), (35, 35),
          (40, 40), (45, 45), (50, 50), (55, 55)] ∧
      (scanFrom (splitPuts 12).1 .first .next 13 (splitPuts 12).2).2.1 = .notfound := by
  decide

/-- C8: inserting the keys 0, 5, ..., 55 in ascending order into an empty database whose
leaves hold at most four entries raises the number of leaf pages exactly three times, by one
leaf each, and the scan from the first entry with next returns the twelve keys in ascending
order and ends with not-found. In every reachable environment the tree of the write
transaction keeps the tree invariant (each separator bounds its child, every page within the
separators that lead to it), every leaf is in strictly ascending key order, and every key of
a leaf is below every key of every leaf to its right. -/
theorem split_correctness (env : Env K V) (w : WTxn K V) (hr : Reachable env)
    (hw : env.writer = some w) :
    (List.range 13).map (fun n => (splitPuts n).1.leafPages) =
        [some 1, some 1, some 1, some 1, some 1, some 2, some 2, some 2, some 3, some 3,
          some 3, some 4, some 4] ∧
      growths ((List.range 13).map (fun n => (splitPuts n).1.leafPages)) = 3 ∧
      (scanFrom (splitPuts 12).1 .first .next 13 (splitPuts 12).2).1 =
        [(0, 0), (5, 5), (10, 10), (15, 15), (20, 20), (25, 25), (30, 30), (35, 35),
          (40, 40), (45, 45), (50, 50), (55, 55)] ∧
      (scanFrom (splitPuts 12).1 .first .next 13 (splitPuts 12).2).2.1 = .notfound ∧
      wfIn (w.page env.pages) w.depth w.root none none ∧
      (∀ l ∈ leavesOf (w.page env.pages) w.depth w.root, KeySorted l) ∧
      List.Pairwise (fun l1 l2 : List (K × V) => ∀ e1 ∈ l1, ∀ e2 ∈ l2, e1.1 < e2.1)
        (leavesOf (w.page env.pages) w.depth w.root) := by
  obtain ⟨m, hm⟩ := hr.inv
  have hwf := (hm.writer w hw).tree.wf
  refine ⟨split_counts, ?_, split_scan.1, split_scan.2, hwf, (leaves_ordered hwf).1,
    (leaves_ordered hwf).2⟩
  rw [split_counts]
  rfl

set_option maxRecDepth 100000 in
theorem split_correctness_witness :
    leavesOf (((splitPuts 12).1.writer.get (by rfl)).page (splitPuts 12).1.pages) 1 25 =
        [[(0, 0), (5, 5), (10, 10)], [(15, 15), (20, 20), (25, 25)],
          [(30, 30), (35, 35), (40, 40)], [(45, 45), (50, 50), (55, 55)]] ∧
      wfIn (((splitPuts 12).1.writer.get (by rfl)).page (splitPuts 12).1.pages)
        ((splitPuts 12).1.writer.get (by rfl)).depth
        ((splitPuts 12).1.writer.get (by rfl)).root none none :=
  ⟨by decide,
    (split_correctness (splitPuts 12).1 ((splitPuts 12).1.writer.get (by rfl))
      ⟨testCfg, .beginTxn false :: (List.range 12).map (fun i => .put .write (i * 5) (i * 5) true),
        testCfg_ok, by rfl⟩ (by rfl)).2.2.2.2.1⟩

end Proofs21

end RipDB
